import Mathlib

/-!
# Nachos: the file system, the TLB and page-frame handlers, synchronisation

A shallow embedding of `filehdr.cc`, `directory.cc` and `filesys.cc`, of the pipes of
`synchdisk.cc`, of the TLB, page-frame and page-fault handlers of `exception.cc`, and of
the semaphores, locks, conditions, bounded buffers, barrier and reader-writer lock of
`synch.cc`.

Conventions of the embedding.

* A C `int` is an `Int`; signed overflow, which C++ leaves undefined, is outside the
  model, but for the sum `pipeLength + len` of `PipeFile::read`, which wraps to 32 bits
  (`wrapInt`).
* A comparison of an `int` with a `size_t` (`NumDirect` and `NumIndirect` are built from
  `sizeof`) converts the `int` to unsigned first; `gtU` embeds it.
* The disk is a store of sectors, a sector being `SectorSize / sizeof(int)` machine words.
  Objects written through a `char *` cast are written word by word; byte strings are
  packed four to a word, little-endian.
* A C string argument is the list of its bytes; the terminating NUL is implied after the
  last byte, and a NUL inside the list ends the string early, as it would in memory.
* Memory the source reads before assigning it is a parameter: the local arrays of
  `Allocate` and `Expand` (`Locals`), and what `new` returns (`Env`). An array has its
  declared size; a list that is shorter stands for an array whose other entries are 0.
* A failed `ASSERT`, and a `new` that cannot be served, end the run: `Fault`.
* Threads run one step at a time, in the order a schedule gives. A step holds no more
  than the statements of a thread up to and with its next operation on a semaphore or a
  lock: only at the end of such an operation are interrupts enabled again, so that
  another thread can run. A thread that finds a semaphore at 0 stays where it is and
  tests again in a later step; a schedule may give it that step at any time, so every
  order of wake-ups is covered.
-/

namespace Nachos

/-! ## Constants -/

/-- Modelled from the spec: the sector size of the simulated disk, 128 bytes (`disk.h` is
not among the sources; the glossary fixes the value and `ByteToSector` relies on it). -/
def SectorSize : Nat := 128

/-- Modelled from the spec: the number of sectors of the simulated disk (`disk.h` is not
among the sources): 32 tracks of 32 sectors. -/
def NumSectors : Nat := 1024

/-- The value of `sizeof(int)`, also of `sizeof(fileType)` and `sizeof(unsigned)`. -/
def IntSize : Nat := 4

/-- The macro `TimeLength` of `filehdr.h`. -/
def TimeLength : Nat := 24

/-- The macro `NumDirect` of `filehdr.h`. -/
def NumDirect : Nat :=
  ((SectorSize - 4 * IntSize - IntSize - 3 * (TimeLength + 1) * 1) / IntSize) - 1

/-- The macro `NumIndirect` of `filehdr.h`. -/
def NumIndirect : Nat := SectorSize / IntSize

/-- The macro `divRoundUp(n, s)` of `utility.h`, `(n / s) + ((n % s) > 0 ? 1 : 0)`, with
C's truncating division and remainder. -/
def divRoundUp (n s : Int) : Int := Int.tdiv n s + (if Int.tmod n s > 0 then 1 else 0)

/-- The comparison `a > b` of an `int` with a `size_t`: a negative `a` converts to a value
above every `b` the source uses. -/
def gtU (a : Int) (b : Nat) : Bool := decide (a < 0) || decide ((b : Int) < a)

/-- Abnormal termination: a failed `ASSERT`, an array read past its bound, or a `new` of
an impossible size. -/
inductive Fault where
  | assertion
  | bounds
  | allocation
  deriving DecidableEq, Repr

/-! ## The free-sector bitmap -/

/-- Modelled from the spec: the free-sector bitmap (`bitmap.cc` is not among the sources).
Bit `i` is `true` iff sector `i` is allocated; `numBits` is the length of the list. -/
structure BitMap where
  bits : List Bool
  deriving DecidableEq, Repr

/-- The index of the first clear bit. -/
def findFree : List Bool → Option Nat
  | [] => none
  | b :: bs => if b then (findFree bs).map (· + 1) else some 0

namespace BitMap

/-- Modelled from the spec: `Test(n)`, whether sector `n` is allocated; a number outside
the map is not. -/
def Test (m : BitMap) (which : Int) : Bool :=
  decide (0 ≤ which) && m.bits.getD which.toNat false

/-- Modelled from the spec: `Mark(n)` allocates sector `n`. -/
def Mark (m : BitMap) (which : Int) : BitMap :=
  if 0 ≤ which then ⟨m.bits.set which.toNat true⟩ else m

/-- Modelled from the spec: `Clear(n)` frees sector `n`. -/
def Clear (m : BitMap) (which : Int) : BitMap :=
  if 0 ≤ which then ⟨m.bits.set which.toNat false⟩ else m

/-- Modelled from the spec: `Find` returns the lowest-indexed free sector and marks it
allocated, or −1 when there is none. -/
def Find (m : BitMap) : Int × BitMap :=
  match findFree m.bits with
  | some i => ((i : Int), ⟨m.bits.set i true⟩)
  | none => (-1, m)

/-- Modelled from the spec: `NumClear` returns the count of free sectors. -/
def NumClear (m : BitMap) : Int := (m.bits.count false : Nat)

end BitMap

/-! ## The disk -/

/-- The contents of one sector: `NumIndirect` machine words. A word missing from a
shorter list reads as 0. -/
abbrev Sector := List Int

/-- The disk: sector number to contents. -/
abbrev Disk := Int → Sector

/-- The data transfer of `SynchDisk::ReadSector`. -/
def ReadSector (d : Disk) (sectorNumber : Int) : Sector := d sectorNumber

/-- The data transfer of `SynchDisk::WriteSector`. -/
def WriteSector (d : Disk) (sectorNumber : Int) (data : Sector) : Disk :=
  fun k => if k = sectorNumber then data else d k

/-- The C array read `a[i]` for an `int` index; a read outside the array yields 0. -/
def arrGet (a : List Int) (i : Int) : Int :=
  if 0 ≤ i then a.getD i.toNat 0 else 0

/-! ## File headers -/

/-- The class `FileHeader` of `filehdr.h`; `dataSectors` has `NumDirect + 1` entries, the
last one naming the indirect-of-indirects sector (an entry missing from a shorter list
is 0). The time stamps are byte strings of
`TimeLength + 1` bytes, followed in memory by one byte of padding. -/
structure FileHeader where
  numBytes : Int
  numSectors : Int
  type : Int
  createTime : List Nat
  lastAccessTime : List Nat
  lastModifyTime : List Nat
  padding : Nat
  pathFileSector : Int
  pathLength : Int
  dataSectors : List Int
  deriving DecidableEq, Repr

/-- The enumeration `fileType` of `filehdr.h`. -/
def NormalFile : Int := 0
/-- The enumeration `fileType`: a directory. -/
def DirectoryFile : Int := 1
/-- The enumeration `fileType`: the free-sector bitmap. -/
def BitMapFile : Int := 2
/-- The enumeration `fileType`: a directory's Name File. -/
def NameFile : Int := 3
/-- The enumeration `fileType`: an inode's Path File. -/
def PathFile : Int := 4

/-- The initial contents of the local arrays `index` and `sectors` of `Allocate` and
`Expand`, which the source declares without initialising. -/
structure Locals where
  index : List Int
  sectors : List Int
  deriving DecidableEq, Repr

/-- What a call of `Allocate` or `Expand` leaves behind: the value returned, the header,
the bitmap and the disk. -/
structure AllocResult where
  ok : Bool
  hdr : FileHeader
  freeMap : BitMap
  disk : Disk

/-- What the index-block loop of `Allocate` or `Expand` leaves behind; `ok = false` when
the loop left through `return FALSE`. -/
structure LoopResult where
  ok : Bool
  index : List Int
  freeMap : BitMap
  disk : Disk

/-- An array of exactly `n` `int`s holding the values of a list, the rest 0. -/
def intArray : Nat → List Int → List Int
  | 0, _ => []
  | n + 1, a => a.headD 0 :: intArray n a.tail

/-- The loop `for (int i = 0; i < n; i++) arr[i] = freeMap->Find();`, entered at `i`. -/
def findInto : Nat → Nat → List Int → BitMap → List Int × BitMap
  | 0, _, arr, m => (arr, m)
  | n + 1, i, arr, m => findInto n (i + 1) (arr.set i m.Find.1) m.Find.2

/-- The `while (unassignedSectors != 0)` loop of `FileHeader::Allocate`, entered with
counter `j`. The first argument counts the iterations left before `j` reaches
`NumIndirect`, where the source returns FALSE. -/
def allocLoop (sectors0 : List Int) :
    Nat → Nat → List Int → Int → BitMap → Disk → LoopResult
  | 0, _, index, _, m, d => ⟨false, index, m, d⟩
  | left + 1, j, index, unassignedSectors, m, d =>
    if unassignedSectors = 0 then ⟨true, index, m, d⟩
    else
      let f := m.Find
      let index1 := index.set j f.1
      if f.1 = -1 then ⟨false, index1, f.2, d⟩
      else
        let indexSectors : Int :=
          if gtU unassignedSectors NumIndirect then (NumIndirect : Int) else unassignedSectors
        if f.2.NumClear < indexSectors then ⟨false, index1, f.2, d⟩
        else
          let r := findInto indexSectors.toNat 0 sectors0 f.2
          let d1 := WriteSector d f.1 r.1
          if j + 1 = NumIndirect then ⟨false, index1, r.2, d1⟩
          else allocLoop sectors0 left (j + 1) index1 (unassignedSectors - indexSectors) r.2 d1

/-- The method `FileHeader::Allocate(freeMap, fileSize, FileType)`. -/
def FileHeader.Allocate (h : FileHeader) (loc : Locals) (freeMap : BitMap) (d : Disk)
    (fileSize : Int) (FileType : Int) : AllocResult :=
  let numSectors := divRoundUp fileSize SectorSize
  let h1 := { h with numBytes := fileSize, type := FileType, numSectors := numSectors
                     dataSectors := intArray (NumDirect + 1) h.dataSectors }
  if gtU numSectors NumDirect then
    if freeMap.NumClear < (NumDirect : Int) then ⟨false, h1, freeMap, d⟩
    else
      let r := findInto NumDirect 0 h1.dataSectors freeMap
      let f := r.2.Find
      let h2 := { h1 with dataSectors := r.1.set NumDirect f.1 }
      if f.1 = -1 then ⟨false, h2, f.2, d⟩
      else
        let l := allocLoop (intArray NumIndirect loc.sectors) NumIndirect 0
          (intArray NumIndirect loc.index) (numSectors - NumDirect) f.2 d
        if l.ok then ⟨true, h2, l.freeMap, WriteSector l.disk f.1 l.index⟩
        else ⟨false, h2, l.freeMap, l.disk⟩
  else
    if freeMap.NumClear < numSectors then ⟨false, h1, freeMap, d⟩
    else
      let r := findInto numSectors.toNat 0 h1.dataSectors freeMap
      ⟨true, { h1 with dataSectors := r.1 }, r.2, d⟩

/-- The loop `for (i = 0; i < n; i++) { ASSERT(freeMap->Test(arr[i])); freeMap->Clear(arr[i]); }`,
entered at `i`. -/
def clearInto : Nat → Nat → List Int → BitMap → Except Fault BitMap
  | 0, _, _, m => .ok m
  | n + 1, i, arr, m =>
    if m.Test (arr.getD i 0) then clearInto n (i + 1) arr (m.Clear (arr.getD i 0))
    else .error Fault.assertion

/-- The `while (UnclearedSectors != 0)` loop of `FileHeader::Deallocate`, entered with
counter `j`. The first argument is `NumIndirect - j`: at 0 the read of `index[j]` is past
the end of the array. -/
def deallocLoop : Nat → Nat → List Int → Int → BitMap → Disk → Except Fault BitMap
  | left, j, index, UnclearedSectors, m, d =>
    if UnclearedSectors = 0 then .ok m
    else
      match left with
      | 0 => .error Fault.bounds
      | left1 + 1 =>
        let indexSectors : Int :=
          if gtU UnclearedSectors NumIndirect then (NumIndirect : Int) else UnclearedSectors
        let sectors := ReadSector d (index.getD j 0)
        match clearInto indexSectors.toNat 0 sectors m with
        | .error e => .error e
        | .ok m1 =>
          if m1.Test (index.getD j 0) then
            deallocLoop left1 (j + 1) index (UnclearedSectors - indexSectors)
              (m1.Clear (index.getD j 0)) d
          else .error Fault.assertion

/-- The method `FileHeader::Deallocate(freeMap)`. -/
def FileHeader.Deallocate (h : FileHeader) (freeMap : BitMap) (d : Disk) :
    Except Fault BitMap :=
  if gtU h.numSectors NumDirect then
    match clearInto NumDirect 0 h.dataSectors freeMap with
    | .error e => .error e
    | .ok m1 =>
      deallocLoop NumIndirect 0 (ReadSector d (h.dataSectors.getD NumDirect 0))
        (h.numSectors - NumDirect) m1 d
  else clearInto h.numSectors.toNat 0 h.dataSectors freeMap

/-- The method `FileHeader::ByteToSector(offset)`. -/
def FileHeader.ByteToSector (h : FileHeader) (d : Disk) (offset : Int) : Int :=
  let sizeDirectIndex : Int := NumDirect * SectorSize
  let sizePerIndex : Int := NumIndirect * SectorSize
  if offset ≥ sizeDirectIndex then
    let offset1 := offset - sizeDirectIndex
    let index := ReadSector d (h.dataSectors.getD NumDirect 0)
    let indexSector := arrGet index (Int.tdiv offset1 sizePerIndex)
    let sectors := ReadSector d indexSector
    arrGet sectors (Int.tdiv (Int.tmod offset1 sizePerIndex) SectorSize)
  else arrGet h.dataSectors (Int.tdiv offset SectorSize)

/-- The method `FileHeader::FileLength`. -/
def FileHeader.FileLength (h : FileHeader) : Int := h.numBytes

/-- What one of the slot-filling loops of `Expand` leaves behind; `ok = false` when the
loop left through `return FALSE`. -/
structure FillResult where
  ok : Bool
  arr : List Int
  unassignedSectors : Int
  freeMap : BitMap

/-- The loop of `FileHeader::Expand` over the slots of one array, entered at `i`:
`if (numNewSectors - unassignedSectors >= numSectors) arr[i] = freeMap->Find();`
`if (arr[i] == -1) return FALSE;  unassignedSectors--;`. -/
def expandInto (numNewSectors numSectors : Int) :
    Nat → Nat → List Int → Int → BitMap → FillResult
  | 0, _, arr, unassignedSectors, m => ⟨true, arr, unassignedSectors, m⟩
  | n + 1, i, arr, unassignedSectors, m =>
    let fresh := decide (numNewSectors - unassignedSectors ≥ numSectors)
    let arr1 := if fresh then arr.set i m.Find.1 else arr
    let m1 := if fresh then m.Find.2 else m
    if arr1.getD i 0 = -1 then ⟨false, arr1, unassignedSectors, m1⟩
    else expandInto numNewSectors numSectors n (i + 1) arr1 (unassignedSectors - 1) m1

/-- The `while (unassignedSectors != 0)` loop of `FileHeader::Expand`, entered with
counter `j`; the first argument counts the iterations left before `j` reaches
`NumIndirect`. The array `index` starts from the uninitialised local: the source does
not read the file's index block from the disk. -/
def expandLoop (numNewSectors numSectors : Int) (sectors0 : List Int) :
    Nat → Nat → List Int → Int → BitMap → Disk → LoopResult
  | 0, _, index, _, m, d => ⟨false, index, m, d⟩
  | left + 1, j, index, unassignedSectors, m, d =>
    if unassignedSectors = 0 then ⟨true, index, m, d⟩
    else
      let fresh := decide (numNewSectors - unassignedSectors ≥ numSectors)
      let index1 := if fresh then index.set j m.Find.1 else index
      let m1 := if fresh then m.Find.2 else m
      if index1.getD j 0 = -1 then ⟨false, index1, m1, d⟩
      else
        let indexSectors : Int :=
          if gtU unassignedSectors NumIndirect then (NumIndirect : Int) else unassignedSectors
        let r := expandInto numNewSectors numSectors indexSectors.toNat 0 sectors0
          unassignedSectors m1
        if r.ok then
          let d1 := WriteSector d (index1.getD j 0) r.arr
          if j + 1 = NumIndirect then ⟨false, index1, r.freeMap, d1⟩
          else expandLoop numNewSectors numSectors sectors0 left (j + 1) index1
            r.unassignedSectors r.freeMap d1
        else ⟨false, index1, r.freeMap, d⟩

/-- The method `FileHeader::Expand(freeMap, fileSize)`; the `ASSERT(fileSize > numBytes)`
at its head is the `Fault`. -/
def FileHeader.Expand (h : FileHeader) (loc : Locals) (freeMap : BitMap) (d : Disk)
    (fileSize : Int) : Except Fault AllocResult :=
  if fileSize > h.numBytes then
    let h1 := { h with numBytes := fileSize
                       dataSectors := intArray (NumDirect + 1) h.dataSectors }
    let numNewSectors := divRoundUp fileSize SectorSize
    if numNewSectors = h.numSectors then .ok ⟨true, h1, freeMap, d⟩
    else if gtU numNewSectors NumDirect then
      let r := expandInto numNewSectors h.numSectors NumDirect 0 h1.dataSectors
        numNewSectors freeMap
      if r.ok then
        let fresh := decide (numNewSectors - r.unassignedSectors ≥ h.numSectors)
        let ds := if fresh then r.arr.set NumDirect r.freeMap.Find.1 else r.arr
        let m1 := if fresh then r.freeMap.Find.2 else r.freeMap
        let h2 := { h1 with dataSectors := ds }
        if ds.getD NumDirect 0 = -1 then .ok ⟨false, h2, m1, d⟩
        else
          let l := expandLoop numNewSectors h.numSectors (intArray NumIndirect loc.sectors)
            NumIndirect 0 (intArray NumIndirect loc.index) r.unassignedSectors m1 d
          if l.ok then
            .ok ⟨true, { h2 with numSectors := numNewSectors }, l.freeMap,
              WriteSector l.disk (ds.getD NumDirect 0) l.index⟩
          else .ok ⟨false, h2, l.freeMap, l.disk⟩
      else .ok ⟨false, { h1 with dataSectors := r.arr }, r.freeMap, d⟩
    else
      let r := expandInto numNewSectors h.numSectors numNewSectors.toNat 0 h1.dataSectors
        numNewSectors freeMap
      if r.ok then
        .ok ⟨true, { h1 with dataSectors := r.arr, numSectors := numNewSectors }, r.freeMap, d⟩
      else .ok ⟨false, { h1 with dataSectors := r.arr }, r.freeMap, d⟩
  else .error Fault.assertion

/-! ## Bytes and words -/

/-- The four bytes of a machine word, least significant first. -/
def wordBytes (w : Int) : List Nat :=
  let u := (w % 4294967296).toNat
  [u % 256, u / 256 % 256, u / 65536 % 256, u / 16777216 % 256]

/-- The signed machine word made of the first four bytes of a list. -/
def bytesWord (b : List Nat) : Int :=
  let u := b.getD 0 0 % 256 + 256 * (b.getD 1 0 % 256) + 65536 * (b.getD 2 0 % 256)
    + 16777216 * (b.getD 3 0 % 256)
  if u < 2147483648 then (u : Int) else (u : Int) - 4294967296

/-- The `n` words packed from a byte string, missing bytes being 0. -/
def bytesWords : Nat → List Nat → List Int
  | 0, _ => []
  | n + 1, b => bytesWord b :: bytesWords n (b.drop 4)

/-- The bytes of `n` words of a list of words, missing words being 0. -/
def wordsBytes : Nat → List Int → List Nat
  | 0, _ => []
  | n + 1, w => wordBytes (w.headD 0) ++ wordsBytes n w.tail

/-- The `SectorSize` bytes of a sector. -/
def sectorBytes (s : Sector) : List Nat := wordsBytes NumIndirect s

/-- The sector made of `SectorSize` bytes. -/
def bytesSector (b : List Nat) : Sector := bytesWords NumIndirect b

/-- A buffer of exactly `n` bytes holding the bytes of `b`, the rest 0. -/
def buffer : Nat → List Nat → List Nat
  | 0, _ => []
  | n + 1, b => b.headD 0 :: buffer n b.tail

/-- The image of a file header in its sector (`(char *)this`). -/
def FileHeader.toSector (h : FileHeader) : Sector :=
  [h.numBytes, h.numSectors, h.type]
    ++ bytesWords 19 (buffer (TimeLength + 1) h.createTime
        ++ buffer (TimeLength + 1) h.lastAccessTime
        ++ buffer (TimeLength + 1) h.lastModifyTime ++ [h.padding])
    ++ [h.pathFileSector, h.pathLength]
    ++ (List.range (NumDirect + 1)).map (fun i => h.dataSectors.getD i 0)

/-- The file header whose image a sector holds. -/
def FileHeader.ofSector (s : Sector) : FileHeader :=
  let t := wordsBytes 19 (s.drop 3)
  { numBytes := s.getD 0 0
    numSectors := s.getD 1 0
    type := s.getD 2 0
    createTime := t.take (TimeLength + 1)
    lastAccessTime := (t.drop (TimeLength + 1)).take (TimeLength + 1)
    lastModifyTime := (t.drop (2 * (TimeLength + 1))).take (TimeLength + 1)
    padding := t.getD (3 * (TimeLength + 1)) 0
    pathFileSector := s.getD 22 0
    pathLength := s.getD 23 0
    dataSectors := (List.range (NumDirect + 1)).map (fun i => s.getD (24 + i) 0) }

/-- The method `FileHeader::FetchFrom(sector)`. -/
def FileHeader.FetchFrom (d : Disk) (sector : Int) : FileHeader :=
  FileHeader.ofSector (ReadSector d sector)

/-- The method `FileHeader::WriteBack(sector)`. -/
def FileHeader.WriteBack (h : FileHeader) (d : Disk) (sector : Int) : Disk :=
  WriteSector d sector h.toSector

/-- The method `FileHeader::setPath(sector, len)`. -/
def FileHeader.setPath (h : FileHeader) (sector len : Int) : FileHeader :=
  { h with pathFileSector := sector, pathLength := len }

/-- The methods `setCreateTime`, `setLastAccessTime` and `setLastModifyTime` called in a
row, `now` being the `TimeLength` characters `asctime` gives. -/
def FileHeader.setTimes (h : FileHeader) (now : List Nat) : FileHeader :=
  { h with createTime := buffer TimeLength now ++ [0]
           lastAccessTime := buffer TimeLength now ++ [0]
           lastModifyTime := buffer TimeLength now ++ [0] }

/-! ## C strings -/

/-- The characters of a C string, up to its terminating NUL. -/
def cstr (s : List Nat) : List Nat := s.takeWhile (fun c => decide (c ≠ 0))

/-- The C function `strlen`. -/
def strlen (s : List Nat) : Nat := (cstr s).length

/-- Whether `strncmp(a, b, n) == 0`. -/
def strncmpEq : Nat → List Nat → List Nat → Bool
  | 0, _, _ => true
  | n + 1, a, b =>
    if a.headD 0 ≠ b.headD 0 then false
    else if a.headD 0 = 0 then true
    else strncmpEq n a.tail b.tail

/-! ## Open files -/

/-- Modelled from the spec: an open file (`openfile.cc` is not among the sources): the
in-memory copy of the inode read when the file is opened, the sector the inode lives in,
and the seek position. -/
structure OpenFile where
  hdr : FileHeader
  hdrSector : Int
  seekPosition : Int
  deriving DecidableEq, Repr

/-- Modelled from the spec: opening the file whose inode is in `sector`. -/
def OpenFile.openAt (d : Disk) (sector : Int) : OpenFile :=
  ⟨FileHeader.FetchFrom d sector, sector, 0⟩

/-- The bytes of `count` consecutive sectors of a file, from its sector `first` on, each
found through `ByteToSector`. -/
def fileSectors (h : FileHeader) (d : Disk) (first count : Nat) : List Nat :=
  ((List.range count).map (fun i =>
    sectorBytes (ReadSector d (h.ByteToSector d (((first + i) * SectorSize : Nat) : Int))))).flatten

/-- Modelled from the spec: `ReadAt(into, numBytes, position)`; the result is the bytes
read, none at or after the end of the file, and none at a negative position. -/
def OpenFile.ReadAt (f : OpenFile) (d : Disk) (numBytes position : Int) : List Nat :=
  let fileLength := f.hdr.FileLength
  if numBytes ≤ 0 ∨ position ≥ fileLength ∨ position < 0 then []
  else
    let n := if position + numBytes > fileLength then fileLength - position else numBytes
    let firstSector := (position / SectorSize).toNat
    let lastSector := ((position + n - 1) / SectorSize).toNat
    let buf := fileSectors f.hdr d firstSector (lastSector - firstSector + 1)
    (buf.drop (position.toNat - firstSector * SectorSize)).take n.toNat

/-- The sectors `first`, `first + 1`, ... of a file written in turn from a buffer. -/
def writeSectors (h : FileHeader) : Nat → Nat → List Nat → Disk → Disk
  | 0, _, _, d => d
  | count + 1, first, buf, d =>
    writeSectors h count (first + 1) (buf.drop SectorSize)
      (WriteSector d (h.ByteToSector d ((first * SectorSize : Nat) : Int))
        (bytesSector (buf.take SectorSize)))

/-- Modelled from the spec: `WriteAt(from, numBytes, position)` for a write that the file
in its present length takes: the bytes past the end of the file are dropped. The result
is the count of bytes written and the disk. -/
def OpenFile.writeWithin (f : OpenFile) (d : Disk) (src : List Nat)
    (numBytes position : Int) : Int × Disk :=
  let fileLength := f.hdr.FileLength
  if numBytes ≤ 0 ∨ position ≥ fileLength ∨ position < 0 then (0, d)
  else
    let n := if position + numBytes > fileLength then fileLength - position else numBytes
    let firstSector := (position / SectorSize).toNat
    let lastSector := ((position + n - 1) / SectorSize).toNat
    let buf := fileSectors f.hdr d firstSector (lastSector - firstSector + 1)
    let off := position.toNat - firstSector * SectorSize
    let buf1 := buf.take off ++ buffer n.toNat src ++ buf.drop (off + n.toNat)
    (n, writeSectors f.hdr (lastSector - firstSector + 1) firstSector buf1 d)

/-! ## The bitmap file -/

/-- The macro `BitsInByte`. -/
def BitsInByte : Nat := 8

/-- The count of bytes `BitMap::FetchFrom` and `WriteBack` move: whole words. -/
def BitMap.numBytes (numBits : Nat) : Nat := (numBits + 31) / 32 * IntSize

/-- The eight bits of a byte, least significant first. -/
def byteBits (b : Nat) : List Bool :=
  [decide (b % 2 = 1), decide (b / 2 % 2 = 1), decide (b / 4 % 2 = 1), decide (b / 8 % 2 = 1),
   decide (b / 16 % 2 = 1), decide (b / 32 % 2 = 1), decide (b / 64 % 2 = 1),
   decide (b / 128 % 2 = 1)]

/-- The first `n` bits of a list of bits, missing bits being clear. -/
def bitsTake : Nat → List Bool → List Bool
  | 0, _ => []
  | n + 1, b => b.headD false :: bitsTake n b.tail

/-- The value of a list of bits, least significant first. -/
def bitsValue : List Bool → Nat
  | [] => 0
  | b :: bs => (if b then 1 else 0) + 2 * bitsValue bs

/-- The `n` bytes packed from a list of bits, missing bits being clear. -/
def bitsBytes : Nat → List Bool → List Nat
  | 0, _ => []
  | n + 1, b => bitsValue (bitsTake 8 b) :: bitsBytes n (b.drop 8)

/-- Modelled from the spec: `BitMap::FetchFrom(file)` into a new bitmap of `numBits`
bits, bit `i` being bit `i % 8` of byte `i / 8` of the file; a bit the file does not
supply stays clear, as the constructor left it. -/
def BitMap.FetchFrom (numBits : Nat) (file : OpenFile) (d : Disk) : BitMap :=
  ⟨bitsTake numBits ((file.ReadAt d (BitMap.numBytes numBits) 0).map byteBits).flatten⟩

/-- The bytes of a bitmap, bit `i` at bit `i % 8` of byte `i / 8`. -/
def BitMap.toBytes (m : BitMap) : List Nat :=
  bitsBytes (BitMap.numBytes m.bits.length) m.bits

/-- Modelled from the spec: `BitMap::WriteBack(file)`. -/
def BitMap.WriteBack (m : BitMap) (file : OpenFile) (d : Disk) : Disk :=
  (file.writeWithin d m.toBytes (BitMap.numBytes m.bits.length) 0).2

/-! ## Directories -/

/-- The class `DirectoryEntry` of `directory.h`. -/
structure DirectoryEntry where
  inUse : Bool
  sector : Int
  namePosition : Int
  nameLength : Int
  deriving DecidableEq, Repr

/-- The class `Directory` of `directory.h`; `tableSize` is the length of `table`. -/
structure Directory where
  table : List DirectoryEntry
  nameFileHdrSector : Int
  nameFilePosition : Int
  deriving DecidableEq, Repr

/-- A call `nameFile->WriteAt(from, numBytes, position)` that `Directory::Add` makes. -/
structure NameWrite where
  src : List Nat
  numBytes : Int
  position : Int
  deriving DecidableEq, Repr

/-- How a directory reads its Name File: `numBytes` and `position` to the bytes that
`nameFile->ReadAt(buffer, numBytes, position)` delivers. -/
abbrev NameReader := Int → Int → List Nat

namespace Directory

/-- The field `tableSize`. -/
def tableSize (dir : Directory) : Nat := dir.table.length

/-- The constructor `Directory::Directory(size)`; `raw` is the uninitialised contents of
an element of `new DirectoryEntry[size]`, `rawPosition` that of `nameFilePosition`. -/
def create (raw : DirectoryEntry) (rawPosition : Int) (size : Nat) : Directory :=
  ⟨List.replicate size { raw with inUse := false }, -1, rawPosition⟩

/-- The method `initialNameFile(sector)` of `directory.h`. -/
def initialNameFile (dir : Directory) (sector : Int) : Directory :=
  { dir with nameFileHdrSector := sector, nameFilePosition := 0 }

/-- The method `getNameFileSector` of `directory.h`. -/
def getNameFileSector (dir : Directory) : Int := dir.nameFileHdrSector

/-- The loop of `Directory::FindIndex` from entry `i` on. A negative `nameLength` makes
`new char[nameLength]` fail; bytes of the buffer that `ReadAt` does not fill read as 0. -/
def findIndexFrom (rd : NameReader) (name : List Nat) :
    List DirectoryEntry → Nat → Except Fault Int
  | [], _ => .ok (-1)
  | e :: es, i =>
    if e.inUse then
      if e.nameLength < 0 then .error Fault.allocation
      else if strncmpEq e.nameLength.toNat
          (buffer e.nameLength.toNat (rd e.nameLength e.namePosition)) name then
        .ok (i : Int)
      else findIndexFrom rd name es (i + 1)
    else findIndexFrom rd name es (i + 1)

/-- The method `Directory::FindIndex(name)`. -/
def FindIndex (dir : Directory) (rd : NameReader) (name : List Nat) : Except Fault Int :=
  if dir.nameFileHdrSector = -1 then .error Fault.assertion
  else findIndexFrom rd name dir.table 0

/-- The method `Directory::Find(name)`. -/
def Find (dir : Directory) (rd : NameReader) (name : List Nat) : Except Fault Int :=
  match dir.FindIndex rd name with
  | .error e => .error e
  | .ok i => if i ≠ -1 then .ok (dir.table.getD i.toNat ⟨false, 0, 0, 0⟩).sector else .ok (-1)

/-- The index of the first entry not in use, the search of `Directory::Add`. -/
def freeSlot : List DirectoryEntry → Option Nat
  | [] => none
  | e :: es => if e.inUse then (freeSlot es).map (· + 1) else some 0

/-- The method `Directory::Add(name, newSector)`: the value returned, the directory, and
the write to the Name File it makes. -/
def Add (dir : Directory) (rd : NameReader) (name : List Nat) (newSector : Int) :
    Except Fault (Bool × Directory × Option NameWrite) :=
  match dir.FindIndex rd name with
  | .error e => .error e
  | .ok i =>
    if i ≠ -1 then .ok (false, dir, none)
    else
      let len : Int := (strlen name : Int) + 1
      let e : DirectoryEntry := ⟨true, newSector, dir.nameFilePosition, len⟩
      let w : NameWrite := ⟨name, len, dir.nameFilePosition⟩
      match freeSlot dir.table with
      | some k =>
        .ok (true, { dir with table := dir.table.set k e
                              nameFilePosition := dir.nameFilePosition + len }, some w)
      | none =>
        .ok (true, { dir with table := dir.table ++ [e]
                              nameFilePosition := dir.nameFilePosition + len }, some w)

/-- The method `Directory::Remove(name)`. -/
def Remove (dir : Directory) (rd : NameReader) (name : List Nat) :
    Except Fault (Bool × Directory) :=
  match dir.FindIndex rd name with
  | .error e => .error e
  | .ok i =>
    if i = -1 then .ok (false, dir)
    else
      let e := dir.table.getD i.toNat ⟨false, 0, 0, 0⟩
      .ok (true, { dir with table := dir.table.set i.toNat { e with inUse := false } })

/-- The method `Directory::isEmpty`. -/
def isEmpty (dir : Directory) : Bool :=
  (dir.table.drop 2).all (fun e => !e.inUse)

end Directory

/-! ## The Name File as a byte sequence -/

/-- Modelled from the spec: `ReadAt(into, numBytes, position)` on a file given by its
bytes (`openfile.cc` is not among the sources): the bytes of the file from `position`
on, at most `numBytes`, none at or after the end of the file. -/
def bytesReadAt (file : List Nat) (numBytes position : Int) : List Nat :=
  if numBytes ≤ 0 ∨ position ≥ file.length ∨ position < 0 then []
  else (file.drop position.toNat).take numBytes.toNat

/-- Modelled from the spec: `WriteAt(from, numBytes, position)` on a file given by its
bytes: the file is extended to take the write (files are extensible), bytes between
its old end and `position` being 0. -/
def bytesWriteAt (file : List Nat) (w : NameWrite) : List Nat :=
  if w.numBytes ≤ 0 ∨ w.position < 0 then file
  else
    buffer w.position.toNat file ++ buffer w.numBytes.toNat w.src
      ++ file.drop (w.position.toNat + w.numBytes.toNat)

/-! ## The file system -/

/-- The macro `FreeMapSector` of `filesys.cc`. -/
def FreeMapSector : Int := 0
/-- The macro `DirectorySector` of `filesys.cc`. -/
def DirectorySector : Int := 1
/-- The macro `FreeMapFileSize` of `filesys.cc`. -/
def FreeMapFileSize : Nat := NumSectors / BitsInByte
/-- The macro `NumDirEntries` of `filesys.cc`. -/
def NumDirEntries : Nat := 10
/-- The value of `sizeof(DirectoryEntry)`: a `bool`, three bytes of padding, three `int`s. -/
def EntrySize : Nat := 4 * IntSize
/-- The macro `DirectoryFileSize` of `filesys.cc`. -/
def DirectoryFileSize : Nat := EntrySize * NumDirEntries + 2 * IntSize

/-- What the environment supplies to the file system: the contents of memory that `new`
returns (a file header, an element of a directory table, the field `nameFilePosition`),
the uninitialised locals of `Allocate` and `Expand`, and the characters of the clock. -/
structure Env where
  hdr : FileHeader
  entry : DirectoryEntry
  position : Int
  loc : Locals
  now : List Nat

/-- The class `FileSystem`: the disk and the two files kept open. -/
structure FileSystem where
  disk : Disk
  freeMapFile : OpenFile
  directoryFile : OpenFile

/-- The method `FileSystem::ExpandFile(hdr, newSize)`: the header and the disk it leaves.
The source returns no value. -/
def ExpandFile (freeMapFile : OpenFile) (loc : Locals) (hdr : FileHeader) (d : Disk)
    (newSize : Int) : Except Fault (FileHeader × Disk) :=
  let freeMap := BitMap.FetchFrom FreeMapFileSize freeMapFile d
  match hdr.Expand loc freeMap d newSize with
  | .error e => .error e
  | .ok r => .ok (r.hdr, r.freeMap.WriteBack freeMapFile r.disk)

/-- Modelled from the spec: `WriteAt(from, numBytes, position)` (`openfile.cc` is not
among the sources). Files are extensible: a write that ends past the end of the file
first has `ExpandFile` extend it and the inode written back. -/
def OpenFile.WriteAt (f : OpenFile) (freeMapFile : OpenFile) (loc : Locals) (d : Disk)
    (src : List Nat) (numBytes position : Int) : Except Fault (Int × OpenFile × Disk) :=
  if numBytes ≤ 0 ∨ position < 0 then .ok (0, f, d)
  else if position + numBytes > f.hdr.FileLength then
    match ExpandFile freeMapFile loc f.hdr d (position + numBytes) with
    | .error e => .error e
    | .ok (h, d1) =>
      let f1 := { f with hdr := h }
      let w := f1.writeWithin (h.WriteBack d1 f.hdrSector) src numBytes position
      .ok (w.1, f1, w.2)
  else
    let w := f.writeWithin d src numBytes position
    .ok (w.1, f, w.2)

/-- The bytes of a directory table in memory, padding bytes being 0. -/
def tableBytes (t : List DirectoryEntry) : List Nat :=
  (t.map (fun e => [if e.inUse then 1 else 0, 0, 0, 0] ++ wordBytes e.sector
    ++ wordBytes e.namePosition ++ wordBytes e.nameLength)).flatten

/-- The directory table of `n` entries that `EntrySize * n` bytes of memory hold. -/
def bytesTable (n : Nat) (b : List Nat) : List DirectoryEntry :=
  (List.range n).map (fun i =>
    { inUse := decide (b.getD (EntrySize * i) 0 ≠ 0)
      sector := bytesWord (b.drop (EntrySize * i + 4))
      namePosition := bytesWord (b.drop (EntrySize * i + 8))
      nameLength := bytesWord (b.drop (EntrySize * i + 12)) })

/-- Memory `old` after a read that delivered the bytes `new` at its start. -/
def overlay (old new : List Nat) : List Nat := new ++ old.drop new.length

/-- The method `Directory::FetchFrom(file)`. -/
def Directory.FetchFrom (dir : Directory) (file : OpenFile) (d : Disk) : Directory :=
  let size : Int := ((dir.tableSize * EntrySize : Nat) : Int)
  { table := bytesTable dir.tableSize (overlay (tableBytes dir.table) (file.ReadAt d size 0))
    nameFileHdrSector :=
      bytesWord (overlay (wordBytes dir.nameFileHdrSector) (file.ReadAt d IntSize size))
    nameFilePosition :=
      bytesWord (overlay (wordBytes dir.nameFilePosition)
        (file.ReadAt d IntSize (size + IntSize))) }

/-- The method `Directory::WriteBack(file)`. -/
def Directory.WriteBack (dir : Directory) (file : OpenFile) (freeMapFile : OpenFile)
    (loc : Locals) (d : Disk) : Except Fault (OpenFile × Disk) :=
  let size : Int := ((dir.tableSize * EntrySize : Nat) : Int)
  match file.WriteAt freeMapFile loc d (tableBytes dir.table) size 0 with
  | .error e => .error e
  | .ok (_, f1, d1) =>
    match f1.WriteAt freeMapFile loc d1 (wordBytes dir.nameFileHdrSector) IntSize size with
    | .error e => .error e
    | .ok (_, f2, d2) =>
      match f2.WriteAt freeMapFile loc d2 (wordBytes dir.nameFilePosition) IntSize
          (size + IntSize) with
      | .error e => .error e
      | .ok (_, f3, d3) => .ok (f3, d3)

/-- The Name File of a directory as the directory reads it: through a fresh
`OpenFile(nameFileHdrSector)`. -/
def nameReader (d : Disk) (dir : Directory) : NameReader :=
  fun numBytes position => (OpenFile.openAt d dir.nameFileHdrSector).ReadAt d numBytes position

/-- The method `Directory::Add(name, newSector)` with its write carried out on the disk. -/
def Directory.AddOn (dir : Directory) (freeMapFile : OpenFile) (loc : Locals) (d : Disk)
    (name : List Nat) (newSector : Int) : Except Fault (Bool × Directory × Disk) :=
  match dir.Add (nameReader d dir) name newSector with
  | .error e => .error e
  | .ok (r, dir1, none) => .ok (r, dir1, d)
  | .ok (r, dir1, some w) =>
    match (OpenFile.openAt d dir.nameFileHdrSector).WriteAt freeMapFile loc d
        w.src w.numBytes w.position with
    | .error e => .error e
    | .ok (_, _, d1) => .ok (r, dir1, d1)

/-- The expression `(hdr->FileLength() - 2 * sizeof(int)) / sizeof(DirectoryEntry)`, the
size of a directory table: the subtraction is unsigned, so a length under
`2 * sizeof(int)` gives a size no `new` can serve. -/
def tableEntries (fileLength : Int) : Except Fault Nat :=
  if fileLength < ((2 * IntSize : Nat) : Int) then .error Fault.allocation
  else .ok ((fileLength - ((2 * IntSize : Nat) : Int)) / (EntrySize : Int)).toNat

/-- The steps by which `findDict`, `Create`, `Open` and `Remove` bring the directory whose
inode is in `sector` into memory: its inode, its open file, its table. -/
def loadDirectory (env : Env) (d : Disk) (sector : Int) :
    Except Fault (FileHeader × OpenFile × Directory) :=
  let dictFile := OpenFile.openAt d sector
  let dictHdr := FileHeader.FetchFrom d sector
  match tableEntries dictHdr.FileLength with
  | .error e => .error e
  | .ok numDictEntries =>
    .ok (dictHdr, dictFile,
      (Directory.create env.entry env.position numDictEntries).FetchFrom dictFile d)

/-- The scan `for (len = 0; len < strlen(path); len++) if (path[len] == '/') break;`. -/
def segmentLength (path : List Nat) : Nat :=
  (path.takeWhile (fun c => decide (c ≠ 47))).length

/-- The `while (1)` loop of `FileSystem::findDict`; `path` holds the characters left, up
to the NUL. Every iteration that goes on drops a character, so the loop is run with as
many iterations allowed as there are characters, and one more. -/
def findDictLoop (env : Env) (d : Disk) : Nat → Int → List Nat → Except Fault Int
  | 0, _, _ => .error Fault.bounds
  | fuel + 1, dictSector, path =>
    let len := segmentLength path
    if len = path.length then .ok dictSector
    else
      let nxtDictName := path.take len
      match loadDirectory env d dictSector with
      | .error e => .error e
      | .ok (_, _, dict) =>
        match dict.Find (nameReader d dict) nxtDictName with
        | .error e => .error e
        | .ok s =>
          if s = -1 then .ok (-1)
          else findDictLoop env d fuel s (path.drop (len + 1))

/-- The method `FileSystem::findDict(path)`. -/
def findDict (env : Env) (d : Disk) (path : List Nat) : Except Fault Int :=
  if (cstr path).headD 0 ≠ 47 then .ok (-1)
  else findDictLoop env d (cstr path).length DirectorySector (cstr path).tail

/-- The name that `Create`, `Open` and `Remove` cut from the path: what follows its last
`'/'`. -/
def leafName (path : List Nat) : List Nat :=
  ((cstr path).reverse.takeWhile (fun c => decide (c ≠ 47))).reverse

/-- The function `setPathFile(path, name, directoryHdr, type)` of `filesys.cc`: the
contents it leaves in the buffer `path`. -/
def setPathFile (d : Disk) (name : List Nat) (directoryHdr : FileHeader) (type : Int) :
    List Nat :=
  let parent := (OpenFile.openAt d directoryHdr.pathFileSector).ReadAt d directoryHdr.pathLength 0
  let cat := cstr parent ++ cstr name ++ [0]
  if type = DirectoryFile then
    let k := (directoryHdr.pathLength + (strlen name : Int) - 1).toNat
    ((buffer (max cat.length (k + 2)) cat).set k 47).set (k + 1) 0
  else cat

/-- The part of `FileSystem::Create` that makes the Name File of a new directory: the
sector of its inode (−1 for a plain file), the bitmap and the disk; `none` where the
source returns FALSE. -/
def createNameFile (env : Env) (type : Int) (freeMap : BitMap) (d : Disk) :
    Option (Int × BitMap × Disk) :=
  if type = DirectoryFile then
    let f := freeMap.Find
    if f.1 = -1 then none
    else
      let a := env.hdr.Allocate env.loc f.2 d SectorSize NameFile
      if a.ok = false then none
      else some (f.1, a.freeMap, a.hdr.WriteBack a.disk f.1)
  else some (-1, freeMap, d)

/-- The part of `FileSystem::Create` that fills a new directory: `.` and `..` are added
to a table of `NumDirEntries` entries, which is written to the new file. -/
def createDirectoryBody (env : Env) (freeMapFile : OpenFile) (d : Disk)
    (nameFileSector sector dictHdrSector : Int) : Except Fault Disk :=
  let newDict := (Directory.create env.entry env.position NumDirEntries).initialNameFile
    nameFileSector
  match newDict.AddOn freeMapFile env.loc d [46] sector with
  | .error e => .error e
  | .ok (_, newDict1, d1) =>
    match newDict1.AddOn freeMapFile env.loc d1 [46, 46] dictHdrSector with
    | .error e => .error e
    | .ok (_, newDict2, d2) =>
      match newDict2.WriteBack (OpenFile.openAt d2 sector) freeMapFile env.loc d2 with
      | .error e => .error e
      | .ok (_, d3) => .ok d3

/-- The innermost branch of `FileSystem::Create`, "everything worked": the inodes, the
parent directory and the bitmap are flushed, a new directory is filled, and the Path
File is written. -/
def createFlush (fs : FileSystem) (env : Env) (dictHdrSector : Int) (dictHdr : FileHeader)
    (dictFile : OpenFile) (directory : Directory) (name : List Nat) (type : Int)
    (nameFileSector sector pathFileSector : Int) (hdr pathFileHdr : FileHeader)
    (freeMap : BitMap) (d : Disk) : Except Fault (Bool × FileSystem) :=
  let pathLen : Int := dictHdr.pathLength + (strlen name : Int)
    + (if type = DirectoryFile then 1 else 0)
  let hdr1 := (hdr.setTimes env.now).setPath pathFileSector pathLen
  let d1 := pathFileHdr.WriteBack (hdr1.WriteBack d sector) pathFileSector
  match directory.WriteBack dictFile fs.freeMapFile env.loc d1 with
  | .error e => .error e
  | .ok (_, d2) =>
    let d3 := freeMap.WriteBack fs.freeMapFile d2
    match (if type = DirectoryFile then
        createDirectoryBody env fs.freeMapFile d3 nameFileSector sector dictHdrSector
      else .ok d3) with
    | .error e => .error e
    | .ok d4 =>
      match (OpenFile.openAt d4 pathFileSector).WriteAt fs.freeMapFile env.loc d4
          (setPathFile d4 name dictHdr type) pathLen 0 with
      | .error e => .error e
      | .ok (_, _, d5) => .ok (true, { fs with disk := d5 })

/-- The method `FileSystem::Create(path, initialSize)`: the value returned and the file
system left. -/
def FileSystem.Create (fs : FileSystem) (env : Env) (path : List Nat) (initialSize : Int) :
    Except Fault (Bool × FileSystem) :=
  match findDict env fs.disk path with
  | .error e => .error e
  | .ok dictHdrSector =>
    if dictHdrSector = -1 then .ok (false, fs)
    else
      match loadDirectory env fs.disk dictHdrSector with
      | .error e => .error e
      | .ok (dictHdr, dictFile, directory) =>
        let name := leafName path
        let type := if initialSize = -1 then DirectoryFile else NormalFile
        let initialSize1 : Int := if initialSize = -1 then (DirectoryFileSize : Int) else initialSize
        let freeMap := BitMap.FetchFrom NumSectors fs.freeMapFile fs.disk
        match createNameFile env type freeMap fs.disk with
        | none => .ok (false, fs)
        | some (nameFileSector, freeMap1, d1) =>
          match directory.Find (nameReader d1 directory) name with
          | .error e => .error e
          | .ok found =>
            if found ≠ -1 then .ok (false, { fs with disk := d1 })
            else
              let s := freeMap1.Find
              let p := s.2.Find
              if s.1 = -1 then .ok (false, { fs with disk := d1 })
              else if p.1 = -1 then .ok (false, { fs with disk := d1 })
              else
                match directory.AddOn fs.freeMapFile env.loc d1 name s.1 with
                | .error e => .error e
                | .ok (added, directory1, d2) =>
                  if added = false then .ok (false, { fs with disk := d2 })
                  else
                    let a := env.hdr.Allocate env.loc p.2 d2 initialSize1 type
                    if a.ok = false then .ok (false, { fs with disk := a.disk })
                    else
                      let b := env.hdr.Allocate env.loc a.freeMap a.disk SectorSize PathFile
                      if b.ok = false then .ok (false, { fs with disk := b.disk })
                      else
                        createFlush fs env dictHdrSector dictHdr dictFile directory1 name type
                          nameFileSector s.1 p.1 a.hdr b.hdr b.freeMap b.disk

/-- The part of `FileSystem::Remove` for a directory: `none` where the source returns
FALSE (the directory is not empty), else the bitmap with the Name File freed. -/
def removeNameFile (env : Env) (fileHdr : FileHeader) (sector : Int) (freeMap : BitMap)
    (d : Disk) : Except Fault (Option BitMap) :=
  if fileHdr.type = DirectoryFile then
    match tableEntries fileHdr.FileLength with
    | .error e => .error e
    | .ok numEntries =>
      let dir := (Directory.create env.entry env.position numEntries).FetchFrom
        (OpenFile.openAt d sector) d
      if dir.isEmpty = false then .ok none
      else
        match (FileHeader.FetchFrom d dir.getNameFileSector).Deallocate freeMap d with
        | .error e => .error e
        | .ok m => .ok (some (m.Clear dir.getNameFileSector))
  else .ok (some freeMap)

/-- The method `FileSystem::Remove(path)`: the value returned and the file system left. -/
def FileSystem.Remove (fs : FileSystem) (env : Env) (path : List Nat) :
    Except Fault (Bool × FileSystem) :=
  match findDict env fs.disk path with
  | .error e => .error e
  | .ok dictHdrSector =>
    if dictHdrSector = -1 then .ok (false, fs)
    else
      match loadDirectory env fs.disk dictHdrSector with
      | .error e => .error e
      | .ok (_, dictFile, directory) =>
        let name := leafName path
        match directory.Find (nameReader fs.disk directory) name with
        | .error e => .error e
        | .ok sector =>
          if sector = -1 then .ok (false, fs)
          else
            let fileHdr := FileHeader.FetchFrom fs.disk sector
            let freeMap := BitMap.FetchFrom NumSectors fs.freeMapFile fs.disk
            match removeNameFile env fileHdr sector freeMap fs.disk with
            | .error e => .error e
            | .ok none => .ok (false, fs)
            | .ok (some freeMap1) =>
              let pathSector := fileHdr.pathFileSector
              match (FileHeader.FetchFrom fs.disk pathSector).Deallocate freeMap1 fs.disk with
              | .error e => .error e
              | .ok freeMap2 =>
                match fileHdr.Deallocate (freeMap2.Clear pathSector) fs.disk with
                | .error e => .error e
                | .ok freeMap3 =>
                  match directory.Remove (nameReader fs.disk directory) name with
                  | .error e => .error e
                  | .ok (_, directory1) =>
                    let d1 := (freeMap3.Clear sector).WriteBack fs.freeMapFile fs.disk
                    match directory1.WriteBack dictFile fs.freeMapFile env.loc d1 with
                    | .error e => .error e
                    | .ok (_, d2) => .ok (true, { fs with disk := d2 })

/-- The method `FileSystem::Open(path)`: the handle returned, `none` for NULL. -/
def FileSystem.Open (fs : FileSystem) (env : Env) (path : List Nat) :
    Except Fault (Option OpenFile) :=
  match findDict env fs.disk path with
  | .error e => .error e
  | .ok dictHdrSector =>
    if dictHdrSector = -1 then .ok none
    else
      match loadDirectory env fs.disk dictHdrSector with
      | .error e => .error e
      | .ok (_, _, directory) =>
        match directory.Find (nameReader fs.disk directory) (leafName path) with
        | .error e => .error e
        | .ok sector =>
          if sector ≥ 0 then .ok (some (OpenFile.openAt fs.disk sector))
          else .ok none

/-- The constructor `FileSystem::FileSystem(format)` with `format = TRUE`, on a disk `d`. -/
def FileSystem.format (env : Env) (d : Disk) : Except Fault FileSystem :=
  let freeMap : BitMap := ⟨List.replicate NumSectors false⟩
  let directory := Directory.create env.entry env.position NumDirEntries
  let mapA := env.hdr.Allocate env.loc ((freeMap.Mark FreeMapSector).Mark DirectorySector) d
    FreeMapFileSize BitMapFile
  if mapA.ok = false then .error Fault.assertion
  else
    let dirA := env.hdr.Allocate env.loc mapA.freeMap mapA.disk DirectoryFileSize DirectoryFile
    if dirA.ok = false then .error Fault.assertion
    else
      let ps := dirA.freeMap.Find
      if ps.1 = -1 then .error Fault.assertion
      else
        let pathA := env.hdr.Allocate env.loc ps.2 dirA.disk SectorSize PathFile
        if pathA.ok = false then .error Fault.assertion
        else
          let d1 := pathA.hdr.WriteBack pathA.disk ps.1
          let d2 := ((OpenFile.openAt d1 ps.1).writeWithin d1 [47] 2 0).2
          let dirHdr := (dirA.hdr.setTimes env.now).setPath ps.1 2
          let d3 := dirHdr.WriteBack (mapA.hdr.WriteBack d2 FreeMapSector) DirectorySector
          let freeMapFile := OpenFile.openAt d3 FreeMapSector
          let directoryFile := OpenFile.openAt d3 DirectorySector
          let ns := pathA.freeMap.Find
          if ns.1 = -1 then .error Fault.assertion
          else
            let nameA := env.hdr.Allocate env.loc ns.2 d3 SectorSize NameFile
            if nameA.ok = false then .error Fault.assertion
            else
              let d4 := nameA.hdr.WriteBack nameA.disk ns.1
              match (directory.initialNameFile ns.1).AddOn freeMapFile env.loc d4 [46]
                  DirectorySector with
              | .error e => .error e
              | .ok (_, directory1, d5) =>
                match directory1.AddOn freeMapFile env.loc d5 [46, 46] DirectorySector with
                | .error e => .error e
                | .ok (_, directory2, d6) =>
                  let d7 := nameA.freeMap.WriteBack freeMapFile d6
                  match directory2.WriteBack directoryFile freeMapFile env.loc d7 with
                  | .error e => .error e
                  | .ok (_, d8) => .ok ⟨d8, freeMapFile, directoryFile⟩

/-! ## Predicates used in the statements -/

/-- A sector in the map that is clear. -/
def BitMap.Free (m : BitMap) (s : Int) : Prop :=
  0 ≤ s ∧ s < (m.bits.length : Int) ∧ m.Test s = false

/-- Every sector from 0 to `b` is allocated. -/
def BitMap.AllBelow (m : BitMap) (b : Int) : Prop :=
  ∀ s : Int, 0 ≤ s → s ≤ b → m.Test s = true

/-- Every sector allocated in `m` is allocated in `m1`. -/
def BitMap.Le (m m1 : BitMap) : Prop :=
  ∀ s : Int, m.Test s = true → m1.Test s = true

/-- The sector holding data block `t` of the blocks listed from index block `j` on: entry
`t % NumIndirect` of the index block named by entry `j + t / NumIndirect` of `index`. -/
def viaIndex (d : Disk) (index : List Int) (j t : Nat) : Int :=
  (d (index.getD (j + t / NumIndirect) 0)).getD (t % NumIndirect) 0

/-! ## Sample inputs -/

/-- A file header whose fields are all zero. -/
def zeroHeader : FileHeader := ⟨0, 0, 0, [], [], [], 0, 0, 0, []⟩

/-- Local arrays holding zeros. -/
def zeroLocals : Locals := ⟨[], []⟩

/-- A disk whose sectors hold zeros. -/
def blankDisk : Disk := fun _ => []

/-- An environment handing out zeroed memory. -/
def zeroEnv : Env := ⟨zeroHeader, ⟨false, 0, 0, 0⟩, 0, zeroLocals, []⟩

/-- A bitmap of `NumSectors` bits, all clear. -/
def clearMap : BitMap := ⟨List.replicate NumSectors false⟩

/-- A bitmap of `NumSectors` bits of which the first seven are clear. -/
def sevenFreeMap : BitMap := ⟨List.replicate 7 false ++ List.replicate (NumSectors - 7) true⟩

/-- The free-sector bitmap as the free-map file holds it. -/
def persistedMap (fs : FileSystem) : BitMap :=
  BitMap.FetchFrom NumSectors fs.freeMapFile fs.disk

/-- A file of 1024 bytes, eight sectors, allocated from `clearMap` on `blankDisk`. -/
def eightSectorFile : AllocResult :=
  zeroHeader.Allocate zeroLocals clearMap blankDisk 1024 NormalFile

/-- The bytes of the Name File that a directory entry names. -/
def storedName (nf : List Nat) (e : DirectoryEntry) : List Nat :=
  (nf.drop e.namePosition.toNat).take e.nameLength.toNat

/-- An entry names a NUL-terminated string that lies in the Name File below `pos`. -/
def EntryOk (nf : List Nat) (pos : Int) (e : DirectoryEntry) : Prop :=
  0 ≤ e.namePosition ∧ 1 ≤ e.nameLength ∧ e.namePosition + e.nameLength ≤ pos ∧
    ∃ s : List Nat, storedName nf e = s ++ [0] ∧ 0 ∉ s

/-- The representation invariant of a directory with its Name File `nf`: the directory
has a Name File, the append position lies in the file, and every in-use entry names a
NUL-terminated string stored below the append position. -/
def Directory.WellFormed (dir : Directory) (nf : List Nat) : Prop :=
  dir.nameFileHdrSector ≠ -1 ∧ 0 ≤ dir.nameFilePosition ∧
    dir.nameFilePosition ≤ (nf.length : Int) ∧
    ∀ e ∈ dir.table, e.inUse = true → EntryOk nf dir.nameFilePosition e

/-- The in-use entries of a directory name pairwise different strings. -/
def Directory.DistinctNames (dir : Directory) (nf : List Nat) : Prop :=
  dir.table.Pairwise (fun e e1 =>
    e.inUse = true → e1.inUse = true → storedName nf e ≠ storedName nf e1)

/-- Whether the loop of `FindIndex` stops at an entry: it is in use and `strncmp` finds
its name equal to `name`. -/
def hit (rd : NameReader) (name : List Nat) (e : DirectoryEntry) : Bool :=
  e.inUse && strncmpEq e.nameLength.toNat
    (buffer e.nameLength.toNat (rd e.nameLength e.namePosition)) name

/-- The index of the first entry of a table that satisfies `p`. -/
def firstHit (p : DirectoryEntry → Bool) : List DirectoryEntry → Option Nat
  | [] => none
  | e :: es => if p e then some 0 else (firstHit p es).map (· + 1)

/-- The segments of a path: the strings between its `'/'` characters. -/
def segments : List Nat → List (List Nat)
  | [] => [[]]
  | c :: cs =>
    if c = 47 then [] :: segments cs
    else
      match segments cs with
      | [] => [[c]]
      | s :: ss => (c :: s) :: ss

/-- The walk the spec describes, over the segments of a path: from the directory whose
inode is in `cur`, each segment but the last is looked up in the directory reached so
far; the result is the inode sector of the directory reached when one segment remains,
or −1 at the first segment that is not found. -/
def walkSegments (env : Env) (d : Disk) : Int → List (List Nat) → Except Fault Int
  | cur, [] => .ok cur
  | cur, seg :: rest =>
    match rest with
    | [] => .ok cur
    | _ :: _ =>
      match loadDirectory env d cur with
      | .error e => .error e
      | .ok (_, _, dict) =>
        match dict.Find (nameReader d dict) seg with
        | .error e => .error e
        | .ok s => if s = -1 then .ok (-1) else walkSegments env d s rest

/-- A call of the file system façade, for stating scenarios. -/
inductive Call where
  | create (path : List Nat) (initialSize : Int)
  | remove (path : List Nat)

/-- The calls of a scenario made in turn: the values they return, in order, and the file
system they leave; `none` when a call faults. -/
def runCalls (env : Env) : FileSystem → List Call → Option (List Bool × FileSystem)
  | fs, [] => some ([], fs)
  | fs, c :: cs =>
    match (match c with
      | .create path initialSize => fs.Create env path initialSize
      | .remove path => fs.Remove env path) with
    | .error _ => none
    | .ok (r, fs1) =>
      match runCalls env fs1 cs with
      | none => none
      | some (rs, fs2) => some (r :: rs, fs2)

/-- The calls of a scenario made on a freshly formatted blank disk. -/
def runFresh (calls : List Call) : Option (List Bool × FileSystem) :=
  match FileSystem.format zeroEnv blankDisk with
  | .error _ => none
  | .ok fs => runCalls zeroEnv fs calls

/-- The table of the directory whose inode is in `sector`, as it is on the disk. -/
def tableAt (fs : FileSystem) (sector : Int) : Option (List DirectoryEntry) :=
  match loadDirectory zeroEnv fs.disk sector with
  | .error _ => none
  | .ok (_, _, dir) => some dir.table

/-- The file system a scenario leaves on a freshly formatted blank disk. -/
def afterCalls (calls : List Call) : FileSystem :=
  match runFresh calls with
  | some (_, fs) => fs
  | none => ⟨blankDisk, OpenFile.openAt blankDisk FreeMapSector,
      OpenFile.openAt blankDisk DirectorySector⟩

/-- What `Find(name)` gives in the directory whose inode is in `sector`. -/
def findAt (fs : FileSystem) (sector : Int) (name : List Nat) : Option Int :=
  match loadDirectory zeroEnv fs.disk sector with
  | .error _ => none
  | .ok (_, _, dir) => (dir.Find (nameReader fs.disk dir) name).toOption

/-- Whether `path` names, the way `Remove` resolves it, a directory whose table holds an
entry in use at index 2 or above. -/
def namesOccupiedDirectory (env : Env) (fs : FileSystem) (path : List Nat) : Bool :=
  match findDict env fs.disk path with
  | .error _ => false
  | .ok dictHdrSector =>
    if dictHdrSector = -1 then false
    else
      match loadDirectory env fs.disk dictHdrSector with
      | .error _ => false
      | .ok (_, _, directory) =>
        match directory.Find (nameReader fs.disk directory) (leafName path) with
        | .error _ => false
        | .ok sector =>
          if sector = -1 then false
          else
            match loadDirectory env fs.disk sector with
            | .error _ => false
            | .ok (fileHdr, _, dir) =>
              decide (fileHdr.type = DirectoryFile) && (dir.table.drop 2).any (fun e => e.inUse)

/-- A scenario that leaves `/a` with the file `x` in slot 0 of its table: `/a/.` is
removed, which frees the sectors of `/a` and its slot 0 while `/a` stays in the root;
`/a/x` then takes slot 0, and the data of `/g` takes the sectors that `/a` had. -/
def dotRemovedCalls : List Call :=
  [.create [47, 102] 256, .create [47, 97] (-1), .remove [47, 97, 47, 46],
   .remove [47, 102], .create [47, 97, 47, 120] 0, .create [47, 103] 896]

/-- The calls that make the directory `/a` and the file `/a/b` in it. -/
def nestedCalls : List Call := [.create [47, 97] (-1), .create [47, 97, 47, 98] 0]

/-- A directory of two slots holding the name `a` for sector 5. -/
def sampleDirectory : Directory := ⟨[⟨true, 5, 0, 2⟩, ⟨false, 0, 0, 0⟩], 7, 2⟩

/-- The Name File of `sampleDirectory`: the string `a`. -/
def sampleNameFile : List Nat := [97, 0]

/-! ## The machine: TLB and page table -/

/-- The macro `PageSize` of `machine.h` (not among the sources): a page is as large as a
disk sector. -/
def PageSize : Nat := SectorSize

/-- Modelled from the spec: the class `TranslationEntry` (`translate.h` is not among the
sources), an entry of the TLB or of a page table. `LRUrecord` is an unsigned counter. -/
structure TranslationEntry where
  virtualPage : Int
  physicalPage : Int
  valid : Bool
  use : Bool
  dirty : Bool
  readOnly : Bool
  LRUrecord : Nat
  tid : Int
  deriving DecidableEq, Repr

/-- The arrays of the class `Machine` that the handlers of `exception.cc` work on: `tlb`
has `TLBSize` entries and `pageTable` has `pageTableSize` entries. -/
structure Machine where
  tlb : List TranslationEntry
  pageTable : List TranslationEntry
  deriving DecidableEq, Repr

/-- The macro `TLBSize`: the number of entries of `machine->tlb`. -/
def Machine.TLBSize (m : Machine) : Nat := m.tlb.length

/-- The field `machine->pageTableSize`: the number of entries of `machine->pageTable`. -/
def Machine.pageTableSize (m : Machine) : Nat := m.pageTable.length

/-- The conversion of an `int` to `unsigned int`. -/
def toUnsigned (x : Int) : Nat := (x % 2 ^ 32).toNat

/-- The value of `(unsigned int) -1`. -/
def maxUnsigned : Nat := 2 ^ 32 - 1

/-- The statement `machine->pageTable[Replaced_vpn].dirty = true`; an index outside the
table ends the run. -/
def setDirty (pageTable : List TranslationEntry) (Replaced_vpn : Nat) :
    Except Fault (List TranslationEntry) :=
  match pageTable[Replaced_vpn]? with
  | none => .error Fault.bounds
  | some e => .ok (pageTable.set Replaced_vpn { e with dirty := true })

/-- The block `if (tlb[index].valid && tlb[index].dirty) { ... }` of
`Simple_TLBReplaceHandler` and `FIFO_TLBReplaceHandler`: the page table it leaves. -/
def propagateDirty (pageTable : List TranslationEntry) (e : TranslationEntry) :
    Except Fault (List TranslationEntry) :=
  if e.valid && e.dirty then setDirty pageTable (toUnsigned e.virtualPage)
  else .ok pageTable

/-- The function `Simple_TLBReplaceHandler(vpn)` of `exception.cc`. -/
def Simple_TLBReplaceHandler (m : Machine) (vpn : Nat) : Except Fault Machine :=
  let index := vpn % m.TLBSize
  match m.tlb[index]? with
  | none => .error Fault.bounds
  | some e =>
    match propagateDirty m.pageTable e with
    | .error f => .error f
    | .ok pageTable =>
      match pageTable[vpn]? with
      | none => .error Fault.bounds
      | some x => .ok { tlb := m.tlb.set index x, pageTable := pageTable }

/-- The first loop of `FIFO_TLBReplaceHandler`, from slot `i` on: the index of the first
slot that is not valid. -/
def firstInvalid : List TranslationEntry → Nat → Option Nat
  | [], _ => none
  | e :: es, i => if e.valid = false then some i else firstInvalid es (i + 1)

/-- The loop `for (int i = index; i < TLBSize - 1; i++) tlb[i] = tlb[i+1];`, with the
count of iterations left. -/
def shiftLoop : Nat → Nat → List TranslationEntry → List TranslationEntry
  | 0, _, tlb => tlb
  | n + 1, i, tlb =>
    match tlb[i + 1]? with
    | none => tlb
    | some e => shiftLoop n (i + 1) (tlb.set i e)

/-- The function `FIFO_TLBReplaceHandler(vpn)` of `exception.cc`. -/
def FIFO_TLBReplaceHandler (m : Machine) (vpn : Nat) : Except Fault Machine :=
  let index := (firstInvalid m.tlb 0).getD 0
  match m.tlb[index]? with
  | none => .error Fault.bounds
  | some e =>
    match propagateDirty m.pageTable e with
    | .error f => .error f
    | .ok pageTable =>
      let tlb := shiftLoop (m.TLBSize - 1 - index) index m.tlb
      match pageTable[vpn]? with
      | none => .error Fault.bounds
      | some x => .ok { tlb := tlb.set (m.TLBSize - 1) x, pageTable := pageTable }

/-- The second loop of `LRU_TLBReplaceHandler`, from slot `i` on, with the values of
`index` and `minRecord` so far: the value of `index` it ends with. -/
def minLoop : List TranslationEntry → Nat → Nat → Nat → Nat
  | [], _, index, _ => index
  | e :: es, i, index, minRecord =>
    if e.LRUrecord % 2 ^ 32 < minRecord then minLoop es (i + 1) i (e.LRUrecord % 2 ^ 32)
    else minLoop es (i + 1) index minRecord

/-- The function `LRU_TLBReplaceHandler(vpn)` of `exception.cc` as built without
`USE_IPT`, for a per-process page table. -/
def LRU_TLBReplaceHandler (m : Machine) (vpn : Nat) : Except Fault Machine :=
  match firstInvalid m.tlb 0 with
  | some i =>
    match m.pageTable[vpn]? with
    | none => .error Fault.bounds
    | some x => .ok { m with tlb := m.tlb.set i x }
  | none =>
    let index := minLoop m.tlb 0 0 maxUnsigned
    match m.tlb[index]? with
    | none => .error Fault.bounds
    | some e =>
      match (if e.dirty then setDirty m.pageTable (toUnsigned e.virtualPage)
        else .ok m.pageTable) with
      | .error f => .error f
      | .ok pageTable =>
        match pageTable[vpn]? with
        | none => .error Fault.bounds
        | some x => .ok { tlb := m.tlb.set index x, pageTable := pageTable }

/-- The read `machine->tlb[i].LRUrecord`; `past i` is what it gives where `i` is not
below `TLBSize`. -/
def tlbRecord (past : Nat → Nat) (tlb : List TranslationEntry) (i : Nat) : Nat :=
  match tlb[i]? with
  | some t => t.LRUrecord
  | none => past i

/-- The first loop of `LRU_LocalPageFrameReplaceHandler`, from entry `i` of the page
table on, with the values of `index` and `minRecord` so far: the value of `index` it ends
with. The loop takes the new `minRecord` from `machine->tlb[i]`. -/
def victimLoop (past : Nat → Nat) (tlb : List TranslationEntry) :
    List TranslationEntry → Nat → Int → Nat → Int
  | [], _, index, _ => index
  | e :: es, i, index, minRecord =>
    if e.valid && decide (e.LRUrecord % 2 ^ 32 < minRecord) then
      victimLoop past tlb es (i + 1) (i : Int) (tlbRecord past tlb i % 2 ^ 32)
    else victimLoop past tlb es (i + 1) index minRecord

/-- The loop over the TLB of `LRU_LocalPageFrameReplaceHandler`: the first valid slot
that holds page `index` is made invalid and its dirty bit replaces `IsDirty`. -/
def dropFromTLB (index : Int) : List TranslationEntry → Bool → Bool × List TranslationEntry
  | [], IsDirty => (IsDirty, [])
  | t :: ts, IsDirty =>
    if t.valid && decide (t.virtualPage = index) then (t.dirty, { t with valid := false } :: ts)
    else ((dropFromTLB index ts IsDirty).1, t :: (dropFromTLB index ts IsDirty).2)

/-- A call `vmOnDisk->WriteAt(from, numBytes, position)` on the swap file `fileName`;
`source` is the index in `mainMemory` of the first byte written. -/
structure SwapWrite where
  fileName : List Nat
  source : Int
  numBytes : Int
  position : Int
  deriving DecidableEq, Repr

/-- The name that `sprintf` and `strcat` build for the swap file of thread `tid`:
`vm_` followed by the decimal digits of `tid`. -/
def swapFileName (tid : Nat) : List Nat :=
  [118, 109, 95] ++ (Nat.toDigits 10 tid).map Char.toNat

/-- The function `LRU_LocalPageFrameReplaceHandler()` of `exception.cc`: the value
returned, the machine, and the write to the swap file if one is made. `tid` is
`currentThread->getTid()`, and `opens` tells whether `fileSystem->Open` finds the swap
file; a write through the NULL it returns otherwise ends the run. -/
def LRU_LocalPageFrameReplaceHandler (m : Machine) (tid : Nat) (past : Nat → Nat)
    (opens : Bool) : Except Fault (Int × Machine × Option SwapWrite) :=
  let index := victimLoop past m.tlb m.pageTable 0 (-1) maxUnsigned
  if index = -1 then .ok (-1, m, none)
  else
    match m.pageTable[index.toNat]? with
    | none => .error Fault.bounds
    | some v =>
      let pageTable := m.pageTable.set index.toNat { v with valid := false }
      let r := dropFromTLB index m.tlb v.dirty
      let m1 : Machine := { tlb := r.2, pageTable := pageTable }
      if r.1 then
        if opens then
          .ok (v.physicalPage, m1,
            some ⟨swapFileName tid, v.physicalPage * PageSize, PageSize, index * PageSize⟩)
        else .error Fault.bounds
      else .ok (v.physicalPage, m1, none)

/-! ## Sample machines -/

/-- An entry of a page table or TLB with the given page, validity, dirty bit and
`LRUrecord`; the frame has the number of the page. -/
def entry (page : Int) (valid dirty : Bool) (LRUrecord : Nat) : TranslationEntry :=
  ⟨page, page, valid, false, dirty, false, LRUrecord, 0⟩

/-- A process of two pages, both in memory, page 1 with the smaller `LRUrecord`; TLB slot
0 holds page 0 with `LRUrecord` 1 and the other three slots are invalid. -/
def staleMachine : Machine :=
  ⟨[entry 0 true false 1, entry 0 false false 0, entry 0 false false 0,
      entry 0 false false 0],
    [entry 0 true false 5, entry 1 true false 3]⟩

/-- A process of six pages with a full TLB: slot 0 holds page 0, dirty, and slots 1 and 2
hold the smallest `LRUrecord`. -/
def fullTLBMachine : Machine :=
  ⟨[entry 0 true true 4, entry 1 true false 2, entry 2 true false 2, entry 3 true false 7],
    [entry 0 true false 4, entry 1 true false 2, entry 2 true false 2, entry 3 true false 7,
      entry 4 true false 0, entry 5 true false 0]⟩

/-! ## Semaphores and locks -/

/-- The class `Semaphore` of `synch.cc`: its value and the queue of the threads asleep in
`P`. A thread is named by a number. -/
structure Semaphore where
  value : Int
  queue : List Nat
  deriving DecidableEq, Repr

/-- One pass of thread `currentThread` through the loop of `Semaphore::P`, which a
thread makes when it calls `P` and again each time it is woken: with the value at 0 the
thread is appended to the queue and sleeps (`false`); otherwise the value is decremented
and `P` returns (`true`). Interrupts are off throughout. -/
def Semaphore.P (s : Semaphore) (currentThread : Nat) : Semaphore × Bool :=
  if s.value = 0 then ({ s with queue := s.queue ++ [currentThread] }, false)
  else ({ s with value := s.value - 1 }, true)

/-- The method `Semaphore::V`: the semaphore it leaves and the thread it hands to
`Scheduler::ReadyToRun`, the first of the queue if there is one. -/
def Semaphore.V (s : Semaphore) : Semaphore × Option Nat :=
  match s.queue with
  | [] => ({ s with value := s.value + 1 }, none)
  | thread :: rest => ({ value := s.value + 1, queue := rest }, some thread)

/-- The class `Lock` of `synch.cc`; `holdingThread` is `none` for NULL. -/
structure Lock where
  lockSem : Semaphore
  holdingThread : Option Nat
  deriving DecidableEq, Repr

/-- The constructor `Lock::Lock`. -/
def Lock.create : Lock := ⟨⟨1, []⟩, none⟩

/-- The method `Lock::isHeldByCurrentThread`. -/
def Lock.isHeldByCurrentThread (l : Lock) (currentThread : Nat) : Bool :=
  decide (some currentThread = l.holdingThread)

/-- The method `Lock::Acquire` run by `currentThread` for one pass through the loop of
`P`: when `P` returns (`true`) the thread becomes the holder, and `Acquire` returns. -/
def Lock.Acquire (l : Lock) (currentThread : Nat) : Lock × Bool :=
  let p := l.lockSem.P currentThread
  if p.2 then (⟨p.1, some currentThread⟩, true) else ({ l with lockSem := p.1 }, false)

/-- The method `Lock::Release` run by `currentThread`: the lock it leaves and the thread
made ready, if any. -/
def Lock.Release (l : Lock) (currentThread : Nat) : Except Fault (Lock × Option Nat) :=
  if some currentThread ≠ l.holdingThread then .error Fault.assertion
  else
    let v := l.lockSem.V
    .ok (⟨v.1, none⟩, v.2)

/-- A step of a thread on a lock: a pass through `Acquire`, or a call of `Release`. -/
inductive LockCall where
  | Acquire (thread : Nat)
  | Release (thread : Nat)
  deriving DecidableEq, Repr

/-- What a step of a thread on a lock came to. -/
inductive LockOutcome where
  | returned (thread : Nat)
  | slept (thread : Nat)
  | released (thread : Nat)
  deriving DecidableEq, Repr

/-- The steps of threads on one lock made in turn: the lock they leave and what each came
to. A failed assertion ends the run. -/
def runLock : Lock → List LockCall → Except Fault (Lock × List LockOutcome)
  | l, [] => .ok (l, [])
  | l, .Acquire t :: cs =>
    match runLock (l.Acquire t).1 cs with
    | .error f => .error f
    | .ok (l1, outs) =>
      .ok (l1, (if (l.Acquire t).2 then .returned t else .slept t) :: outs)
  | l, .Release t :: cs =>
    match l.Release t with
    | .error f => .error f
    | .ok (l1, _) =>
      match runLock l1 cs with
      | .error f => .error f
      | .ok (l2, outs) => .ok (l2, .released t :: outs)

/-- Whether an outcome is the return of an `Acquire`. -/
def LockOutcome.isReturn : LockOutcome → Bool
  | .returned _ => true
  | .slept _ => false
  | .released _ => false

/-- The thread that last returned from `Acquire` and has not released since, if there is
one. -/
def lastAcquirer : List LockOutcome → Option Nat
  | [] => none
  | o :: os =>
    if os.any LockOutcome.isReturn then lastAcquirer os
    else
      match o with
      | .returned t => if LockOutcome.released t ∈ os then none else some t
      | .slept _ => none
      | .released _ => none

/-- The holder after a run that starts with holder `init`: with no return of `Acquire`
in the run, `init` unless that thread has released; else the last thread to return. -/
def holderFrom (init : Option Nat) (outs : List LockOutcome) : Option Nat :=
  if outs.any LockOutcome.isReturn then lastAcquirer outs
  else
    match init with
    | none => none
    | some t => if LockOutcome.released t ∈ outs then none else some t

/-- The semaphore of a lock is at 0 when the lock is held and at 1 when it is free. -/
def Lock.Inv (l : Lock) : Prop :=
  l.lockSem.value = if l.holdingThread = none then 1 else 0

/-! ## Scenarios on the file system -/

/-- What `Open(path)` gives on `fs`: `none` when it faults, `some none` for NULL, else the
sector the handle is bound to with the type and the length of the header it holds. -/
def openOn (fs : FileSystem) (path : List Nat) : Option (Option (Int × Int × Int)) :=
  match fs.Open zeroEnv path with
  | .error _ => none
  | .ok none => some none
  | .ok (some f) => some (some (f.hdrSector, f.hdr.type, f.hdr.numBytes))

/-- A path in the root directory: `/` and `count` times the character `c`. -/
def rootPath (c count : Nat) : List Nat := 47 :: List.replicate count c

/-- The file system `fs` on a disk that is full but for the sectors of `free`: the free
map on the disk marks every other sector. -/
def withFreeSectors (fs : FileSystem) (free : List Int) : FileSystem :=
  let freeMap : BitMap := free.foldl BitMap.Clear ⟨List.replicate NumSectors true⟩
  { fs with disk := freeMap.WriteBack fs.freeMapFile fs.disk }

/-- The path `/ccc...c#` of 98 characters after the `/`. -/
def longDirectoryPath : List Nat := rootPath 99 97 ++ [35]

/-- What the disk holds of the directory whose inode is in `sector`: the type in the
inode, the size of the table, the in-use flag and the sector of its first two entries,
and what `Find` gives for `.` and for `..`. -/
def directoryAt (fs : FileSystem) (sector : Int) :
    Int × Option (Nat × List (Bool × Int)) × Option Int × Option Int :=
  ((FileHeader.FetchFrom fs.disk sector).type,
    (tableAt fs sector).map (fun t => (t.length, (t.take 2).map (fun e => (e.inUse, e.sector)))),
    findAt fs sector [46], findAt fs sector [46, 46])

/-! ## Sample headers -/

/-- A bitmap of `NumSectors` bits, all set: a full disk. -/
def fullMap : BitMap := ⟨List.replicate NumSectors true⟩

/-- The header of a file of 128 bytes, one sector, allocated from `clearMap`. -/
def oneSectorFile : FileHeader :=
  (zeroHeader.Allocate zeroLocals clearMap blankDisk 128 NormalFile).hdr

/-! ## The page-fault handler -/

/-- The bytes that `WriteAt(&mainMemory[source], numBytes, position)` takes from main
memory; a source outside the memory ends the run. -/
def memoryBytes (mainMemory : List Nat) (source numBytes : Int) : Except Fault (List Nat) :=
  if source < 0 ∨ source + numBytes > mainMemory.length then .error Fault.bounds
  else .ok ((mainMemory.drop source.toNat).take numBytes.toNat)

/-- Main memory after `bytes` have been stored from index `target` on; a store that does
not lie in the memory ends the run, and a store of no bytes touches nothing. -/
def storeBytes (mainMemory : List Nat) (target : Int) (bytes : List Nat) :
    Except Fault (List Nat) :=
  if bytes = [] then .ok mainMemory
  else if target < 0 ∨ target + bytes.length > mainMemory.length then .error Fault.bounds
  else .ok (mainMemory.take target.toNat ++ bytes
    ++ mainMemory.drop (target.toNat + bytes.length))

/-- The swap file after the write that `LRU_LocalPageFrameReplaceHandler` makes, if it
makes one. -/
def applySwapWrite (mainMemory : List Nat) (swap : Option (List Nat)) :
    Option SwapWrite → Except Fault (Option (List Nat))
  | none => .ok swap
  | some w =>
    match swap with
    | none => .error Fault.bounds
    | some file =>
      match memoryBytes mainMemory w.source w.numBytes with
      | .error f => .error f
      | .ok bytes => .ok (some (bytesWriteAt file ⟨bytes, w.numBytes, w.position⟩))

/-- The part of `PageFaultHandler(vpn)` that follows the choice of the frame `PF2Place`:
the page is read from the swap file into the frame and `pageTable[vpn]` is filled in. -/
def loadPage (m : Machine) (mainMemory : List Nat) (swap : Option (List Nat))
    (PF2Place : Int) (vpn : Nat) :
    Except Fault (Int × Machine × List Nat × Option (List Nat)) :=
  match swap with
  | none => .error Fault.assertion
  | some file =>
    match storeBytes mainMemory (PF2Place * PageSize)
        (bytesReadAt file PageSize (vpn * PageSize)) with
    | .error f => .error f
    | .ok mainMemory1 =>
      match m.pageTable[vpn]? with
      | none => .error Fault.bounds
      | some e =>
        let PTE : TranslationEntry :=
          { e with virtualPage := vpn, physicalPage := PF2Place, valid := true,
                   use := false, readOnly := false, dirty := false }
        .ok (PF2Place, ⟨m.tlb, m.pageTable.set vpn PTE⟩, mainMemory1, swap)

/-- The function `PageFaultHandler(vpn)` of `exception.cc` as built without `USE_IPT`: the
value returned, the machine, main memory and the swap file. `allocated` is what
`machine->allocatePageFrame()` returns (`machine.cc` is not among the sources), `swap` the
bytes of the file `vm_<tid>` if `fileSystem->Open` finds it, `tid` is
`currentThread->getTid()`. -/
def PageFaultHandler (m : Machine) (mainMemory : List Nat) (swap : Option (List Nat))
    (tid : Nat) (past : Nat → Nat) (allocated : Int) (vpn : Nat) :
    Except Fault (Int × Machine × List Nat × Option (List Nat)) :=
  if allocated = -1 then
    match LRU_LocalPageFrameReplaceHandler m tid past swap.isSome with
    | .error f => .error f
    | .ok (PF2Place, m1, w) =>
      match applySwapWrite mainMemory swap w with
      | .error f => .error f
      | .ok swap1 =>
        if PF2Place = -1 then .ok (-1, m1, mainMemory, swap1)
        else loadPage m1 mainMemory swap1 PF2Place vpn
  else loadPage m mainMemory swap allocated vpn

/-- A process of two pages, page 0 in frame 0 and valid with the largest `LRUrecord` an
`unsigned int` holds, page 1 not in memory; the TLB has four invalid slots. -/
def saturatedMachine : Machine :=
  ⟨[entry 0 false false 0, entry 0 false false 0, entry 0 false false 0,
      entry 0 false false 0],
    [entry 0 true false 4294967295, entry 1 false false 0]⟩

/-! ## Semaphore runs and conditions -/

/-- The constructor `Semaphore::Semaphore(debugName, initialValue)`. -/
def Semaphore.create (initialValue : Int) : Semaphore := ⟨initialValue, []⟩

/-- A step of a thread on a semaphore: a pass of a thread through the loop of `P`, made
when it calls `P` or when it runs again after a sleep there, or a call of `V`. -/
inductive SemCall where
  | P (thread : Nat)
  | V
  deriving DecidableEq, Repr

/-- The semaphore after one step. -/
def Semaphore.step (s : Semaphore) : SemCall → Semaphore
  | .P t => (s.P t).1
  | .V => s.V.1

/-- The semaphore after the steps of a run, made in turn. -/
def runSemaphore (s : Semaphore) (calls : List SemCall) : Semaphore :=
  calls.foldl Semaphore.step s

/-- The class `Condition` of `synch.cc`: the count of recorded waiters and the internal
semaphore. -/
structure Condition where
  count : Int
  condSem : Semaphore
  deriving DecidableEq, Repr

/-- The constructor `Condition::Condition`. -/
def Condition.create : Condition := ⟨0, Semaphore.create 0⟩

/-- The method `Condition::Wait` up to the point where the caller first reaches
`condSem->P()`: the assertion, `count++` and the release of the lock. The passes through
`condSem->P()` and `conditionLock->Acquire()` that follow are steps of their own, as the
thread may sleep in each. The result is the condition, the lock and the thread made
ready by the release. -/
def Condition.Wait (c : Condition) (conditionLock : Lock) (currentThread : Nat) :
    Except Fault (Condition × Lock × Option Nat) :=
  if !conditionLock.isHeldByCurrentThread currentThread then .error Fault.assertion
  else
    match conditionLock.Release currentThread with
    | .error f => .error f
    | .ok (l, woken) => .ok ({ c with count := c.count + 1 }, l, woken)

/-- The method `Condition::Signal`: the condition it leaves and the thread made ready. -/
def Condition.Signal (c : Condition) (conditionLock : Lock) (currentThread : Nat) :
    Except Fault (Condition × Option Nat) :=
  if !conditionLock.isHeldByCurrentThread currentThread then .error Fault.assertion
  else if c.count = 0 then .ok (c, none)
  else
    let v := c.condSem.V
    .ok (⟨c.count - 1, v.1⟩, v.2)

/-- The loop `while(count)` of `Condition::Broadcast`, for at most `fuel` tests of the
count: the condition it leaves and the count of `V` operations made, added to `done`;
`none` when the loop is still running after `fuel` tests. -/
def Condition.broadcastLoop : Nat → Condition → Nat → Option (Condition × Nat)
  | 0, _, _ => none
  | fuel + 1, c, done =>
    if c.count ≠ 0 then broadcastLoop fuel ⟨c.count - 1, c.condSem.V.1⟩ (done + 1)
    else some (c, done)

/-- The method `Condition::Broadcast`, its loop given `fuel` tests. -/
def Condition.Broadcast (c : Condition) (conditionLock : Lock) (currentThread : Nat)
    (fuel : Nat) : Except Fault (Option (Condition × Nat)) :=
  if !conditionLock.isHeldByCurrentThread currentThread then .error Fault.assertion
  else .ok (c.broadcastLoop fuel 0)

/-- The semaphore after `n` operations `V`. -/
def Semaphore.afterV (s : Semaphore) (n : Nat) : Semaphore :=
  Nat.iterate (fun x : Semaphore => x.V.1) n s

/-- A condition with three recorded waiters, threads 1, 2 and 3 asleep on its semaphore. -/
def threeWaiters : Condition := ⟨3, ⟨0, [1, 2, 3]⟩⟩

/-! ## Pipes -/

/-- Modelled from the spec: the count that `WriteAt(from, numBytes, position)` returns on
a file given by its bytes, the count of bytes written. -/
def bytesWritten (w : NameWrite) : Int :=
  if w.numBytes ≤ 0 ∨ w.position < 0 then 0 else w.numBytes

/-- The class `PipeFile` of `synchdisk.cc`: `readFile` is the seek position of the open
file, `none` for NULL; the backing file itself, the file of the file system that `path`
names, is passed to the methods as its byte sequence. -/
structure PipeFile where
  readFile : Option Int
  pipeLength : Int
  lock : Lock
  deriving DecidableEq, Repr

/-- A pipe after `PipeFile::PipeFile` and `open`: the backing file open at position 0,
nothing buffered, the lock free. -/
def PipeFile.opened : PipeFile := ⟨some 0, 0, Lock.create⟩

/-- The value an `int` takes when the sum computed for it is the integer `x`: 32 bits,
two's complement. C++ leaves the overflow of a signed sum undefined; the compiled code
wraps. -/
def wrapInt (x : Int) : Int := (x + 2147483648) % 4294967296 - 2147483648

/-- The method `PipeFile::read(in, len)` run by `currentThread`, with the macro
`MAXPIPELEN` as a parameter (its definition is not among the sources). The result is
`none` when the thread sleeps in `lock->Acquire()`, else the value returned; with it come
the pipe and the backing file. The sum `pipeLength + len` is a sum of two `int`s.
`readFile->Write(in, len)` writes at the seek position and moves it on by the count
written. -/
def PipeFile.read (MAXPIPELEN : Int) (p : PipeFile) (file : List Nat) (currentThread : Nat)
    (src : List Nat) (len : Int) : Except Fault (Option Bool × PipeFile × List Nat) :=
  let a := p.lock.Acquire currentThread
  if !a.2 then .ok (none, { p with lock := a.1 }, file)
  else if wrapInt (p.pipeLength + len) > MAXPIPELEN then
    match a.1.Release currentThread with
    | .error f => .error f
    | .ok (l, _) => .ok (some false, { p with lock := l }, file)
  else
    match p.readFile with
    | none => .error Fault.bounds
    | some seekPosition =>
      match a.1.Release currentThread with
      | .error f => .error f
      | .ok (l, _) =>
        .ok (some true,
          ⟨some (seekPosition + bytesWritten ⟨src, len, seekPosition⟩),
            wrapInt (p.pipeLength + len), l⟩,
          bytesWriteAt file ⟨src, len, seekPosition⟩)

/-- The method `PipeFile::write(out)` run by `currentThread`. The result is `none` when
the thread sleeps in `lock->Acquire()`, else the value returned; with it come the pipe
and the buffer `out`, whose first bytes are those that `file->Read(out, len)` delivers
from position 0 of the backing file, opened anew. -/
def PipeFile.write (p : PipeFile) (file : List Nat) (currentThread : Nat)
    (out : List Nat) : Except Fault (Option Int × PipeFile × List Nat) :=
  let a := p.lock.Acquire currentThread
  if !a.2 then .ok (none, { p with lock := a.1 }, out)
  else if p.pipeLength = 0 then
    match a.1.Release currentThread with
    | .error f => .error f
    | .ok (l, _) => .ok (some 0, { p with lock := l }, out)
  else
    match p.readFile with
    | none => .error Fault.bounds
    | some _ =>
      let len := p.pipeLength
      let got := bytesReadAt file len 0
      match a.1.Release currentThread with
      | .error f => .error f
      | .ok (l, _) => .ok (some len, ⟨some 0, 0, l⟩, got ++ out.drop got.length)

/-- A call on a pipe by a thread. -/
inductive PipeCall where
  | read (thread : Nat) (src : List Nat) (len : Int)
  | write (thread : Nat) (out : List Nat)
  deriving DecidableEq, Repr

/-- What a call on a pipe came to: the value returned, with the buffer `out` for a
`write`, or the sleep of the thread in `lock->Acquire()`. -/
inductive PipeResult where
  | readReturned (value : Bool)
  | writeReturned (value : Int) (out : List Nat)
  | slept
  deriving DecidableEq, Repr

/-- One call on a pipe: the pipe, the backing file and what the call came to. -/
def PipeFile.call (MAXPIPELEN : Int) (p : PipeFile) (file : List Nat) :
    PipeCall → Except Fault (PipeFile × List Nat × PipeResult)
  | .read t src len =>
    match p.read MAXPIPELEN file t src len with
    | .error f => .error f
    | .ok (none, p1, file1) => .ok (p1, file1, .slept)
    | .ok (some r, p1, file1) => .ok (p1, file1, .readReturned r)
  | .write t out =>
    match p.write file t out with
    | .error f => .error f
    | .ok (none, p1, _) => .ok (p1, file, .slept)
    | .ok (some r, p1, out1) => .ok (p1, file, .writeReturned r out1)

/-- The calls of a run made in turn on a pipe: the pipe and the backing file they leave,
and what each call came to. -/
def runPipe (MAXPIPELEN : Int) :
    PipeFile → List Nat → List PipeCall → Except Fault (PipeFile × List Nat × List PipeResult)
  | p, file, [] => .ok (p, file, [])
  | p, file, c :: cs =>
    match p.call MAXPIPELEN file c with
    | .error f => .error f
    | .ok (p1, file1, r) =>
      match runPipe MAXPIPELEN p1 file1 cs with
      | .error f => .error f
      | .ok (p2, file2, rs) => .ok (p2, file2, r :: rs)

/-- The bytes passed to the calls of `read` that returned TRUE since the last call of
`write` that returned, in the order of the calls, `acc` being those before the run. -/
def pendingBytes : List Nat → List PipeCall → List PipeResult → List Nat
  | acc, [], _ => acc
  | acc, _ :: _, [] => acc
  | acc, .read _ src len :: cs, .readReturned r :: rs =>
    pendingBytes (if r then acc ++ buffer len.toNat src else acc) cs rs
  | acc, .read _ _ _ :: cs, .writeReturned _ _ :: rs => pendingBytes acc cs rs
  | acc, .read _ _ _ :: cs, .slept :: rs => pendingBytes acc cs rs
  | acc, .write _ _ :: cs, .readReturned _ :: rs => pendingBytes acc cs rs
  | _, .write _ _ :: cs, .writeReturned _ _ :: rs => pendingBytes [] cs rs
  | acc, .write _ _ :: cs, .slept :: rs => pendingBytes acc cs rs

/-- Whether every `read` of a run has a length that is not negative and with which the
sum `pipeLength + len` fits an `int` whenever `pipeLength` is within the bound:
`0 ≤ len ≤ INT_MAX - MAXPIPELEN`. -/
def lengthsFit (MAXPIPELEN : Int) : List PipeCall → Bool
  | [] => true
  | .read _ _ len :: cs =>
    decide (0 ≤ len) && decide (len ≤ 2147483647 - MAXPIPELEN) && lengthsFit MAXPIPELEN cs
  | .write _ _ :: cs => lengthsFit MAXPIPELEN cs

/-- The state of a pipe between calls: the lock is free, the seek position of `readFile`
is `pipeLength`, and the backing file begins with the `pipeLength` bytes `acc`. -/
def PipeFile.Inv (p : PipeFile) (file : List Nat) (acc : List Nat) : Prop :=
  p.lock.holdingThread = none ∧ p.lock.lockSem.value = 1 ∧
  p.readFile = some p.pipeLength ∧ p.pipeLength = (acc.length : Int) ∧
  file.take acc.length = acc

/-- Three threads on a pipe of at most 8 bytes: a `read` of 2 bytes, a `read` of 7 that is
refused, a `read` of 1, a `write`, and a `read` of 2. -/
def pipeCalls : List PipeCall :=
  [.read 0 [104, 105] 2, .read 1 [1, 2, 3, 4, 5, 6, 7] 7, .read 1 [33] 1,
    .write 2 [0, 0, 0, 0, 0], .read 0 [111, 107] 2]

/-- A `read` of one byte, then a `read` with `len = INT_MAX`. -/
def overflowCalls : List PipeCall := [.read 0 [104] 1, .read 0 [105] 2147483647]

/-! ## Producer and consumer -/

/-- The class `bounded_buffer` of `synch.cc`, a `List` with a size: the values of the
items it holds, first to last. -/
structure bounded_buffer where
  size : Int
  items : List Int
  deriving DecidableEq, Repr

/-- The constructor `bounded_buffer::bounded_buffer(buffer_size)`. -/
def bounded_buffer.create (buffer_size : Int) : bounded_buffer := ⟨buffer_size, []⟩

/-- The method `bounded_buffer::IsFull`. -/
def bounded_buffer.IsFull (b : bounded_buffer) : Bool :=
  decide ((b.items.length : Int) = b.size)

/-- Modelled from the spec: `IsEmpty` of the list (`list.cc` is not among the sources). -/
def bounded_buffer.IsEmpty (b : bounded_buffer) : Bool := b.items.isEmpty

/-- Modelled from the spec: `Append` puts an item at the end of the list. -/
def bounded_buffer.Append (b : bounded_buffer) (item : Int) : bounded_buffer :=
  { b with items := b.items ++ [item] }

/-- Modelled from the spec: `Remove` takes the first item off the list; `none` is the
NULL it returns on an empty list. -/
def bounded_buffer.Remove (b : bounded_buffer) : Option (Int × bounded_buffer) :=
  match b.items with
  | [] => none
  | item :: rest => some (item, { b with items := rest })

/-- Where the producer of `ProducerConsumer_semaphore::Produce` is in its loop: before
the statement named. -/
inductive SemProduceAt where
  | newItem
  | emptyP
  | mutexP
  | append
  | fullV
  deriving DecidableEq, Repr

/-- Where the consumer of `ProducerConsumer_semaphore::Consume` is in its loop. -/
inductive SemConsumeAt where
  | fullP
  | mutexP
  | remove
  | emptyV
  deriving DecidableEq, Repr

/-- The class `ProducerConsumer_semaphore` with one producer, thread 0, and one consumer,
thread 1, at work: the local `count` and the value `*item` of `Produce`, where each of
the two is, and the values the consumer has removed, in order. -/
structure ProducerConsumer_semaphore where
  buffer : bounded_buffer
  mutex : Semaphore
  empty : Semaphore
  full : Semaphore
  count : Int
  item : Int
  producerAt : SemProduceAt
  consumerAt : SemConsumeAt
  consumed : List Int
  deriving DecidableEq, Repr

/-- The constructor `ProducerConsumer_semaphore(buffer_size)`, with the producer and the
consumer at the head of their loops. -/
def ProducerConsumer_semaphore.create (buffer_size : Int) : ProducerConsumer_semaphore :=
  { buffer := bounded_buffer.create buffer_size
    mutex := Semaphore.create 1
    empty := Semaphore.create buffer_size
    full := Semaphore.create 0
    count := 0
    item := 0
    producerAt := .newItem
    consumerAt := .fullP
    consumed := [] }

/-- One step of the producer in `ProducerConsumer_semaphore::Produce`: the statements up
to and with the next operation on a semaphore; a `P` that finds the value 0 leaves the
producer where it is, to test again in a later step. -/
def ProducerConsumer_semaphore.Produce (s : ProducerConsumer_semaphore) :
    ProducerConsumer_semaphore :=
  match s.producerAt with
  | .newItem => { s with item := s.count, count := s.count + 1, producerAt := .emptyP }
  | .emptyP =>
    { s with empty := (s.empty.P 0).1,
             producerAt := if (s.empty.P 0).2 then .mutexP else .emptyP }
  | .mutexP =>
    { s with mutex := (s.mutex.P 0).1,
             producerAt := if (s.mutex.P 0).2 then .append else .mutexP }
  | .append =>
    { s with buffer := s.buffer.Append s.item, mutex := s.mutex.V.1, producerAt := .fullV }
  | .fullV => { s with full := s.full.V.1, producerAt := .newItem }

/-- One step of the consumer in `ProducerConsumer_semaphore::Consume`. `Remove` on an
empty buffer returns NULL, which `*item` then dereferences. -/
def ProducerConsumer_semaphore.Consume (s : ProducerConsumer_semaphore) :
    Except Fault ProducerConsumer_semaphore :=
  match s.consumerAt with
  | .fullP =>
    .ok { s with full := (s.full.P 1).1,
                 consumerAt := if (s.full.P 1).2 then .mutexP else .fullP }
  | .mutexP =>
    .ok { s with mutex := (s.mutex.P 1).1,
                 consumerAt := if (s.mutex.P 1).2 then .remove else .mutexP }
  | .remove =>
    match s.buffer.Remove with
    | none => .error Fault.bounds
    | some (item, b) =>
      .ok { s with buffer := b, consumed := s.consumed ++ [item], mutex := s.mutex.V.1,
                   consumerAt := .emptyV }
  | .emptyV => .ok { s with empty := s.empty.V.1, consumerAt := .fullP }

/-- The steps of a schedule made in turn, `true` for a step of the producer and `false`
for a step of the consumer. -/
def ProducerConsumer_semaphore.run :
    ProducerConsumer_semaphore → List Bool → Except Fault ProducerConsumer_semaphore
  | s, [] => .ok s
  | s, true :: rest => run s.Produce rest
  | s, false :: rest =>
    match s.Consume with
    | .error f => .error f
    | .ok s1 => run s1 rest

/-- The values 0, 1, ..., `n - 1`. -/
def firstValues (n : Nat) : List Int := (List.range n).map Int.ofNat

/-- What holds of `ProducerConsumer_semaphore` between steps. -/
structure ProducerConsumer_semaphore.Inv (buffer_size : Int)
    (s : ProducerConsumer_semaphore) : Prop where
  size : s.buffer.size = buffer_size
  empty : s.empty.value = buffer_size - s.buffer.items.length
    - (if s.producerAt = .mutexP ∨ s.producerAt = .append then 1 else 0)
    - (if s.consumerAt = .emptyV then 1 else 0)
  full : s.full.value = s.buffer.items.length
    - (if s.producerAt = .fullV then 1 else 0)
    - (if s.consumerAt = .mutexP ∨ s.consumerAt = .remove then 1 else 0)
  mutex : s.mutex.value = 1 - (if s.producerAt = .append then 1 else 0)
    - (if s.consumerAt = .remove then 1 else 0)
  emptyNonneg : 0 ≤ s.empty.value
  fullNonneg : 0 ≤ s.full.value
  mutexNonneg : 0 ≤ s.mutex.value
  order : s.consumed ++ s.buffer.items
    = firstValues (s.consumed.length + s.buffer.items.length)
  count : s.count = (s.consumed.length + s.buffer.items.length : Nat)
    + (if s.producerAt = .emptyP ∨ s.producerAt = .mutexP ∨ s.producerAt = .append
        then 1 else 0)
  item : s.producerAt = .emptyP ∨ s.producerAt = .mutexP ∨ s.producerAt = .append →
    s.item = (s.consumed.length + s.buffer.items.length : Nat)

/-- Where the producer of `ProducerConsumer_condition::Produce` is in its loop: before
the statement named; `test` is the test of `while (buffer->IsFull())`, `waitP` and
`waitAcquire` are `condSem->P()` and `conditionLock->Acquire()` inside `Wait`. -/
inductive CondProduceAt where
  | newItem
  | acquire
  | test
  | waitP
  | waitAcquire
  | release
  deriving DecidableEq, Repr

/-- Where the consumer of `ProducerConsumer_condition::Consume` is in its loop. -/
inductive CondConsumeAt where
  | acquire
  | test
  | waitP
  | waitAcquire
  | release
  deriving DecidableEq, Repr

/-- The class `ProducerConsumer_condition` with one producer, thread 0, and one consumer,
thread 1, at work. -/
structure ProducerConsumer_condition where
  buffer : bounded_buffer
  bufLock : Lock
  condPro : Condition
  condCon : Condition
  count : Int
  item : Int
  producerAt : CondProduceAt
  consumerAt : CondConsumeAt
  consumed : List Int
  deriving DecidableEq, Repr

/-- The constructor `ProducerConsumer_condition(buffer_size)`, with the producer and the
consumer at the head of their loops. -/
def ProducerConsumer_condition.create (buffer_size : Int) : ProducerConsumer_condition :=
  { buffer := bounded_buffer.create buffer_size
    bufLock := Lock.create
    condPro := Condition.create
    condCon := Condition.create
    count := 0
    item := 0
    producerAt := .newItem
    consumerAt := .acquire
    consumed := [] }

/-- One step of the producer in `ProducerConsumer_condition::Produce`: the statements up
to and with the next operation on a semaphore or a lock; an `Acquire` or a `P` that
finds the value 0 leaves the producer where it is, to test again in a later step. -/
def ProducerConsumer_condition.Produce (s : ProducerConsumer_condition) :
    Except Fault ProducerConsumer_condition :=
  match s.producerAt with
  | .newItem => .ok { s with item := s.count, count := s.count + 1, producerAt := .acquire }
  | .acquire =>
    .ok { s with bufLock := (s.bufLock.Acquire 0).1,
                 producerAt := if (s.bufLock.Acquire 0).2 then .test else .acquire }
  | .test =>
    if s.buffer.IsFull then
      match s.condPro.Wait s.bufLock 0 with
      | .error f => .error f
      | .ok (c, l, _) => .ok { s with condPro := c, bufLock := l, producerAt := .waitP }
    else
      match s.condCon.Signal s.bufLock 0 with
      | .error f => .error f
      | .ok (c, _) =>
        .ok { s with buffer := s.buffer.Append s.item, condCon := c, producerAt := .release }
  | .waitP =>
    .ok { s with condPro := { s.condPro with condSem := (s.condPro.condSem.P 0).1 },
                 producerAt := if (s.condPro.condSem.P 0).2 then .waitAcquire else .waitP }
  | .waitAcquire =>
    .ok { s with bufLock := (s.bufLock.Acquire 0).1,
                 producerAt := if (s.bufLock.Acquire 0).2 then .test else .waitAcquire }
  | .release =>
    match s.bufLock.Release 0 with
    | .error f => .error f
    | .ok (l, _) => .ok { s with bufLock := l, producerAt := .newItem }

/-- One step of the consumer in `ProducerConsumer_condition::Consume`. `Remove` on an
empty buffer returns NULL, which `*item` then dereferences. -/
def ProducerConsumer_condition.Consume (s : ProducerConsumer_condition) :
    Except Fault ProducerConsumer_condition :=
  match s.consumerAt with
  | .acquire =>
    .ok { s with bufLock := (s.bufLock.Acquire 1).1,
                 consumerAt := if (s.bufLock.Acquire 1).2 then .test else .acquire }
  | .test =>
    if s.buffer.IsEmpty then
      match s.condCon.Wait s.bufLock 1 with
      | .error f => .error f
      | .ok (c, l, _) => .ok { s with condCon := c, bufLock := l, consumerAt := .waitP }
    else
      match s.buffer.Remove with
      | none => .error Fault.bounds
      | some (item, b) =>
        match s.condPro.Signal s.bufLock 1 with
        | .error f => .error f
        | .ok (c, _) =>
          .ok { s with buffer := b, consumed := s.consumed ++ [item], condPro := c,
                       consumerAt := .release }
  | .waitP =>
    .ok { s with condCon := { s.condCon with condSem := (s.condCon.condSem.P 1).1 },
                 consumerAt := if (s.condCon.condSem.P 1).2 then .waitAcquire else .waitP }
  | .waitAcquire =>
    .ok { s with bufLock := (s.bufLock.Acquire 1).1,
                 consumerAt := if (s.bufLock.Acquire 1).2 then .test else .waitAcquire }
  | .release =>
    match s.bufLock.Release 1 with
    | .error f => .error f
    | .ok (l, _) => .ok { s with bufLock := l, consumerAt := .acquire }

/-- The steps of a schedule made in turn, `true` for a step of the producer and `false`
for a step of the consumer. -/
def ProducerConsumer_condition.run :
    ProducerConsumer_condition → List Bool → Except Fault ProducerConsumer_condition
  | s, [] => .ok s
  | s, true :: rest =>
    match s.Produce with
    | .error f => .error f
    | .ok s1 => run s1 rest
  | s, false :: rest =>
    match s.Consume with
    | .error f => .error f
    | .ok s1 => run s1 rest

/-- What holds of `ProducerConsumer_condition` between steps. -/
structure ProducerConsumer_condition.Inv (buffer_size : Int)
    (s : ProducerConsumer_condition) : Prop where
  size : s.buffer.size = buffer_size
  bound : (s.buffer.items.length : Int) ≤ buffer_size
  lock : s.bufLock.Inv
  producerHolds : s.producerAt = .test ∨ s.producerAt = .release →
    s.bufLock.holdingThread = some 0
  consumerHolds : s.consumerAt = .test ∨ s.consumerAt = .release →
    s.bufLock.holdingThread = some 1
  order : s.consumed ++ s.buffer.items
    = firstValues (s.consumed.length + s.buffer.items.length)
  count : s.count = (s.consumed.length + s.buffer.items.length : Nat)
    + (if s.producerAt = .newItem ∨ s.producerAt = .release then 0 else 1)
  item : ¬ (s.producerAt = .newItem ∨ s.producerAt = .release) →
    s.item = (s.consumed.length + s.buffer.items.length : Nat)

/-- A schedule in which the producer makes two items and the consumer takes one, for the
semaphores: eleven steps of the producer, then four of the consumer. -/
def sampleSchedule : List Bool :=
  List.replicate 11 true ++ List.replicate 4 false

/-! ## The reader-writer lock -/

/-- Where a thread that uses a `ReaderWriterLock` is: before the statement named.
`idle` is outside, before a call of `readAcquire` or `writeAcquire`; `reading` and
`writing` are inside, between the return of the acquire and the call of the release. -/
inductive RWAt where
  | idle
  | readMutex
  | readCount
  | readWriteLock
  | readUnlock
  | reading
  | relMutex
  | relCount
  | relTest
  | relYield
  | relAgain
  | relWriteLock
  | relUnlock
  | writeLock
  | writing
  deriving DecidableEq, Repr

/-- The class `ReaderWriterLock` of `synch.cc` with the threads that use it: thread `t`
is at `threads[t]`. -/
structure ReaderWriterLock where
  readersCount : Int
  mutex : Lock
  writeLock : Lock
  threads : List RWAt
  deriving DecidableEq, Repr

/-- The constructor `ReaderWriterLock::ReaderWriterLock`, with `n` threads outside. -/
def ReaderWriterLock.create (n : Nat) : ReaderWriterLock :=
  ⟨0, Lock.create, Lock.create, List.replicate n .idle⟩

/-- One step of thread `t`: the statements of `readAcquire`, `readRelease`,
`writeAcquire` or `writeRelease` up to and with the next operation on a lock; an
`Acquire` that finds the lock taken leaves the thread where it is, to test again in a
later step. Outside, the thread calls `writeAcquire` when `write` is set and
`readAcquire` when it is not; inside, its step is the call of the release. -/
def ReaderWriterLock.step (s : ReaderWriterLock) (t : Nat) (write : Bool) :
    Except Fault ReaderWriterLock :=
  match s.threads[t]? with
  | none => .ok s
  | some .idle => .ok { s with threads := s.threads.set t (if write then .writeLock else .readMutex) }
  | some .readMutex =>
    .ok { s with mutex := (s.mutex.Acquire t).1,
                 threads := s.threads.set t
                   (if (s.mutex.Acquire t).2 then .readCount else .readMutex) }
  | some .readCount =>
    .ok { s with readersCount := s.readersCount + 1,
                 threads := s.threads.set t
                   (if s.readersCount + 1 = 1 then .readWriteLock else .readUnlock) }
  | some .readWriteLock =>
    .ok { s with writeLock := (s.writeLock.Acquire t).1,
                 threads := s.threads.set t
                   (if (s.writeLock.Acquire t).2 then .readUnlock else .readWriteLock) }
  | some .readUnlock =>
    match s.mutex.Release t with
    | .error f => .error f
    | .ok (l, _) => .ok { s with mutex := l, threads := s.threads.set t .reading }
  | some .reading => .ok { s with threads := s.threads.set t .relMutex }
  | some .relMutex =>
    .ok { s with mutex := (s.mutex.Acquire t).1,
                 threads := s.threads.set t
                   (if (s.mutex.Acquire t).2 then .relCount else .relMutex) }
  | some .relCount =>
    .ok { s with readersCount := s.readersCount - 1,
                 threads := s.threads.set t
                   (if s.writeLock.isHeldByCurrentThread t then .relTest else .relUnlock) }
  | some .relTest =>
    .ok { s with threads := s.threads.set t
                   (if s.readersCount ≠ 0 then .relYield else .relWriteLock) }
  | some .relYield =>
    match s.mutex.Release t with
    | .error f => .error f
    | .ok (l, _) => .ok { s with mutex := l, threads := s.threads.set t .relAgain }
  | some .relAgain =>
    .ok { s with mutex := (s.mutex.Acquire t).1,
                 threads := s.threads.set t
                   (if (s.mutex.Acquire t).2 then .relTest else .relAgain) }
  | some .relWriteLock =>
    match s.writeLock.Release t with
    | .error f => .error f
    | .ok (l, _) => .ok { s with writeLock := l, threads := s.threads.set t .relUnlock }
  | some .relUnlock =>
    match s.mutex.Release t with
    | .error f => .error f
    | .ok (l, _) => .ok { s with mutex := l, threads := s.threads.set t .idle }
  | some .writeLock =>
    .ok { s with writeLock := (s.writeLock.Acquire t).1,
                 threads := s.threads.set t
                   (if (s.writeLock.Acquire t).2 then .writing else .writeLock) }
  | some .writing =>
    match s.writeLock.Release t with
    | .error f => .error f
    | .ok (l, _) => .ok { s with writeLock := l, threads := s.threads.set t .idle }

/-- The steps of a schedule made in turn: each names the thread that runs and what it
calls if it is outside. -/
def ReaderWriterLock.run :
    ReaderWriterLock → List (Nat × Bool) → Except Fault ReaderWriterLock
  | s, [] => .ok s
  | s, (t, write) :: rest =>
    match s.step t write with
    | .error f => .error f
    | .ok s1 => run s1 rest

/-- Whether a thread at this place holds `mutex`. -/
def RWAt.holdsMutex : RWAt → Bool
  | .idle => false
  | .readMutex => false
  | .readCount => true
  | .readWriteLock => true
  | .readUnlock => true
  | .reading => false
  | .relMutex => false
  | .relCount => true
  | .relTest => true
  | .relYield => true
  | .relAgain => false
  | .relWriteLock => true
  | .relUnlock => true
  | .writeLock => false
  | .writing => false

/-- Whether a thread at this place is known to hold `writeLock`. -/
def RWAt.holdsWrite : RWAt → Bool
  | .idle => false
  | .readMutex => false
  | .readCount => false
  | .readWriteLock => false
  | .readUnlock => false
  | .reading => false
  | .relMutex => false
  | .relCount => false
  | .relTest => true
  | .relYield => true
  | .relAgain => true
  | .relWriteLock => true
  | .relUnlock => false
  | .writeLock => false
  | .writing => true

/-- Whether a thread at this place is counted in `readersCount`. -/
def RWAt.counted : RWAt → Bool
  | .idle => false
  | .readMutex => false
  | .readCount => false
  | .readWriteLock => true
  | .readUnlock => true
  | .reading => true
  | .relMutex => true
  | .relCount => true
  | .relTest => false
  | .relYield => false
  | .relAgain => false
  | .relWriteLock => false
  | .relUnlock => false
  | .writeLock => false
  | .writing => false

/-- Whether a thread at this place has been let in as a reader and is still counted. -/
def RWAt.admitted : RWAt → Bool
  | .idle => false
  | .readMutex => false
  | .readCount => false
  | .readWriteLock => false
  | .readUnlock => true
  | .reading => true
  | .relMutex => true
  | .relCount => true
  | .relTest => false
  | .relYield => false
  | .relAgain => false
  | .relWriteLock => false
  | .relUnlock => false
  | .writeLock => false
  | .writing => false

/-- What holds of a `ReaderWriterLock` and its threads between steps. -/
structure ReaderWriterLock.Inv (s : ReaderWriterLock) : Prop where
  mutexInv : s.mutex.Inv
  writeInv : s.writeLock.Inv
  holdsMutex : ∀ (u : Nat) (loc : RWAt), s.threads[u]? = some loc → loc.holdsMutex = true →
    s.mutex.holdingThread = some u
  holdsWrite : ∀ (u : Nat) (loc : RWAt), s.threads[u]? = some loc → loc.holdsWrite = true →
    s.writeLock.holdingThread = some u
  count : s.readersCount = (s.threads.countP RWAt.counted : Nat)
  zero : ∀ u : Nat, s.threads[u]? = some .relWriteLock → s.readersCount = 0
  key : (∃ (u : Nat) (loc : RWAt), s.threads[u]? = some loc ∧ loc.admitted = true) →
    ∃ h : Nat, s.writeLock.holdingThread = some h ∧ s.threads[h]? ≠ some .writing

/-- The steps that take thread `t` from outside to inside as a reader when nothing
stands in its way; for the first reader, `first` is set. -/
def readerEnters (t : Nat) (first : Bool) : List (Nat × Bool) :=
  List.replicate (if first then 5 else 4) (t, false)

/-! ## The barrier -/

/-- Where a thread is in `Barrier::AlignedBarrier`: before the statement named.
`outside` is between calls; `inBroadcast`, `inWait`, `inP` and `inAcquire` are in
`condIn->Broadcast` and `condIn->Wait`, and `outBroadcast`, `outWait`, `outP` and
`outAcquire` in those of `condOut`. -/
inductive BarrierAt where
  | outside
  | acquire
  | arrive
  | inBroadcast
  | inWait
  | inP
  | inAcquire
  | leave
  | outBroadcast
  | outWait
  | outP
  | outAcquire
  | release
  deriving DecidableEq, Repr

/-- A thread that uses a barrier: where it is, and how many calls of `AlignedBarrier` it
has returned from. -/
structure BarrierThread where
  place : BarrierAt
  done : Nat
  deriving DecidableEq, Repr

/-- The class `Barrier` of `synch.cc` with the threads that use it: thread `t` is
`threads[t]`. -/
structure Barrier where
  totThreadNum : Int
  arrivedThreadNum : Int
  conditionLock : Lock
  condIn : Condition
  condOut : Condition
  threads : List BarrierThread
  deriving DecidableEq, Repr

/-- The constructor `Barrier::Barrier(debugName, threadNum)`, with `threadNum` threads
that have made no call yet. -/
def Barrier.create (threadNum : Nat) : Barrier :=
  { totThreadNum := threadNum
    arrivedThreadNum := 0
    conditionLock := Lock.create
    condIn := Condition.create
    condOut := Condition.create
    threads := List.replicate threadNum ⟨.outside, 0⟩ }

/-- One step of thread `t`, which calls `AlignedBarrier` `rounds` times: the statements
up to and with the next operation on a lock or a semaphore; an `Acquire` or a `P` that
finds the value 0 leaves the thread where it is, to test again in a later step, and a
step in `Broadcast` is one pass through its loop. -/
def Barrier.step (s : Barrier) (rounds : Nat) (t : Nat) : Except Fault Barrier :=
  match s.threads[t]? with
  | none => .ok s
  | some ⟨.outside, done⟩ =>
    .ok { s with threads := s.threads.set t
                   ⟨if done < rounds then .acquire else .outside, done⟩ }
  | some ⟨.acquire, done⟩ =>
    .ok { s with conditionLock := (s.conditionLock.Acquire t).1,
                 threads := s.threads.set t
                   ⟨if (s.conditionLock.Acquire t).2 then .arrive else .acquire, done⟩ }
  | some ⟨.arrive, done⟩ =>
    .ok { s with arrivedThreadNum := s.arrivedThreadNum + 1,
                 threads := s.threads.set t
                   ⟨if s.arrivedThreadNum + 1 = s.totThreadNum then .inBroadcast
                    else .inWait, done⟩ }
  | some ⟨.inBroadcast, done⟩ =>
    if !s.conditionLock.isHeldByCurrentThread t then .error Fault.assertion
    else if s.condIn.count ≠ 0 then
      .ok { s with condIn := ⟨s.condIn.count - 1, s.condIn.condSem.V.1⟩,
                   threads := s.threads.set t ⟨.inBroadcast, done⟩ }
    else .ok { s with threads := s.threads.set t ⟨.leave, done⟩ }
  | some ⟨.inWait, done⟩ =>
    match s.condIn.Wait s.conditionLock t with
    | .error f => .error f
    | .ok (c, l, _) =>
      .ok { s with condIn := c, conditionLock := l,
                   threads := s.threads.set t ⟨.inP, done⟩ }
  | some ⟨.inP, done⟩ =>
    .ok { s with condIn := { s.condIn with condSem := (s.condIn.condSem.P t).1 },
                 threads := s.threads.set t
                   ⟨if (s.condIn.condSem.P t).2 then .inAcquire else .inP, done⟩ }
  | some ⟨.inAcquire, done⟩ =>
    .ok { s with conditionLock := (s.conditionLock.Acquire t).1,
                 threads := s.threads.set t
                   ⟨if (s.conditionLock.Acquire t).2 then .leave else .inAcquire, done⟩ }
  | some ⟨.leave, done⟩ =>
    .ok { s with arrivedThreadNum := s.arrivedThreadNum - 1,
                 threads := s.threads.set t
                   ⟨if s.arrivedThreadNum - 1 = 0 then .outBroadcast else .outWait, done⟩ }
  | some ⟨.outBroadcast, done⟩ =>
    if !s.conditionLock.isHeldByCurrentThread t then .error Fault.assertion
    else if s.condOut.count ≠ 0 then
      .ok { s with condOut := ⟨s.condOut.count - 1, s.condOut.condSem.V.1⟩,
                   threads := s.threads.set t ⟨.outBroadcast, done⟩ }
    else .ok { s with threads := s.threads.set t ⟨.release, done⟩ }
  | some ⟨.outWait, done⟩ =>
    match s.condOut.Wait s.conditionLock t with
    | .error f => .error f
    | .ok (c, l, _) =>
      .ok { s with condOut := c, conditionLock := l,
                   threads := s.threads.set t ⟨.outP, done⟩ }
  | some ⟨.outP, done⟩ =>
    .ok { s with condOut := { s.condOut with condSem := (s.condOut.condSem.P t).1 },
                 threads := s.threads.set t
                   ⟨if (s.condOut.condSem.P t).2 then .outAcquire else .outP, done⟩ }
  | some ⟨.outAcquire, done⟩ =>
    .ok { s with conditionLock := (s.conditionLock.Acquire t).1,
                 threads := s.threads.set t
                   ⟨if (s.conditionLock.Acquire t).2 then .release else .outAcquire, done⟩ }
  | some ⟨.release, done⟩ =>
    match s.conditionLock.Release t with
    | .error f => .error f
    | .ok (l, _) =>
      .ok { s with conditionLock := l, threads := s.threads.set t ⟨.outside, done + 1⟩ }

/-- The steps of a schedule made in turn, each naming the thread that runs. -/
def Barrier.run (rounds : Nat) : Barrier → List Nat → Except Fault Barrier
  | s, [] => .ok s
  | s, t :: rest =>
    match s.step rounds t with
    | .error f => .error f
    | .ok s1 => run rounds s1 rest

/-- The calls of `AlignedBarrier` a thread has made: those it has returned from, and
the one it is in. -/
def BarrierThread.made (th : BarrierThread) : Nat :=
  th.done + (if th.place = .outside then 0 else 1)

/-- Whether a thread at this place has made `arrivedThreadNum++` in its call. -/
def BarrierAt.arrived : BarrierAt → Bool
  | .outside => false
  | .acquire => false
  | .arrive => false
  | .inBroadcast => true
  | .inWait => true
  | .inP => true
  | .inAcquire => true
  | .leave => true
  | .outBroadcast => true
  | .outWait => true
  | .outP => true
  | .outAcquire => true
  | .release => true

/-- Whether a thread at this place has come through `condIn` in its call: it found all
threads arrived, or its `P` on the semaphore of `condIn` has returned. -/
def BarrierAt.passedIn : BarrierAt → Bool
  | .outside => false
  | .acquire => false
  | .arrive => false
  | .inBroadcast => true
  | .inWait => false
  | .inP => false
  | .inAcquire => true
  | .leave => true
  | .outBroadcast => true
  | .outWait => true
  | .outP => true
  | .outAcquire => true
  | .release => true

/-- Whether a thread at this place has made `arrivedThreadNum--` in its call. -/
def BarrierAt.left : BarrierAt → Bool
  | .outside => false
  | .acquire => false
  | .arrive => false
  | .inBroadcast => false
  | .inWait => false
  | .inP => false
  | .inAcquire => false
  | .leave => false
  | .outBroadcast => true
  | .outWait => true
  | .outP => true
  | .outAcquire => true
  | .release => true

/-- Whether a thread at this place has come through `condOut` in its call. -/
def BarrierAt.passedOut : BarrierAt → Bool
  | .outside => false
  | .acquire => false
  | .arrive => false
  | .inBroadcast => false
  | .inWait => false
  | .inP => false
  | .inAcquire => false
  | .leave => false
  | .outBroadcast => true
  | .outWait => false
  | .outP => false
  | .outAcquire => true
  | .release => true

/-- Whether a thread at this place holds `conditionLock`. -/
def BarrierAt.holdsLock : BarrierAt → Bool
  | .outside => false
  | .acquire => false
  | .arrive => true
  | .inBroadcast => true
  | .inWait => true
  | .inP => false
  | .inAcquire => false
  | .leave => true
  | .outBroadcast => true
  | .outWait => true
  | .outP => false
  | .outAcquire => false
  | .release => true

/-- The calls in which a thread has made `arrivedThreadNum++`. -/
def BarrierThread.arrivals (th : BarrierThread) : Nat := th.done + th.place.arrived.toNat

/-- The calls in which a thread has come through `condIn`. -/
def BarrierThread.passesIn (th : BarrierThread) : Nat := th.done + th.place.passedIn.toNat

/-- The calls in which a thread has made `arrivedThreadNum--`. -/
def BarrierThread.leaves (th : BarrierThread) : Nat := th.done + th.place.left.toNat

/-- The calls in which a thread has come through `condOut`. -/
def BarrierThread.passesOut (th : BarrierThread) : Nat := th.done + th.place.passedOut.toNat

/-- Whether a thread is counted in `arrivedThreadNum`: it has made the increment of its
call and not yet the decrement. -/
def BarrierThread.counted (th : BarrierThread) : Bool := th.place.arrived && !th.place.left

/-- Whether a thread is recorded as a waiter of `condIn` and has not yet come through
`P`. -/
def BarrierThread.waitsIn (th : BarrierThread) : Bool := decide (th.place = .inP)

/-- Whether a thread is recorded as a waiter of `condOut` and has not yet come through
`P`. -/
def BarrierThread.waitsOut (th : BarrierThread) : Bool := decide (th.place = .outP)

/-- What holds of a `Barrier` and its threads between steps. -/
structure Barrier.Inv (s : Barrier) : Prop where
  tot : s.totThreadNum = (s.threads.length : Nat)
  lockInv : s.conditionLock.Inv
  holdsLock : ∀ (u : Nat) (th : BarrierThread), s.threads[u]? = some th →
    th.place.holdsLock = true → s.conditionLock.holdingThread = some u
  arrivedCount : s.arrivedThreadNum = (s.threads.countP BarrierThread.counted : Nat)
  inCount : s.condIn.count + s.condIn.condSem.value
    = (s.threads.countP BarrierThread.waitsIn : Nat)
  inNonneg : 0 ≤ s.condIn.count ∧ 0 ≤ s.condIn.condSem.value
  outCount : s.condOut.count + s.condOut.condSem.value
    = (s.threads.countP BarrierThread.waitsOut : Nat)
  outNonneg : 0 ≤ s.condOut.count ∧ 0 ≤ s.condOut.condSem.value
  gateIn : ∀ (t u : Nat) (tht thu : BarrierThread), s.threads[t]? = some tht →
    s.threads[u]? = some thu → tht.passesIn ≤ thu.arrivals
  gateOut : ∀ (t u : Nat) (tht thu : BarrierThread), s.threads[t]? = some tht →
    s.threads[u]? = some thu → tht.passesOut ≤ thu.leaves
  openIn : 0 < s.condIn.condSem.value →
    ∀ (w u : Nat) (thw thu : BarrierThread), s.threads[w]? = some thw →
      s.threads[u]? = some thu → thw.place = .inP → thw.arrivals ≤ thu.arrivals
  openOut : 0 < s.condOut.condSem.value →
    ∀ (w u : Nat) (thw thu : BarrierThread), s.threads[w]? = some thw →
      s.threads[u]? = some thu → thw.place = .outP → thw.leaves ≤ thu.leaves

/-- A thread has come through `condOut` in its `k`-th call, or is about to: the
semaphore of `condOut` is above 0 and a thread waits on it that has made the decrement
of its `k`-th call. -/
def Barrier.reached (s : Barrier) (k : Nat) : Prop :=
  (∃ (t : Nat) (th : BarrierThread), s.threads[t]? = some th ∧ k ≤ th.passesOut) ∨
  (0 < s.condOut.condSem.value ∧
    ∃ (w : Nat) (th : BarrierThread), s.threads[w]? = some th ∧ th.place = .outP ∧
      k ≤ th.leaves)

/-- The count is back to 0 and every thread has made the decrement of its `k`-th call. -/
def Barrier.allLeft (s : Barrier) (k : Nat) : Prop :=
  s.arrivedThreadNum = 0 ∧ ∀ th ∈ s.threads, k ≤ th.leaves

/-- A schedule of two threads on a barrier of size 2: thread 0 arrives and waits; thread
1 arrives, broadcasts and waits on `condOut`; thread 0 goes through, broadcasts on
`condOut`, returns from its first call, makes its second call and waits on `condIn`;
then thread 1 goes through `condOut` and stands before `conditionLock->Release()`, the
last statement of its first call. -/
def overlappingRounds : List Nat :=
  List.replicate 4 0 ++ List.replicate 7 1 ++ List.replicate 10 0 ++ List.replicate 2 1

/-! ## Reader-writer lock: the first reader and the last -/

/-- Two readers on one lock: thread 0 enters first and thread 1 after it; thread 0 calls
`readRelease` and, holding `writeLock`, yields with `readersCount` at 1; thread 1 calls
`readRelease`, which returns. -/
def lastReaderLeaves : List (Nat × Bool) :=
  readerEnters 0 true ++ readerEnters 1 false ++ List.replicate 5 (0, false)
    ++ List.replicate 4 (1, false)

/-- After `lastReaderLeaves`, thread 1 calls `readAcquire` again and gets to
`writeLock->Acquire()`, then thread 0 gets to `mutex->Acquire()` in its loop. -/
def readerComesBack : List (Nat × Bool) :=
  lastReaderLeaves ++ List.replicate 4 (1, false) ++ [(0, false)]

/-- The thread that holds `writeLock` sleeps in the queue of `mutex`, and the thread that
holds `mutex` sleeps in the queue of `writeLock`. -/
def ReaderWriterLock.Deadlocked (s : ReaderWriterLock) : Prop :=
  ∃ h m : Nat, s.writeLock.holdingThread = some h ∧ h ∈ s.mutex.lockSem.queue ∧
    s.mutex.lockSem.value = 0 ∧
    s.mutex.holdingThread = some m ∧ m ∈ s.writeLock.lockSem.queue ∧
    s.writeLock.lockSem.value = 0

/-- The state of two threads in which thread 0, in the loop of `readRelease`, waits for
`mutex`, and thread 1, in `readAcquire`, waits for `writeLock`. -/
def ReaderWriterLock.Stuck (s : ReaderWriterLock) : Prop :=
  s.threads = [.relAgain, .readWriteLock] ∧
  s.writeLock.holdingThread = some 0 ∧ 0 ∈ s.mutex.lockSem.queue ∧
  s.mutex.lockSem.value = 0 ∧
  s.mutex.holdingThread = some 1 ∧ 1 ∈ s.writeLock.lockSem.queue ∧
  s.writeLock.lockSem.value = 0

instance (s : ReaderWriterLock) : Decidable s.Stuck := by
  unfold ReaderWriterLock.Stuck; infer_instance

/-! ## Page faults: frames and samples -/

/-- No two valid entries of a page table name the same physical frame. -/
def FramesApart (pageTable : List TranslationEntry) : Prop :=
  ∀ (i j : Nat) (a b : TranslationEntry), pageTable[i]? = some a → pageTable[j]? = some b →
    a.valid = true → b.valid = true → a.physicalPage = b.physicalPage → i = j

/-- A process of two pages of which page 0 is in frame 0, the only frame, and page 1 is
on disk; the TLB has four invalid slots. -/
def onePageIn : Machine :=
  ⟨[entry 0 false false 0, entry 0 false false 0, entry 0 false false 0,
      entry 0 false false 0],
    [entry 0 true false 1, entry 1 false false 0]⟩

/-- A swap file of two pages: the bytes of page 0 are all 1, those of page 1 all 2. -/
def twoPageSwap : List Nat := List.replicate PageSize 1 ++ List.replicate PageSize 2

/-- What `PageFaultHandler` leaves for page 1 of `onePageIn` with no free frame, the
memory being one frame of zeros and the swap file `twoPageSwap`: frame 0 is returned,
page 0 is invalid, page 1 is valid in frame 0, and the frame holds the bytes of page 1. -/
def pagedIn : Int × Machine × List Nat × Option (List Nat) :=
  (0, ⟨onePageIn.tlb, [entry 0 false false 1, ⟨1, 0, true, false, false, false, 0, 0⟩]⟩,
    List.replicate PageSize 2, some twoPageSwap)

/-! ## Runs of calls on a directory -/

/-- A call of `Directory::Add` or of `Directory::Remove`. -/
inductive DirCall where
  | Add (name : List Nat) (newSector : Int)
  | Remove (name : List Nat)
  deriving DecidableEq, Repr

/-- The calls made in turn on a directory whose Name File holds the bytes `nf`: the
directory and the Name File they leave. A failed assertion or allocation ends the run. -/
def runDirectory : Directory → List Nat → List DirCall → Except Fault (Directory × List Nat)
  | dir, nf, [] => .ok (dir, nf)
  | dir, nf, .Add name newSector :: rest =>
    match dir.Add (bytesReadAt nf) name newSector with
    | .error f => .error f
    | .ok (_, dir1, none) => runDirectory dir1 nf rest
    | .ok (_, dir1, some w) => runDirectory dir1 (bytesWriteAt nf w) rest
  | dir, nf, .Remove name :: rest =>
    match dir.Remove (bytesReadAt nf) name with
    | .error f => .error f
    | .ok (_, dir1) => runDirectory dir1 nf rest

/-- The name bytes of the in-use entries of a directory are pairwise disjoint. -/
def Directory.DisjointNames (dir : Directory) : Prop :=
  dir.table.Pairwise (fun e e1 =>
    e.inUse = true → e1.inUse = true →
      e.namePosition + e.nameLength ≤ e1.namePosition ∨
      e1.namePosition + e1.nameLength ≤ e.namePosition)

/-- A directory of ten entries, none in use, with a Name File and `nameFilePosition` 0. -/
def emptyDirectory : Directory :=
  (Directory.create ⟨false, 0, 0, 0⟩ 0 10).initialNameFile 7

/-- The calls `Add("a", 3)`, `Add("bc", 4)`, `Remove("a")`, `Add("a", 5)`, `Add("bc", 6)`. -/
def directoryCalls : List DirCall :=
  [.Add [97] 3, .Add [98, 99] 4, .Remove [97], .Add [97] 5, .Add [98, 99] 6]

/-! ## Expand: counting the calls of Find -/

/-- The number of calls of `freeMap->Find()` that the loop of `FileHeader::Expand` over
the slots of one array makes, entered at `i`: the loop of `expandInto`, counting. -/
def expandFinds (numNewSectors numSectors : Int) :
    Nat → Nat → List Int → Int → BitMap → Nat
  | 0, _, _, _, _ => 0
  | n + 1, i, arr, unassignedSectors, m =>
    let fresh := decide (numNewSectors - unassignedSectors ≥ numSectors)
    let arr1 := if fresh then arr.set i m.Find.1 else arr
    let m1 := if fresh then m.Find.2 else m
    (if fresh then 1 else 0) +
      (if arr1.getD i 0 = -1 then 0
        else expandFinds numNewSectors numSectors n (i + 1) arr1 (unassignedSectors - 1) m1)

/-- The number of calls of `Find` that `Expand(freeMap, fileSize)` makes when the new
count of sectors is not above `NumDirect`: none when the count stays, else those of the
loop over `dataSectors`. -/
def FileHeader.directFinds (h : FileHeader) (freeMap : BitMap) (fileSize : Int) : Nat :=
  let numNewSectors := divRoundUp fileSize SectorSize
  if numNewSectors = h.numSectors then 0
  else expandFinds numNewSectors h.numSectors numNewSectors.toNat 0
    (intArray (NumDirect + 1) h.dataSectors) numNewSectors freeMap

/-- A bitmap of `NumSectors` bits in which sector 9 is free and no other. -/
def oneFreeMap : BitMap := fullMap.Clear 9

/-- The bitmap that the allocation of `oneSectorFile` leaves: sector 0 is marked. -/
def oneSectorMap : BitMap :=
  (zeroHeader.Allocate zeroLocals clearMap blankDisk 128 NormalFile).freeMap

/-! ## Stored paths -/

/-- What the disk holds of the path of the inode in `sector`: the fields `pathFileSector`
and `pathLength`, and the `pathLength` bytes read from the Path File, as `getPath` reads
them. -/
def storedPath (fs : FileSystem) (sector : Int) : Int × Int × List Nat :=
  ((FileHeader.FetchFrom fs.disk sector).pathFileSector,
    (FileHeader.FetchFrom fs.disk sector).pathLength,
    (OpenFile.openAt fs.disk (FileHeader.FetchFrom fs.disk sector).pathFileSector).ReadAt
      fs.disk (FileHeader.FetchFrom fs.disk sector).pathLength 0)

/-- The path `/d/name`. -/
def inDirectoryD (name : List Nat) : List Nat := [47, 100, 47] ++ name

/-- A name of 98 characters: 97 times `c`, then `#`. -/
def longName : List Nat := List.replicate 97 99 ++ [35]

/-- The calls that make two files of seven sectors, the directory `/d`, and in it two
files whose names of 60 characters fill its Name File up to byte 127. -/
def filledDirectoryCalls : List Call :=
  [.create [47, 102] 896, .create [47, 103] 896, .create [47, 100] (-1),
    .create (inDirectoryD (List.replicate 60 97)) 0,
    .create (inDirectoryD (List.replicate 60 98)) 0]

/-! # Properties -/

/-! ## The bitmap: `Find` -/

theorem findFree_some {l : List Bool} {i : Nat} (h : findFree l = some i) :
    i < l.length ∧ l.getD i true = false ∧ ∀ j, j < i → l.getD j false = true := by
  induction l generalizing i with
  | nil => simp [findFree] at h
  | cons b bs ih =>
    cases b with
    | false =>
      simp [findFree] at h
      subst h
      simp
    | true =>
      simp only [findFree, if_true, Option.map_eq_some'] at h
      obtain ⟨k, hk, rfl⟩ := h
      obtain ⟨h1, h2, h3⟩ := ih hk
      refine ⟨by simp; omega, by simpa using h2, ?_⟩
      intro j hj
      cases j with
      | zero => simp
      | succ j => simpa using h3 j (by omega)

theorem findFree_none {l : List Bool} (h : findFree l = none) : l.count false = 0 := by
  induction l with
  | nil => simp
  | cons b bs ih =>
    cases b with
    | false => simp [findFree] at h
    | true =>
      simp only [findFree, if_true, Option.map_eq_none'] at h
      simpa using ih h

theorem count_false_set {l : List Bool} {i : Nat} (h1 : i < l.length)
    (h2 : l.getD i true = false) : (l.set i true).count false + 1 = l.count false := by
  induction l generalizing i with
  | nil => simp at h1
  | cons b bs ih =>
    cases i with
    | zero =>
      simp at h2
      subst h2
      simp
    | succ i =>
      simp at h1 h2
      have := ih h1 (by simpa using h2)
      cases b <;> simp [List.count_cons] <;> omega

theorem getD_set_eq {α : Type} (l : List α) (i : Nat) (v d : α) (h : i < l.length) :
    (l.set i v).getD i d = v := by
  simp [List.getD_eq_getElem?_getD, List.getElem?_set, h]

theorem getD_set_ne {α : Type} (l : List α) (i j : Nat) (v d : α) (h : i ≠ j) :
    (l.set i v).getD j d = l.getD j d := by
  simp [List.getD_eq_getElem?_getD, List.getElem?_set, h]

theorem getD_default_of_true {l : List Bool} {i : Nat} (h : l.getD i false = true) :
    i < l.length := by
  by_contra hc
  simp [List.getD_eq_getElem?_getD, List.getElem?_eq_none (Nat.le_of_not_lt hc)] at h

theorem getD_irrel {l : List Bool} {i : Nat} (h : i < l.length) (a b : Bool) :
    l.getD i a = l.getD i b := by
  simp [List.getD_eq_getElem?_getD, List.getElem?_eq_getElem h]

theorem BitMap.Le.refl (m : BitMap) : m.Le m := fun _ h => h

theorem BitMap.Le.trans {a b c : BitMap} (h1 : a.Le b) (h2 : b.Le c) : a.Le c :=
  fun s h => h2 s (h1 s h)

theorem BitMap.Find_fail {m : BitMap} (h : m.Find.1 = -1) : m.Find.2 = m ∧ m.NumClear = 0 := by
  unfold BitMap.Find at h ⊢
  cases hf : findFree m.bits with
  | none => simp [BitMap.NumClear, findFree_none hf]
  | some i =>
    rw [hf] at h
    simp at h

theorem BitMap.Find_ok {m : BitMap} (h : m.Find.1 ≠ -1) :
    m.Free m.Find.1 ∧ m.Find.2.Test m.Find.1 = true ∧ m.Le m.Find.2 ∧
      (∀ s, m.Find.2.Test s = true → s ≠ m.Find.1 → m.Test s = true) ∧
      m.AllBelow (m.Find.1 - 1) ∧ m.Find.2.NumClear + 1 = m.NumClear ∧
      m.Find.2.bits.length = m.bits.length := by
  unfold BitMap.Find at h ⊢
  cases hf : findFree m.bits with
  | none => rw [hf] at h; simp at h
  | some i =>
    obtain ⟨h1, h2, h3⟩ := findFree_some hf
    simp only []
    refine ⟨⟨by omega, by omega, ?_⟩, ?_, ?_, ?_, ?_, ?_, ?_⟩
    · simp only [BitMap.Test, Int.toNat_ofNat]
      rw [getD_irrel h1 false true, h2]
      simp
    · simp only [BitMap.Test, Int.toNat_ofNat]
      rw [getD_set_eq _ _ _ _ h1]
      simp
    · intro s hs
      simp only [BitMap.Test, Bool.and_eq_true, decide_eq_true_eq] at hs ⊢
      refine ⟨hs.1, ?_⟩
      by_cases hi : i = s.toNat
      · subst hi; exact getD_set_eq _ _ _ _ h1
      · rw [getD_set_ne _ _ _ _ _ hi]; exact hs.2
    · intro s hs hne
      simp only [BitMap.Test, Bool.and_eq_true, decide_eq_true_eq] at hs ⊢
      refine ⟨hs.1, ?_⟩
      have hi : i ≠ s.toNat := by omega
      rw [getD_set_ne _ _ _ _ _ hi] at hs
      exact hs.2
    · intro s hs0 hs1
      simp only [BitMap.Test, Bool.and_eq_true, decide_eq_true_eq]
      exact ⟨hs0, h3 _ (by omega)⟩
    · simp only [BitMap.NumClear]
      have := count_false_set h1 h2
      omega
    · simp

theorem BitMap.Free.not_le {m m1 : BitMap} {s : Int} (h : m1.Free s) (hle : m.Le m1)
    (hlen : m1.bits.length = m.bits.length) : m.Free s := by
  refine ⟨h.1, by rw [← hlen]; exact h.2.1, ?_⟩
  cases ht : m.Test s with
  | false => rfl
  | true => have := hle s ht; rw [h.2.2] at this; exact absurd this (by simp)

theorem BitMap.AllBelow.lt_free {m : BitMap} {b s : Int} (h : m.AllBelow b) (hs : m.Free s) :
    b < s := by
  by_contra hc
  have := h s hs.1 (by omega)
  rw [hs.2.2] at this
  exact absurd this (by simp)

theorem BitMap.AllBelow.mono {m m1 : BitMap} {b : Int} (h : m.AllBelow b) (hle : m.Le m1) :
    m1.AllBelow b := fun s h0 h1 => hle s (h s h0 h1)

theorem BitMap.Find_allBelow {m : BitMap} (h : m.Find.1 ≠ -1) : m.Find.2.AllBelow m.Find.1 := by
  obtain ⟨_, h2, h3, _, h5, _, _⟩ := BitMap.Find_ok h
  intro s h0 h1
  by_cases hs : s = m.Find.1
  · rw [hs]; exact h2
  · exact h3 s (h5 s h0 (by omega))

theorem BitMap.Find_ne_of_clear {m : BitMap} (h : 0 < m.NumClear) : m.Find.1 ≠ -1 := by
  intro hc
  have := (BitMap.Find_fail hc).2
  omega

/-- What `n` calls of `Find` in a row, stored at `arr[i], ..., arr[i + n - 1]`, achieve
when the map has `n` free sectors. -/
theorem findInto_spec (n : Nat) : ∀ (i : Nat) (arr : List Int) (m : BitMap) (b : Int),
    (n : Int) ≤ m.NumClear → i + n ≤ arr.length → m.AllBelow b →
    (findInto n i arr m).1.length = arr.length ∧
    (∀ k, k < i ∨ i + n ≤ k → (findInto n i arr m).1.getD k 0 = arr.getD k 0) ∧
    (∀ t, t < n → b < (findInto n i arr m).1.getD (i + t) 0 ∧
      m.Free ((findInto n i arr m).1.getD (i + t) 0) ∧
      (findInto n i arr m).2.Test ((findInto n i arr m).1.getD (i + t) 0) = true ∧
      (findInto n i arr m).2.AllBelow ((findInto n i arr m).1.getD (i + t) 0)) ∧
    (∀ t t1, t < t1 → t1 < n →
      (findInto n i arr m).1.getD (i + t) 0 < (findInto n i arr m).1.getD (i + t1) 0) ∧
    m.Le (findInto n i arr m).2 ∧ (findInto n i arr m).2.NumClear + n = m.NumClear ∧
    (findInto n i arr m).2.AllBelow b ∧
    (findInto n i arr m).2.bits.length = m.bits.length := by
  induction n with
  | zero =>
    intro i arr m b _ _ hb
    simp only [findInto]
    refine ⟨trivial, fun _ _ => trivial, ?_, ?_, BitMap.Le.refl m, by simp, hb, trivial⟩
    · intro t ht; omega
    · intro t t1 _ ht; omega
  | succ n ih =>
    intro i arr m b hn hlen hb
    have hne : m.Find.1 ≠ -1 := BitMap.Find_ne_of_clear (by omega)
    obtain ⟨f1, f2, f3, _, _, f6, f7⟩ := BitMap.Find_ok hne
    have hbx : b < m.Find.1 := hb.lt_free f1
    have habx := BitMap.Find_allBelow hne
    simp only [findInto]
    obtain ⟨i1, i2, i3, i4, i5, i6, i7, i8⟩ :=
      ih (i + 1) (arr.set i m.Find.1) m.Find.2 m.Find.1 (by omega) (by simp; omega) habx
    have hx : (findInto n (i + 1) (arr.set i m.Find.1) m.Find.2).1.getD i 0 = m.Find.1 := by
      rw [i2 i (Or.inl (by omega))]
      exact getD_set_eq _ _ _ _ (by omega)
    refine ⟨by simpa using i1, ?_, ?_, ?_, f3.trans i5, by omega, ?_, by omega⟩
    · intro k hk
      rw [i2 k (by omega)]
      exact getD_set_ne _ _ _ _ _ (by omega)
    · intro t ht
      cases t with
      | zero =>
        simp only [Nat.add_zero]
        rw [hx]
        exact ⟨hbx, f1, i5 _ f2, i7⟩
      | succ t =>
        have e : i + (t + 1) = i + 1 + t := by omega
        rw [e]
        obtain ⟨j1, j2, j3, j4⟩ := i3 t (by omega)
        exact ⟨by omega, j2.not_le f3 f7, j3, j4⟩
    · intro t t1 htt ht1
      cases t1 with
      | zero => omega
      | succ t1 =>
        have e1 : i + (t1 + 1) = i + 1 + t1 := by omega
        rw [e1]
        cases t with
        | zero =>
          simp only [Nat.add_zero]
          rw [hx]
          exact (i3 t1 (by omega)).1
        | succ t =>
          have e : i + (t + 1) = i + 1 + t := by omega
          rw [e]
          exact i4 t t1 (by omega) (by omega)
    · exact (hb.mono f3).mono i5

theorem intArray_length (n : Nat) : ∀ a : List Int, (intArray n a).length = n := by
  induction n with
  | zero => intro a; rfl
  | succ n ih => intro a; simp [intArray, ih]

theorem gtU_of_nonneg {a : Int} (n : Nat) (h : 0 ≤ a) : gtU a n = decide ((n : Int) < a) := by
  unfold gtU
  have : decide (a < 0) = false := by simpa using h
  rw [this]
  simp

/-- What the index-block loop of `Allocate` achieves when it runs to its end. -/
theorem allocLoop_spec (sectors0 : List Int) (hs0 : sectors0.length = NumIndirect)
    (left : Nat) : ∀ (j : Nat) (index : List Int) (un : Int) (m : BitMap) (d : Disk) (b : Int),
    index.length = NumIndirect → 0 ≤ un → j + left = NumIndirect → m.AllBelow b →
    (allocLoop sectors0 left j index un m d).ok = true →
    (∀ k, k < j → (allocLoop sectors0 left j index un m d).index.getD k 0 = index.getD k 0) ∧
    m.Le (allocLoop sectors0 left j index un m d).freeMap ∧
    (allocLoop sectors0 left j index un m d).freeMap.bits.length = m.bits.length ∧
    (∀ s : Int, s ≤ b → (allocLoop sectors0 left j index un m d).disk s = d s) ∧
    (∀ t : Nat, (t : Int) < un →
      b < (allocLoop sectors0 left j index un m d).index.getD (j + t / NumIndirect) 0 ∧
      b < viaIndex (allocLoop sectors0 left j index un m d).disk
        (allocLoop sectors0 left j index un m d).index j t ∧
      m.Free (viaIndex (allocLoop sectors0 left j index un m d).disk
        (allocLoop sectors0 left j index un m d).index j t) ∧
      (allocLoop sectors0 left j index un m d).freeMap.Test
        (viaIndex (allocLoop sectors0 left j index un m d).disk
          (allocLoop sectors0 left j index un m d).index j t) = true) ∧
    (∀ t t1 : Nat, t < t1 → (t1 : Int) < un →
      viaIndex (allocLoop sectors0 left j index un m d).disk
        (allocLoop sectors0 left j index un m d).index j t <
      viaIndex (allocLoop sectors0 left j index un m d).disk
        (allocLoop sectors0 left j index un m d).index j t1) := by
  induction left with
  | zero =>
    intro j index un m d b _ _ _ _ hok
    simp [allocLoop] at hok
  | succ left ih =>
    intro j index un m d b hilen hun hj hb hok
    unfold allocLoop at hok ⊢
    by_cases hz : un = 0
    · simp only [hz, if_true]
      refine ⟨fun _ _ => trivial, BitMap.Le.refl m, trivial, fun _ _ => trivial, ?_, ?_⟩
      · intro t ht; omega
      · intro t t1 _ ht; omega
    · simp only [hz, if_false] at hok ⊢
      by_cases hf : m.Find.1 = -1
      · simp [hf] at hok
      · simp only [hf, if_false] at hok ⊢
        rw [gtU_of_nonneg NumIndirect hun] at hok ⊢
        -- the count of sectors of this index block
        generalize hc : (if decide ((NumIndirect : Int) < un) = true then (NumIndirect : Int)
          else un) = c at hok ⊢
        have hc1 : 1 ≤ c ∧ c ≤ NumIndirect ∧ c ≤ un ∧ (c < un → c = NumIndirect) := by
          have : (NumIndirect : Int) = 32 := by decide
          by_cases h32 : (NumIndirect : Int) < un
          · simp only [h32, decide_True, if_true] at hc; omega
          · simp only [h32, decide_False] at hc; simp at hc; omega
        by_cases hnc : m.Find.2.NumClear < c
        · simp [hnc] at hok
        · simp only [hnc, if_false] at hok ⊢
          by_cases hj1 : j + 1 = NumIndirect
          · simp [hj1] at hok
          · simp only [hj1, if_false] at hok ⊢
            obtain ⟨g1, g2, g3, _, _, _, g7⟩ := BitMap.Find_ok hf
            have hbx : b < m.Find.1 := hb.lt_free g1
            have hcN : (c.toNat : Int) = c := Int.toNat_of_nonneg (by omega)
            have h32 : NumIndirect = 32 := by decide
            obtain ⟨s1, s2, s3, s4, s5, s6, s7, s8⟩ :=
              findInto_spec c.toNat 0 sectors0 m.Find.2 m.Find.1 (by omega) (by omega)
                (BitMap.Find_allBelow hf)
            generalize hr : findInto c.toNat 0 sectors0 m.Find.2 = r at hok s1 s2 s3 s4 s5 s6 s7 s8 ⊢
            have hlast := s3 (c.toNat - 1) (by omega)
            simp only [Nat.zero_add] at hlast s3 s4
            obtain ⟨i1, i2, i3, i4, i5, i6⟩ :=
              ih (j + 1) (index.set j m.Find.1) (un - c) r.2 (WriteSector d m.Find.1 r.1)
                (r.1.getD (c.toNat - 1) 0) (by simpa using hilen) (by omega) (by omega)
                hlast.2.2.2 hok
            generalize hR : allocLoop sectors0 left (j + 1) (index.set j m.Find.1) (un - c) r.2
              (WriteSector d m.Find.1 r.1) = R at hok i1 i2 i3 i4 i5 i6 ⊢
            have hRj : R.index.getD j 0 = m.Find.1 := by
              rw [i1 j (by omega)]
              exact getD_set_eq _ _ _ _ (by omega)
            have hRd : R.disk m.Find.1 = r.1 := by
              rw [i4 _ (by omega)]
              simp [WriteSector]
            -- the data sectors of this index block
            have hfirst : ∀ t : Nat, t < c.toNat → viaIndex R.disk R.index j t = r.1.getD t 0 := by
              intro t ht
              have h1 : t / NumIndirect = 0 := by rw [h32]; omega
              have h2 : t % NumIndirect = t := by rw [h32]; omega
              simp only [viaIndex, h1, h2, Nat.add_zero, hRj, hRd]
            have hrest : ∀ t : Nat, c.toNat ≤ t → (t : Int) < un →
                viaIndex R.disk R.index j t = viaIndex R.disk R.index (j + 1) (t - 32) ∧
                j + t / NumIndirect = j + 1 + (t - 32) / NumIndirect ∧
                ((t - 32 : Nat) : Int) < un - c := by
              intro t ht htu
              have hc32 : c = 32 := by omega
              have h1 : j + t / NumIndirect = j + 1 + (t - 32) / NumIndirect := by
                rw [h32]; omega
              have h2 : t % NumIndirect = (t - 32) % NumIndirect := by rw [h32]; omega
              refine ⟨?_, h1, by omega⟩
              simp only [viaIndex, h1, h2]
            have hle_last : ∀ t : Nat, t < c.toNat → r.1.getD t 0 ≤ r.1.getD (c.toNat - 1) 0 := by
              intro t ht
              by_cases he : t = c.toNat - 1
              · rw [he]
              · exact le_of_lt (s4 t (c.toNat - 1) (by omega) (by omega))
            refine ⟨?_, g3.trans (s5.trans i2), by omega, ?_, ?_, ?_⟩
            · intro k hk
              rw [i1 k (by omega)]
              exact getD_set_ne _ _ _ _ _ (by omega)
            · intro s hs
              rw [i4 s (by omega)]
              simp only [WriteSector]
              rw [if_neg (by omega)]
            · intro t ht
              by_cases htc : t < c.toNat
              · have h1 : t / NumIndirect = 0 := by rw [h32]; omega
                rw [hfirst t htc, h1, Nat.add_zero, hRj]
                obtain ⟨q1, q2, q3, _⟩ := s3 t htc
                exact ⟨hbx, by omega, q2.not_le g3 g7, i2 _ q3⟩
              · obtain ⟨e1, e2, e3⟩ := hrest t (by omega) ht
                rw [e1, e2]
                obtain ⟨q1, q2, q3, q4⟩ := i5 (t - 32) e3
                refine ⟨by omega, by omega, (q3.not_le s5 s8).not_le g3 g7, q4⟩
            · intro t t1 htt ht1
              by_cases htc1 : t1 < c.toNat
              · rw [hfirst t (by omega), hfirst t1 htc1]
                exact s4 t t1 htt htc1
              · obtain ⟨e1, _, e3⟩ := hrest t1 (by omega) ht1
                rw [e1]
                by_cases htc : t < c.toNat
                · rw [hfirst t htc]
                  have := (i5 (t1 - 32) e3).2.1
                  have := hle_last t htc
                  omega
                · obtain ⟨f1, _, f3⟩ := hrest t (by omega) (by omega)
                  rw [f1]
                  have hc32 : c = 32 := by omega
                  exact i6 (t - 32) (t1 - 32) (by omega) e3

theorem NumDirect_eq : NumDirect = 7 := by decide

theorem NumIndirect_eq : NumIndirect = 32 := by decide

theorem SectorSize_eq : SectorSize = 128 := by decide

theorem arrGet_nat (a : List Int) (k : Nat) : arrGet a (k : Int) = a.getD k 0 := by
  simp [arrGet]

theorem ByteToSector_direct (h : FileHeader) (d : Disk) (k : Nat) (hk : k < NumDirect) :
    h.ByteToSector d (((k : Nat) : Int) * (SectorSize : Int)) = h.dataSectors.getD k 0 := by
  rw [NumDirect_eq] at hk
  unfold FileHeader.ByteToSector
  simp only [NumDirect_eq, SectorSize_eq, NumIndirect_eq]
  have h1 : ¬ ((k : Int) * ((128 : Nat) : Int) ≥ ((7 : Nat) : Int) * ((128 : Nat) : Int)) := by
    push_cast; omega
  rw [if_neg h1]
  have h2 : Int.tdiv ((k : Int) * ((128 : Nat) : Int)) ((128 : Nat) : Int) = ((k : Nat) : Int) := by
    rw [Int.tdiv_eq_ediv (by positivity) (by positivity)]
    push_cast
    omega
  rw [h2, arrGet_nat]

theorem ByteToSector_indirect (h : FileHeader) (d : Disk) (t : Nat) :
    h.ByteToSector d ((((t + NumDirect : Nat) : Int)) * (SectorSize : Int)) =
      viaIndex d (d (h.dataSectors.getD NumDirect 0)) 0 t := by
  unfold FileHeader.ByteToSector viaIndex ReadSector
  simp only [NumDirect_eq, SectorSize_eq, NumIndirect_eq]
  have h1 : (((t + 7 : Nat) : Int) * ((128 : Nat) : Int) ≥ ((7 : Nat) : Int) * ((128 : Nat) : Int)) := by
    push_cast; omega
  rw [if_pos h1]
  have e : ((t + 7 : Nat) : Int) * ((128 : Nat) : Int) - ((7 : Nat) : Int) * ((128 : Nat) : Int)
      = ((t * 128 : Nat) : Int) := by push_cast; ring
  rw [e]
  have h2 : Int.tdiv ((t * 128 : Nat) : Int) (((32 : Nat) : Int) * ((128 : Nat) : Int))
      = ((t / 32 : Nat) : Int) := by
    rw [Int.tdiv_eq_ediv (by positivity) (by positivity)]
    push_cast
    omega
  have h3 : Int.tdiv (Int.tmod ((t * 128 : Nat) : Int) (((32 : Nat) : Int) * ((128 : Nat) : Int)))
      ((128 : Nat) : Int) = ((t % 32 : Nat) : Int) := by
    rw [Int.tmod_eq_emod (by positivity) (by positivity),
      Int.tdiv_eq_ediv (Int.emod_nonneg _ (by decide)) (by positivity)]
    push_cast
    omega
  rw [h2, h3, arrGet_nat, arrGet_nat, Nat.zero_add]

theorem divRoundUp_nonneg {n : Int} (h : 0 ≤ n) :
    divRoundUp n SectorSize = (n + 127) / 128 := by
  unfold divRoundUp
  rw [SectorSize_eq, Int.tdiv_eq_ediv h (by positivity), Int.tmod_eq_emod h (by positivity)]
  push_cast
  split <;> omega

/-! ## `Allocate`, `Deallocate`, `Expand` -/

theorem allBelow_neg_one (m : BitMap) : m.AllBelow (-1) := by
  intro s h0 h1; omega

/-- C4. When `Allocate` returns TRUE for a size `fileSize ≥ 0`, the header has
`numBytes = fileSize` and `numSectors = ⌈fileSize / SectorSize⌉`; the sectors
`ByteToSector(k * SectorSize)`, `0 ≤ k < numSectors`, were free in the bitmap before the
call, are allocated after it, and are pairwise distinct; they are the direct slots for
`k < NumDirect`, and the entries of the two-level index for `k ≥ NumDirect`. -/
theorem Allocate_maps_fresh_distinct_sectors (h : FileHeader) (loc : Locals) (m : BitMap)
    (d : Disk) (fileSize FileType : Int) (hsize : 0 ≤ fileSize)
    (hok : (h.Allocate loc m d fileSize FileType).ok = true) :
    let r := h.Allocate loc m d fileSize FileType
    r.hdr.numBytes = fileSize ∧
    (r.hdr.numSectors - 1) * SectorSize < fileSize ∧ fileSize ≤ r.hdr.numSectors * SectorSize ∧
    (∀ k : Nat, (k : Int) < r.hdr.numSectors →
      m.Free (r.hdr.ByteToSector r.disk ((k : Int) * SectorSize)) ∧
      r.freeMap.Test (r.hdr.ByteToSector r.disk ((k : Int) * SectorSize)) = true) ∧
    (∀ k k1 : Nat, (k : Int) < r.hdr.numSectors → (k1 : Int) < r.hdr.numSectors → k ≠ k1 →
      r.hdr.ByteToSector r.disk ((k : Int) * SectorSize) ≠
        r.hdr.ByteToSector r.disk ((k1 : Int) * SectorSize)) ∧
    (∀ k : Nat, (k : Int) < r.hdr.numSectors → k < NumDirect →
      r.hdr.ByteToSector r.disk ((k : Int) * SectorSize) = r.hdr.dataSectors.getD k 0) ∧
    (∀ k : Nat, (k : Int) < r.hdr.numSectors → NumDirect ≤ k →
      r.hdr.ByteToSector r.disk ((k : Int) * SectorSize) =
        viaIndex r.disk (r.disk (r.hdr.dataSectors.getD NumDirect 0)) 0 (k - NumDirect)) := by
  intro r
  -- the sectors are strictly increasing in `k`, which gives distinctness
  suffices hmain : r.hdr.numBytes = fileSize ∧
      (r.hdr.numSectors - 1) * SectorSize < fileSize ∧
      fileSize ≤ r.hdr.numSectors * SectorSize ∧
      (∀ k : Nat, (k : Int) < r.hdr.numSectors →
        m.Free (r.hdr.ByteToSector r.disk ((k : Int) * SectorSize)) ∧
        r.freeMap.Test (r.hdr.ByteToSector r.disk ((k : Int) * SectorSize)) = true) ∧
      (∀ k k1 : Nat, k < k1 → (k1 : Int) < r.hdr.numSectors →
        r.hdr.ByteToSector r.disk ((k : Int) * SectorSize) <
          r.hdr.ByteToSector r.disk ((k1 : Int) * SectorSize)) by
    obtain ⟨m1, m2, m3, m4, m5⟩ := hmain
    refine ⟨m1, m2, m3, m4, ?_, ?_, ?_⟩
    · intro k k1 hk hk1 hne
      rcases Nat.lt_or_gt_of_ne hne with hlt | hgt
      · exact ne_of_lt (m5 k k1 hlt hk1)
      · exact ne_of_gt (m5 k1 k hgt hk)
    · intro k _ hk
      exact ByteToSector_direct _ _ k hk
    · intro k _ hk
      have := ByteToSector_indirect r.hdr r.disk (k - NumDirect)
      rw [Nat.sub_add_cancel hk] at this
      exact this
  have hns := divRoundUp_nonneg hsize
  have hS : (SectorSize : Int) = 128 := by decide
  have hD : (NumDirect : Int) = 7 := by decide
  have hlen8 := intArray_length (NumDirect + 1) h.dataSectors
  have hr : r = h.Allocate loc m d fileSize FileType := rfl
  unfold FileHeader.Allocate at hok hr
  generalize hnsd : divRoundUp fileSize SectorSize = ns at hok hr hns
  have hns0 : 0 ≤ ns := by omega
  have hb1 : (ns - 1) * (SectorSize : Int) < fileSize := by rw [hS]; omega
  have hb2 : fileSize ≤ ns * (SectorSize : Int) := by rw [hS]; omega
  simp only [] at hok hr
  rw [gtU_of_nonneg NumDirect hns0] at hok hr
  by_cases hbig : (NumDirect : Int) < ns
  · -- the file needs the index
    simp only [hbig, decide_True, if_true] at hok hr
    by_cases hc7 : m.NumClear < (NumDirect : Int)
    · simp [hc7] at hok
    · simp only [hc7, if_false] at hok hr
      obtain ⟨s1, s2, s3, s4, s5, s6, s7, s8⟩ :=
        findInto_spec NumDirect 0 (intArray (NumDirect + 1) h.dataSectors) m (-1)
          (by omega) (by rw [hlen8]; omega) (allBelow_neg_one m)
      generalize hr1 : findInto NumDirect 0 (intArray (NumDirect + 1) h.dataSectors) m = r1
        at hok hr s1 s2 s3 s4 s5 s6 s7 s8
      simp only [Nat.zero_add] at s3 s4
      by_cases hf : r1.2.Find.1 = -1
      · simp [hf] at hok
      · simp only [hf, if_false] at hok hr
        obtain ⟨g1, g2, g3, _, _, _, g7⟩ := BitMap.Find_ok hf
        obtain ⟨l1, l2, l3, l4, l5, l6⟩ :=
          allocLoop_spec (intArray NumIndirect loc.sectors) (intArray_length _ _) NumIndirect 0
            (intArray NumIndirect loc.index) (ns - NumDirect) r1.2.Find.2 d r1.2.Find.1
            (intArray_length _ _) (by omega) (by omega) (BitMap.Find_allBelow hf)
            (by
              by_contra hc
              simp only [Bool.not_eq_true] at hc
              simp [hc] at hok)
        generalize hl : allocLoop (intArray NumIndirect loc.sectors) NumIndirect 0
          (intArray NumIndirect loc.index) (ns - NumDirect) r1.2.Find.2 d = l
          at hok hr l1 l2 l3 l4 l5 l6
        have hlok : l.ok = true := by
          by_contra hc
          simp only [Bool.not_eq_true] at hc
          simp [hc] at hok
        simp only [hlok, if_true] at hr
        -- what the header and the disk hold at the end
        have hds7 : r.hdr.dataSectors.getD NumDirect 0 = r1.2.Find.1 := by
          rw [hr]; exact getD_set_eq _ _ _ _ (by rw [s1, hlen8]; omega)
        have hdsk : ∀ k : Nat, k < NumDirect → r.hdr.dataSectors.getD k 0 = r1.1.getD k 0 := by
          intro k hk
          rw [hr]; exact getD_set_ne _ _ _ _ _ (by omega)
        have hvia : ∀ t : Nat, (t : Int) < ns - NumDirect →
            viaIndex r.disk (r.disk (r.hdr.dataSectors.getD NumDirect 0)) 0 t
              = viaIndex l.disk l.index 0 t := by
          intro t ht
          have hgt := (l5 t ht).1
          rw [hds7]
          simp only [viaIndex, hr, WriteSector, if_true]
          rw [if_neg (by omega)]
        have hnsr : r.hdr.numSectors = ns := by rw [hr]
        have hdirect : ∀ k : Nat, k < NumDirect →
            r.hdr.ByteToSector r.disk ((k : Int) * SectorSize) = r1.1.getD k 0 := by
          intro k hk
          rw [ByteToSector_direct _ _ k hk, hdsk k hk]
        have hindirect : ∀ k : Nat, NumDirect ≤ k → (k : Int) < ns →
            r.hdr.ByteToSector r.disk ((k : Int) * SectorSize)
              = viaIndex l.disk l.index 0 (k - NumDirect) := by
          intro k hk hkn
          have := ByteToSector_indirect r.hdr r.disk (k - NumDirect)
          rw [Nat.sub_add_cancel hk] at this
          rw [this]
          exact hvia _ (by omega)
        have hfm : r.freeMap = l.freeMap := by rw [hr]
        have hlt7 : ∀ t : Nat, t < NumDirect → r1.1.getD t 0 < r1.2.Find.1 := by
          intro t ht
          exact (s3 t ht).2.2.2.lt_free g1
        rw [hnsr]
        refine ⟨by rw [hr], hb1, hb2, ?_, ?_⟩
        · intro k hk
          by_cases hk7 : k < NumDirect
          · rw [hdirect k hk7, hfm]
            obtain ⟨_, q2, q3, _⟩ := s3 k hk7
            exact ⟨q2, l2 _ (g3 _ q3)⟩
          · rw [hindirect k (by omega) hk, hfm]
            obtain ⟨_, _, q3, q4⟩ := l5 (k - NumDirect) (by omega)
            exact ⟨(q3.not_le g3 g7).not_le s5 s8, q4⟩
        · intro k k1 hkk hk1
          by_cases hk7 : k1 < NumDirect
          · rw [hdirect k (by omega), hdirect k1 hk7]
            exact s4 k k1 hkk hk7
          · rw [hindirect k1 (by omega) hk1]
            by_cases hk7' : k < NumDirect
            · rw [hdirect k hk7']
              have := hlt7 k hk7'
              have := (l5 (k1 - NumDirect) (by omega)).2.1
              omega
            · rw [hindirect k (by omega) (by omega)]
              exact l6 _ _ (by omega) (by omega)
  · -- the file fits the direct slots
    simp only [hbig, decide_False] at hok hr
    simp only [Bool.false_eq_true, if_false] at hok hr
    by_cases hc : m.NumClear < ns
    · simp [hc] at hok
    · simp only [hc, if_false] at hr
      have hnN : (ns.toNat : Int) = ns := Int.toNat_of_nonneg hns0
      obtain ⟨s1, s2, s3, s4, s5, s6, s7, s8⟩ :=
        findInto_spec ns.toNat 0 (intArray (NumDirect + 1) h.dataSectors) m (-1)
          (by omega) (by rw [hlen8]; omega) (allBelow_neg_one m)
      generalize hr1 : findInto ns.toNat 0 (intArray (NumDirect + 1) h.dataSectors) m = r1
        at hr s1 s2 s3 s4 s5 s6 s7 s8
      simp only [Nat.zero_add] at s3 s4
      have hnsr : r.hdr.numSectors = ns := by rw [hr]
      have hdirect : ∀ k : Nat, (k : Int) < ns →
          r.hdr.ByteToSector r.disk ((k : Int) * SectorSize) = r1.1.getD k 0 := by
        intro k hk
        rw [ByteToSector_direct _ _ k (by omega), hr]
      have hfm : r.freeMap = r1.2 := by rw [hr]
      rw [hnsr]
      refine ⟨by rw [hr], hb1, hb2, ?_, ?_⟩
      · intro k hk
        rw [hdirect k hk, hfm]
        obtain ⟨_, q2, q3, _⟩ := s3 k (by omega)
        exact ⟨q2, q3⟩
      · intro k k1 hkk hk1
        rw [hdirect k (by omega), hdirect k1 hk1]
        exact s4 k k1 hkk (by omega)

theorem BitMap.Find_le (m : BitMap) : m.Le m.Find.2 := by
  by_cases h : m.Find.1 = -1
  · rw [(BitMap.Find_fail h).1]; exact BitMap.Le.refl m
  · exact (BitMap.Find_ok h).2.2.1

theorem findInto_le (n : Nat) : ∀ (i : Nat) (arr : List Int) (m : BitMap),
    m.Le (findInto n i arr m).2 := by
  induction n with
  | zero => intro i arr m; exact BitMap.Le.refl m
  | succ n ih =>
    intro i arr m
    simp only [findInto]
    exact (BitMap.Find_le m).trans (ih _ _ _)

theorem allocLoop_le (sectors0 : List Int) (left : Nat) :
    ∀ (j : Nat) (index : List Int) (un : Int) (m : BitMap) (d : Disk),
    m.Le (allocLoop sectors0 left j index un m d).freeMap := by
  induction left with
  | zero => intro j index un m d; exact BitMap.Le.refl m
  | succ left ih =>
    intro j index un m d
    unfold allocLoop
    simp only []
    generalize (if gtU un NumIndirect = true then (NumIndirect : Int) else un) = c
    split
    · exact BitMap.Le.refl m
    · split
      · exact BitMap.Find_le m
      · split
        · exact BitMap.Find_le m
        · split
          · exact (BitMap.Find_le m).trans (findInto_le _ _ _ _)
          · exact ((BitMap.Find_le m).trans (findInto_le _ _ _ _)).trans (ih _ _ _ _ _)

/-- C5, as the code has it. When `Allocate` returns FALSE for a file that fits the direct
slots, the bitmap holds exactly the bits it held before the call; for every file size,
whatever is returned, a sector allocated before the call is still allocated after it: a
failed call for a file that needs indirect blocks can only leave more sectors marked. -/
theorem Allocate_failure_keeps_allocated (h : FileHeader) (loc : Locals) (m : BitMap)
    (d : Disk) (fileSize FileType : Int)
    (hfail : (h.Allocate loc m d fileSize FileType).ok = false) :
    (0 ≤ fileSize ∧ fileSize ≤ (NumDirect : Int) * SectorSize →
      (h.Allocate loc m d fileSize FileType).freeMap = m) ∧
    m.Le (h.Allocate loc m d fileSize FileType).freeMap := by
  constructor
  · intro hfit
    have hns := divRoundUp_nonneg hfit.1
    have hS : (SectorSize : Int) = 128 := by decide
    have hD : (NumDirect : Int) = 7 := by decide
    rw [hS, hD] at hfit
    unfold FileHeader.Allocate at hfail ⊢
    generalize divRoundUp fileSize SectorSize = ns at hfail hns ⊢
    simp only [] at hfail ⊢
    rw [gtU_of_nonneg NumDirect (by omega)] at hfail ⊢
    have hbig : ¬ ((NumDirect : Int) < ns) := by omega
    simp only [hbig, decide_False, Bool.false_eq_true, if_false] at hfail ⊢
    by_cases hc : m.NumClear < ns
    · simp [hc]
    · simp [hc] at hfail
  · unfold FileHeader.Allocate
    simp only []
    split
    · split
      · exact BitMap.Le.refl m
      · split
        · exact (findInto_le _ _ _ _).trans (BitMap.Find_le _)
        · split
          · exact ((findInto_le _ _ _ _).trans (BitMap.Find_le _)).trans (allocLoop_le _ _ _ _ _ _ _)
          · exact ((findInto_le _ _ _ _).trans (BitMap.Find_le _)).trans (allocLoop_le _ _ _ _ _ _ _)
    · split
      · exact BitMap.Le.refl m
      · exact findInto_le _ _ _ _

set_option maxRecDepth 100000 in
/-- The hypotheses of `Allocate_maps_fresh_distinct_sectors` hold for a file of 1024 bytes
allocated from a clear bitmap. -/
theorem Allocate_maps_fresh_distinct_sectors_witness :
    (0 : Int) ≤ 1024 ∧
    (zeroHeader.Allocate zeroLocals clearMap blankDisk 1024 NormalFile).ok = true ∧
    (zeroHeader.Allocate zeroLocals clearMap blankDisk 1024 NormalFile).hdr.numBytes = 1024 :=
  ⟨by decide, by decide!,
    (Allocate_maps_fresh_distinct_sectors zeroHeader zeroLocals clearMap blankDisk 1024
      NormalFile (by decide) (by decide!)).1⟩

set_option maxRecDepth 100000 in
/-- C5, counterexample. With seven sectors free, `Allocate` for a file of eight sectors
returns FALSE and leaves the bitmap changed: the seven sectors are marked. -/
theorem Allocate_failure_alters_bitmap :
    (zeroHeader.Allocate zeroLocals sevenFreeMap blankDisk 1024 NormalFile).ok = false ∧
    (zeroHeader.Allocate zeroLocals sevenFreeMap blankDisk 1024 NormalFile).freeMap
      ≠ sevenFreeMap ∧
    (zeroHeader.Allocate zeroLocals sevenFreeMap blankDisk 1024 NormalFile).freeMap.NumClear
      = 0 := by
  decide!

set_option maxRecDepth 100000 in
/-- The hypothesis of `Allocate_failure_keeps_allocated` holds for a file of 1024 bytes
and a bitmap with seven sectors free. -/
theorem Allocate_failure_keeps_allocated_witness :
    (zeroHeader.Allocate zeroLocals sevenFreeMap blankDisk 1024 NormalFile).ok = false ∧
    sevenFreeMap.Le
      (zeroHeader.Allocate zeroLocals sevenFreeMap blankDisk 1024 NormalFile).freeMap :=
  ⟨by decide!,
    (Allocate_failure_keeps_allocated zeroHeader zeroLocals sevenFreeMap blankDisk 1024
      NormalFile (by decide!)).2⟩

set_option maxRecDepth 100000 in
/-- C2, the defect. For a file of eight sectors allocated from a clear bitmap, sector 7 is
the indirect-of-indirects sector; `Deallocate` returns a bitmap in which sector 7 is still
allocated, so the bitmap is not back at its value before `Allocate`. -/
theorem Deallocate_leaves_indirect_sector_marked :
    eightSectorFile.ok = true ∧
    eightSectorFile.hdr.dataSectors.getD NumDirect 0 = 7 ∧
    clearMap.Test 7 = false ∧
    (eightSectorFile.hdr.Deallocate eightSectorFile.freeMap eightSectorFile.disk).toOption.map
      (fun m => (m.Test 7, decide (m = clearMap), decide (m = clearMap.Mark 7)))
      = some (true, false, true) := by
  decide!

set_option maxRecDepth 100000 in
/-- C3, the defect. A file of eight sectors has byte 896 in sector 9. `Expand` to nine
sectors returns TRUE, and afterwards `ByteToSector(896)` is 0: the index block has been
rebuilt from the uninitialised local arrays, here holding zeros. -/
theorem Expand_loses_indirect_sectors :
    eightSectorFile.hdr.numSectors = 8 ∧
    eightSectorFile.hdr.ByteToSector eightSectorFile.disk 896 = 9 ∧
    (eightSectorFile.hdr.Expand zeroLocals eightSectorFile.freeMap eightSectorFile.disk
        1152).toOption.map (fun e => (e.ok, e.hdr.numSectors, e.hdr.ByteToSector e.disk 896))
      = some (true, 9, 0) := by
  decide!

set_option maxRecDepth 100000 in
/-- C1, the defect. On a freshly formatted disk `Create("/f", 1024)` and `Remove("/f")`
both return TRUE, and the persisted bitmap then differs from the one before `Create`:
sector 18, the indirect-of-indirects sector of the file, stays allocated. -/
theorem Create_Remove_leaves_sector_marked :
    (match FileSystem.format zeroEnv blankDisk with
      | .error _ => none
      | .ok fs =>
        match fs.Create zeroEnv [47, 102] 1024 with
        | .error _ => none
        | .ok (r1, fs1) =>
          match fs1.Remove zeroEnv [47, 102] with
          | .error _ => none
          | .ok (r2, fs2) =>
            some (r1, r2, (persistedMap fs).Test 18,
              (persistedMap fs2).bits == ((persistedMap fs).Mark 18).bits))
      = some (true, true, false, true) := by
  decide!

/-! ## Directories: lookup and the Name File -/

theorem buffer_length (n : Nat) : ∀ b : List Nat, (buffer n b).length = n := by
  induction n with
  | zero => intro b; rfl
  | succ n ih => intro b; simp [buffer, ih]

theorem buffer_eq_self : ∀ (b : List Nat), buffer b.length b = b := by
  intro b
  induction b with
  | nil => rfl
  | cons x xs ih => simp [buffer, ih]

theorem buffer_eq_take (n : Nat) : ∀ (b : List Nat), n ≤ b.length → buffer n b = b.take n := by
  induction n with
  | zero => intro b _; rfl
  | succ n ih =>
    intro b hb
    cases b with
    | nil => simp at hb
    | cons x xs =>
      simp only [buffer, List.headD_cons, List.tail_cons, List.take_succ_cons]
      rw [ih xs (by simpa using hb)]

theorem buffer_cstr (name : List Nat) : buffer (strlen name + 1) name = cstr name ++ [0] := by
  induction name with
  | nil => rfl
  | cons c cs ih =>
    by_cases hc : c = 0
    · subst hc
      simp [strlen, cstr, buffer]
    · have e1 : cstr (c :: cs) = c :: cstr cs := by simp [cstr, hc]
      have e2 : strlen (c :: cs) = strlen cs + 1 := by simp [strlen, e1]
      rw [e1, e2]
      simp only [buffer, List.headD_cons, List.tail_cons, List.cons_append]
      rw [← ih]
      simp [buffer]

theorem cstr_no_zero (name : List Nat) : 0 ∉ cstr name := by
  intro h
  have := List.mem_takeWhile_imp h
  simp at this

/-- The comparison of `FindIndex`, for a stored NUL-terminated string. -/
theorem strncmpEq_stored (s : List Nat) (hs : 0 ∉ s) :
    ∀ name : List Nat, strncmpEq (s.length + 1) (s ++ [0]) name = true ↔ s = cstr name := by
  induction s with
  | nil =>
    intro name
    cases name with
    | nil => simp [strncmpEq, cstr]
    | cons c cs =>
      by_cases hc : c = 0
      · subst hc; simp [strncmpEq, cstr]
      · have : (0 : Nat) ≠ c := fun h => hc h.symm
        simp [strncmpEq, cstr, hc, this]
  | cons a as ih =>
    intro name
    have ha : a ≠ 0 := by
      intro h; apply hs; simp [h]
    have has : 0 ∉ as := by
      intro h; apply hs; simp [h]
    cases name with
    | nil =>
      simp [strncmpEq, cstr, ha]
    | cons c cs =>
      by_cases hac : a = c
      · subst hac
        have e1 : cstr (a :: cs) = a :: cstr cs := by simp [cstr, ha]
        rw [e1]
        simp only [List.length_cons, strncmpEq, List.cons_append, List.headD_cons, ne_eq,
          not_true_eq_false, if_false, ha, List.tail_cons, List.cons.injEq, true_and]
        exact ih has cs
      · have : cstr (c :: cs) ≠ a :: as := by
          by_cases hc : c = 0
          · subst hc; simp [cstr]
          · simp [cstr, hc]; intro h; exact absurd h.symm hac
        simp [strncmpEq, hac]
        exact fun h => this h.symm

theorem findIndexFrom_eq (rd : NameReader) (name : List Nat) :
    ∀ (t : List DirectoryEntry) (i : Nat),
    (∀ e ∈ t, e.inUse = true → 0 ≤ e.nameLength) →
    Directory.findIndexFrom rd name t i =
      .ok (match firstHit (hit rd name) t with
        | some k => ((i + k : Nat) : Int)
        | none => -1) := by
  intro t
  induction t with
  | nil => intro i _; rfl
  | cons e es ih =>
    intro i hlen
    have hes : ∀ e1 ∈ es, e1.inUse = true → 0 ≤ e1.nameLength :=
      fun e1 h1 => hlen e1 (List.mem_cons_of_mem _ h1)
    have hrec := ih (i + 1) hes
    unfold Directory.findIndexFrom
    simp only [firstHit, hit]
    by_cases hu : e.inUse = true
    · have h0 := hlen e (List.mem_cons_self _ _) hu
      simp only [hu, if_true, Bool.true_and, if_neg (not_lt.mpr h0)]
      by_cases hm : strncmpEq e.nameLength.toNat
          (buffer e.nameLength.toNat (rd e.nameLength e.namePosition)) name = true
      · simp [hm]
      · simp only [hm, if_false]
        rw [hrec]
        cases firstHit (hit rd name) es with
        | none => simp
        | some k =>
          simp only [Option.map_some', Bool.false_eq_true, if_false]
          congr 1
          push_cast
          omega
    · have hu1 : e.inUse = false := by simpa using hu
      simp only [hu1, Bool.false_and, Bool.false_eq_true, if_false]
      rw [hrec]
      cases firstHit (hit rd name) es with
      | none => rfl
      | some k => simp only [Option.map_some']; congr 2; omega

theorem storedName_length {nf : List Nat} {p : Int} {e : DirectoryEntry}
    (h : EntryOk nf p e) (hp : p ≤ (nf.length : Int)) :
    (storedName nf e).length = e.nameLength.toNat := by
  obtain ⟨h1, h2, h3, _⟩ := h
  simp only [storedName, List.length_take, List.length_drop]
  omega

theorem bytesReadAt_stored {nf : List Nat} {p : Int} {e : DirectoryEntry}
    (h : EntryOk nf p e) (hp : p ≤ (nf.length : Int)) :
    buffer e.nameLength.toNat (bytesReadAt nf e.nameLength e.namePosition) = storedName nf e := by
  have hl := storedName_length h hp
  obtain ⟨h1, h2, h3, _⟩ := h
  unfold bytesReadAt
  rw [if_neg (by omega)]
  have : (List.take e.nameLength.toNat (List.drop e.namePosition.toNat nf)) = storedName nf e := rfl
  rw [this, ← hl]
  exact buffer_eq_self _

/-- For a well-formed entry in use, `FindIndex` stops exactly when the stored string is `name`. -/
theorem hit_iff {nf : List Nat} {p : Int} {e : DirectoryEntry} (name : List Nat)
    (h : EntryOk nf p e) (hp : p ≤ (nf.length : Int)) (hu : e.inUse = true) :
    hit (bytesReadAt nf) name e = true ↔ storedName nf e = cstr name ++ [0] := by
  have hl := storedName_length h hp
  have hb := bytesReadAt_stored h hp
  obtain ⟨_, _, _, s, hs, hs0⟩ := h
  unfold hit
  rw [hu, Bool.true_and, hb]
  rw [hs] at hl ⊢
  have : e.nameLength.toNat = s.length + 1 := by simpa using hl.symm
  rw [this, strncmpEq_stored s hs0 name]
  simp

theorem take_drop_append_left (a b : List Nat) (p n : Nat) (h : p + n ≤ a.length) :
    ((a ++ b).drop p).take n = (a.drop p).take n := by
  rw [List.drop_append_of_le_length (by omega)]
  rw [List.take_append_of_le_length (by simp; omega)]

/-- The write that `Add` makes leaves the names stored below the append position. -/
theorem storedName_write {nf : List Nat} {e : DirectoryEntry} (w : NameWrite)
    (h : EntryOk nf w.position e) (hp : w.position ≤ (nf.length : Int)) (hn : 1 ≤ w.numBytes) :
    storedName (bytesWriteAt nf w) e = storedName nf e := by
  obtain ⟨h1, h2, h3, _⟩ := h
  unfold bytesWriteAt storedName
  rw [if_neg (by omega), List.append_assoc, buffer_eq_take _ _ (by omega)]
  rw [take_drop_append_left _ _ _ _ (by simp; omega)]
  rw [List.drop_take]
  rw [List.take_take]
  congr 1
  omega

/-- The write that `Add` makes stores the name, NUL-terminated, at the append position. -/
theorem storedName_new (nf : List Nat) (name : List Nat) (p : Int) (sector : Int)
    (h0 : 0 ≤ p) :
    storedName (bytesWriteAt nf ⟨name, (strlen name : Int) + 1, p⟩)
      ⟨true, sector, p, (strlen name : Int) + 1⟩ = cstr name ++ [0] := by
  unfold bytesWriteAt storedName
  simp only []
  rw [if_neg (by omega), List.append_assoc]
  have hl : (buffer p.toNat nf).length = p.toNat := buffer_length _ _
  rw [List.drop_append_of_le_length (by omega), List.drop_of_length_le (by omega),
    List.nil_append]
  have e1 : ((strlen name : Int) + 1).toNat = strlen name + 1 := by omega
  rw [e1, List.take_append_of_le_length (by rw [buffer_length])]
  rw [List.take_of_length_le (by rw [buffer_length])]
  exact buffer_cstr name

theorem firstHit_none_iff (p : DirectoryEntry → Bool) (t : List DirectoryEntry) :
    firstHit p t = none ↔ ∀ e ∈ t, p e = false := by
  induction t with
  | nil => simp [firstHit]
  | cons e es ih =>
    by_cases h : p e = true
    · simp [firstHit, h]
    · have h1 : p e = false := by simpa using h
      simp [firstHit, h1, ih]

theorem firstHit_some_spec (p : DirectoryEntry → Bool) :
    ∀ (t : List DirectoryEntry) (k : Nat), firstHit p t = some k →
      ∃ e, t[k]? = some e ∧ p e = true ∧
        ∀ (j : Nat) (e1 : DirectoryEntry), j < k → t[j]? = some e1 → p e1 = false := by
  intro t
  induction t with
  | nil => intro k h; simp [firstHit] at h
  | cons e es ih =>
    intro k h
    by_cases hp : p e = true
    · simp only [firstHit, hp, if_true, Option.some.injEq] at h
      subst h
      exact ⟨e, by simp, hp, fun j e1 hj _ => by omega⟩
    · have hp1 : p e = false := by simpa using hp
      rw [firstHit, hp1] at h
      simp only [Bool.false_eq_true, if_false, Option.map_eq_some'] at h
      obtain ⟨k1, hk1, rfl⟩ := h
      obtain ⟨e0, h1, h2, h3⟩ := ih k1 hk1
      refine ⟨e0, by simpa using h1, h2, ?_⟩
      intro j e1 hj hj1
      cases j with
      | zero =>
        simp at hj1
        subst hj1
        simpa using hp
      | succ j => exact h3 j e1 (by omega) (by simpa using hj1)

theorem firstHit_eq_some (p : DirectoryEntry → Bool) :
    ∀ (t : List DirectoryEntry) (k : Nat) (e : DirectoryEntry), t[k]? = some e → p e = true →
      (∀ (j : Nat) (e1 : DirectoryEntry), j < k → t[j]? = some e1 → p e1 = false) →
      firstHit p t = some k := by
  intro t
  induction t with
  | nil => intro k e h; simp at h
  | cons a as ih =>
    intro k e h hp hbefore
    cases k with
    | zero =>
      simp at h
      subst h
      simp [firstHit, hp]
    | succ k =>
      have ha : p a = false := hbefore 0 a (by omega) (by simp)
      simp only [firstHit, ha, Bool.false_eq_true, if_false]
      rw [ih k e (by simpa using h) hp
        (fun j e1 hj hj1 => hbefore (j + 1) e1 (by omega) (by simpa using hj1))]
      rfl

theorem firstHit_congr (p q : DirectoryEntry → Bool) :
    ∀ (t t1 : List DirectoryEntry), t.length = t1.length →
      (∀ (j : Nat) (e e1 : DirectoryEntry), t[j]? = some e → t1[j]? = some e1 → p e = q e1) →
      firstHit p t = firstHit q t1 := by
  intro t
  induction t with
  | nil =>
    intro t1 hl _
    cases t1 with
    | nil => rfl
    | cons _ _ => simp at hl
  | cons a as ih =>
    intro t1 hl h
    cases t1 with
    | nil => simp at hl
    | cons b bs =>
      have h0 : p a = q b := h 0 a b (by simp) (by simp)
      have hr := ih bs (by simpa using hl)
        (fun j e e1 hj hj1 => h (j + 1) e e1 (by simpa using hj) (by simpa using hj1))
      simp only [firstHit, h0, hr]

theorem firstHit_append_miss (p : DirectoryEntry → Bool) (e : DirectoryEntry)
    (he : p e = false) : ∀ t : List DirectoryEntry, firstHit p (t ++ [e]) = firstHit p t := by
  intro t
  induction t with
  | nil => simp [firstHit, he]
  | cons a as ih =>
    rw [List.cons_append, firstHit, firstHit, ih]

theorem freeSlot_some : ∀ (t : List DirectoryEntry) (k : Nat), Directory.freeSlot t = some k →
    ∃ e, t[k]? = some e ∧ e.inUse = false := by
  intro t
  induction t with
  | nil => intro k h; simp [Directory.freeSlot] at h
  | cons a as ih =>
    intro k h
    by_cases ha : a.inUse = true
    · rw [Directory.freeSlot, ha] at h
      simp only [if_true, Option.map_eq_some'] at h
      obtain ⟨k1, hk1, rfl⟩ := h
      obtain ⟨e, h1, h2⟩ := ih k1 hk1
      exact ⟨e, by simpa using h1, h2⟩
    · have ha1 : a.inUse = false := by simpa using ha
      rw [Directory.freeSlot, ha1] at h
      simp only [Bool.false_eq_true, if_false, Option.some.injEq] at h
      subst h
      exact ⟨a, by simp, ha1⟩

/-- The lookup of `Find` in terms of the first entry at which `FindIndex` stops. -/
theorem Find_eq (dir : Directory) (rd : NameReader) (name : List Nat)
    (h1 : dir.nameFileHdrSector ≠ -1)
    (h2 : ∀ e ∈ dir.table, e.inUse = true → 0 ≤ e.nameLength) :
    dir.Find rd name = .ok (match firstHit (hit rd name) dir.table with
      | some k => (dir.table.getD k ⟨false, 0, 0, 0⟩).sector
      | none => -1) := by
  unfold Directory.Find Directory.FindIndex
  rw [if_neg h1, findIndexFrom_eq rd name dir.table 0 h2]
  cases firstHit (hit rd name) dir.table with
  | none => simp
  | some k =>
    simp only [Nat.zero_add]
    rw [if_pos (by omega)]
    simp

theorem FindIndex_eq (dir : Directory) (rd : NameReader) (name : List Nat)
    (h1 : dir.nameFileHdrSector ≠ -1)
    (h2 : ∀ e ∈ dir.table, e.inUse = true → 0 ≤ e.nameLength) :
    dir.FindIndex rd name = .ok (match firstHit (hit rd name) dir.table with
      | some k => ((k : Nat) : Int)
      | none => -1) := by
  unfold Directory.FindIndex
  rw [if_neg h1, findIndexFrom_eq rd name dir.table 0 h2]
  simp only [Nat.zero_add]

theorem Directory.WellFormed.nameLength_nonneg {dir : Directory} {nf : List Nat}
    (h : dir.WellFormed nf) : ∀ e ∈ dir.table, e.inUse = true → 0 ≤ e.nameLength := by
  intro e he hu
  have := (h.2.2.2 e he hu).2.1
  omega

theorem EntryOk.weaken {nf : List Nat} {p p1 : Int} {e : DirectoryEntry} (h : EntryOk nf p e)
    (hp : p ≤ p1) : EntryOk nf p1 e :=
  ⟨h.1, h.2.1, by have := h.2.2.1; omega, h.2.2.2⟩

theorem bytesWriteAt_length (nf : List Nat) (w : NameWrite) (h0 : 0 ≤ w.position)
    (h1 : 1 ≤ w.numBytes) :
    w.position + w.numBytes ≤ ((bytesWriteAt nf w).length : Int) := by
  unfold bytesWriteAt
  rw [if_neg (by omega)]
  simp only [List.length_append, buffer_length]
  omega

/-- An entry in use before `Add` is well formed after its write, with the same name. -/
theorem EntryOk.write {nf : List Nat} {e : DirectoryEntry} (w : NameWrite)
    (h : EntryOk nf w.position e) (hp : w.position ≤ (nf.length : Int))
    (hn : 1 ≤ w.numBytes) : EntryOk (bytesWriteAt nf w) (w.position + w.numBytes) e := by
  have hs := storedName_write w h hp hn
  obtain ⟨h1, h2, h3, s, h4, h5⟩ := h
  exact ⟨h1, h2, by omega, s, by rw [hs]; exact h4, h5⟩

/-- The entry that `Add` installs is well formed after its write. -/
theorem EntryOk.new (nf : List Nat) (name : List Nat) (p sector : Int) (h0 : 0 ≤ p) :
    EntryOk (bytesWriteAt nf ⟨name, (strlen name : Int) + 1, p⟩) (p + ((strlen name : Int) + 1))
      ⟨true, sector, p, (strlen name : Int) + 1⟩ :=
  ⟨h0, by simp only []; omega, by simp only []; omega, cstr name,
    storedName_new nf name p sector h0, cstr_no_zero name⟩

/-! ## Directories: `Add` and `Remove` -/

/-- What `Add` does to the table of a directory in which the name is absent. -/
theorem Add_eq (dir : Directory) (rd : NameReader) (name : List Nat) (newSector : Int)
    (habsent : dir.FindIndex rd name = .ok (-1)) :
    dir.Add rd name newSector = .ok (true,
      { dir with
        table := (match Directory.freeSlot dir.table with
          | some k => dir.table.set k ⟨true, newSector, dir.nameFilePosition, (strlen name : Int) + 1⟩
          | none => dir.table ++ [⟨true, newSector, dir.nameFilePosition, (strlen name : Int) + 1⟩])
        nameFilePosition := dir.nameFilePosition + ((strlen name : Int) + 1) },
      some ⟨name, (strlen name : Int) + 1, dir.nameFilePosition⟩) := by
  unfold Directory.Add
  rw [habsent]
  simp only [ne_eq, not_true_eq_false, if_false]
  cases Directory.freeSlot dir.table <;> rfl

/-- The table after `Add`: the new entry sits at an index that held no entry in use, and
every other index holds what it held. -/
theorem Add_table (t : List DirectoryEntry) (e0 : DirectoryEntry) :
    ∃ k : Nat,
      (∀ i : Nat, (match Directory.freeSlot t with
        | some k => t.set k e0
        | none => t ++ [e0])[i]? = if i = k then some e0 else t[i]?) ∧
      ∀ e, t[k]? = some e → e.inUse = false := by
  cases hf : Directory.freeSlot t with
  | some k =>
    obtain ⟨ek, hk1, hk2⟩ := freeSlot_some t k hf
    have hklt : k < t.length := by
      by_contra hc
      rw [List.getElem?_eq_none (by omega)] at hk1
      simp at hk1
    refine ⟨k, ?_, ?_⟩
    · intro i
      by_cases hki : i = k
      · subst hki
        simp only [if_true]
        exact List.getElem?_set_self hklt
      · simp only [hki, if_false]
        exact List.getElem?_set_ne (fun h => hki h.symm)
    · intro e he
      rw [hk1] at he
      simp only [Option.some.injEq] at he
      subst he
      exact hk2
  | none =>
    refine ⟨t.length, ?_, ?_⟩
    · intro i
      simp only []
      by_cases hilt : i < t.length
      · rw [List.getElem?_append_left hilt, if_neg (by omega)]
      · by_cases hie : i = t.length
        · subst hie
          simp
        · rw [if_neg hie, List.getElem?_eq_none (by simp; omega),
            List.getElem?_eq_none (by omega)]
    · intro e he
      simp at he

/-- Whether entry `j` of a table exists and satisfies `p`. -/
theorem firstHit_ext (p q : DirectoryEntry → Bool) :
    ∀ (t t1 : List DirectoryEntry),
      (∀ j : Nat, (t[j]?.map p).getD false = (t1[j]?.map q).getD false) →
      firstHit p t = firstHit q t1 := by
  intro t
  induction t with
  | nil =>
    intro t1 h
    symm
    rw [firstHit, firstHit_none_iff]
    intro e he
    obtain ⟨j, hj⟩ := List.getElem?_of_mem he
    have := h j
    rw [hj] at this
    simpa using this.symm
  | cons a as ih =>
    intro t1 h
    cases t1 with
    | nil =>
      rw [firstHit.eq_1 q, firstHit_none_iff]
      intro e he
      obtain ⟨j, hj⟩ := List.getElem?_of_mem he
      have := h j
      rw [hj] at this
      simpa using this
    | cons b bs =>
      have h0 : p a = q b := by simpa using h 0
      have hr := ih bs (fun j => by simpa using h (j + 1))
      rw [firstHit, firstHit, h0, hr]

theorem getElem?_mem' {t : List DirectoryEntry} {i : Nat} {e : DirectoryEntry}
    (h : t[i]? = some e) : e ∈ t := List.getElem?_mem h

/-- C7. In a well-formed directory that does not hold `name`, `Add(name, s)` returns
TRUE; afterwards `Find(name) = s`, every entry that was in use keeps its index and its
fields, and `Find(n)` is what it was for every name `n` other than `name`, a prefix or an
extension of `name` included. The directory stays well formed. -/
theorem Add_installs_name (dir : Directory) (nf : List Nat) (name : List Nat)
    (newSector : Int) (hwf : dir.WellFormed nf)
    (habsent : dir.FindIndex (bytesReadAt nf) name = .ok (-1)) :
    ∃ (dir1 : Directory) (w : NameWrite),
      dir.Add (bytesReadAt nf) name newSector = .ok (true, dir1, some w) ∧
      dir1.Find (bytesReadAt (bytesWriteAt nf w)) name = .ok newSector ∧
      (∀ (i : Nat) (e : DirectoryEntry), dir.table[i]? = some e → e.inUse = true →
        dir1.table[i]? = some e) ∧
      (∀ n : List Nat, cstr n ≠ cstr name →
        dir1.Find (bytesReadAt (bytesWriteAt nf w)) n = dir.Find (bytesReadAt nf) n) ∧
      dir1.WellFormed (bytesWriteAt nf w) := by
  obtain ⟨hs, hp0, hpl, hent⟩ := hwf
  have hwf : dir.WellFormed nf := ⟨hs, hp0, hpl, hent⟩
  refine ⟨_, _, Add_eq dir (bytesReadAt nf) name newSector habsent, ?_⟩
  generalize he0 : (⟨true, newSector, dir.nameFilePosition, (strlen name : Int) + 1⟩ :
    DirectoryEntry) = e0
  generalize hw : (⟨name, (strlen name : Int) + 1, dir.nameFilePosition⟩ : NameWrite) = w
  obtain ⟨k, hk1, hk2⟩ := Add_table dir.table e0
  generalize ht1 : (match Directory.freeSlot dir.table with
    | some k => dir.table.set k e0
    | none => dir.table ++ [e0]) = t1 at hk1
  simp only []
  have hwpos : w.position = dir.nameFilePosition := by rw [← hw]
  have hwnum : w.numBytes = (strlen name : Int) + 1 := by rw [← hw]
  have hwn1 : 1 ≤ w.numBytes := by omega
  have hlen := bytesWriteAt_length nf w (by omega) hwn1
  -- entries in use before the call
  have hold : ∀ e ∈ dir.table, e.inUse = true →
      EntryOk (bytesWriteAt nf w) (dir.nameFilePosition + ((strlen name : Int) + 1)) e := by
    intro e he hu
    have := EntryOk.write w (by rw [hwpos]; exact hent e he hu) (by omega) hwn1
    rw [hwpos, hwnum] at this
    exact this
  have hnew : EntryOk (bytesWriteAt nf w) (dir.nameFilePosition + ((strlen name : Int) + 1)) e0 := by
    rw [← he0, ← hw]
    exact EntryOk.new nf name dir.nameFilePosition newSector hp0
  have he0u : e0.inUse = true := by rw [← he0]
  have hkeep : ∀ (i : Nat) (e : DirectoryEntry), dir.table[i]? = some e → e.inUse = true →
      t1[i]? = some e := by
    intro i e hi hu
    rw [hk1 i]
    have : i ≠ k := by
      intro h; subst h
      have := hk2 e hi
      rw [hu] at this
      simp at this
    rw [if_neg this]
    exact hi
  have hmem1 : ∀ e1 ∈ t1, e1 = e0 ∨ e1 ∈ dir.table := by
    intro e1 he1
    obtain ⟨i, hi⟩ := List.getElem?_of_mem he1
    rw [hk1 i] at hi
    by_cases hik : i = k
    · rw [if_pos hik] at hi
      simp only [Option.some.injEq] at hi
      exact Or.inl hi.symm
    · rw [if_neg hik] at hi
      exact Or.inr (getElem?_mem' hi)
  have hwf1 : (⟨t1, dir.nameFileHdrSector,
      dir.nameFilePosition + ((strlen name : Int) + 1)⟩ : Directory).WellFormed
        (bytesWriteAt nf w) := by
    refine ⟨hs, by simp only []; omega, by simp only []; omega, ?_⟩
    intro e1 he1 hu
    rcases hmem1 e1 he1 with h | h
    · rw [h]; exact hnew
    · exact hold e1 h hu
  have hpl1 : dir.nameFilePosition + ((strlen name : Int) + 1)
      ≤ ((bytesWriteAt nf w).length : Int) := by omega
  -- how the comparison of `FindIndex` changes
  have hhit_old : ∀ (n : List Nat) (e : DirectoryEntry), e ∈ dir.table →
      hit (bytesReadAt (bytesWriteAt nf w)) n e = hit (bytesReadAt nf) n e := by
    intro n e he
    by_cases hu : e.inUse = true
    · rw [Bool.eq_iff_iff, hit_iff n (hold e he hu) hpl1 hu, hit_iff n (hent e he hu) hpl hu,
        storedName_write w (by rw [hwpos]; exact hent e he hu) (by omega) hwn1]
    · have hu1 : e.inUse = false := by simpa using hu
      simp [hit, hu1]
  have hhit_new : ∀ n : List Nat,
      hit (bytesReadAt (bytesWriteAt nf w)) n e0 = true ↔ cstr name = cstr n := by
    intro n
    rw [hit_iff n hnew hpl1 he0u]
    have : storedName (bytesWriteAt nf w) e0 = cstr name ++ [0] := by
      rw [← he0, ← hw]
      exact storedName_new nf name dir.nameFilePosition newSector hp0
    rw [this]
    simp
  have hmiss : ∀ e ∈ dir.table, hit (bytesReadAt nf) name e = false := by
    have := FindIndex_eq dir (bytesReadAt nf) name hs hwf.nameLength_nonneg
    rw [habsent] at this
    cases hfh : firstHit (hit (bytesReadAt nf) name) dir.table with
    | none => exact (firstHit_none_iff _ _).mp hfh
    | some j =>
      rw [hfh] at this
      simp only [Except.ok.injEq] at this
      omega
  have hF1 := fun n => Find_eq (⟨t1, dir.nameFileHdrSector,
    dir.nameFilePosition + ((strlen name : Int) + 1)⟩ : Directory)
    (bytesReadAt (bytesWriteAt nf w)) n hs hwf1.nameLength_nonneg
  simp only [] at hF1
  refine ⟨?_, hkeep, ?_, hwf1⟩
  · -- `Find(name)` gives the new sector
    rw [hF1 name]
    have hk : t1[k]? = some e0 := by rw [hk1 k, if_pos rfl]
    rw [firstHit_eq_some _ t1 k e0 hk ((hhit_new name).mpr rfl) ?_]
    · simp only [List.getD_eq_getElem?_getD, hk, Option.getD_some]
      rw [← he0]
    · intro j e1 hj hj1
      rw [hk1 j, if_neg (by omega)] at hj1
      have hmem := getElem?_mem' hj1
      rw [hhit_old name e1 hmem]
      exact hmiss e1 hmem
  · -- `Find(n)` is unchanged for another name
    intro n hn
    rw [hF1 n, Find_eq dir _ _ hs hwf.nameLength_nonneg]
    have hext : firstHit (hit (bytesReadAt (bytesWriteAt nf w)) n) t1
        = firstHit (hit (bytesReadAt nf) n) dir.table := by
      apply firstHit_ext
      intro j
      rw [hk1 j]
      by_cases hjk : j = k
      · subst hjk
        rw [if_pos rfl]
        have h1 : hit (bytesReadAt (bytesWriteAt nf w)) n e0 = false := by
          cases hh : hit (bytesReadAt (bytesWriteAt nf w)) n e0 with
          | false => rfl
          | true => exact absurd ((hhit_new n).mp hh).symm hn
        simp only [Option.map_some', Option.getD_some, h1]
        cases hj : dir.table[j]? with
        | none => simp
        | some e =>
          have := hk2 e hj
          simp [hit, this]
      · rw [if_neg hjk]
        cases hj : dir.table[j]? with
        | none => simp
        | some e =>
          simp only [Option.map_some', Option.getD_some]
          exact hhit_old n e (getElem?_mem' hj)
    rw [hext]
    cases hfh : firstHit (hit (bytesReadAt nf) n) dir.table with
    | none => rfl
    | some i =>
      simp only []
      obtain ⟨e, hi1, hi2, _⟩ := firstHit_some_spec _ _ _ hfh
      have hu : e.inUse = true := by
        simp only [hit, Bool.and_eq_true] at hi2
        exact hi2.1
      simp only [List.getD_eq_getElem?_getD, hkeep i e hi1 hu, hi1]

theorem exists_hit_iff {dir : Directory} {nf : List Nat} (hwf : dir.WellFormed nf)
    (name : List Nat) :
    (∃ e ∈ dir.table, hit (bytesReadAt nf) name e = true) ↔
      ∃ e ∈ dir.table, e.inUse = true ∧ storedName nf e = cstr name ++ [0] := by
  obtain ⟨_, _, hpl, hent⟩ := hwf
  constructor
  · rintro ⟨e, he, hh⟩
    have hu : e.inUse = true := by
      simp only [hit, Bool.and_eq_true] at hh
      exact hh.1
    exact ⟨e, he, hu, (hit_iff name (hent e he hu) hpl hu).mp hh⟩
  · rintro ⟨e, he, hu, hs⟩
    exact ⟨e, he, (hit_iff name (hent e he hu) hpl hu).mpr hs⟩

/-- C8. In a well-formed directory `Add(name, s)` returns FALSE if and only if an entry in
use holds exactly that name; it then leaves the directory (table, table size, append
position) as it was, writes nothing to the Name File, and `Find(name)` still gives the
sector of that entry. -/
theorem Add_false_iff_name_present (dir : Directory) (nf : List Nat) (name : List Nat)
    (newSector : Int) (hwf : dir.WellFormed nf) :
    ∃ (r : Bool) (dir1 : Directory) (w : Option NameWrite),
      dir.Add (bytesReadAt nf) name newSector = .ok (r, dir1, w) ∧
      (r = false ↔ ∃ e ∈ dir.table, e.inUse = true ∧ storedName nf e = cstr name ++ [0]) ∧
      (r = false → dir1 = dir ∧ w = none ∧
        ∃ e ∈ dir.table, e.inUse = true ∧ storedName nf e = cstr name ++ [0] ∧
          dir1.Find (bytesReadAt nf) name = .ok e.sector) := by
  have hfi := FindIndex_eq dir (bytesReadAt nf) name hwf.1 hwf.nameLength_nonneg
  have hfd := Find_eq dir (bytesReadAt nf) name hwf.1 hwf.nameLength_nonneg
  cases hfh : firstHit (hit (bytesReadAt nf) name) dir.table with
  | none =>
    rw [hfh] at hfi
    simp only [] at hfi
    refine ⟨_, _, _, Add_eq dir _ name newSector hfi, ?_, by simp⟩
    simp only [Bool.true_eq_false, false_iff]
    rw [← exists_hit_iff hwf name]
    rintro ⟨e, he, hh⟩
    rw [(firstHit_none_iff _ _).mp hfh e he] at hh
    simp at hh
  | some k =>
    rw [hfh] at hfi hfd
    simp only [] at hfi hfd
    obtain ⟨e, hk1, hk2, _⟩ := firstHit_some_spec _ _ _ hfh
    have hmem := List.getElem?_mem hk1
    have hex : ∃ e ∈ dir.table, hit (bytesReadAt nf) name e = true := ⟨e, hmem, hk2⟩
    have hu : e.inUse = true := by
      simp only [hit, Bool.and_eq_true] at hk2
      exact hk2.1
    have hst := (hit_iff name (hwf.2.2.2 e hmem hu) hwf.2.2.1 hu).mp hk2
    refine ⟨false, dir, none, ?_, ?_, ?_⟩
    · unfold Directory.Add
      rw [hfi]
      have : ((k : Nat) : Int) ≠ -1 := by omega
      simp only [ne_eq, this, not_false_eq_true, if_true]
    · simp only [true_iff]
      exact (exists_hit_iff hwf name).mp hex
    · intro _
      refine ⟨rfl, rfl, e, hmem, hu, hst, ?_⟩
      rw [hfd]
      simp only [List.getD_eq_getElem?_getD, hk1, Option.getD_some]

/-- C9. In a well-formed directory whose names are pairwise different, `Remove(name)`
returns FALSE and changes nothing when no entry in use holds `name`; otherwise it returns
TRUE and clears the `inUse` flag of the entry holding `name`, leaving every other entry,
the other fields of that entry and the append position as they were, and writing nothing
to the Name File; afterwards `Find(name) = -1`. -/
theorem Remove_clears_only_inUse (dir : Directory) (nf : List Nat) (name : List Nat)
    (hwf : dir.WellFormed nf) (hd : dir.DistinctNames nf) :
    ((¬ ∃ e ∈ dir.table, e.inUse = true ∧ storedName nf e = cstr name ++ [0]) →
      dir.Remove (bytesReadAt nf) name = .ok (false, dir)) ∧
    ((∃ e ∈ dir.table, e.inUse = true ∧ storedName nf e = cstr name ++ [0]) →
      ∃ (i : Nat) (e : DirectoryEntry), dir.table[i]? = some e ∧ e.inUse = true ∧
        storedName nf e = cstr name ++ [0] ∧
        dir.Remove (bytesReadAt nf) name = .ok (true,
          { dir with table := dir.table.set i { e with inUse := false } }) ∧
        ({ dir with table := dir.table.set i { e with inUse := false } } : Directory).Find
          (bytesReadAt nf) name = .ok (-1)) := by
  have hfi := FindIndex_eq dir (bytesReadAt nf) name hwf.1 hwf.nameLength_nonneg
  constructor
  · intro hno
    rw [← exists_hit_iff hwf name] at hno
    have hnone : firstHit (hit (bytesReadAt nf) name) dir.table = none := by
      rw [firstHit_none_iff]
      intro e he
      cases hh : hit (bytesReadAt nf) name e with
      | false => rfl
      | true => exact absurd ⟨e, he, hh⟩ hno
    rw [hnone] at hfi
    unfold Directory.Remove
    rw [hfi]
    simp
  · intro hyes
    rw [← exists_hit_iff hwf name] at hyes
    cases hfh : firstHit (hit (bytesReadAt nf) name) dir.table with
    | none =>
      obtain ⟨e, he, hh⟩ := hyes
      rw [(firstHit_none_iff _ _).mp hfh e he] at hh
      simp at hh
    | some k =>
      rw [hfh] at hfi
      simp only [] at hfi
      obtain ⟨e, hk1, hk2, _⟩ := firstHit_some_spec _ _ _ hfh
      have hmem := List.getElem?_mem hk1
      have hu : e.inUse = true := by
        simp only [hit, Bool.and_eq_true] at hk2
        exact hk2.1
      have hst := (hit_iff name (hwf.2.2.2 e hmem hu) hwf.2.2.1 hu).mp hk2
      have hklt : k < dir.table.length := by
        by_contra hc
        rw [List.getElem?_eq_none (by omega)] at hk1
        simp at hk1
      refine ⟨k, e, hk1, hu, hst, ?_, ?_⟩
      · unfold Directory.Remove
        rw [hfi]
        have : ((k : Nat) : Int) ≠ -1 := by omega
        simp only [this, if_false, Int.toNat_ofNat, List.getD_eq_getElem?_getD, hk1,
          Option.getD_some]
      · -- no other entry in use holds the name
        have hwf1 : ∀ e1 ∈ dir.table.set k { e with inUse := false }, e1.inUse = true →
            e1 ∈ dir.table ∧ e1 ≠ e ∧ storedName nf e1 ≠ storedName nf e := by
          intro e1 he1 hu1
          obtain ⟨j, hj⟩ := List.getElem?_of_mem he1
          by_cases hjk : k = j
          · subst hjk
            rw [List.getElem?_set_self hklt] at hj
            simp only [Option.some.injEq] at hj
            rw [← hj] at hu1
            simp at hu1
          · rw [List.getElem?_set_ne hjk] at hj
            have hjm := List.getElem?_mem hj
            obtain ⟨hjlt, hje⟩ := List.getElem?_eq_some.mp hj
            obtain ⟨_, hke⟩ := List.getElem?_eq_some.mp hk1
            have hpw := List.pairwise_iff_getElem.mp hd
            have hne : storedName nf e1 ≠ storedName nf e := by
              rcases Nat.lt_or_gt_of_ne hjk with hlt | hgt
              · have := hpw k j hklt hjlt hlt
                rw [hje, hke] at this
                exact fun h => this hu hu1 h.symm
              · have := hpw j k hjlt hklt hgt
                rw [hje, hke] at this
                exact this hu1 hu
            exact ⟨hjm, fun h => hne (by rw [h]), hne⟩
        rw [Find_eq ({ dir with table := dir.table.set k { e with inUse := false } } : Directory)
          _ _ hwf.1 (fun e1 he1 hu1 => hwf.nameLength_nonneg e1 (hwf1 e1 he1 hu1).1 hu1)]
        have hnone : firstHit (hit (bytesReadAt nf) name)
            (dir.table.set k { e with inUse := false }) = none := by
          rw [firstHit_none_iff]
          intro e1 he1
          cases hh : hit (bytesReadAt nf) name e1 with
          | false => rfl
          | true =>
            have hu1 : e1.inUse = true := by
              simp only [hit, Bool.and_eq_true] at hh
              exact hh.1
            obtain ⟨hm1, _, hne⟩ := hwf1 e1 he1 hu1
            have := (hit_iff name (hwf.2.2.2 e1 hm1 hu1) hwf.2.2.1 hu1).mp hh
            rw [this, hst] at hne
            exact absurd rfl hne
        simp only [hnone]

/-! ## `findDict` -/

theorem segments_ne_nil : ∀ p : List Nat, segments p ≠ [] := by
  intro p
  induction p with
  | nil => simp [segments]
  | cons c cs ih =>
    unfold segments
    split
    · simp
    · split <;> simp

theorem segments_no_slash : ∀ p : List Nat, 47 ∉ p → segments p = [p] := by
  intro p
  induction p with
  | nil => intro _; rfl
  | cons c cs ih =>
    intro h
    have hc : c ≠ 47 := by intro hc; apply h; simp [hc]
    have hcs : 47 ∉ cs := by intro hcs; apply h; simp [hcs]
    rw [segments, if_neg hc, ih hcs]

theorem segments_append_slash : ∀ (seg rest : List Nat), 47 ∉ seg →
    segments (seg ++ 47 :: rest) = seg :: segments rest := by
  intro seg
  induction seg with
  | nil => intro rest _; simp [segments]
  | cons c cs ih =>
    intro rest h
    have hc : c ≠ 47 := by intro hc; apply h; simp [hc]
    have hcs : 47 ∉ cs := by intro hcs; apply h; simp [hcs]
    rw [List.cons_append, segments, if_neg hc, ih rest hcs]

theorem takeWhile_no_slash (p : List Nat) : 47 ∉ p.takeWhile (fun c => decide (c ≠ 47)) := by
  intro h
  have := List.mem_takeWhile_imp h
  simp at this

theorem split_at_slash : ∀ p : List Nat, segmentLength p ≠ p.length →
    p = p.take (segmentLength p) ++ 47 :: p.drop (segmentLength p + 1) ∧
    p.take (segmentLength p) = p.takeWhile (fun c => decide (c ≠ 47)) := by
  intro p
  induction p with
  | nil => intro h; simp [segmentLength] at h
  | cons c cs ih =>
    intro h
    by_cases hc : c = 47
    · subst hc
      simp [segmentLength]
    · have e : segmentLength (c :: cs) = segmentLength cs + 1 := by
        simp [segmentLength, hc]
      rw [e] at h ⊢
      obtain ⟨h1, h2⟩ := ih (by simpa using h)
      constructor
      · simp only [List.take_succ_cons, List.drop_succ_cons, List.cons_append]
        rw [← h1]
      · simp only [List.take_succ_cons]
        rw [h2]
        simp [hc]

theorem segmentLength_full {p : List Nat} (h : segmentLength p = p.length) : 47 ∉ p := by
  have h1 := takeWhile_no_slash p
  have h2 : p.takeWhile (fun c => decide (c ≠ 47)) = p := by
    have := List.takeWhile_prefix (fun c => decide (c ≠ 47)) (l := p)
    exact this.eq_of_length (by simpa [segmentLength] using h)
  rw [h2] at h1
  exact h1

/-- The loop of `findDict` is the walk over the segments, when it is given as many
iterations as the path has characters, and one more. -/
theorem findDictLoop_eq_walk (env : Env) (d : Disk) (fuel : Nat) :
    ∀ (cur : Int) (p : List Nat), p.length < fuel →
      findDictLoop env d fuel cur p = walkSegments env d cur (segments p) := by
  induction fuel with
  | zero => intro cur p h; omega
  | succ fuel ih =>
    intro cur p hfuel
    unfold findDictLoop
    simp only []
    by_cases hlen : segmentLength p = p.length
    · rw [if_pos hlen, segments_no_slash p (segmentLength_full hlen)]
      rfl
    · rw [if_neg hlen]
      obtain ⟨h1, h2⟩ := split_at_slash p hlen
      have hseg : 47 ∉ p.take (segmentLength p) := by rw [h2]; exact takeWhile_no_slash p
      have hs : segments p
          = p.take (segmentLength p) :: segments (p.drop (segmentLength p + 1)) := by
        conv => lhs; rw [h1]
        exact segments_append_slash _ _ hseg
      rw [hs]
      have hrest := segments_ne_nil (p.drop (segmentLength p + 1))
      cases hr : segments (p.drop (segmentLength p + 1)) with
      | nil => exact absurd hr hrest
      | cons r rs =>
        rw [walkSegments]
        cases loadDirectory env d cur with
        | error e => rfl
        | ok v =>
          obtain ⟨hdr, file, dict⟩ := v
          simp only []
          cases dict.Find (nameReader d dict) (p.take (segmentLength p)) with
          | error e => rfl
          | ok s =>
            simp only []
            by_cases hs1 : s = -1
            · rw [if_pos hs1, if_pos hs1]
            · rw [if_neg hs1, if_neg hs1, ← hr]
              apply ih
              have hle : segmentLength p ≤ p.length :=
                (List.takeWhile_prefix (fun c => decide (c ≠ 47))).length_le
              simp only [List.length_drop]
              omega

/-- What `findDict(path)` computes. It returns −1 when `path` does not begin with `'/'`.
For a path that does, it is the walk over the segments of the rest of the path: each
segment but the last is looked up in what the sector reached so far holds, read as a
directory, −1 is returned at the first one not found, and the sector reached is returned
when one segment is left, whatever the type of the header in it. So a path of a single
segment gives `DirectorySector`, and the last segment is never looked up: the result does
not depend on it. -/
theorem findDict_walks_to_parent (env : Env) (d : Disk) :
    (∀ path : List Nat, (cstr path).headD 0 ≠ 47 → findDict env d path = .ok (-1)) ∧
    (∀ path : List Nat, (cstr path).headD 0 = 47 →
      findDict env d path = walkSegments env d DirectorySector (segments (cstr path).tail)) ∧
    (∀ path : List Nat, (cstr path).headD 0 = 47 → 47 ∉ (cstr path).tail →
      findDict env d path = .ok DirectorySector) ∧
    (∀ (cur : Int) (seg next : List Nat) (rest : List (List Nat)) (hdr : FileHeader)
        (file : OpenFile) (dict : Directory),
      loadDirectory env d cur = .ok (hdr, file, dict) →
      dict.Find (nameReader d dict) seg = .ok (-1) →
      walkSegments env d cur (seg :: next :: rest) = .ok (-1)) ∧
    (∀ (cur s : Int) (seg next : List Nat) (rest : List (List Nat)) (hdr : FileHeader)
        (file : OpenFile) (dict : Directory),
      loadDirectory env d cur = .ok (hdr, file, dict) →
      dict.Find (nameReader d dict) seg = .ok s → s ≠ -1 →
      walkSegments env d cur (seg :: next :: rest) = walkSegments env d s (next :: rest)) ∧
    (∀ (cur : Int) (before : List (List Nat)) (last last1 : List Nat),
      walkSegments env d cur (before ++ [last]) = walkSegments env d cur (before ++ [last1])) := by
  have hwalk : ∀ path : List Nat, (cstr path).headD 0 = 47 →
      findDict env d path = walkSegments env d DirectorySector (segments (cstr path).tail) := by
    intro path h
    unfold findDict
    rw [if_neg (by simpa using h)]
    apply findDictLoop_eq_walk
    cases hc : cstr path with
    | nil => rw [hc] at h; simp at h
    | cons c cs => simp
  refine ⟨?_, hwalk, ?_, ?_, ?_, ?_⟩
  · intro path h
    unfold findDict
    rw [if_pos h]
  · intro path h hns
    rw [hwalk path h, segments_no_slash _ hns]
    rfl
  · intro cur seg next rest hdr file dict h1 h2
    rw [walkSegments]
    simp only [h1, h2, if_true]
  · intro cur s seg next rest hdr file dict h1 h2 h3
    rw [walkSegments]
    simp only [h1, h2, if_neg h3]
  · intro cur before
    induction before generalizing cur with
    | nil => intro last last1; rfl
    | cons b bs ih =>
      intro last last1
      cases bs with
      | nil =>
        show walkSegments env d cur [b, last] = walkSegments env d cur [b, last1]
        rw [walkSegments, walkSegments]
        cases loadDirectory env d cur with
        | error e => rfl
        | ok v =>
          obtain ⟨hdr, file, dict⟩ := v
          simp only []
          cases dict.Find (nameReader d dict) b with
          | error e => rfl
          | ok s =>
            simp only []
            by_cases hs1 : s = -1
            · rw [if_pos hs1, if_pos hs1]
            · rw [if_neg hs1, if_neg hs1]
              rfl
      | cons b1 bs1 =>
        have := fun s => ih s last last1
        simp only [List.cons_append] at this ⊢
        rw [walkSegments, walkSegments]
        cases loadDirectory env d cur with
        | error e => rfl
        | ok v =>
          obtain ⟨hdr, file, dict⟩ := v
          simp only []
          cases dict.Find (nameReader d dict) b with
          | error e => rfl
          | ok s =>
            simp only []
            by_cases hs1 : s = -1
            · rw [if_pos hs1, if_pos hs1]
            · rw [if_neg hs1, if_neg hs1]
              exact this s

theorem isEmpty_false_iff (dir : Directory) :
    dir.isEmpty = false ↔
      ∃ (i : Nat) (e : DirectoryEntry), 2 ≤ i ∧ dir.table[i]? = some e ∧ e.inUse = true := by
  unfold Directory.isEmpty
  rw [Bool.eq_false_iff, ne_eq, List.all_eq_true]
  constructor
  · intro h
    by_contra hc
    apply h
    intro e he
    obtain ⟨j, hj⟩ := List.getElem?_of_mem he
    rw [List.getElem?_drop] at hj
    cases hu : e.inUse with
    | false => rfl
    | true => exact absurd ⟨2 + j, e, by omega, hj, hu⟩ hc
  · rintro ⟨i, e, hi, hie, hu⟩ h
    have hm : e ∈ dir.table.drop 2 := by
      apply List.getElem?_mem (n := i - 2)
      rw [List.getElem?_drop]
      have : 2 + (i - 2) = i := by omega
      rw [this]
      exact hie
    have := h e hm
    rw [hu] at this
    simp at this

/-! ## `Remove` and directories that are not empty -/



set_option maxRecDepth 100000 in
set_option synthInstance.maxSize 512 in
/-- C10, the defect. The calls of `dotRemovedCalls` all return TRUE; they leave the
directory `/a` (inode in sector 16) holding the entry `x` in use in slot 0, and nothing in
use from slot 2 on. `Remove("/a")` then returns TRUE: `isEmpty` passes over slots 0 and
1 without a look at the names in them. -/
theorem Remove_takes_directory_holding_entry :
    (match runFresh dotRemovedCalls with
      | none => none
      | some (rs, fs) =>
        some (rs, findAt fs DirectorySector [97], findAt fs 16 [120],
          (tableAt fs 16).map (fun t => (t.take 1, (t.drop 2).any (fun e => e.inUse))),
          (fs.Remove zeroEnv [47, 97]).toOption.map (fun r => r.1)))
      = some ([true, true, true, true, true, true], some 16, some 9,
          some ([⟨true, 9, 5, 2⟩], false), some true) := by
  decide!

/-! ## `Remove`: the emptiness test -/

theorem Add_table_frame (dir : Directory) (rd : NameReader) (name : List Nat) (s : Int)
    (r : Bool) (dir1 : Directory) (w : Option NameWrite)
    (h : dir.Add rd name s = .ok (r, dir1, w)) :
    ∀ (i : Nat) (e : DirectoryEntry), dir1.table[i]? = some e → e.inUse = true →
      dir.table[i]? = some e ∨ ∀ j : Nat, j < i → ∃ e1, dir.table[j]? = some e1 ∧ e1.inUse = true := by
  unfold Directory.Add at h
  cases hfi : dir.FindIndex rd name with
  | error e => rw [hfi] at h; simp at h
  | ok idx =>
    rw [hfi] at h
    simp only [] at h
    by_cases hi : idx ≠ -1
    · rw [if_pos hi] at h
      simp only [Except.ok.injEq, Prod.mk.injEq] at h
      obtain ⟨_, h2, _⟩ := h
      subst h2
      intro i e he _
      exact Or.inl he
    · rw [if_neg hi] at h
      cases hfs : Directory.freeSlot dir.table with
      | some k =>
        rw [hfs] at h
        simp only [Except.ok.injEq, Prod.mk.injEq] at h
        obtain ⟨_, h2, _⟩ := h
        subst h2
        intro i e he hu
        simp only [] at he
        by_cases hki : k = i
        · subst hki
          right
          intro j hj
          -- every slot before the first free one is in use
          have : ∀ (t : List DirectoryEntry) (k : Nat), Directory.freeSlot t = some k →
              ∀ j : Nat, j < k → ∃ e1, t[j]? = some e1 ∧ e1.inUse = true := by
            intro t
            induction t with
            | nil => intro k h; simp [Directory.freeSlot] at h
            | cons a as ih =>
              intro k h j hj
              by_cases ha : a.inUse = true
              · rw [Directory.freeSlot, ha] at h
                simp only [if_true, Option.map_eq_some'] at h
                obtain ⟨k1, hk1, rfl⟩ := h
                cases j with
                | zero => exact ⟨a, by simp, ha⟩
                | succ j =>
                  obtain ⟨e1, h1, h2⟩ := ih k1 hk1 j (by omega)
                  exact ⟨e1, by simpa using h1, h2⟩
              · have ha1 : a.inUse = false := by simpa using ha
                rw [Directory.freeSlot, ha1] at h
                simp only [Bool.false_eq_true, if_false, Option.some.injEq] at h
                omega
          exact this dir.table k hfs j hj
        · left
          rw [List.getElem?_set_ne hki] at he
          exact he
      | none =>
        rw [hfs] at h
        simp only [Except.ok.injEq, Prod.mk.injEq] at h
        obtain ⟨_, h2, _⟩ := h
        subst h2
        intro i e he hu
        simp only [] at he
        by_cases hilt : i < dir.table.length
        · left
          rw [List.getElem?_append_left hilt] at he
          exact he
        · right
          intro j hj
          have : ∀ t : List DirectoryEntry, Directory.freeSlot t = none →
              ∀ j : Nat, j < t.length → ∃ e1, t[j]? = some e1 ∧ e1.inUse = true := by
            intro t
            induction t with
            | nil => intro _ j hj; simp at hj
            | cons a as ih =>
              intro h j hj
              by_cases ha : a.inUse = true
              · rw [Directory.freeSlot, ha] at h
                simp only [if_true, Option.map_eq_none'] at h
                cases j with
                | zero => exact ⟨a, by simp, ha⟩
                | succ j =>
                  obtain ⟨e1, h1, h2⟩ := ih h j (by simpa using hj)
                  exact ⟨e1, by simpa using h1, h2⟩
              · have ha1 : a.inUse = false := by simpa using ha
                rw [Directory.freeSlot, ha1] at h
                simp at h
          have hil : i = dir.table.length := by
            by_contra hc
            rw [List.getElem?_eq_none (by simp; omega)] at he
            simp at he
          exact this dir.table hfs j (by omega)

theorem create_not_inUse (raw : DirectoryEntry) (pos : Int) (n : Nat) (s : Int) :
    ∀ (j : Nat) (e : DirectoryEntry),
      ((Directory.create raw pos n).initialNameFile s).table[j]? = some e → e.inUse = false := by
  intro j e h
  simp only [Directory.create, Directory.initialNameFile] at h
  have := List.getElem?_mem h
  rw [List.mem_replicate] at this
  rw [this.2]

/-- The table that `Create` builds for a new directory passes the emptiness test. -/
theorem new_directory_isEmpty (raw : DirectoryEntry) (pos : Int) (n : Nat) (s a b : Int)
    (rd1 rd2 : NameReader) (r1 r2 : Bool) (dir1 dir2 : Directory)
    (w1 w2 : Option NameWrite)
    (h1 : ((Directory.create raw pos n).initialNameFile s).Add rd1 [46] a = .ok (r1, dir1, w1))
    (h2 : dir1.Add rd2 [46, 46] b = .ok (r2, dir2, w2)) : dir2.isEmpty = true := by
  have hfree := create_not_inUse raw pos n s
  have hone : ∀ (i : Nat) (e : DirectoryEntry), dir1.table[i]? = some e → e.inUse = true →
      i = 0 := by
    intro i e he hu
    rcases Add_table_frame _ _ _ _ _ _ _ h1 i e he hu with h | h
    · have := hfree i e h
      rw [hu] at this
      simp at this
    · by_contra hc
      obtain ⟨e1, h3, h4⟩ := h 0 (by omega)
      have := hfree 0 e1 h3
      rw [h4] at this
      simp at this
  cases hemp : dir2.isEmpty with
  | true => rfl
  | false =>
    obtain ⟨i, e, hi, he, hu⟩ := (isEmpty_false_iff dir2).mp hemp
    rcases Add_table_frame _ _ _ _ _ _ _ h2 i e he hu with h | h
    · have := hone i e h hu
      omega
    · obtain ⟨e1, h3, h4⟩ := h 1 (by omega)
      have := hone 1 e1 h3 h4
      omega

set_option maxRecDepth 100000 in
/-- What the emptiness test of `Remove` does, by position. `Remove(path)` on a directory
whose table holds an entry in use at index 2 or above returns FALSE and leaves the disk, so the bitmap and the parent
directory, as they were. The emptiness test looks at no entry below index 2: the table
that `Create` builds for a new directory, with `.` and `..` added to a fresh table, passes
it, and on a freshly formatted disk `Create("/a", -1)` followed by `Remove("/a")` returns
TRUE twice and leaves the bitmap and the root directory's table as they were. -/
theorem Remove_refuses_directory_with_entry_past_dots :
    (∀ (fs : FileSystem) (env : Env) (path : List Nat),
      namesOccupiedDirectory env fs path = true → fs.Remove env path = .ok (false, fs)) ∧
    (∀ (raw : DirectoryEntry) (pos : Int) (s a b : Int) (rd1 rd2 : NameReader) (r1 r2 : Bool)
        (dir1 dir2 : Directory) (w1 w2 : Option NameWrite),
      ((Directory.create raw pos NumDirEntries).initialNameFile s).Add rd1 [46] a
        = .ok (r1, dir1, w1) →
      dir1.Add rd2 [46, 46] b = .ok (r2, dir2, w2) → dir2.isEmpty = true) ∧
    (match runFresh [.create [47, 97] (-1), .remove [47, 97]] with
      | none => none
      | some (rs, fs) =>
        some (rs, (persistedMap fs).bits == (persistedMap (afterCalls [])).bits,
          (tableAt fs DirectorySector).map (fun t => t.filter (fun e => e.inUse))
            == (tableAt (afterCalls []) DirectorySector).map
              (fun t => t.filter (fun e => e.inUse))))
      = some ([true, true], true, true) := by
  refine ⟨?_, ?_, by decide!⟩
  · intro fs env path h
    unfold namesOccupiedDirectory at h
    unfold FileSystem.Remove
    cases hfd : findDict env fs.disk path with
    | error e => rw [hfd] at h; simp at h
    | ok ds =>
      rw [hfd] at h
      simp only [] at h ⊢
      by_cases hds : ds = -1
      · rw [if_pos hds] at h; simp at h
      · rw [if_neg hds] at h ⊢
        cases hld : loadDirectory env fs.disk ds with
        | error e => rw [hld] at h; simp at h
        | ok v =>
          obtain ⟨dictHdr, dictFile, directory⟩ := v
          rw [hld] at h
          simp only [] at h ⊢
          cases hfn : directory.Find (nameReader fs.disk directory) (leafName path) with
          | error e => rw [hfn] at h; simp at h
          | ok sector =>
            rw [hfn] at h
            simp only [] at h ⊢
            by_cases hsec : sector = -1
            · rw [if_pos hsec] at h; simp at h
            · rw [if_neg hsec] at h ⊢
              unfold loadDirectory at h
              simp only [] at h
              unfold removeNameFile
              cases hte : tableEntries (FileHeader.FetchFrom fs.disk sector).FileLength with
              | error e => rw [hte] at h; simp at h
              | ok n =>
                rw [hte] at h
                simp only [Bool.and_eq_true, decide_eq_true_eq] at h
                obtain ⟨hty, hany⟩ := h
                rw [if_pos hty]
                simp only []
                have hne : ((Directory.create env.entry env.position n).FetchFrom
                    (OpenFile.openAt fs.disk sector) fs.disk).isEmpty = false := by
                  unfold Directory.isEmpty
                  rw [Bool.eq_false_iff]
                  intro hall
                  rw [List.all_eq_true] at hall
                  rw [List.any_eq_true] at hany
                  obtain ⟨e, he, hu⟩ := hany
                  have := hall e he
                  rw [hu] at this
                  simp at this
                rw [hne]
                simp
  · intro raw pos s a b rd1 rd2 r1 r2 dir1 dir2 w1 w2 h1 h2
    exact new_directory_isEmpty raw pos NumDirEntries s a b rd1 rd2 r1 r2 dir1 dir2 w1 w2 h1 h2

set_option maxRecDepth 100000 in
/-- `Remove("/a")` is refused on a freshly formatted disk on which `/a` and `/a/b` have
been created. -/
theorem Remove_refuses_directory_with_entry_past_dots_witness :
    namesOccupiedDirectory zeroEnv (afterCalls nestedCalls) [47, 97] = true ∧
    (afterCalls nestedCalls).Remove zeroEnv [47, 97] = .ok (false, afterCalls nestedCalls) :=
  ⟨by decide!,
    Remove_refuses_directory_with_entry_past_dots.1 (afterCalls nestedCalls) zeroEnv [47, 97]
      (by decide!)⟩

/-! ## Witnesses for the directory theorems -/

theorem sampleDirectory_wellFormed : sampleDirectory.WellFormed sampleNameFile := by
  refine ⟨by decide, by decide, by decide, ?_⟩
  intro e he hu
  simp only [sampleDirectory, List.mem_cons, List.mem_singleton, List.not_mem_nil,
    or_false] at he
  rcases he with rfl | rfl
  · exact ⟨by decide, by decide, by decide, [97], by decide, by decide⟩
  · simp at hu

theorem sampleDirectory_distinct : sampleDirectory.DistinctNames sampleNameFile := by
  unfold Directory.DistinctNames sampleDirectory
  simp

/-- The hypotheses of `Add_installs_name` hold for `sampleDirectory` and the name `b`. -/
theorem Add_installs_name_witness :
    sampleDirectory.WellFormed sampleNameFile ∧
    sampleDirectory.FindIndex (bytesReadAt sampleNameFile) [98] = .ok (-1) ∧
    ∃ (dir1 : Directory) (w : NameWrite),
      sampleDirectory.Add (bytesReadAt sampleNameFile) [98] 9 = .ok (true, dir1, some w) ∧
      dir1.Find (bytesReadAt (bytesWriteAt sampleNameFile w)) [98] = .ok 9 ∧
      (∀ (i : Nat) (e : DirectoryEntry), sampleDirectory.table[i]? = some e → e.inUse = true →
        dir1.table[i]? = some e) ∧
      (∀ n : List Nat, cstr n ≠ cstr [98] →
        dir1.Find (bytesReadAt (bytesWriteAt sampleNameFile w)) n
          = sampleDirectory.Find (bytesReadAt sampleNameFile) n) ∧
      dir1.WellFormed (bytesWriteAt sampleNameFile w) :=
  ⟨sampleDirectory_wellFormed, rfl,
    Add_installs_name sampleDirectory sampleNameFile [98] 9 sampleDirectory_wellFormed rfl⟩

/-- The hypothesis of `Add_false_iff_name_present` holds for `sampleDirectory`; the name
`a` is present. -/
theorem Add_false_iff_name_present_witness :
    sampleDirectory.WellFormed sampleNameFile ∧
    ∃ (r : Bool) (dir1 : Directory) (w : Option NameWrite),
      sampleDirectory.Add (bytesReadAt sampleNameFile) [97] 9 = .ok (r, dir1, w) ∧
      (r = false ↔ ∃ e ∈ sampleDirectory.table, e.inUse = true ∧
        storedName sampleNameFile e = cstr [97] ++ [0]) ∧
      (r = false → dir1 = sampleDirectory ∧ w = none ∧
        ∃ e ∈ sampleDirectory.table, e.inUse = true ∧
          storedName sampleNameFile e = cstr [97] ++ [0] ∧
          dir1.Find (bytesReadAt sampleNameFile) [97] = .ok e.sector) :=
  ⟨sampleDirectory_wellFormed,
    Add_false_iff_name_present sampleDirectory sampleNameFile [97] 9 sampleDirectory_wellFormed⟩

/-- The hypotheses of `Remove_clears_only_inUse` hold for `sampleDirectory`, from which
`Remove` takes the name `a`. -/
theorem Remove_clears_only_inUse_witness :
    sampleDirectory.WellFormed sampleNameFile ∧ sampleDirectory.DistinctNames sampleNameFile ∧
    sampleDirectory.Remove (bytesReadAt sampleNameFile) [97]
      = .ok (true, ⟨[⟨false, 5, 0, 2⟩, ⟨false, 0, 0, 0⟩], 7, 2⟩) ∧
    ((¬ ∃ e ∈ sampleDirectory.table, e.inUse = true ∧
        storedName sampleNameFile e = cstr [97] ++ [0]) →
      sampleDirectory.Remove (bytesReadAt sampleNameFile) [97] = .ok (false, sampleDirectory)) ∧
    ((∃ e ∈ sampleDirectory.table, e.inUse = true ∧
        storedName sampleNameFile e = cstr [97] ++ [0]) →
      ∃ (i : Nat) (e : DirectoryEntry), sampleDirectory.table[i]? = some e ∧ e.inUse = true ∧
        storedName sampleNameFile e = cstr [97] ++ [0] ∧
        sampleDirectory.Remove (bytesReadAt sampleNameFile) [97] = .ok (true,
          { sampleDirectory with
            table := sampleDirectory.table.set i { e with inUse := false } }) ∧
        ({ sampleDirectory with
            table := sampleDirectory.table.set i { e with inUse := false } } : Directory).Find
          (bytesReadAt sampleNameFile) [97] = .ok (-1)) :=
  ⟨sampleDirectory_wellFormed, sampleDirectory_distinct, rfl,
    Remove_clears_only_inUse sampleDirectory sampleNameFile [97] sampleDirectory_wellFormed
      sampleDirectory_distinct⟩

/-! ## The directory invariant is established and kept -/

/-- A directory just created, with a Name File, is well formed whatever the file holds. -/
theorem create_wellFormed (raw : DirectoryEntry) (pos : Int) (n : Nat) (s : Int)
    (nf : List Nat) (hs : s ≠ -1) :
    ((Directory.create raw pos n).initialNameFile s).WellFormed nf := by
  refine ⟨hs, by simp [Directory.initialNameFile], by simp [Directory.initialNameFile], ?_⟩
  intro e he hu
  obtain ⟨j, hj⟩ := List.getElem?_of_mem he
  have := create_not_inUse raw pos n s j e hj
  rw [hu] at this
  simp at this

/-- `Remove` keeps a directory well formed. -/
theorem Remove_wellFormed (dir : Directory) (nf : List Nat) (name : List Nat) (r : Bool)
    (dir1 : Directory) (hwf : dir.WellFormed nf)
    (h : dir.Remove (bytesReadAt nf) name = .ok (r, dir1)) : dir1.WellFormed nf := by
  unfold Directory.Remove at h
  cases hfi : dir.FindIndex (bytesReadAt nf) name with
  | error e => rw [hfi] at h; simp at h
  | ok i =>
    rw [hfi] at h
    simp only [] at h
    by_cases hi : i = -1
    · rw [if_pos hi] at h
      simp only [Except.ok.injEq, Prod.mk.injEq] at h
      rw [← h.2]
      exact hwf
    · rw [if_neg hi] at h
      simp only [Except.ok.injEq, Prod.mk.injEq] at h
      rw [← h.2]
      refine ⟨hwf.1, hwf.2.1, hwf.2.2.1, ?_⟩
      intro e he hu
      simp only [] at he
      obtain ⟨j, hj⟩ := List.getElem?_of_mem he
      by_cases hij : i.toNat = j
      · subst hij
        by_cases hlt : i.toNat < dir.table.length
        · rw [List.getElem?_set_self hlt] at hj
          simp only [Option.some.injEq] at hj
          rw [← hj] at hu
          simp at hu
        · rw [List.getElem?_eq_none (by simp; omega)] at hj
          simp at hj
      · rw [List.getElem?_set_ne hij] at hj
        exact hwf.2.2.2 e (List.getElem?_mem hj) hu

/-! ## The directory invariant: distinct names -/

theorem distinctNames_iff (dir : Directory) (nf : List Nat) :
    dir.DistinctNames nf ↔
      ∀ (i j : Nat) (e e1 : DirectoryEntry), i < j → dir.table[i]? = some e →
        dir.table[j]? = some e1 → e.inUse = true → e1.inUse = true →
        storedName nf e ≠ storedName nf e1 := by
  unfold Directory.DistinctNames
  rw [List.pairwise_iff_getElem]
  constructor
  · intro h i j e e1 hij hi hj
    obtain ⟨hi1, rfl⟩ := List.getElem?_eq_some_iff.mp hi
    obtain ⟨hj1, rfl⟩ := List.getElem?_eq_some_iff.mp hj
    exact h i j hi1 hj1 hij
  · intro h i j hi hj hij
    exact h i j _ _ hij (List.getElem?_eq_getElem hi) (List.getElem?_eq_getElem hj)

/-- A directory just created has no two in-use entries, so its names are distinct. -/
theorem create_distinct (raw : DirectoryEntry) (pos : Int) (n : Nat) (s : Int)
    (nf : List Nat) : ((Directory.create raw pos n).initialNameFile s).DistinctNames nf := by
  rw [distinctNames_iff]
  intro i j e e1 _ hi _ hu
  have := create_not_inUse raw pos n s i e hi
  rw [hu] at this
  simp at this

/-- `Remove` keeps the names of a directory distinct. -/
theorem Remove_distinct (dir : Directory) (nf : List Nat) (name : List Nat) (r : Bool)
    (dir1 : Directory) (hd : dir.DistinctNames nf)
    (h : dir.Remove (bytesReadAt nf) name = .ok (r, dir1)) : dir1.DistinctNames nf := by
  unfold Directory.Remove at h
  cases hfi : dir.FindIndex (bytesReadAt nf) name with
  | error e => rw [hfi] at h; simp at h
  | ok i =>
    rw [hfi] at h
    simp only [] at h
    by_cases hi : i = -1
    · rw [if_pos hi] at h
      simp only [Except.ok.injEq, Prod.mk.injEq] at h
      rw [← h.2]
      exact hd
    · rw [if_neg hi] at h
      simp only [Except.ok.injEq, Prod.mk.injEq] at h
      rw [← h.2]
      rw [distinctNames_iff] at hd ⊢
      have key : ∀ (x : DirectoryEntry), x.inUse = false → ∀ (j : Nat) (e : DirectoryEntry),
          (dir.table.set i.toNat x)[j]? = some e →
          e.inUse = true → dir.table[j]? = some e := by
        intro x hx j e hj hu
        by_cases hij : i.toNat = j
        · subst hij
          by_cases hlt : i.toNat < dir.table.length
          · rw [List.getElem?_set_self hlt] at hj
            simp only [Option.some.injEq] at hj
            rw [← hj, hx] at hu
            simp at hu
          · rw [List.getElem?_eq_none (by simp; omega)] at hj
            simp at hj
        · rw [List.getElem?_set_ne hij] at hj
          exact hj
      intro a b e e1 hab ha hb hu hu1
      exact hd a b e e1 hab (key _ rfl a e ha hu) (key _ rfl b e1 hb hu1) hu hu1

/-- `Add` keeps the names of a directory distinct: the name it installs was absent. -/
theorem Add_distinct (dir : Directory) (nf : List Nat) (name : List Nat) (newSector : Int)
    (dir1 : Directory) (w : NameWrite) (hwf : dir.WellFormed nf) (hd : dir.DistinctNames nf)
    (h : dir.Add (bytesReadAt nf) name newSector = .ok (true, dir1, some w)) :
    dir1.DistinctNames (bytesWriteAt nf w) := by
  have habsent : dir.FindIndex (bytesReadAt nf) name = .ok (-1) := by
    unfold Directory.Add at h
    cases hfi : dir.FindIndex (bytesReadAt nf) name with
    | error e => rw [hfi] at h; simp at h
    | ok idx =>
      rw [hfi] at h
      simp only [] at h
      by_cases hi : idx ≠ -1
      · rw [if_pos hi] at h
        simp at h
      · have : idx = -1 := by simpa using hi
        rw [this]
  rw [Add_eq dir (bytesReadAt nf) name newSector habsent] at h
  simp only [Except.ok.injEq, Prod.mk.injEq, true_and, Option.some.injEq] at h
  obtain ⟨hd1, hw⟩ := h
  obtain ⟨hs, hp0, hpl, hent⟩ := hwf
  have hwf : dir.WellFormed nf := ⟨hs, hp0, hpl, hent⟩
  have hmiss : ∀ e ∈ dir.table, hit (bytesReadAt nf) name e = false := by
    rw [FindIndex_eq dir (bytesReadAt nf) name hs hwf.nameLength_nonneg] at habsent
    cases hf : firstHit (hit (bytesReadAt nf) name) dir.table with
    | none => exact (firstHit_none_iff _ _).mp hf
    | some k =>
      rw [hf] at habsent
      simp only [Except.ok.injEq] at habsent
      omega
  generalize he0 : (⟨true, newSector, dir.nameFilePosition, (strlen name : Int) + 1⟩ :
    DirectoryEntry) = e0 at hd1
  obtain ⟨k, hk1, hk2⟩ := Add_table dir.table e0
  have hwpos : w.position = dir.nameFilePosition := by rw [← hw]
  have hwnum : w.numBytes = (strlen name : Int) + 1 := by rw [← hw]
  have hnew : storedName (bytesWriteAt nf w) e0 = cstr name ++ [0] := by
    rw [← he0, ← hw]
    exact storedName_new nf name dir.nameFilePosition newSector hp0
  have hold : ∀ (i : Nat) (e : DirectoryEntry), dir.table[i]? = some e → e.inUse = true →
      storedName (bytesWriteAt nf w) e = storedName nf e ∧
        storedName nf e ≠ cstr name ++ [0] := by
    intro i e hi hu
    have hm := List.getElem?_mem hi
    refine ⟨storedName_write w (by rw [hwpos]; exact hent e hm hu) (by rw [hwpos]; exact hpl)
      (by omega), ?_⟩
    intro hc
    have := (hit_iff name (hent e hm hu) hpl hu).mpr hc
    rw [hmiss e hm] at this
    simp at this
  rw [distinctNames_iff] at hd ⊢
  rw [← hd1]
  simp only []
  intro a b e e1 hab ha hb hu hu1
  rw [hk1 a] at ha
  rw [hk1 b] at hb
  by_cases hak : a = k
  · rw [if_pos hak] at ha
    rw [if_neg (by omega)] at hb
    simp only [Option.some.injEq] at ha
    rw [← ha, hnew, (hold b e1 hb hu1).1]
    exact fun hc => (hold b e1 hb hu1).2 hc.symm
  · rw [if_neg hak] at ha
    by_cases hbk : b = k
    · rw [if_pos hbk] at hb
      simp only [Option.some.injEq] at hb
      rw [← hb, hnew, (hold a e ha hu).1]
      exact (hold a e ha hu).2
    · rw [if_neg hbk] at hb
      rw [(hold a e ha hu).1, (hold b e1 hb hu1).1]
      exact hd a b e e1 hab ha hb hu hu1

/-! ## The TLB and page-frame handlers -/

theorem setDirty_ok {pt pt1 : List TranslationEntry} {r : Nat} (h : setDirty pt r = .ok pt1) :
    ∃ p, pt[r]? = some p ∧ pt1 = pt.set r { p with dirty := true } := by
  unfold setDirty at h
  cases hp : pt[r]? with
  | none => rw [hp] at h; simp at h
  | some p =>
    rw [hp] at h
    simp only [Except.ok.injEq] at h
    exact ⟨p, rfl, h.symm⟩

theorem setDirty_of_lt {pt : List TranslationEntry} {r : Nat} (h : r < pt.length) :
    ∃ pt1, setDirty pt r = .ok pt1 := by
  unfold setDirty
  rw [List.getElem?_eq_getElem h]
  exact ⟨_, rfl⟩

theorem setDirty_length {pt pt1 : List TranslationEntry} {r : Nat}
    (h : setDirty pt r = .ok pt1) : pt1.length = pt.length := by
  obtain ⟨p, _, rfl⟩ := setDirty_ok h
  simp

/-- What `setDirty` leaves of an entry: the entry, or the entry with its dirty bit set. -/
theorem setDirty_get {pt pt1 : List TranslationEntry} {r : Nat}
    (h : setDirty pt r = .ok pt1) (i : Nat) (x : TranslationEntry) (hx : pt1[i]? = some x) :
    ∃ p, pt[i]? = some p ∧ (x = p ∨ (i = r ∧ x = { p with dirty := true })) := by
  obtain ⟨p, hp, rfl⟩ := setDirty_ok h
  by_cases hi : r = i
  · subst hi
    have hlt : r < pt.length := by
      by_contra hc
      rw [List.getElem?_eq_none (by omega)] at hp
      simp at hp
    rw [List.getElem?_set_self hlt] at hx
    simp only [Option.some.injEq] at hx
    exact ⟨p, hp, Or.inr ⟨rfl, hx.symm⟩⟩
  · rw [List.getElem?_set_ne hi] at hx
    exact ⟨x, hx, Or.inl rfl⟩

theorem propagateDirty_ok {pt pt1 : List TranslationEntry} {e : TranslationEntry}
    (h : propagateDirty pt e = .ok pt1) :
    (e.valid = true ∧ e.dirty = true →
      ∃ p, pt[toUnsigned e.virtualPage]? = some p ∧
        pt1 = pt.set (toUnsigned e.virtualPage) { p with dirty := true }) ∧
    (¬ (e.valid = true ∧ e.dirty = true) → pt1 = pt) := by
  unfold propagateDirty at h
  by_cases hc : (e.valid && e.dirty) = true
  · rw [if_pos hc] at h
    refine ⟨fun _ => setDirty_ok h, fun hn => ?_⟩
    simp only [Bool.and_eq_true] at hc
    exact absurd hc hn
  · rw [if_neg hc] at h
    simp only [Except.ok.injEq] at h
    refine ⟨fun hn => ?_, fun _ => h.symm⟩
    simp only [Bool.and_eq_true] at hc
    exact absurd hn hc

theorem propagateDirty_get {pt pt1 : List TranslationEntry} {e : TranslationEntry}
    (h : propagateDirty pt e = .ok pt1) (i : Nat) (x : TranslationEntry)
    (hx : pt1[i]? = some x) :
    ∃ p, pt[i]? = some p ∧ (x = p ∨ (e.valid = true ∧ e.dirty = true ∧
      i = toUnsigned e.virtualPage ∧ x = { p with dirty := true })) := by
  unfold propagateDirty at h
  by_cases hc : (e.valid && e.dirty) = true
  · rw [if_pos hc] at h
    simp only [Bool.and_eq_true] at hc
    obtain ⟨p, hp, hor⟩ := setDirty_get h i x hx
    refine ⟨p, hp, ?_⟩
    rcases hor with h1 | ⟨h1, h2⟩
    · exact Or.inl h1
    · exact Or.inr ⟨hc.1, hc.2, h1, h2⟩
  · rw [if_neg hc] at h
    simp only [Except.ok.injEq] at h
    subst h
    exact ⟨x, hx, Or.inl rfl⟩

theorem propagateDirty_length {pt pt1 : List TranslationEntry} {e : TranslationEntry}
    (h : propagateDirty pt e = .ok pt1) : pt1.length = pt.length := by
  unfold propagateDirty at h
  by_cases hc : (e.valid && e.dirty) = true
  · rw [if_pos hc] at h
    exact setDirty_length h
  · rw [if_neg hc] at h
    simp only [Except.ok.injEq] at h
    rw [h]

theorem propagateDirty_total {pt : List TranslationEntry} {e : TranslationEntry}
    (h : e.valid = true → e.dirty = true → toUnsigned e.virtualPage < pt.length) :
    ∃ pt1, propagateDirty pt e = .ok pt1 := by
  unfold propagateDirty
  by_cases hc : (e.valid && e.dirty) = true
  · rw [if_pos hc]
    simp only [Bool.and_eq_true] at hc
    exact setDirty_of_lt (h hc.1 hc.2)
  · rw [if_neg hc]
    exact ⟨_, rfl⟩

/-- C19. `Simple_TLBReplaceHandler(vpn)`, when it returns, has overwritten TLB slot
`vpn % TLBSize` with `pageTable[vpn]` and no other slot; the page table is as before, but
for the dirty bit set on the entry of the page that the slot held, when the slot was valid
and dirty. It returns whenever `vpn` and that page lie in the page table. -/
theorem Simple_TLBReplaceHandler_overwrites_one_slot (m r : Machine) (vpn : Nat)
    (h : Simple_TLBReplaceHandler m vpn = .ok r) :
    ∃ e x p, m.tlb[vpn % m.TLBSize]? = some e ∧ r.pageTable[vpn]? = some x ∧
      r.tlb = m.tlb.set (vpn % m.TLBSize) x ∧
      (∀ i : Nat, i ≠ vpn % m.TLBSize → r.tlb[i]? = m.tlb[i]?) ∧
      m.pageTable[vpn]? = some p ∧
      (x = p ∨ (toUnsigned e.virtualPage = vpn ∧ x = { p with dirty := true })) ∧
      (e.valid = true ∧ e.dirty = true →
        ∃ q, m.pageTable[toUnsigned e.virtualPage]? = some q ∧
          r.pageTable = m.pageTable.set (toUnsigned e.virtualPage) { q with dirty := true }) ∧
      (¬ (e.valid = true ∧ e.dirty = true) → r.pageTable = m.pageTable) ∧
      (∀ (m1 : Machine) (v : Nat), 0 < m1.TLBSize → v < m1.pageTableSize →
        (∀ t, m1.tlb[v % m1.TLBSize]? = some t → t.valid = true → t.dirty = true →
          toUnsigned t.virtualPage < m1.pageTableSize) →
        ∃ r1, Simple_TLBReplaceHandler m1 v = .ok r1) := by
  unfold Simple_TLBReplaceHandler at h
  simp only [] at h
  cases he : m.tlb[vpn % m.TLBSize]? with
  | none => rw [he] at h; simp at h
  | some e =>
    rw [he] at h
    simp only [] at h
    cases hp : propagateDirty m.pageTable e with
    | error f => rw [hp] at h; simp at h
    | ok pt1 =>
      rw [hp] at h
      simp only [] at h
      cases hx : pt1[vpn]? with
      | none => rw [hx] at h; simp at h
      | some x =>
        rw [hx] at h
        simp only [Except.ok.injEq] at h
        subst h
        obtain ⟨p, hp1, hp2⟩ := propagateDirty_get hp vpn x hx
        refine ⟨e, x, p, rfl, hx, rfl, ?_, hp1, ?_, (propagateDirty_ok hp).1,
          (propagateDirty_ok hp).2, ?_⟩
        · intro i hi
          simp only []
          rw [List.getElem?_set_ne (Ne.symm hi)]
        · rcases hp2 with h1 | ⟨_, _, h3, h4⟩
          · exact Or.inl h1
          · exact Or.inr ⟨h3.symm, h4⟩
        · intro m1 v h0 hv ht
          unfold Simple_TLBReplaceHandler
          simp only []
          have hlt : v % m1.TLBSize < m1.tlb.length := Nat.mod_lt _ h0
          rw [List.getElem?_eq_getElem hlt]
          simp only []
          obtain ⟨pt2, hpt2⟩ := propagateDirty_total
            (ht (m1.tlb[v % m1.TLBSize]) (List.getElem?_eq_getElem hlt))
          rw [hpt2]
          simp only []
          have : v < pt2.length := by
            rw [propagateDirty_length hpt2]; exact hv
          rw [List.getElem?_eq_getElem this]
          exact ⟨_, rfl⟩

theorem firstInvalid_none : ∀ (l : List TranslationEntry) (i : Nat),
    firstInvalid l i = none ↔ ∀ e ∈ l, e.valid = true := by
  intro l
  induction l with
  | nil => intro i; simp [firstInvalid]
  | cons a as ih =>
    intro i
    by_cases ha : a.valid = false
    · simp [firstInvalid, ha]
    · have ha1 : a.valid = true := by simpa using ha
      simp [firstInvalid, ha1, ih (i + 1)]

theorem firstInvalid_some : ∀ (l : List TranslationEntry) (i k : Nat),
    firstInvalid l i = some k ↔
      ∃ j t, k = i + j ∧ l[j]? = some t ∧ t.valid = false ∧
        ∀ (j1 : Nat) (s : TranslationEntry), j1 < j → l[j1]? = some s → s.valid = true := by
  intro l
  induction l with
  | nil => intro i k; simp [firstInvalid]
  | cons a as ih =>
    intro i k
    by_cases ha : a.valid = false
    · rw [firstInvalid, if_pos ha]
      constructor
      · intro h
        simp only [Option.some.injEq] at h
        exact ⟨0, a, by omega, by simp, ha, fun j1 s hj => by omega⟩
      · rintro ⟨j, t, hk, hj, ht, hall⟩
        cases j with
        | zero => simp only [Option.some.injEq]; omega
        | succ j =>
          have := hall 0 a (by omega) (by simp)
          rw [ha] at this
          simp at this
    · have ha1 : a.valid = true := by simpa using ha
      rw [firstInvalid, if_neg ha, ih (i + 1) k]
      constructor
      · rintro ⟨j, t, hk, hj, ht, hall⟩
        refine ⟨j + 1, t, by omega, by simpa using hj, ht, ?_⟩
        intro j1 s hj1 hs
        cases j1 with
        | zero =>
          simp only [List.getElem?_cons_zero, Option.some.injEq] at hs
          rw [← hs]; exact ha1
        | succ j1 => exact hall j1 s (by omega) (by simpa using hs)
      · rintro ⟨j, t, hk, hj, ht, hall⟩
        cases j with
        | zero =>
          simp only [List.getElem?_cons_zero, Option.some.injEq] at hj
          rw [← hj, ha1] at ht
          simp at ht
        | succ j =>
          refine ⟨j, t, by omega, by simpa using hj, ht, ?_⟩
          intro j1 s hj1 hs
          exact hall (j1 + 1) s (by omega) (by simpa using hs)

/-- The shift loop run from slot `pre.length` to the end moves every later slot down by
one; the last slot keeps its value. -/
theorem shiftLoop_eq : ∀ (post pre : List TranslationEntry) (a : TranslationEntry),
    shiftLoop post.length pre.length (pre ++ a :: post)
      = pre ++ post ++ [(a :: post).getLast (List.cons_ne_nil _ _)] := by
  intro post
  induction post with
  | nil => intro pre a; simp [shiftLoop]
  | cons b post ih =>
    intro pre a
    have h1 : (pre ++ a :: b :: post)[pre.length + 1]? = some b := by
      rw [List.getElem?_append_right (by omega)]
      simp
    have h2 : (pre ++ a :: b :: post).set pre.length b = (pre ++ [b]) ++ b :: post := by
      rw [List.set_append_right _ _ (by omega)]
      simp
    rw [List.length_cons, shiftLoop, h1]
    simp only []
    rw [h2]
    have := ih (pre ++ [b]) b
    rw [List.length_append, List.length_singleton] at this
    rw [this]
    simp

theorem shiftLoop_set (tlb : List TranslationEntry) (k : Nat) (x : TranslationEntry)
    (hk : k < tlb.length) :
    (shiftLoop (tlb.length - 1 - k) k tlb).set (tlb.length - 1) x = tlb.eraseIdx k ++ [x] := by
  obtain ⟨pre, a, post, rfl, hpre⟩ : ∃ pre a post, tlb = pre ++ a :: post ∧ pre.length = k := by
    refine ⟨tlb.take k, tlb[k], tlb.drop (k + 1), ?_, by simp; omega⟩
    rw [← List.drop_eq_getElem_cons hk, List.take_append_drop]
  subst hpre
  have hl : (pre ++ a :: post).length - 1 - pre.length = post.length := by simp
  rw [hl, shiftLoop_eq]
  have he : (pre ++ a :: post).eraseIdx pre.length = pre ++ post := by
    rw [List.eraseIdx_append_of_length_le (Nat.le_refl _)]
    simp
  rw [he]
  have hl2 : (pre ++ a :: post).length - 1 = (pre ++ post).length := by simp
  rw [hl2, List.set_append_right _ _ (Nat.le_refl _)]
  simp

theorem mem_eraseIdx_of_ne {l : List TranslationEntry} {k : Nat} {t s : TranslationEntry}
    (hk : l[k]? = some t) (hs : s ∈ l) (hne : s ≠ t) : s ∈ l.eraseIdx k := by
  obtain ⟨j, hj⟩ := List.getElem?_of_mem hs
  have hjk : j ≠ k := by
    intro h; subst h; rw [hk] at hj; simp only [Option.some.injEq] at hj; exact hne hj.symm
  have hjl : j < l.length := by
    by_contra hc
    rw [List.getElem?_eq_none (by omega)] at hj
    simp at hj
  have hkl : k < l.length := by
    by_contra hc
    rw [List.getElem?_eq_none (by omega)] at hk
    simp at hk
  by_cases hlt : j < k
  · have : (l.eraseIdx k)[j]? = some s := by
      rw [List.getElem?_eraseIdx, if_pos hlt, hj]
    exact List.getElem?_mem this
  · have : (l.eraseIdx k)[j - 1]? = some s := by
      rw [List.getElem?_eraseIdx, if_neg (by omega)]
      have : j - 1 + 1 = j := by omega
      rw [this, hj]
    exact List.getElem?_mem this

/-- C18. `FIFO_TLBReplaceHandler(vpn)`, when it returns: if every TLB slot is valid, slot 0
is evicted, each slot `i + 1` has moved to slot `i`, `pageTable[vpn]` is in the last slot,
and the evicted page has its dirty bit set in the page table if the evicted entry was
dirty; if some slot is invalid, the first such slot is the one dropped by the shift, the
page table is unchanged, and every valid entry is still in the TLB. It returns whenever
the TLB has a slot and `vpn` and the evicted page lie in the page table. -/
theorem FIFO_TLBReplaceHandler_shifts (m r : Machine) (vpn : Nat)
    (h : FIFO_TLBReplaceHandler m vpn = .ok r) :
    ((∀ e ∈ m.tlb, e.valid = true) →
      ∃ e rest x, m.tlb = e :: rest ∧ r.pageTable[vpn]? = some x ∧ r.tlb = rest ++ [x] ∧
        (e.dirty = true → ∃ q, m.pageTable[toUnsigned e.virtualPage]? = some q ∧
          r.pageTable = m.pageTable.set (toUnsigned e.virtualPage) { q with dirty := true }) ∧
        (e.dirty = false → r.pageTable = m.pageTable)) ∧
    (∀ (k : Nat) (t : TranslationEntry), m.tlb[k]? = some t → t.valid = false →
      (∀ (j : Nat) (s : TranslationEntry), j < k → m.tlb[j]? = some s → s.valid = true) →
      ∃ x, m.pageTable[vpn]? = some x ∧ r.tlb = m.tlb.eraseIdx k ++ [x] ∧
        r.pageTable = m.pageTable ∧ ∀ s ∈ m.tlb, s.valid = true → s ∈ r.tlb) ∧
    (∀ (m1 : Machine) (v : Nat), 0 < m1.TLBSize → v < m1.pageTableSize →
      (∀ t ∈ m1.tlb, t.valid = true → t.dirty = true →
        toUnsigned t.virtualPage < m1.pageTableSize) →
      ∃ r1, FIFO_TLBReplaceHandler m1 v = .ok r1) := by
  unfold FIFO_TLBReplaceHandler at h
  simp only [] at h
  cases he : m.tlb[(firstInvalid m.tlb 0).getD 0]? with
  | none => rw [he] at h; simp at h
  | some e =>
    rw [he] at h
    simp only [] at h
    cases hp : propagateDirty m.pageTable e with
    | error f => rw [hp] at h; simp at h
    | ok pt1 =>
      rw [hp] at h
      simp only [] at h
      cases hx : pt1[vpn]? with
      | none => rw [hx] at h; simp at h
      | some x =>
        rw [hx] at h
        simp only [Except.ok.injEq] at h
        subst h
        have hidx : (firstInvalid m.tlb 0).getD 0 < m.tlb.length := by
          by_contra hc
          rw [List.getElem?_eq_none (by omega)] at he
          simp at he
        simp only [Machine.TLBSize]
        rw [shiftLoop_set m.tlb _ x hidx]
        refine ⟨?_, ?_, ?_⟩
        · intro hall
          have hnone := (firstInvalid_none m.tlb 0).mpr hall
          rw [hnone] at he ⊢
          simp only [Option.getD_none] at he ⊢
          cases htl : m.tlb with
          | nil => rw [htl] at he; simp at he
          | cons a rest =>
            rw [htl] at he
            simp only [List.getElem?_cons_zero, Option.some.injEq] at he
            subst he
            have hav : a.valid = true := hall a (by rw [htl]; simp)
            refine ⟨a, rest, x, rfl, hx, by simp, ?_, ?_⟩
            · intro hd
              exact (propagateDirty_ok hp).1 ⟨hav, hd⟩
            · intro hd
              exact (propagateDirty_ok hp).2 (by rw [hd]; simp)
        · intro k t hk ht hbelow
          have hsome : firstInvalid m.tlb 0 = some k :=
            (firstInvalid_some m.tlb 0 k).mpr ⟨k, t, by omega, hk, ht, hbelow⟩
          rw [hsome] at he ⊢
          simp only [Option.getD_some] at he ⊢
          rw [hk] at he
          simp only [Option.some.injEq] at he
          subst he
          have hpt : pt1 = m.pageTable :=
            (propagateDirty_ok hp).2 (by rw [ht]; simp)
          subst hpt
          refine ⟨x, hx, rfl, rfl, ?_⟩
          intro s hs hsv
          have hne : s ≠ t := by
            intro hc; rw [hc, ht] at hsv; simp at hsv
          exact List.mem_append_left _ (mem_eraseIdx_of_ne hk hs hne)
        · intro m1 v h0 hv ht
          unfold FIFO_TLBReplaceHandler
          simp only []
          have hlt : (firstInvalid m1.tlb 0).getD 0 < m1.tlb.length := by
            cases hf : firstInvalid m1.tlb 0 with
            | none => simpa using h0
            | some k =>
              obtain ⟨j, t, hk, hj, _, _⟩ := (firstInvalid_some m1.tlb 0 k).mp hf
              simp only [Option.getD_some]
              by_contra hc
              rw [List.getElem?_eq_none (by omega)] at hj
              simp at hj
          rw [List.getElem?_eq_getElem hlt]
          simp only []
          obtain ⟨pt2, hpt2⟩ := propagateDirty_total
            (ht (m1.tlb[(firstInvalid m1.tlb 0).getD 0]) (List.getElem_mem _))
          rw [hpt2]
          simp only []
          have : v < pt2.length := by
            rw [propagateDirty_length hpt2]; exact hv
          rw [List.getElem?_eq_getElem this]
          exact ⟨_, rfl⟩

/-- The loop that looks for the smallest `LRUrecord` ends either with the `index` it
started with, no record being below `minRecord`, or at the first slot that holds the
smallest record. -/
theorem minLoop_spec : ∀ (l : List TranslationEntry) (i index minRecord : Nat),
    ((∀ e ∈ l, minRecord ≤ e.LRUrecord % 2 ^ 32) ∧ minLoop l i index minRecord = index) ∨
    ∃ k t, l[k]? = some t ∧ t.LRUrecord % 2 ^ 32 < minRecord ∧
      minLoop l i index minRecord = i + k ∧
      (∀ (j : Nat) (s : TranslationEntry), l[j]? = some s →
        t.LRUrecord % 2 ^ 32 ≤ s.LRUrecord % 2 ^ 32) ∧
      (∀ (j : Nat) (s : TranslationEntry), j < k → l[j]? = some s →
        t.LRUrecord % 2 ^ 32 < s.LRUrecord % 2 ^ 32) := by
  intro l
  induction l with
  | nil => intro i index minRecord; left; simp [minLoop]
  | cons a as ih =>
    intro i index minRecord
    by_cases ha : a.LRUrecord % 2 ^ 32 < minRecord
    · rw [minLoop, if_pos ha]
      right
      rcases ih (i + 1) i (a.LRUrecord % 2 ^ 32) with ⟨hall, hres⟩ | ⟨k, t, hk, hlt, hres, hmin, hfirst⟩
      · refine ⟨0, a, by simp, ha, by rw [hres]; rfl, ?_, fun j s hj => by omega⟩
        intro j s hs
        cases j with
        | zero =>
          simp only [List.getElem?_cons_zero, Option.some.injEq] at hs
          rw [hs]
        | succ j =>
          exact hall s (List.getElem?_mem (by simpa using hs))
      · refine ⟨k + 1, t, by simpa using hk, by omega, by rw [hres]; omega, ?_, ?_⟩
        · intro j s hs
          cases j with
          | zero =>
            simp only [List.getElem?_cons_zero, Option.some.injEq] at hs
            rw [← hs]; omega
          | succ j => exact hmin j s (by simpa using hs)
        · intro j s hj hs
          cases j with
          | zero =>
            simp only [List.getElem?_cons_zero, Option.some.injEq] at hs
            rw [← hs]; exact hlt
          | succ j => exact hfirst j s (by omega) (by simpa using hs)
    · rw [minLoop, if_neg ha]
      rcases ih (i + 1) index minRecord with ⟨hall, hres⟩ | ⟨k, t, hk, hlt, hres, hmin, hfirst⟩
      · left
        refine ⟨?_, hres⟩
        intro e he
        rcases List.mem_cons.mp he with rfl | he
        · omega
        · exact hall e he
      · right
        refine ⟨k + 1, t, by simpa using hk, hlt, by rw [hres]; omega, ?_, ?_⟩
        · intro j s hs
          cases j with
          | zero =>
            simp only [List.getElem?_cons_zero, Option.some.injEq] at hs
            rw [← hs]; omega
          | succ j => exact hmin j s (by simpa using hs)
        · intro j s hj hs
          cases j with
          | zero =>
            simp only [List.getElem?_cons_zero, Option.some.injEq] at hs
            rw [← hs]; omega
          | succ j => exact hfirst j s (by omega) (by simpa using hs)

/-- Started as `LRU_TLBReplaceHandler` starts it, the loop ends at the first slot that
holds the smallest record. -/
theorem minLoop_first_min (l : List TranslationEntry) (e : TranslationEntry)
    (he : l[minLoop l 0 0 maxUnsigned]? = some e) :
    (∀ (j : Nat) (s : TranslationEntry), l[j]? = some s →
      e.LRUrecord % 2 ^ 32 ≤ s.LRUrecord % 2 ^ 32) ∧
    (∀ (j : Nat) (s : TranslationEntry), j < minLoop l 0 0 maxUnsigned → l[j]? = some s →
      e.LRUrecord % 2 ^ 32 < s.LRUrecord % 2 ^ 32) := by
  rcases minLoop_spec l 0 0 maxUnsigned with ⟨hall, hres⟩ | ⟨k, t, hk, hlt, hres, hmin, hfirst⟩
  · rw [hres] at he ⊢
    refine ⟨?_, fun j s hj => by omega⟩
    intro j s hs
    have h1 := hall s (List.getElem?_mem hs)
    have h2 : e.LRUrecord % 2 ^ 32 < 2 ^ 32 := Nat.mod_lt _ (by norm_num)
    have h3 : maxUnsigned = 2 ^ 32 - 1 := rfl
    omega
  · rw [hres, Nat.zero_add] at he ⊢
    rw [hk] at he
    simp only [Option.some.injEq] at he
    subst he
    exact ⟨hmin, hfirst⟩

theorem minLoop_lt (l : List TranslationEntry) (h : 0 < l.length) :
    minLoop l 0 0 maxUnsigned < l.length := by
  rcases minLoop_spec l 0 0 maxUnsigned with ⟨_, hres⟩ | ⟨k, t, hk, _, hres, _, _⟩
  · rw [hres]; exact h
  · rw [hres, Nat.zero_add]
    by_contra hc
    rw [List.getElem?_eq_none (by omega)] at hk
    simp at hk

/-- C17. `LRU_TLBReplaceHandler(vpn)` in the build with per-process page tables, when it
returns: if some TLB slot is invalid, the lowest-indexed invalid slot holds
`pageTable[vpn]` and no other slot and no page-table entry has changed; otherwise the slot
with the smallest `LRUrecord`, the lowest-indexed one among equals, holds `pageTable[vpn]`,
the page it held has its dirty bit set in the page table if the evicted entry was dirty,
and no other slot has changed. It returns whenever the TLB has a slot and `vpn` and the
evicted page lie in the page table. -/
theorem LRU_TLBReplaceHandler_prefers_invalid (m r : Machine) (vpn : Nat)
    (h : LRU_TLBReplaceHandler m vpn = .ok r) :
    (∀ (k : Nat) (t : TranslationEntry), m.tlb[k]? = some t → t.valid = false →
      (∀ (j : Nat) (s : TranslationEntry), j < k → m.tlb[j]? = some s → s.valid = true) →
      ∃ x, m.pageTable[vpn]? = some x ∧ r.tlb = m.tlb.set k x ∧
        r.pageTable = m.pageTable) ∧
    ((∀ e ∈ m.tlb, e.valid = true) →
      ∃ k e x, m.tlb[k]? = some e ∧
        (∀ (j : Nat) (s : TranslationEntry), m.tlb[j]? = some s →
          e.LRUrecord % 2 ^ 32 ≤ s.LRUrecord % 2 ^ 32) ∧
        (∀ (j : Nat) (s : TranslationEntry), j < k → m.tlb[j]? = some s →
          e.LRUrecord % 2 ^ 32 < s.LRUrecord % 2 ^ 32) ∧
        r.pageTable[vpn]? = some x ∧ r.tlb = m.tlb.set k x ∧
        (∀ i : Nat, i ≠ k → r.tlb[i]? = m.tlb[i]?) ∧
        (e.dirty = true → ∃ q, m.pageTable[toUnsigned e.virtualPage]? = some q ∧
          r.pageTable = m.pageTable.set (toUnsigned e.virtualPage) { q with dirty := true }) ∧
        (e.dirty = false → r.pageTable = m.pageTable)) ∧
    (∀ (m1 : Machine) (v : Nat), 0 < m1.TLBSize → v < m1.pageTableSize →
      (∀ t ∈ m1.tlb, t.valid = true → t.dirty = true →
        toUnsigned t.virtualPage < m1.pageTableSize) →
      ∃ r1, LRU_TLBReplaceHandler m1 v = .ok r1) := by
  unfold LRU_TLBReplaceHandler at h
  refine ⟨?_, ?_, ?_⟩
  · intro k t hk ht hbelow
    have hsome : firstInvalid m.tlb 0 = some k :=
      (firstInvalid_some m.tlb 0 k).mpr ⟨k, t, by omega, hk, ht, hbelow⟩
    rw [hsome] at h
    simp only [] at h
    cases hx : m.pageTable[vpn]? with
    | none => rw [hx] at h; simp at h
    | some x =>
      rw [hx] at h
      simp only [Except.ok.injEq] at h
      subst h
      exact ⟨x, rfl, rfl, rfl⟩
  · intro hall
    rw [(firstInvalid_none m.tlb 0).mpr hall] at h
    simp only [] at h
    cases he : m.tlb[minLoop m.tlb 0 0 maxUnsigned]? with
    | none => rw [he] at h; simp at h
    | some e =>
      rw [he] at h
      simp only [] at h
      cases hp : (if e.dirty = true then setDirty m.pageTable (toUnsigned e.virtualPage)
          else Except.ok m.pageTable) with
      | error f => rw [hp] at h; simp at h
      | ok pt1 =>
        rw [hp] at h
        simp only [] at h
        cases hx : pt1[vpn]? with
        | none => rw [hx] at h; simp at h
        | some x =>
          rw [hx] at h
          simp only [Except.ok.injEq] at h
          subst h
          obtain ⟨hmin, hfirst⟩ := minLoop_first_min m.tlb e he
          refine ⟨_, e, x, he, hmin, hfirst, hx, rfl, ?_, ?_, ?_⟩
          · intro i hi
            simp only []
            rw [List.getElem?_set_ne (Ne.symm hi)]
          · intro hd
            rw [if_pos hd] at hp
            exact setDirty_ok hp
          · intro hd
            rw [if_neg (by rw [hd]; simp)] at hp
            simp only [Except.ok.injEq] at hp
            exact hp.symm
  · intro m1 v h0 hv ht
    unfold LRU_TLBReplaceHandler
    have hvx : m1.pageTable[v]? = some (m1.pageTable[v]) := List.getElem?_eq_getElem hv
    cases hf : firstInvalid m1.tlb 0 with
    | some k =>
      simp only []
      rw [hvx]
      exact ⟨_, rfl⟩
    | none =>
      simp only []
      have hlt := minLoop_lt m1.tlb h0
      rw [List.getElem?_eq_getElem hlt]
      simp only []
      have hval := (firstInvalid_none m1.tlb 0).mp hf _ (List.getElem_mem hlt)
      by_cases hd : (m1.tlb[minLoop m1.tlb 0 0 maxUnsigned]).dirty = true
      · rw [if_pos hd]
        obtain ⟨pt2, hpt2⟩ := setDirty_of_lt (ht _ (List.getElem_mem hlt) hval hd)
        rw [hpt2]
        simp only []
        have : v < pt2.length := by
          rw [setDirty_length hpt2]; exact hv
        rw [List.getElem?_eq_getElem this]
        exact ⟨_, rfl⟩
      · rw [if_neg hd]
        simp only []
        rw [hvx]
        exact ⟨_, rfl⟩

/-- The victim loop ends with the `index` it started with or at a valid entry of the
page table. -/
theorem victimLoop_spec (past : Nat → Nat) (tlb : List TranslationEntry) :
    ∀ (l : List TranslationEntry) (i : Nat) (index : Int) (minRecord : Nat),
      victimLoop past tlb l i index minRecord = index ∨
      ∃ k e, l[k]? = some e ∧ e.valid = true ∧
        victimLoop past tlb l i index minRecord = ((i + k : Nat) : Int) := by
  intro l
  induction l with
  | nil => intro i index minRecord; left; rfl
  | cons a as ih =>
    intro i index minRecord
    by_cases hc : (a.valid && decide (a.LRUrecord % 2 ^ 32 < minRecord)) = true
    · rw [victimLoop, if_pos hc]
      right
      simp only [Bool.and_eq_true] at hc
      rcases ih (i + 1) (i : Int) (tlbRecord past tlb i % 2 ^ 32) with
        hres | ⟨k, e, hk, hv, hres⟩
      · exact ⟨0, a, by simp, hc.1, by rw [hres]; rfl⟩
      · refine ⟨k + 1, e, by simpa using hk, hv, ?_⟩
        rw [hres]
        congr 1
        omega
    · rw [victimLoop, if_neg hc]
      rcases ih (i + 1) index minRecord with hres | ⟨k, e, hk, hv, hres⟩
      · left; exact hres
      · right
        refine ⟨k + 1, e, by simpa using hk, hv, ?_⟩
        rw [hres]
        congr 1
        omega

/-- C15, the defect. In a page table of two valid entries with `LRUrecord` 5 and 3, the
handler takes entry 0 as the victim, not entry 1 that has the smallest `LRUrecord`: after
choosing entry 0 the loop lowers `minRecord` to the `LRUrecord` of TLB slot 0, which is 1,
and 3 is not below it. -/
theorem LRU_Local_victim_not_smallest_record :
    staleMachine.pageTable.map (fun e => (e.valid, e.LRUrecord)) = [(true, 5), (true, 3)] ∧
    victimLoop (fun _ => 0) staleMachine.tlb staleMachine.pageTable 0 (-1) maxUnsigned = 0 ∧
    (LRU_LocalPageFrameReplaceHandler staleMachine 3 (fun _ => 0) true).toOption.map
        (fun r => (r.1, r.2.1.pageTable.map (fun e => e.valid)))
      = some (0, [false, true]) := by
  decide

/-- The hypothesis of `Simple_TLBReplaceHandler_overwrites_one_slot` holds for
`fullTLBMachine` and page 5, which goes to slot 1. -/
theorem Simple_TLBReplaceHandler_overwrites_one_slot_witness :
    ∃ r, Simple_TLBReplaceHandler fullTLBMachine 5 = .ok r ∧
      ∃ e x, fullTLBMachine.tlb[5 % fullTLBMachine.TLBSize]? = some e ∧
        r.pageTable[5]? = some x ∧
        r.tlb = fullTLBMachine.tlb.set (5 % fullTLBMachine.TLBSize) x :=
  ⟨_, rfl,
    let ⟨e, x, _, h1, h2, h3, _⟩ :=
      Simple_TLBReplaceHandler_overwrites_one_slot fullTLBMachine _ 5 rfl
    ⟨e, x, h1, h2, h3⟩⟩

/-- The hypothesis of `FIFO_TLBReplaceHandler_shifts` holds for `fullTLBMachine` and page
5: every slot is valid, so slot 0 is evicted. -/
theorem FIFO_TLBReplaceHandler_shifts_witness :
    ∃ r, FIFO_TLBReplaceHandler fullTLBMachine 5 = .ok r ∧
      ((∀ e ∈ fullTLBMachine.tlb, e.valid = true) →
        ∃ e rest x, fullTLBMachine.tlb = e :: rest ∧ r.pageTable[5]? = some x ∧
          r.tlb = rest ++ [x]) :=
  ⟨_, rfl, fun hall =>
    let ⟨e, rest, x, h1, h2, h3, _⟩ :=
      (FIFO_TLBReplaceHandler_shifts fullTLBMachine _ 5 rfl).1 hall
    ⟨e, rest, x, h1, h2, h3⟩⟩

/-- The hypothesis of `LRU_TLBReplaceHandler_prefers_invalid` holds for `fullTLBMachine`
and page 5: every slot is valid, so the first slot with the smallest record is replaced. -/
theorem LRU_TLBReplaceHandler_prefers_invalid_witness :
    ∃ r, LRU_TLBReplaceHandler fullTLBMachine 5 = .ok r ∧
      ((∀ e ∈ fullTLBMachine.tlb, e.valid = true) →
        ∃ k e x, fullTLBMachine.tlb[k]? = some e ∧ r.pageTable[5]? = some x ∧
          r.tlb = fullTLBMachine.tlb.set k x) :=
  ⟨_, rfl, fun hall =>
    let ⟨k, e, x, h1, _, _, h4, h5, _⟩ :=
      (LRU_TLBReplaceHandler_prefers_invalid fullTLBMachine _ 5 rfl).2.1 hall
    ⟨k, e, x, h1, h4, h5⟩⟩

/-! ## Locks -/

theorem lastAcquirer_no_return : ∀ (outs : List LockOutcome),
    outs.any LockOutcome.isReturn = false → lastAcquirer outs = none := by
  intro outs
  induction outs with
  | nil => intro _; rfl
  | cons o os ih =>
    intro h
    simp only [List.any_cons, Bool.or_eq_false_iff] at h
    cases o with
    | returned t => simp [LockOutcome.isReturn] at h
    | slept t => simp [lastAcquirer, h.2]
    | released t => simp [lastAcquirer, h.2]

theorem holderFrom_none (outs : List LockOutcome) : holderFrom none outs = lastAcquirer outs := by
  unfold holderFrom
  by_cases h : outs.any LockOutcome.isReturn = true
  · rw [if_pos h]
  · rw [if_neg h, lastAcquirer_no_return outs (by simpa using h)]

theorem holderFrom_returned (init : Option Nat) (t : Nat) (outs : List LockOutcome) :
    holderFrom init (.returned t :: outs) = holderFrom (some t) outs := by
  unfold holderFrom
  rw [if_pos (by simp [LockOutcome.isReturn])]
  simp only [lastAcquirer]

theorem holderFrom_slept (init : Option Nat) (t : Nat) (outs : List LockOutcome) :
    holderFrom init (.slept t :: outs) = holderFrom init outs := by
  unfold holderFrom
  by_cases h : outs.any LockOutcome.isReturn = true
  · rw [if_pos h, if_pos (by simp [h])]
    simp only [lastAcquirer, h, if_true]
  · rw [if_neg h, if_neg (by simpa [LockOutcome.isReturn] using h)]
    cases init with
    | none => rfl
    | some s => simp

theorem holderFrom_released (t : Nat) (outs : List LockOutcome) :
    holderFrom (some t) (.released t :: outs) = holderFrom none outs := by
  unfold holderFrom
  by_cases h : outs.any LockOutcome.isReturn = true
  · rw [if_pos h, if_pos (by simp [h])]
    simp only [lastAcquirer, h, if_true]
  · rw [if_neg h, if_neg (by simpa [LockOutcome.isReturn] using h)]
    simp

theorem runLock_holder : ∀ (cs : List LockCall) (l l1 : Lock) (outs : List LockOutcome),
    l.Inv → runLock l cs = .ok (l1, outs) →
    l1.holdingThread = holderFrom l.holdingThread outs ∧ l1.Inv := by
  intro cs
  induction cs with
  | nil =>
    intro l l1 outs hinv h
    simp only [runLock, Except.ok.injEq, Prod.mk.injEq] at h
    obtain ⟨rfl, rfl⟩ := h
    refine ⟨?_, hinv⟩
    unfold holderFrom
    cases l.holdingThread <;> simp
  | cons c cs ih =>
    intro l l1 outs hinv h
    cases c with
    | Acquire t =>
      rw [runLock] at h
      cases hr : runLock (l.Acquire t).1 cs with
      | error f => rw [hr] at h; simp at h
      | ok v =>
        obtain ⟨l2, outs2⟩ := v
        rw [hr] at h
        simp only [Except.ok.injEq, Prod.mk.injEq] at h
        obtain ⟨rfl, rfl⟩ := h
        by_cases hv : l.lockSem.value = 0
        · have ha : l.Acquire t = ({ l with lockSem := { l.lockSem with queue := l.lockSem.queue ++ [t] } }, false) := by
            simp [Lock.Acquire, Semaphore.P, hv]
          rw [ha] at hr ⊢
          have := ih _ l2 outs2 (by simpa [Lock.Inv] using hinv) hr
          simp only [Bool.false_eq_true, if_false]
          rw [holderFrom_slept]
          exact this
        · have ha : l.Acquire t = (⟨{ l.lockSem with value := l.lockSem.value - 1 }, some t⟩, true) := by
            simp [Lock.Acquire, Semaphore.P, hv]
          rw [ha] at hr ⊢
          have hone : l.lockSem.value = 1 := by
            unfold Lock.Inv at hinv
            by_cases hh : l.holdingThread = none
            · rw [if_pos hh] at hinv; exact hinv
            · rw [if_neg hh] at hinv; exact absurd hinv hv
          have := ih _ l2 outs2 (by simp [Lock.Inv, hone]) hr
          simp only [if_true]
          rw [holderFrom_returned]
          exact this
    | Release t =>
      rw [runLock] at h
      by_cases hh : some t ≠ l.holdingThread
      · simp [Lock.Release, hh] at h
      · have hh1 : l.holdingThread = some t := by
          simp only [ne_eq, not_not] at hh; exact hh.symm
        have hrel : l.Release t = .ok (⟨l.lockSem.V.1, none⟩, l.lockSem.V.2) := by
          simp [Lock.Release, hh1]
        rw [hrel] at h
        simp only [] at h
        cases hr : runLock ⟨l.lockSem.V.1, none⟩ cs with
        | error f => rw [hr] at h; simp at h
        | ok v =>
          obtain ⟨l2, outs2⟩ := v
          rw [hr] at h
          simp only [Except.ok.injEq, Prod.mk.injEq] at h
          obtain ⟨rfl, rfl⟩ := h
          have hzero : l.lockSem.value = 0 := by
            unfold Lock.Inv at hinv
            rw [hh1] at hinv
            simpa using hinv
          have hV : l.lockSem.V.1.value = 1 := by
            unfold Semaphore.V
            cases l.lockSem.queue <;> simp [hzero]
          have := ih _ l2 outs2 (by simp [Lock.Inv, hV]) hr
          rw [hh1, holderFrom_released]
          exact this

/-- C20. `Lock::Release` run by a thread other than the holder, also on a free lock, fails
its assertion. Run by the holder it returns, leaves `holdingThread` NULL, and has made
one `V` on the semaphore of the lock: the value is one higher and the first waiting
thread, if there is one, has been taken from the queue and made ready. In every run of
`Acquire` and `Release` steps on a new lock, `isHeldByCurrentThread` is true exactly for
the thread that last returned from `Acquire` and has not released since. -/
theorem Lock_Release_by_holder_only :
    (∀ (l : Lock) (t : Nat), l.holdingThread ≠ some t →
      l.Release t = .error Fault.assertion) ∧
    (∀ (l : Lock) (t : Nat), l.holdingThread = some t →
      ∃ l1 woken, l.Release t = .ok (l1, woken) ∧ l1.holdingThread = none ∧
        l1.lockSem = l.lockSem.V.1 ∧ woken = l.lockSem.V.2 ∧
        l1.lockSem.value = l.lockSem.value + 1 ∧ woken = l.lockSem.queue.head? ∧
        l1.lockSem.queue = l.lockSem.queue.tail) ∧
    (∀ (cs : List LockCall) (l : Lock) (outs : List LockOutcome),
      runLock Lock.create cs = .ok (l, outs) →
      (∀ t : Nat, l.isHeldByCurrentThread t = true ↔ lastAcquirer outs = some t) ∧
      l.lockSem.value = (if l.holdingThread = none then 1 else 0)) := by
  refine ⟨?_, ?_, ?_⟩
  · intro l t h
    have : some t ≠ l.holdingThread := fun hc => h hc.symm
    simp [Lock.Release, this]
  · intro l t h
    refine ⟨⟨l.lockSem.V.1, none⟩, l.lockSem.V.2, by simp [Lock.Release, h], rfl, rfl, rfl, ?_⟩
    unfold Semaphore.V
    cases l.lockSem.queue <;> simp
  · intro cs l outs h
    obtain ⟨h1, h2⟩ := runLock_holder cs Lock.create l outs (by simp [Lock.Inv, Lock.create]) h
    refine ⟨?_, h2⟩
    intro t
    have h3 : Lock.create.holdingThread = none := rfl
    rw [h3, holderFrom_none] at h1
    unfold Lock.isHeldByCurrentThread
    rw [h1]
    simp only [decide_eq_true_eq]
    exact eq_comm

/-- Thread 1 takes a new lock, thread 2 sleeps on it, thread 1 releases it and thread 2,
woken, takes it: the lock is then held by thread 2. -/
theorem Lock_Release_by_holder_only_witness :
    ∃ l outs, runLock Lock.create [.Acquire 1, .Acquire 2, .Release 1, .Acquire 2]
        = .ok (l, outs) ∧
      l.isHeldByCurrentThread 2 = true ∧ lastAcquirer outs = some 2 ∧
      Lock.Release ⟨⟨1, []⟩, none⟩ 1 = .error Fault.assertion :=
  ⟨_, _, rfl, by decide,
    ((Lock_Release_by_holder_only.2.2 [.Acquire 1, .Acquire 2, .Release 1, .Acquire 2]
      _ _ rfl).1 2).mp (by decide),
    Lock_Release_by_holder_only.1 _ 1 (by decide)⟩

/-! ## `Open`, and `Create` when a file is extended -/

set_option maxRecDepth 100000 in
set_option synthInstance.maxSize 1024 in
/-- C11, the defect. On a freshly formatted disk `Create` of a file whose name has 124
characters returns TRUE, and `Open` of the same path then returns NULL: the name does not
fit the 128 bytes of the root's Name File, `Add` has the Name File extended, `ExpandFile`
takes for it, from the free map on the disk, sector 9 that `Create` has just taken for the
new inode, and the inode then overwrites the end of the name. With a name of 3 characters
`Open` returns a handle on sector 9, whose header has type `NormalFile` and length 0. -/
theorem Create_then_Open_returns_NULL :
    (runFresh [.create (rootPath 97 124) 0]).map
        (fun r => (r.1, openOn r.2 (rootPath 97 124)))
      = some ([true], some none) ∧
    (runFresh [.create (rootPath 97 3) 0]).map
        (fun r => (r.1, openOn r.2 (rootPath 97 3)))
      = some ([true], some (some (9, NormalFile, 0))) := by
  decide!

set_option maxRecDepth 100000 in
set_option synthInstance.maxSize 1024 in
/-- C12, the defect. After formatting, `.` and `..` of the root both map to
`DirectorySector`. After two files with names of 60 characters and 896 bytes each,
`Create` of a directory whose name has 98 characters returns TRUE; the new inode, in
sector 31, has type `DirectoryFile` and a table of 10 entries whose first two entries hold
sectors 31 and 1; but `Find` gives −1 for `.` and for `..` in it: extending the root's
Name File, `ExpandFile` has taken sector 29, the inode of the new directory's Name File,
and the name written over that inode makes sector 35 the first data sector of the new
Name File, the sector that then receives the Path File. -/
theorem new_directory_loses_dot :
    (runFresh []).map (fun r => directoryAt r.2 DirectorySector)
      = some (DirectoryFile, some (10, [(true, 1), (true, 1)]), some 1, some 1) ∧
    (runFresh [.create (rootPath 97 60) 896, .create (rootPath 98 60) 896,
        .create longDirectoryPath (-1)]).map
        (fun r => (r.1, findAt r.2 DirectorySector longDirectoryPath.tail, directoryAt r.2 31))
      = some ([true, true, true], some 31,
          DirectoryFile, some (10, [(true, 31), (true, 1)]), some (-1), some (-1)) := by
  decide!

set_option maxRecDepth 100000 in
/-- C13, the defect. On a disk with sectors 9 and 10 free and no other, `Create` of a file
whose name has 124 characters returns FALSE, no sector being left for the Path File, and
sector 9, free in the free-map file before the call, is marked in it after: `Add` had the
Name File of the root extended, and `ExpandFile` wrote the free map back. -/
theorem Create_failure_changes_free_map :
    (persistedMap (withFreeSectors (afterCalls []) [9, 10])).Test 9 = false ∧
    ((withFreeSectors (afterCalls []) [9, 10]).Create zeroEnv (rootPath 97 124) 0).toOption.map
        (fun r => (r.1, (persistedMap r.2).Test 9))
      = some (false, true) := by
  decide!

set_option maxRecDepth 100000 in
/-- C14, the defect. On a disk with sector 9 free and no other, `Expand` of the root's Name
File from 128 to 384 bytes takes sector 9, finds no second sector and returns FALSE
inside `ExpandFile`; `ExpandFile` writes the free map back all the same, and sector 9 is
marked in the free-map file after the call. -/
theorem ExpandFile_writes_back_after_failure :
    (persistedMap (withFreeSectors (afterCalls []) [9])).Test 9 = false ∧
    ((FileHeader.FetchFrom (withFreeSectors (afterCalls []) [9]).disk 7).Expand zeroLocals
        (BitMap.FetchFrom FreeMapFileSize (withFreeSectors (afterCalls []) [9]).freeMapFile
          (withFreeSectors (afterCalls []) [9]).disk)
        (withFreeSectors (afterCalls []) [9]).disk 384).toOption.map (fun r => r.ok)
      = some false ∧
    (ExpandFile (withFreeSectors (afterCalls []) [9]).freeMapFile zeroLocals
        (FileHeader.FetchFrom (withFreeSectors (afterCalls []) [9]).disk 7)
        (withFreeSectors (afterCalls []) [9]).disk 384).toOption.map
        (fun r => (BitMap.FetchFrom NumSectors (withFreeSectors (afterCalls []) [9]).freeMapFile
          r.2).Test 9)
      = some true := by
  decide!

/-- `Open` returns NULL when `findDict` does not resolve the parent directory. -/
theorem Open_null_of_path_error (fs : FileSystem) (env : Env) (path : List Nat)
    (h : findDict env fs.disk path = .ok (-1)) : fs.Open env path = .ok none := by
  unfold FileSystem.Open
  rw [h]
  rfl

/-- In a parent directory that resolves, `Open` returns NULL when `Find` gives a negative
number for the leaf name, so when no entry in use has the name, and otherwise a handle
bound to the sector that `Find` gives. -/
theorem Open_of_parent (fs : FileSystem) (env : Env) (path : List Nat) (s sector : Int)
    (hdr : FileHeader) (file : OpenFile) (dir : Directory)
    (h1 : findDict env fs.disk path = .ok s) (hs : s ≠ -1)
    (h2 : loadDirectory env fs.disk s = .ok (hdr, file, dir))
    (h3 : dir.Find (nameReader fs.disk dir) (leafName path) = .ok sector) :
    fs.Open env path
      = .ok (if sector ≥ 0 then some (OpenFile.openAt fs.disk sector) else none) := by
  unfold FileSystem.Open
  rw [h1]
  simp only []
  rw [if_neg hs, h2]
  simp only []
  rw [h3]
  simp only []
  split <;> rfl

/-! ## Sector counts after `Allocate` and `Expand` -/

theorem Allocate_hdr_sizes (h : FileHeader) (loc : Locals) (freeMap : BitMap) (d : Disk)
    (fileSize : Int) (FileType : Int) :
    (h.Allocate loc freeMap d fileSize FileType).hdr.numBytes = fileSize ∧
    (h.Allocate loc freeMap d fileSize FileType).hdr.numSectors
      = divRoundUp fileSize SectorSize := by
  unfold FileHeader.Allocate
  simp only []
  repeat' split
  all_goals exact ⟨rfl, rfl⟩

theorem Expand_hdr_sizes (h : FileHeader) (loc : Locals) (freeMap : BitMap) (d : Disk)
    (fileSize : Int) (r : AllocResult) (hr : h.Expand loc freeMap d fileSize = .ok r) :
    r.hdr.numBytes = fileSize ∧
    (r.ok = true → r.hdr.numSectors = divRoundUp fileSize SectorSize) ∧
    (r.ok = false → r.hdr.numSectors = h.numSectors) := by
  unfold FileHeader.Expand at hr
  by_cases hgt : fileSize > h.numBytes
  · rw [if_pos hgt] at hr
    simp only [] at hr
    by_cases heq : divRoundUp fileSize SectorSize = h.numSectors
    · rw [if_pos heq] at hr
      simp only [Except.ok.injEq] at hr
      subst hr
      exact ⟨rfl, fun _ => heq.symm, fun hc => by simp at hc⟩
    · rw [if_neg heq] at hr
      repeat' split at hr
      all_goals
        simp only [Except.ok.injEq] at hr
        subst hr
        refine ⟨rfl, fun hc => ?_, fun hc => ?_⟩ <;> first | rfl | (simp at hc)
  · rw [if_neg hgt] at hr
    simp at hr

theorem divRoundUp_ceil {n : Int} (h : 0 ≤ n) :
    (divRoundUp n SectorSize - 1) * SectorSize < n ∧ n ≤ divRoundUp n SectorSize * SectorSize := by
  rw [divRoundUp_nonneg h, SectorSize_eq]
  push_cast
  constructor <;> omega

/-- C28, as the code has it. After `Allocate`, whatever it returns, the header has
`numBytes = fileSize` and `numSectors = divRoundUp(fileSize, SectorSize)`, which for
`fileSize >= 0` is the ceiling of `fileSize / SectorSize`. After an `Expand` that returns
TRUE the same holds of the new size. After an `Expand` that returns FALSE `numBytes` is
the new size and `numSectors` is what it was before the call. -/
theorem numSectors_after_Allocate_and_Expand :
    (∀ (h : FileHeader) (loc : Locals) (freeMap : BitMap) (d : Disk) (fileSize FileType : Int),
      (h.Allocate loc freeMap d fileSize FileType).hdr.numBytes = fileSize ∧
      (h.Allocate loc freeMap d fileSize FileType).hdr.numSectors
        = divRoundUp fileSize SectorSize) ∧
    (∀ n : Int, 0 ≤ n →
      (divRoundUp n SectorSize - 1) * SectorSize < n ∧
        n ≤ divRoundUp n SectorSize * SectorSize) ∧
    (∀ (h : FileHeader) (loc : Locals) (freeMap : BitMap) (d : Disk) (fileSize : Int)
        (r : AllocResult), h.Expand loc freeMap d fileSize = .ok r →
      r.hdr.numBytes = fileSize ∧
      (r.ok = true → r.hdr.numSectors = divRoundUp fileSize SectorSize) ∧
      (r.ok = false → r.hdr.numSectors = h.numSectors)) ∧
    (∀ (h : FileHeader) (loc : Locals) (freeMap : BitMap) (d : Disk) (fileSize : Int),
      fileSize > h.numBytes → ∃ r, h.Expand loc freeMap d fileSize = .ok r) :=
  ⟨Allocate_hdr_sizes, fun _ h => divRoundUp_ceil h, Expand_hdr_sizes, by
    intro h loc freeMap d fileSize hgt
    unfold FileHeader.Expand
    rw [if_pos hgt]
    simp only []
    repeat' split
    all_goals exact ⟨_, rfl⟩⟩

set_option maxRecDepth 100000 in
/-- C28, counterexample. On a full disk `Expand` of a file of 128 bytes to 256 bytes
returns FALSE and leaves the header with `numBytes = 256` and `numSectors = 1`, while the
ceiling of 256 / 128 is 2. -/
theorem Expand_failure_breaks_numSectors :
    (oneSectorFile.numBytes, oneSectorFile.numSectors) = (128, 1) ∧
    (oneSectorFile.Expand zeroLocals fullMap blankDisk 256).toOption.map
        (fun r => (r.ok, r.hdr.numBytes, r.hdr.numSectors))
      = some (false, 256, 1) ∧
    divRoundUp 256 SectorSize = 2 := by
  decide!

set_option maxRecDepth 100000 in
/-- An `Expand` of `oneSectorFile` to 256 bytes on a clear disk returns TRUE and leaves
two sectors. -/
theorem numSectors_after_Allocate_and_Expand_witness :
    ∃ r, oneSectorFile.Expand zeroLocals clearMap blankDisk 256 = .ok r ∧
      r.hdr.numBytes = 256 ∧
      (r.ok = true → r.hdr.numSectors = divRoundUp 256 SectorSize) :=
  let ⟨r, hr⟩ := numSectors_after_Allocate_and_Expand.2.2.2 oneSectorFile zeroLocals clearMap
    blankDisk 256 (by decide!)
  ⟨r, hr, (numSectors_after_Allocate_and_Expand.2.2.1 oneSectorFile zeroLocals clearMap
      blankDisk 256 r hr).1,
    (numSectors_after_Allocate_and_Expand.2.2.1 oneSectorFile zeroLocals clearMap
      blankDisk 256 r hr).2.1⟩

/-! ## The page-fault handler -/

theorem victimLoop_nonneg (past : Nat → Nat) (tlb : List TranslationEntry) :
    ∀ (l : List TranslationEntry) (i : Nat) (index : Int) (minRecord : Nat),
      0 ≤ index → 0 ≤ victimLoop past tlb l i index minRecord := by
  intro l
  induction l with
  | nil => intro i index minRecord h; exact h
  | cons a as ih =>
    intro i index minRecord h
    rw [victimLoop]
    split
    · exact ih _ _ _ (Int.ofNat_nonneg i)
    · exact ih _ _ _ h

/-- The victim loop ends with −1 exactly when no valid entry of the page table has an
`LRUrecord` below the `minRecord` it starts with. -/
theorem victimLoop_eq_neg_one (past : Nat → Nat) (tlb : List TranslationEntry) :
    ∀ (l : List TranslationEntry) (i : Nat) (minRecord : Nat),
      victimLoop past tlb l i (-1) minRecord = -1 ↔
        ∀ e ∈ l, ¬ (e.valid = true ∧ e.LRUrecord % 2 ^ 32 < minRecord) := by
  intro l
  induction l with
  | nil => intro i minRecord; simp [victimLoop]
  | cons a as ih =>
    intro i minRecord
    rw [victimLoop]
    by_cases hc : (a.valid && decide (a.LRUrecord % 2 ^ 32 < minRecord)) = true
    · rw [if_pos hc]
      have hge := victimLoop_nonneg past tlb as (i + 1) (i : Int)
        (tlbRecord past tlb i % 2 ^ 32) (Int.ofNat_nonneg i)
      simp only [Bool.and_eq_true, decide_eq_true_eq] at hc
      constructor
      · intro h; omega
      · intro h
        exact absurd hc (h a (List.mem_cons_self _ _))
    · rw [if_neg hc, ih (i + 1) minRecord]
      simp only [Bool.and_eq_true, decide_eq_true_eq] at hc
      constructor
      · intro h e he
        rcases List.mem_cons.mp he with rfl | he
        · exact hc
        · exact h e he
      · intro h e he
        exact h e (List.mem_cons_of_mem _ he)

theorem loadPage_ret (m : Machine) (mainMemory : List Nat) (swap : Option (List Nat))
    (PF2Place : Int) (vpn : Nat) (r : Int × Machine × List Nat × Option (List Nat))
    (h : loadPage m mainMemory swap PF2Place vpn = .ok r) : r.1 = PF2Place := by
  unfold loadPage at h
  repeat' split at h
  all_goals first | (simp at h; done) | skip
  simp only [Except.ok.injEq] at h
  rw [← h]

/-- What `LRU_LocalPageFrameReplaceHandler` returns: −1 when the victim loop ends with −1,
else the frame of the victim. -/
theorem LRU_Local_ret (m : Machine) (tid : Nat) (past : Nat → Nat) (opens : Bool)
    (ret : Int) (m1 : Machine) (w : Option SwapWrite)
    (h : LRU_LocalPageFrameReplaceHandler m tid past opens = .ok (ret, m1, w)) :
    (victimLoop past m.tlb m.pageTable 0 (-1) maxUnsigned = -1 ∧ ret = -1) ∨
    ∃ e ∈ m.pageTable, e.valid = true ∧ ret = e.physicalPage := by
  by_cases hv : victimLoop past m.tlb m.pageTable 0 (-1) maxUnsigned = -1
  · left
    unfold LRU_LocalPageFrameReplaceHandler at h
    simp only [] at h
    rw [if_pos hv] at h
    simp only [Except.ok.injEq, Prod.mk.injEq] at h
    exact ⟨hv, h.1.symm⟩
  · right
    rcases victimLoop_spec past m.tlb m.pageTable 0 (-1) maxUnsigned with
      hres | ⟨k, v, hk, hval, hres⟩
    · exact absurd hres hv
    · rw [Nat.zero_add] at hres
      unfold LRU_LocalPageFrameReplaceHandler at h
      simp only [] at h
      rw [if_neg hv, hres, Int.toNat_ofNat, hk] at h
      simp only [] at h
      refine ⟨v, List.getElem?_mem hk, hval, ?_⟩
      repeat' split at h
      all_goals first | (simp at h; done) | skip
      all_goals
        simp only [Except.ok.injEq, Prod.mk.injEq] at h
        exact h.1.symm

/-- `PageFaultHandler` returns −1 only when `allocatePageFrame` returned −1 and either no
valid entry of the page table has an `LRUrecord` below the largest `unsigned int`, or the
victim names frame −1. With a valid entry below that value, and frames that are not
negative, it returns a frame that is not negative. -/
theorem PageFaultHandler_ret (m : Machine) (mainMemory : List Nat)
    (swap : Option (List Nat)) (tid : Nat) (past : Nat → Nat) (allocated : Int) (vpn : Nat)
    (r : Int × Machine × List Nat × Option (List Nat))
    (h : PageFaultHandler m mainMemory swap tid past allocated vpn = .ok r) :
    (r.1 = -1 → allocated = -1 ∧
      ((∀ e ∈ m.pageTable, e.valid = true → e.LRUrecord % 2 ^ 32 = maxUnsigned) ∨
        ∃ e ∈ m.pageTable, e.valid = true ∧ e.physicalPage = -1)) ∧
    (-1 ≤ allocated → (∀ e ∈ m.pageTable, e.valid = true → 0 ≤ e.physicalPage) →
      (∃ e ∈ m.pageTable, e.valid = true ∧ e.LRUrecord % 2 ^ 32 < maxUnsigned) →
      0 ≤ r.1) := by
  have hmax : ∀ e : TranslationEntry, e.LRUrecord % 2 ^ 32 < maxUnsigned ∨
      e.LRUrecord % 2 ^ 32 = maxUnsigned := by
    intro e
    have h2 : e.LRUrecord % 2 ^ 32 < 2 ^ 32 := Nat.mod_lt _ (by norm_num)
    have h3 : maxUnsigned = 2 ^ 32 - 1 := rfl
    omega
  unfold PageFaultHandler at h
  by_cases ha : allocated = -1
  · rw [if_pos ha] at h
    cases hl : LRU_LocalPageFrameReplaceHandler m tid past swap.isSome with
    | error f => rw [hl] at h; simp at h
    | ok v =>
      obtain ⟨ret, m1, w⟩ := v
      rw [hl] at h
      simp only [] at h
      cases hs : applySwapWrite mainMemory swap w with
      | error f => rw [hs] at h; simp at h
      | ok swap1 =>
        rw [hs] at h
        simp only [] at h
        have hret : r.1 = ret := by
          by_cases hr : ret = -1
          · rw [if_pos hr] at h
            simp only [Except.ok.injEq] at h
            rw [← h, hr]
          · rw [if_neg hr] at h
            exact loadPage_ret _ _ _ _ _ _ h
        rcases LRU_Local_ret m tid past swap.isSome ret m1 w hl with ⟨hv, hr⟩ | ⟨e, he, hev, hr⟩
        · have hnone := (victimLoop_eq_neg_one past m.tlb m.pageTable 0 maxUnsigned).mp hv
          refine ⟨fun _ => ⟨ha, Or.inl ?_⟩, ?_⟩
          · intro e he hev
            rcases hmax e with hlt | heq
            · exact absurd ⟨hev, hlt⟩ (hnone e he)
            · exact heq
          · rintro _ _ ⟨e, he, hev, hlt⟩
            exact absurd ⟨hev, hlt⟩ (hnone e he)
        · refine ⟨fun h1 => ⟨ha, Or.inr ⟨e, he, hev, ?_⟩⟩, ?_⟩
          · rw [← hr, ← hret, h1]
          · intro _ hpos _
            rw [hret, hr]
            exact hpos e he hev
  · rw [if_neg ha] at h
    have hret := loadPage_ret _ _ _ _ _ _ h
    refine ⟨fun h1 => absurd (by rw [← hret, h1]) ha, ?_⟩
    intro hge _ _
    rw [hret]
    omega

/-- C30, the defect. The page table has a valid entry, page 0 in frame 0, whose
`LRUrecord` is the largest value of an `unsigned int`; no frame is free; and
`PageFaultHandler` returns −1 and leaves the entry valid: the victim loop starts with
`minRecord = (unsigned int) -1` and takes an entry only if its record is below it. -/
theorem PageFaultHandler_returns_minus_one_with_valid_entry :
    saturatedMachine.pageTable.map (fun e => (e.valid, e.physicalPage, e.LRUrecord))
      = [(true, 0, 4294967295), (false, 1, 0)] ∧
    (PageFaultHandler saturatedMachine (List.replicate 128 0) (some (List.replicate 256 0))
        3 (fun _ => 0) (-1) 1).toOption.map
        (fun r => (r.1, r.2.1.pageTable.map (fun e => e.valid)))
      = some (-1, [true, false]) := by
  decide

/-! ## `Remove` of the name `.` -/

set_option maxRecDepth 100000 in
/-- C29, the defect. On a freshly formatted disk `Create("/a", -1)` makes the directory
`a`, whose header is in sector 11, and `Remove("/a/.")` returns TRUE: `Remove` looks the
name `.` up in `a` itself, finds sector 11, and frees the directory through its own entry.
Afterwards the root still holds the entry `a` in use, naming sector 11, and sector 11 is
clear in the persisted bitmap. -/
theorem Remove_of_dot_frees_directory_still_named :
    (runFresh [.create [47, 97] (-1)]).map
        (fun r => (r.1, findAt r.2 DirectorySector [97], (persistedMap r.2).Test 11))
      = some ([true], some 11, true) ∧
    (runFresh [.create [47, 97] (-1), .remove [47, 97, 47, 46]]).map
        (fun r => (r.1, findAt r.2 DirectorySector [97], (persistedMap r.2).Test 11))
      = some ([true, true], some 11, false) := by
  decide!

/-! ## Semaphores and conditions -/

theorem Semaphore.P_value_nonneg (s : Semaphore) (t : Nat) (h : 0 ≤ s.value) :
    0 ≤ (s.P t).1.value := by
  unfold Semaphore.P
  split
  · exact h
  · simp only; omega

theorem Semaphore.V_value (s : Semaphore) : s.V.1.value = s.value + 1 := by
  unfold Semaphore.V
  split <;> rfl

theorem Semaphore.V_thread (s : Semaphore) :
    s.V.2 = s.queue.head? ∧ s.V.1.queue = s.queue.tail := by
  unfold Semaphore.V
  split <;> rename_i h <;> rw [h] <;> exact ⟨rfl, rfl⟩

theorem runSemaphore_value_nonneg (calls : List SemCall) :
    ∀ s : Semaphore, 0 ≤ s.value → 0 ≤ (runSemaphore s calls).value := by
  induction calls with
  | nil => intro s h; exact h
  | cons c cs ih =>
    intro s h
    unfold runSemaphore
    rw [List.foldl_cons]
    apply ih
    cases c with
    | P t => exact Semaphore.P_value_nonneg s t h
    | V => simp only [Semaphore.step]; rw [Semaphore.V_value]; omega

/-- C21. A semaphore created with an initial value that is not negative never has a
negative value: in every state `s` that a run of `P` passes and `V` calls reaches, the
value is at least 0; a pass through the loop of `P` returns exactly when it finds the
value above 0, and then takes one from it and leaves the queue as it is; otherwise, the
value being 0, the thread joins the end of the queue and sleeps, to test the value again
in its next pass; and `V` adds one to the value and makes ready the first thread of the
queue, if there is one, and no other. -/
theorem Semaphore_value_never_negative (initialValue : Int) (h : 0 ≤ initialValue)
    (calls : List SemCall) :
    0 ≤ (runSemaphore (Semaphore.create initialValue) calls).value ∧
    (∀ t : Nat,
      (((runSemaphore (Semaphore.create initialValue) calls).P t).2 = true ↔
        0 < (runSemaphore (Semaphore.create initialValue) calls).value) ∧
      (((runSemaphore (Semaphore.create initialValue) calls).P t).2 = true →
        ((runSemaphore (Semaphore.create initialValue) calls).P t).1 =
          ⟨(runSemaphore (Semaphore.create initialValue) calls).value - 1,
            (runSemaphore (Semaphore.create initialValue) calls).queue⟩) ∧
      (((runSemaphore (Semaphore.create initialValue) calls).P t).2 = false →
        ((runSemaphore (Semaphore.create initialValue) calls).P t).1 =
          ⟨0, (runSemaphore (Semaphore.create initialValue) calls).queue ++ [t]⟩)) ∧
    (runSemaphore (Semaphore.create initialValue) calls).V.1 =
        ⟨(runSemaphore (Semaphore.create initialValue) calls).value + 1,
          (runSemaphore (Semaphore.create initialValue) calls).queue.tail⟩ ∧
    (runSemaphore (Semaphore.create initialValue) calls).V.2 =
        (runSemaphore (Semaphore.create initialValue) calls).queue.head? := by
  have h0 := runSemaphore_value_nonneg calls (Semaphore.create initialValue) h
  generalize runSemaphore (Semaphore.create initialValue) calls = s at h0
  obtain ⟨v, q⟩ := s
  simp only at h0
  refine ⟨h0, fun t => ?_, ?_, ?_⟩
  · by_cases hv : v = 0
    · subst hv
      simp [Semaphore.P]
    · have : 0 < v := by omega
      simp [Semaphore.P, hv, this]
  · cases q <;> simp [Semaphore.V]
  · cases q <;> simp [Semaphore.V]

theorem Semaphore_value_never_negative_witness :
    0 ≤ (runSemaphore (Semaphore.create 1) [.P 0, .P 1, .V, .P 1]).value ∧
    (runSemaphore (Semaphore.create 1) [.P 0, .P 1, .V, .P 1]) = ⟨0, []⟩ :=
  ⟨(Semaphore_value_never_negative 1 (by decide) [.P 0, .P 1, .V, .P 1]).1, by decide⟩

theorem Semaphore.afterV_succ (s : Semaphore) (n : Nat) :
    s.V.1.afterV n = s.afterV (n + 1) := by
  unfold Semaphore.afterV
  rw [Function.iterate_succ_apply]

theorem Condition.broadcastLoop_spec (n : Nat) :
    ∀ (fuel : Nat) (c : Condition) (done : Nat), c.count = (n : Int) → n < fuel →
      c.broadcastLoop fuel done = some (⟨0, c.condSem.afterV n⟩, done + n) := by
  induction n with
  | zero =>
    intro fuel c done hc hf
    obtain ⟨k, rfl⟩ : ∃ k, fuel = k + 1 := ⟨fuel - 1, by omega⟩
    obtain ⟨cnt, sem⟩ := c
    simp only [Nat.cast_zero] at hc
    subst hc
    simp [Condition.broadcastLoop, Semaphore.afterV]
  | succ n ih =>
    intro fuel c done hc hf
    obtain ⟨k, rfl⟩ : ∃ k, fuel = k + 1 := ⟨fuel - 1, by omega⟩
    rw [Condition.broadcastLoop]
    have hne : c.count ≠ 0 := by rw [hc]; push_cast; omega
    rw [if_pos hne, ih k ⟨c.count - 1, c.condSem.V.1⟩ (done + 1)
      (by simp only; rw [hc]; push_cast; ring) (by omega)]
    simp only [Semaphore.afterV_succ]
    congr 2
    omega

/-- C22. With the lock held by the caller: `Signal` on a condition whose count is 0
leaves the condition, count and semaphore, as it is and makes no thread ready; with a
count of 1 or more it takes one from the count and performs one `V` on the semaphore;
`Broadcast`, its loop given more tests than the count, returns with the count at 0 after
exactly as many `V` operations as the count was. When the caller does not hold the lock,
`Wait`, `Signal` and `Broadcast` each fail their assertion. -/
theorem Condition_Signal_Broadcast_Wait (c : Condition) (conditionLock : Lock)
    (currentThread : Nat) :
    (conditionLock.holdingThread = some currentThread →
      (c.count = 0 → c.Signal conditionLock currentThread = .ok (c, none)) ∧
      (1 ≤ c.count → c.Signal conditionLock currentThread
        = .ok (⟨c.count - 1, c.condSem.V.1⟩, c.condSem.V.2)) ∧
      (∀ n fuel : Nat, c.count = (n : Int) → n < fuel →
        c.Broadcast conditionLock currentThread fuel
          = .ok (some (⟨0, c.condSem.afterV n⟩, n)))) ∧
    (conditionLock.holdingThread ≠ some currentThread →
      c.Wait conditionLock currentThread = .error Fault.assertion ∧
      c.Signal conditionLock currentThread = .error Fault.assertion ∧
      ∀ fuel, c.Broadcast conditionLock currentThread fuel = .error Fault.assertion) := by
  constructor
  · intro hh
    have hheld : conditionLock.isHeldByCurrentThread currentThread = true := by
      simp [Lock.isHeldByCurrentThread, hh]
    refine ⟨?_, ?_, ?_⟩
    · intro h0
      simp [Condition.Signal, hheld, h0]
    · intro h1
      have : c.count ≠ 0 := by omega
      simp [Condition.Signal, hheld, this]
    · intro n fuel hc hf
      have := Condition.broadcastLoop_spec n fuel c 0 hc hf
      simp only [Nat.zero_add] at this
      simp [Condition.Broadcast, hheld, this]
  · intro hh
    have hheld : conditionLock.isHeldByCurrentThread currentThread = false := by
      simp only [Lock.isHeldByCurrentThread, decide_eq_false_iff_not]
      exact fun h => hh h.symm
    refine ⟨?_, ?_, ?_⟩
    · simp [Condition.Wait, hheld]
    · simp [Condition.Signal, hheld]
    · intro fuel; simp [Condition.Broadcast, hheld]

theorem Condition_Signal_Broadcast_Wait_witness :
    threeWaiters.Signal ⟨⟨0, []⟩, some 0⟩ 0 = .ok (⟨2, ⟨1, [2, 3]⟩⟩, some 1) ∧
    threeWaiters.Broadcast ⟨⟨0, []⟩, some 0⟩ 0 4 = .ok (some (⟨0, ⟨3, []⟩⟩, 3)) ∧
    Condition.create.Signal ⟨⟨0, []⟩, some 0⟩ 0 = .ok (Condition.create, none) ∧
    threeWaiters.Wait ⟨⟨0, []⟩, some 0⟩ 5 = .error Fault.assertion :=
  ⟨((Condition_Signal_Broadcast_Wait threeWaiters ⟨⟨0, []⟩, some 0⟩ 0).1 rfl).2.1
      (by decide),
    rfl, rfl,
    ((Condition_Signal_Broadcast_Wait threeWaiters ⟨⟨0, []⟩, some 0⟩ 5).2
      (by decide)).1⟩

/-! ## Pipes -/

theorem Lock.Acquire_free (l : Lock) (t : Nat) (h : l.lockSem.value = 1) :
    l.Acquire t = (⟨⟨0, l.lockSem.queue⟩, some t⟩, true) := by
  obtain ⟨⟨v, q⟩, ht⟩ := l
  simp only at h
  subst h
  simp [Lock.Acquire, Semaphore.P]

theorem Lock.Release_held (q : List Nat) (t : Nat) :
    (⟨⟨0, q⟩, some t⟩ : Lock).Release t = .ok (⟨⟨1, q.tail⟩, none⟩, q.head?) := by
  cases q <;> simp [Lock.Release, Semaphore.V]

/-- A sum that fits an `int` is the value the `int` takes. -/
theorem wrapInt_of_fits {x : Int} (h0 : -2147483648 ≤ x) (h1 : x ≤ 2147483647) :
    wrapInt x = x := by
  unfold wrapInt
  omega

/-- `read` on a pipe whose lock is free and whose file is open. -/
theorem PipeFile.read_free (MAXPIPELEN : Int) (p : PipeFile) (file : List Nat) (t : Nat)
    (src : List Nat) (len : Int) (pos : Int)
    (hv : p.lock.lockSem.value = 1) (hf : p.readFile = some pos) :
    p.read MAXPIPELEN file t src len =
      if wrapInt (p.pipeLength + len) > MAXPIPELEN then
        .ok (some false, { p with lock := ⟨⟨1, p.lock.lockSem.queue.tail⟩, none⟩ }, file)
      else
        .ok (some true,
          ⟨some (pos + bytesWritten ⟨src, len, pos⟩), wrapInt (p.pipeLength + len),
            ⟨⟨1, p.lock.lockSem.queue.tail⟩, none⟩⟩,
          bytesWriteAt file ⟨src, len, pos⟩) := by
  unfold PipeFile.read
  simp only [Lock.Acquire_free p.lock t hv, Lock.Release_held, hf, Bool.not_true,
    Bool.false_eq_true, if_false]

/-- `write` on a pipe whose lock is free and whose file is open. -/
theorem PipeFile.write_free (p : PipeFile) (file : List Nat) (t : Nat) (out : List Nat)
    (pos : Int) (hv : p.lock.lockSem.value = 1) (hf : p.readFile = some pos) :
    p.write file t out =
      if p.pipeLength = 0 then
        .ok (some 0, { p with lock := ⟨⟨1, p.lock.lockSem.queue.tail⟩, none⟩ }, out)
      else
        .ok (some p.pipeLength, ⟨some 0, 0, ⟨⟨1, p.lock.lockSem.queue.tail⟩, none⟩⟩,
          bytesReadAt file p.pipeLength 0
            ++ out.drop (bytesReadAt file p.pipeLength 0).length) := by
  unfold PipeFile.write
  simp only [Lock.Acquire_free p.lock t hv, Lock.Release_held, hf, Bool.not_true,
    Bool.false_eq_true, if_false]

theorem bytesWriteAt_prefix (file acc src : List Nat) (len : Int) (h0 : 0 ≤ len)
    (hacc : file.take acc.length = acc) :
    (bytesWriteAt file ⟨src, len, (acc.length : Int)⟩).take
        (acc ++ buffer len.toNat src).length = acc ++ buffer len.toNat src := by
  have hle : acc.length ≤ file.length := by
    have := congrArg List.length hacc
    rw [List.length_take] at this
    omega
  unfold bytesWriteAt
  simp only
  by_cases hl : len = 0
  · subst hl
    simp [buffer, hacc]
  · have hpos : ¬ (len ≤ 0 ∨ ((acc.length : Nat) : Int) < 0) := by omega
    rw [if_neg hpos, Int.toNat_ofNat, buffer_eq_take _ _ hle, hacc, List.append_assoc,
      ← List.append_assoc, List.take_left']
    rfl

theorem bytesReadAt_prefix (file acc : List Nat) (hne : acc ≠ [])
    (hacc : file.take acc.length = acc) :
    bytesReadAt file (acc.length : Int) 0 = acc := by
  have hpos : 0 < acc.length := List.length_pos.mpr hne
  have hle : acc.length ≤ file.length := by
    have := congrArg List.length hacc
    rw [List.length_take] at this
    omega
  unfold bytesReadAt
  have hc : ¬ (((acc.length : Nat) : Int) ≤ 0 ∨ (0 : Int) ≥ (file.length : Int) ∨ (0 : Int) < 0) := by
    omega
  rw [if_neg hc]
  simpa using hacc

/-- One call, a `read` with `0 ≤ len ≤ INT_MAX - MAXPIPELEN` or a `write`, on a pipe in
the state `Inv` with `pipeLength` within the bound returns, keeps `Inv` for the pending
bytes as the call leaves them, and keeps `pipeLength` within the bound. -/
theorem PipeFile.call_Inv (MAXPIPELEN : Int) (hM : 0 ≤ MAXPIPELEN) (p : PipeFile)
    (file acc : List Nat) (c : PipeCall) (hc : lengthsFit MAXPIPELEN [c] = true)
    (hI : p.Inv file acc) (hb : p.pipeLength ≤ MAXPIPELEN) :
    ∃ p1 file1 r, p.call MAXPIPELEN file c = .ok (p1, file1, r) ∧
      p1.Inv file1 (pendingBytes acc [c] [r]) ∧ r ≠ PipeResult.slept ∧
      p1.pipeLength ≤ MAXPIPELEN := by
  obtain ⟨hh, hv, hf, hlen, hacc⟩ := hI
  cases c with
  | read t src len =>
    have h0 : 0 ≤ len ∧ len ≤ 2147483647 - MAXPIPELEN := by
      simpa [lengthsFit] using hc
    have hw : wrapInt (p.pipeLength + len) = p.pipeLength + len :=
      wrapInt_of_fits (by omega) (by omega)
    simp only [PipeFile.call, PipeFile.read_free MAXPIPELEN p file t src len _ hv hf, hw]
    by_cases hgt : p.pipeLength + len > MAXPIPELEN
    · rw [if_pos hgt]
      refine ⟨_, _, _, rfl, ?_, nofun, hb⟩
      simp only [pendingBytes, Bool.false_eq_true, if_false]
      exact ⟨rfl, rfl, hf, hlen, hacc⟩
    · rw [if_neg hgt]
      refine ⟨_, _, _, rfl, ?_, nofun, by simp only; omega⟩
      simp only [pendingBytes, if_true]
      refine ⟨rfl, rfl, ?_, ?_, ?_⟩
      · simp only [bytesWritten]
        congr 1
        split <;> omega
      · simp only [List.length_append, buffer_length]
        push_cast
        rw [Int.toNat_of_nonneg h0.1]
        omega
      · rw [hlen]
        exact bytesWriteAt_prefix file acc src len h0.1 hacc
  | write t out =>
    simp only [PipeFile.call, PipeFile.write_free p file t out _ hv hf]
    by_cases h0 : p.pipeLength = 0
    · rw [if_pos h0]
      refine ⟨_, _, _, rfl, ?_, nofun, hb⟩
      simp only [pendingBytes]
      exact ⟨rfl, rfl, by simp only; rw [h0] at hf; rw [hf, h0], by simp [h0], by simp⟩
    · rw [if_neg h0]
      refine ⟨_, _, _, rfl, ?_, nofun, by simp only; omega⟩
      simp only [pendingBytes]
      exact ⟨rfl, rfl, rfl, by simp, by simp⟩

theorem pendingBytes_cons (acc : List Nat) (c : PipeCall) (r : PipeResult)
    (cs : List PipeCall) (rs : List PipeResult) :
    pendingBytes acc (c :: cs) (r :: rs) = pendingBytes (pendingBytes acc [c] [r]) cs rs := by
  cases c <;> cases r <;> simp [pendingBytes]

theorem lengthsFit_cons (MAXPIPELEN : Int) (c : PipeCall) (cs : List PipeCall)
    (h : lengthsFit MAXPIPELEN (c :: cs) = true) :
    lengthsFit MAXPIPELEN [c] = true ∧ lengthsFit MAXPIPELEN cs = true := by
  cases c <;> simp_all [lengthsFit]

/-- A run of calls whose `read` lengths fit, begun in the state `Inv` with `pipeLength`
within the bound, returns from every call and ends in the state `Inv` for the bytes then
pending, with `pipeLength` within the bound. -/
theorem runPipe_Inv (MAXPIPELEN : Int) (hM : 0 ≤ MAXPIPELEN) (calls : List PipeCall) :
    ∀ (p : PipeFile) (file acc : List Nat), lengthsFit MAXPIPELEN calls = true →
      p.Inv file acc → p.pipeLength ≤ MAXPIPELEN →
      ∃ p1 file1 rs, runPipe MAXPIPELEN p file calls = .ok (p1, file1, rs) ∧
        p1.Inv file1 (pendingBytes acc calls rs) ∧
        rs.length = calls.length ∧ PipeResult.slept ∉ rs ∧
        p1.pipeLength ≤ MAXPIPELEN := by
  induction calls with
  | nil =>
    intro p file acc _ hI hb
    exact ⟨p, file, [], rfl, by simpa [pendingBytes] using hI, rfl, by simp, hb⟩
  | cons c cs ih =>
    intro p file acc hc hI hb
    obtain ⟨hc1, hc2⟩ := lengthsFit_cons MAXPIPELEN c cs hc
    obtain ⟨p1, file1, r, hcall, hI1, hr, hb1⟩ :=
      PipeFile.call_Inv MAXPIPELEN hM p file acc c hc1 hI hb
    obtain ⟨p2, file2, rs, hrun, hI2, hl, hs, hb2⟩ := ih p1 file1 _ hc2 hI1 hb1
    refine ⟨p2, file2, r :: rs, ?_, ?_, by simp [hl], ?_, hb2⟩
    · rw [runPipe, hcall]
      simp only [hrun]
    · rw [pendingBytes_cons]
      exact hI2
    · intro hmem
      rcases List.mem_cons.mp hmem with h | h
      · exact hr h.symm
      · exact hs h

theorem PipeFile.opened_Inv (file : List Nat) : PipeFile.opened.Inv file [] :=
  ⟨rfl, rfl, rfl, rfl, rfl⟩

/-- Whatever the value of `MAXPIPELEN`, from 1 on: on a pipe just opened the two calls of
`overflowCalls` return TRUE and leave `pipeLength` at −2147483648, and a `write(out)` after
them returns that value and leaves `out` as it was. -/
theorem overflowCalls_accepted (MAXPIPELEN : Int) (hM : 1 ≤ MAXPIPELEN) :
    (runPipe MAXPIPELEN PipeFile.opened [] overflowCalls).toOption.map
        (fun r => (r.1.pipeLength, r.2.2))
      = some (-2147483648, [.readReturned true, .readReturned true]) ∧
    (runPipe MAXPIPELEN PipeFile.opened []
        (overflowCalls ++ [.write 1 [7, 7, 7]])).toOption.map
        (fun r => (r.1.pipeLength, r.2.2))
      = some (0, [.readReturned true, .readReturned true,
          .writeReturned (-2147483648) [7, 7, 7]]) := by
  have h1 : wrapInt ((0 : Int) + 1) = 1 := by decide
  have h2 : wrapInt ((1 : Int) + 2147483647) = -2147483648 := by decide
  have e1 := PipeFile.read_free MAXPIPELEN PipeFile.opened [] 0 [104] 1 0 rfl rfl
  have hp : PipeFile.opened.pipeLength = 0 := rfl
  rw [hp, h1, if_neg (by omega)] at e1
  have e2 := PipeFile.read_free MAXPIPELEN
    ⟨some (0 + bytesWritten ⟨[104], 1, 0⟩), 1,
      ⟨⟨1, PipeFile.opened.lock.lockSem.queue.tail⟩, none⟩⟩
    (bytesWriteAt [] ⟨[104], 1, 0⟩) 0 [105] 2147483647 _ rfl rfl
  simp only [h2] at e2
  rw [if_neg (by omega)] at e2
  constructor
  · simp only [overflowCalls, runPipe, PipeFile.call, e1, e2]
    rfl
  · simp only [overflowCalls, List.cons_append, List.nil_append, runPipe, PipeFile.call,
      e1, e2]
    rfl

/-- Where the sum fits an `int`, `read` is as C23 has it. With `0 ≤ MAXPIPELEN`: on a
pipe whose file is open and whose lock is free, `read(in, len)` with `len ≥ 0`,
`pipeLength ≥ 0` and `pipeLength + len ≤ INT_MAX` returns; it returns FALSE exactly when
`pipeLength + len > MAXPIPELEN`, and then `pipeLength`, the seek position and the backing
file are as before; otherwise it returns TRUE, `pipeLength` is greater by `len` and the
bytes are written at the seek position. After every sequence of `read` calls with
`0 ≤ len ≤ INT_MAX - MAXPIPELEN` and `write` calls on a pipe just opened, every call
having returned, `0 ≤ pipeLength ≤ MAXPIPELEN`. -/
theorem PipeFile_read_keeps_bound (MAXPIPELEN : Int) (hM : 0 ≤ MAXPIPELEN) :
    (∀ (p : PipeFile) (file : List Nat) (t : Nat) (src : List Nat) (len pos : Int),
      0 ≤ len → 0 ≤ p.pipeLength → p.pipeLength + len ≤ 2147483647 →
      p.lock.lockSem.value = 1 → p.readFile = some pos →
      ∃ r p1 file1, p.read MAXPIPELEN file t src len = .ok (some r, p1, file1) ∧
        (r = false ↔ p.pipeLength + len > MAXPIPELEN) ∧
        (r = false →
          p1.pipeLength = p.pipeLength ∧ p1.readFile = p.readFile ∧ file1 = file) ∧
        (r = true →
          p1.pipeLength = p.pipeLength + len ∧
          file1 = bytesWriteAt file ⟨src, len, pos⟩)) ∧
    (∀ (calls : List PipeCall) (file : List Nat), lengthsFit MAXPIPELEN calls = true →
      ∃ p1 file1 rs, runPipe MAXPIPELEN PipeFile.opened file calls = .ok (p1, file1, rs) ∧
        rs.length = calls.length ∧ PipeResult.slept ∉ rs ∧
        0 ≤ p1.pipeLength ∧ p1.pipeLength ≤ MAXPIPELEN) := by
  constructor
  · intro p file t src len pos h0 hp hfit hv hf
    have hw : wrapInt (p.pipeLength + len) = p.pipeLength + len :=
      wrapInt_of_fits (by omega) hfit
    rw [PipeFile.read_free MAXPIPELEN p file t src len pos hv hf, hw]
    by_cases hgt : p.pipeLength + len > MAXPIPELEN
    · rw [if_pos hgt]
      exact ⟨false, _, _, rfl, by simpa using hgt, fun _ => ⟨rfl, rfl, rfl⟩,
        fun h => by simp at h⟩
    · rw [if_neg hgt]
      exact ⟨true, _, _, rfl, by simpa using hgt, fun h => by simp at h,
        fun _ => ⟨rfl, rfl⟩⟩
  · intro calls file hc
    obtain ⟨p1, file1, rs, hrun, hI, hl, hs, hb⟩ :=
      runPipe_Inv MAXPIPELEN hM calls PipeFile.opened file [] hc (PipeFile.opened_Inv file) hM
    refine ⟨p1, file1, rs, hrun, hl, hs, ?_, hb⟩
    rw [hI.2.2.2.1]
    exact Int.ofNat_nonneg _

theorem PipeFile_read_keeps_bound_witness :
    (∃ p1 file1 rs, runPipe 8 PipeFile.opened [] pipeCalls = .ok (p1, file1, rs) ∧
        rs.length = pipeCalls.length ∧ PipeResult.slept ∉ rs ∧
        0 ≤ p1.pipeLength ∧ p1.pipeLength ≤ 8) ∧
    runPipe 8 PipeFile.opened [] pipeCalls
      = .ok (⟨some 2, 2, Lock.create⟩, [111, 107, 33],
          [.readReturned true, .readReturned false, .readReturned true,
            .writeReturned 3 [104, 105, 33, 0, 0], .readReturned true]) :=
  ⟨(PipeFile_read_keeps_bound 8 (by decide)).2 pipeCalls [] (by decide), rfl⟩

/-- Where the sums fit an `int`, `write` is as C24 has it. After every sequence of `read`
calls with `0 ≤ len ≤ INT_MAX - MAXPIPELEN` and `write` calls on a pipe just opened, a
call of `write(out)` returns the count of the bytes passed to the `read` calls that
returned TRUE since the last `write`, leaves `pipeLength` at 0, and leaves in `out` those
bytes, in the order of the calls, followed by what `out` held past them; with no such
bytes it returns 0 and `out` is as it was. -/
theorem PipeFile_write_drains_reads (MAXPIPELEN : Int) (hM : 0 ≤ MAXPIPELEN)
    (calls : List PipeCall) (file : List Nat) (t : Nat) (out : List Nat)
    (hc : lengthsFit MAXPIPELEN calls = true) :
    ∃ p1 file1 rs, runPipe MAXPIPELEN PipeFile.opened file calls = .ok (p1, file1, rs) ∧
      ∃ p2 out1,
        p1.write file1 t out
          = .ok (some ((pendingBytes [] calls rs).length : Int), p2, out1) ∧
        p2.pipeLength = 0 ∧
        out1 = pendingBytes [] calls rs ++ out.drop (pendingBytes [] calls rs).length ∧
        (pendingBytes [] calls rs = [] → out1 = out) := by
  obtain ⟨p1, file1, rs, hrun, hI, -, -, -⟩ :=
    runPipe_Inv MAXPIPELEN hM calls PipeFile.opened file [] hc (PipeFile.opened_Inv file) hM
  refine ⟨p1, file1, rs, hrun, ?_⟩
  obtain ⟨hh, hv, hf, hlen, hacc⟩ := hI
  rw [PipeFile.write_free p1 file1 t out _ hv hf]
  by_cases hne : pendingBytes [] calls rs = []
  · have h0 : p1.pipeLength = 0 := by rw [hlen, hne]; rfl
    rw [if_pos h0]
    rw [hne]
    exact ⟨_, _, rfl, h0, rfl, fun _ => rfl⟩
  · have h0 : p1.pipeLength ≠ 0 := by
      rw [hlen]
      have := List.length_pos.mpr hne
      omega
    rw [if_neg h0, hlen, bytesReadAt_prefix file1 _ hne hacc]
    exact ⟨_, _, rfl, rfl, rfl, fun h => absurd h hne⟩

theorem PipeFile_write_drains_reads_witness :
    ∃ p1 file1 rs, runPipe 8 PipeFile.opened [] (pipeCalls.take 3) = .ok (p1, file1, rs) ∧
      ∃ p2 out1,
        p1.write file1 2 [0, 0, 0, 0, 0]
          = .ok (some ((pendingBytes [] (pipeCalls.take 3) rs).length : Int), p2, out1) ∧
        p2.pipeLength = 0 ∧
        out1 = pendingBytes [] (pipeCalls.take 3) rs
          ++ ([0, 0, 0, 0, 0] : List Nat).drop (pendingBytes [] (pipeCalls.take 3) rs).length ∧
        (pendingBytes [] (pipeCalls.take 3) rs = [] → out1 = [0, 0, 0, 0, 0]) :=
  PipeFile_write_drains_reads 8 (by decide) (pipeCalls.take 3) [] 2 [0, 0, 0, 0, 0] (by decide)

/-! ## Producer and consumer -/

theorem firstValues_succ (n : Nat) : firstValues (n + 1) = firstValues n ++ [(n : Int)] := by
  simp [firstValues, List.range_succ]

theorem Semaphore.P_cases (s : Semaphore) (t : Nat) :
    (s.value = 0 ∧ s.P t = (⟨s.value, s.queue ++ [t]⟩, false)) ∨
    (s.value ≠ 0 ∧ s.P t = (⟨s.value - 1, s.queue⟩, true)) := by
  by_cases h : s.value = 0
  · left; exact ⟨h, by simp [Semaphore.P, h]⟩
  · right; exact ⟨h, by simp [Semaphore.P, h]⟩

theorem ProducerConsumer_semaphore.create_semInv (buffer_size : Int) (h : 0 ≤ buffer_size) :
    (ProducerConsumer_semaphore.create buffer_size).Inv buffer_size := by
  constructor <;>
    simp [ProducerConsumer_semaphore.create, bounded_buffer.create, Semaphore.create,
      firstValues, h]

theorem ProducerConsumer_semaphore.Produce_semInv (buffer_size : Int)
    (s : ProducerConsumer_semaphore) (h : s.Inv buffer_size) :
    s.Produce.Inv buffer_size := by
  obtain ⟨h1, h2, h3, h4, h5, h6, h7, h8, h9, h10⟩ := h
  unfold ProducerConsumer_semaphore.Produce
  cases hp : s.producerAt <;> simp [hp] at h2 h3 h4 h9 h10 <;> simp only []
  · -- newItem
    constructor <;> simp <;> assumption
  · -- emptyP
    rcases Semaphore.P_cases s.empty 0 with ⟨hv, he⟩ | ⟨hv, he⟩ <;> rw [he] <;>
      constructor <;> simp <;> first | assumption | omega
  · -- mutexP
    rcases Semaphore.P_cases s.mutex 0 with ⟨hv, he⟩ | ⟨hv, he⟩ <;> rw [he] <;>
      constructor <;> simp <;> first | assumption | omega
  · -- append
    constructor <;>
      simp [bounded_buffer.Append, Semaphore.V_value] <;> first | assumption | omega | skip
    rw [← List.append_assoc, h8, h10, ← Nat.add_assoc, firstValues_succ]
    push_cast
    rfl
  · -- fullV
    constructor <;> simp [Semaphore.V_value] <;> first | assumption | omega

theorem ProducerConsumer_semaphore.Consume_semInv (buffer_size : Int)
    (s : ProducerConsumer_semaphore) (h : s.Inv buffer_size) :
    ∃ s1, s.Consume = .ok s1 ∧ s1.Inv buffer_size := by
  obtain ⟨h1, h2, h3, h4, h5, h6, h7, h8, h9, h10⟩ := h
  unfold ProducerConsumer_semaphore.Consume
  cases hc : s.consumerAt <;> simp [hc] at h2 h3 h4 <;> simp only []
  · -- fullP
    refine ⟨_, rfl, ?_⟩
    rcases Semaphore.P_cases s.full 1 with ⟨hv, he⟩ | ⟨hv, he⟩ <;> rw [he] <;>
      constructor <;> simp <;> first | assumption | omega
  · -- mutexP
    refine ⟨_, rfl, ?_⟩
    rcases Semaphore.P_cases s.mutex 1 with ⟨hv, he⟩ | ⟨hv, he⟩ <;> rw [he] <;>
      constructor <;> simp <;> first | assumption | omega
  · -- remove
    cases hb : s.buffer.items with
    | nil =>
      rw [hb] at h3
      simp at h3
      split at h3 <;> omega
    | cons item rest =>
      rw [hb] at h2 h3 h8 h9 h10
      simp only [bounded_buffer.Remove, hb]
      refine ⟨_, rfl, ?_⟩
      constructor <;>
        simp [Semaphore.V_value] <;> first | assumption | omega | skip
      · simp at h2; omega
      · simp at h3; omega
      · simpa [Nat.add_assoc, Nat.add_comm 1] using h8
      · simp at h9; omega
      · intro hpa; have := h10 hpa; simp at this; omega
  · -- emptyV
    refine ⟨_, rfl, ?_⟩
    constructor <;> simp [Semaphore.V_value] <;> first | assumption | omega

theorem ProducerConsumer_semaphore.run_semInv (buffer_size : Int) (schedule : List Bool) :
    ∀ s : ProducerConsumer_semaphore, s.Inv buffer_size →
      ∃ s1, s.run schedule = .ok s1 ∧ s1.Inv buffer_size := by
  induction schedule with
  | nil => intro s h; exact ⟨s, rfl, h⟩
  | cons b rest ih =>
    intro s h
    cases b with
    | true =>
      rw [ProducerConsumer_semaphore.run]
      exact ih _ (ProducerConsumer_semaphore.Produce_semInv buffer_size s h)
    | false =>
      obtain ⟨s1, hs1, h1⟩ := ProducerConsumer_semaphore.Consume_semInv buffer_size s h
      rw [ProducerConsumer_semaphore.run, hs1]
      exact ih _ h1

theorem Lock.Acquire_cases (l : Lock) (t : Nat) (h : l.Inv) :
    (l.holdingThread ≠ none ∧ l.Acquire t = (⟨⟨0, l.lockSem.queue ++ [t]⟩, l.holdingThread⟩, false)) ∨
    (l.holdingThread = none ∧ l.Acquire t = (⟨⟨0, l.lockSem.queue⟩, some t⟩, true)) := by
  obtain ⟨⟨v, q⟩, ht⟩ := l
  unfold Lock.Inv at h
  simp only at h
  by_cases hn : ht = none
  · right
    rw [if_pos hn] at h
    subst h
    exact ⟨hn, by simp [Lock.Acquire, Semaphore.P]⟩
  · left
    rw [if_neg hn] at h
    subst h
    exact ⟨hn, by simp [Lock.Acquire, Semaphore.P]⟩

theorem Lock.Release_cases (l : Lock) (t : Nat) (h : l.Inv) (hh : l.holdingThread = some t) :
    ∃ q w, l.Release t = .ok (⟨⟨1, q⟩, none⟩, w) := by
  obtain ⟨⟨v, q⟩, ht⟩ := l
  unfold Lock.Inv at h
  simp only at h hh
  subst hh
  simp only [reduceCtorEq, if_false] at h
  subst h
  cases q <;> simp [Lock.Release, Semaphore.V]

theorem Lock.Inv_free (q : List Nat) : (⟨⟨1, q⟩, none⟩ : Lock).Inv := by
  simp [Lock.Inv]

theorem Lock.Inv_held (q : List Nat) (t : Nat) : (⟨⟨0, q⟩, some t⟩ : Lock).Inv := by
  simp [Lock.Inv]

theorem Condition.Wait_held (c : Condition) (l : Lock) (t : Nat) (h : l.Inv)
    (hh : l.holdingThread = some t) :
    ∃ q w, c.Wait l t = .ok (⟨c.count + 1, c.condSem⟩, ⟨⟨1, q⟩, none⟩, w) := by
  obtain ⟨q, w, hr⟩ := Lock.Release_cases l t h hh
  refine ⟨q, w, ?_⟩
  simp [Condition.Wait, Lock.isHeldByCurrentThread, hh, hr]

theorem Condition.Signal_held (c : Condition) (l : Lock) (t : Nat)
    (hh : l.holdingThread = some t) :
    ∃ c1 w, c.Signal l t = .ok (c1, w) := by
  unfold Condition.Signal
  simp only [Lock.isHeldByCurrentThread, hh, decide_True, Bool.not_true, Bool.false_eq_true,
    if_false]
  split
  · exact ⟨_, _, rfl⟩
  · exact ⟨_, _, rfl⟩

theorem ProducerConsumer_condition.create_condInv (buffer_size : Int) (h : 0 ≤ buffer_size) :
    (ProducerConsumer_condition.create buffer_size).Inv buffer_size := by
  constructor <;>
    simp [ProducerConsumer_condition.create, bounded_buffer.create, Lock.create, Lock.Inv,
      firstValues, h]

theorem ProducerConsumer_condition.Produce_condInv (buffer_size : Int)
    (s : ProducerConsumer_condition) (h : s.Inv buffer_size) :
    ∃ s1, s.Produce = .ok s1 ∧ s1.Inv buffer_size := by
  obtain ⟨h1, h2, h3, h4, h5, h6, h7, h8⟩ := h
  unfold ProducerConsumer_condition.Produce
  cases hp : s.producerAt <;> simp [hp] at h4 h7 h8 <;> simp only []
  · -- newItem
    refine ⟨_, rfl, ?_⟩
    constructor <;> simp <;> assumption
  · -- acquire
    refine ⟨_, rfl, ?_⟩
    rcases Lock.Acquire_cases s.bufLock 0 h3 with ⟨hv, he⟩ | ⟨hv, he⟩ <;> rw [he] <;>
      constructor <;> simp [Lock.Inv_held] <;> first | assumption | omega | skip
    · cases hh : s.bufLock.holdingThread with
      | none => exact absurd hh hv
      | some t => have := h3; unfold Lock.Inv at this ⊢; simp_all
    · refine ⟨fun hc => ?_, fun hc => ?_⟩
      all_goals
        have hcontra := h5 (by simp [hc])
        rw [hv] at hcontra
        simp at hcontra
  · -- test
    by_cases hfull : s.buffer.IsFull = true
    · rw [if_pos hfull]
      obtain ⟨q, w, hw⟩ := Condition.Wait_held s.condPro s.bufLock 0 h3 h4
      rw [hw]
      refine ⟨_, rfl, ?_⟩
      constructor <;> simp [Lock.Inv_free] <;> first | assumption | omega | skip
      refine ⟨fun hc => ?_, fun hc => ?_⟩
      all_goals
        have hcontra := h5 (by simp [hc])
        rw [h4] at hcontra
        simp at hcontra
    · rw [if_neg hfull]
      obtain ⟨c1, w, hw⟩ := Condition.Signal_held s.condCon s.bufLock 0 h4
      rw [hw]
      refine ⟨_, rfl, ?_⟩
      simp only [bounded_buffer.IsFull, decide_eq_true_eq] at hfull
      constructor <;>
        simp [bounded_buffer.Append] <;> first | assumption | omega | skip
      rw [← List.append_assoc, h6, h8, ← Nat.add_assoc, firstValues_succ]
      push_cast
      rfl
  · -- waitP
    refine ⟨_, rfl, ?_⟩
    rcases Semaphore.P_cases s.condPro.condSem 0 with ⟨hv, he⟩ | ⟨hv, he⟩ <;> rw [he] <;>
      constructor <;> simp <;> assumption
  · -- waitAcquire
    refine ⟨_, rfl, ?_⟩
    rcases Lock.Acquire_cases s.bufLock 0 h3 with ⟨hv, he⟩ | ⟨hv, he⟩ <;> rw [he] <;>
      constructor <;> simp [Lock.Inv_held] <;> first | assumption | omega | skip
    · cases hh : s.bufLock.holdingThread with
      | none => exact absurd hh hv
      | some t => have := h3; unfold Lock.Inv at this ⊢; simp_all
    · refine ⟨fun hc => ?_, fun hc => ?_⟩
      all_goals
        have hcontra := h5 (by simp [hc])
        rw [hv] at hcontra
        simp at hcontra
  · -- release
    obtain ⟨q, w, hw⟩ := Lock.Release_cases s.bufLock 0 h3 h4
    rw [hw]
    refine ⟨_, rfl, ?_⟩
    constructor <;> simp [Lock.Inv_free] <;> first | assumption | omega | skip
    refine ⟨fun hc => ?_, fun hc => ?_⟩
    all_goals
      have hcontra := h5 (by simp [hc])
      rw [h4] at hcontra
      simp at hcontra

theorem ProducerConsumer_condition.Consume_condInv (buffer_size : Int)
    (s : ProducerConsumer_condition) (h : s.Inv buffer_size) :
    ∃ s1, s.Consume = .ok s1 ∧ s1.Inv buffer_size := by
  obtain ⟨h1, h2, h3, h4, h5, h6, h7, h8⟩ := h
  have h8a : ¬ s.producerAt = .newItem → ¬ s.producerAt = .release →
      s.item = (s.consumed.length : Int) + (s.buffer.items.length : Int) := by
    intro a b
    have := h8 (by simp [a, b])
    push_cast at this
    exact this
  have h4a : ∀ t : Nat, t ≠ 0 → s.bufLock.holdingThread = some t →
      ¬ s.producerAt = .test ∧ ¬ s.producerAt = .release := by
    intro t ht hh
    refine ⟨fun hc => ?_, fun hc => ?_⟩
    all_goals
      have hcontra := h4 (by simp [hc])
      rw [hh] at hcontra
      simp at hcontra
      exact ht hcontra
  have h4b : s.bufLock.holdingThread = none →
      ¬ s.producerAt = .test ∧ ¬ s.producerAt = .release := by
    intro hh
    refine ⟨fun hc => ?_, fun hc => ?_⟩
    all_goals
      have hcontra := h4 (by simp [hc])
      rw [hh] at hcontra
      simp at hcontra
  push_cast at h7
  unfold ProducerConsumer_condition.Consume
  cases hc : s.consumerAt <;> simp [hc] at h5 <;> simp only []
  · -- acquire
    refine ⟨_, rfl, ?_⟩
    rcases Lock.Acquire_cases s.bufLock 1 h3 with ⟨hv, he⟩ | ⟨hv, he⟩ <;> rw [he] <;>
      constructor <;> simp [Lock.Inv_held] <;>
      first | assumption | omega | exact h4b hv | skip
    cases hh : s.bufLock.holdingThread with
    | none => exact absurd hh hv
    | some t => have := h3; unfold Lock.Inv at this ⊢; simp_all
  · -- test
    by_cases hempty : s.buffer.IsEmpty = true
    · rw [if_pos hempty]
      obtain ⟨q, w, hw⟩ := Condition.Wait_held s.condCon s.bufLock 1 h3 h5
      rw [hw]
      refine ⟨_, rfl, ?_⟩
      constructor <;> simp [Lock.Inv_free] <;>
        first | assumption | omega | exact h4a 1 (by decide) h5
    · rw [if_neg hempty]
      cases hb : s.buffer.items with
      | nil => simp [bounded_buffer.IsEmpty, hb] at hempty
      | cons item rest =>
        rw [hb] at h2 h6 h7 h8a
        obtain ⟨c1, w, hw⟩ := Condition.Signal_held s.condPro s.bufLock 1 h5
        simp only [bounded_buffer.Remove, hb, hw]
        refine ⟨_, rfl, ?_⟩
        constructor <;> simp <;> first | assumption | omega | skip
        · simp at h2; omega
        · simpa [Nat.add_assoc, Nat.add_comm 1] using h6
        · simp at h7; omega
        · intro hpa1 hpa2
          have := h8a hpa1 hpa2
          simp at this
          omega
  · -- waitP
    refine ⟨_, rfl, ?_⟩
    rcases Semaphore.P_cases s.condCon.condSem 1 with ⟨hv, he⟩ | ⟨hv, he⟩ <;> rw [he] <;>
      constructor <;> simp <;> assumption
  · -- waitAcquire
    refine ⟨_, rfl, ?_⟩
    rcases Lock.Acquire_cases s.bufLock 1 h3 with ⟨hv, he⟩ | ⟨hv, he⟩ <;> rw [he] <;>
      constructor <;> simp [Lock.Inv_held] <;>
      first | assumption | omega | exact h4b hv | skip
    cases hh : s.bufLock.holdingThread with
    | none => exact absurd hh hv
    | some t => have := h3; unfold Lock.Inv at this ⊢; simp_all
  · -- release
    obtain ⟨q, w, hw⟩ := Lock.Release_cases s.bufLock 1 h3 h5
    rw [hw]
    refine ⟨_, rfl, ?_⟩
    constructor <;> simp [Lock.Inv_free] <;>
      first | assumption | omega | exact h4a 1 (by decide) h5

theorem ProducerConsumer_condition.run_condInv (buffer_size : Int) (schedule : List Bool) :
    ∀ s : ProducerConsumer_condition, s.Inv buffer_size →
      ∃ s1, s.run schedule = .ok s1 ∧ s1.Inv buffer_size := by
  induction schedule with
  | nil => intro s h; exact ⟨s, rfl, h⟩
  | cons b rest ih =>
    intro s h
    cases b with
    | true =>
      obtain ⟨s1, hs1, h1⟩ := ProducerConsumer_condition.Produce_condInv buffer_size s h
      rw [ProducerConsumer_condition.run, hs1]
      exact ih _ h1
    | false =>
      obtain ⟨s1, hs1, h1⟩ := ProducerConsumer_condition.Consume_condInv buffer_size s h
      rw [ProducerConsumer_condition.run, hs1]
      exact ih _ h1

theorem firstValues_prefix (a b : List Int)
    (h : a ++ b = firstValues (a.length + b.length)) : a = firstValues a.length := by
  have hsplit : firstValues (a.length + b.length)
      = firstValues a.length ++ ((List.range b.length).map (a.length + ·)).map Int.ofNat := by
    simp [firstValues, List.range_add]
  rw [hsplit] at h
  exact List.append_inj_left h (by simp [firstValues])

/-- C27. With a capacity that is not negative, in both realizations and after every
schedule of steps of the one producer and the one consumer: no step has failed, so that
`Remove` was never made on an empty buffer; the buffer holds at most `buffer_size` items;
the values the consumer has removed are 0, 1, 2, ... in this order; and these, followed
by the values in the buffer, are all the values the producer has appended, each once:
all it has made but the one it may have in hand. -/
theorem ProducerConsumer_bounded_and_in_order (buffer_size : Int) (h : 0 ≤ buffer_size)
    (schedule : List Bool) :
    (∃ s, (ProducerConsumer_condition.create buffer_size).run schedule = .ok s ∧
      (s.buffer.items.length : Int) ≤ buffer_size ∧
      s.consumed = firstValues s.consumed.length ∧
      s.consumed ++ s.buffer.items
        = firstValues (s.consumed.length + s.buffer.items.length) ∧
      s.count = (s.consumed.length + s.buffer.items.length : Nat)
        + (if s.producerAt = .newItem ∨ s.producerAt = .release then 0 else 1)) ∧
    (∃ s, (ProducerConsumer_semaphore.create buffer_size).run schedule = .ok s ∧
      (s.buffer.items.length : Int) ≤ buffer_size ∧
      s.consumed = firstValues s.consumed.length ∧
      s.consumed ++ s.buffer.items
        = firstValues (s.consumed.length + s.buffer.items.length) ∧
      s.count = (s.consumed.length + s.buffer.items.length : Nat)
        + (if s.producerAt = .emptyP ∨ s.producerAt = .mutexP ∨ s.producerAt = .append
            then 1 else 0)) := by
  constructor
  · obtain ⟨s, hs, hI⟩ := ProducerConsumer_condition.run_condInv buffer_size schedule _
      (ProducerConsumer_condition.create_condInv buffer_size h)
    exact ⟨s, hs, hI.bound, firstValues_prefix _ _ hI.order, hI.order, hI.count⟩
  · obtain ⟨s, hs, hI⟩ := ProducerConsumer_semaphore.run_semInv buffer_size schedule _
      (ProducerConsumer_semaphore.create_semInv buffer_size h)
    refine ⟨s, hs, ?_, firstValues_prefix _ _ hI.order, hI.order, hI.count⟩
    have h2 := hI.empty
    have h5 := hI.emptyNonneg
    split at h2 <;> split at h2 <;> omega

theorem ProducerConsumer_bounded_and_in_order_witness :
    ((∃ s, (ProducerConsumer_condition.create 1).run sampleSchedule = .ok s ∧
      (s.buffer.items.length : Int) ≤ 1 ∧
      s.consumed = firstValues s.consumed.length ∧
      s.consumed ++ s.buffer.items
        = firstValues (s.consumed.length + s.buffer.items.length) ∧
      s.count = (s.consumed.length + s.buffer.items.length : Nat)
        + (if s.producerAt = .newItem ∨ s.producerAt = .release then 0 else 1)) ∧
    (∃ s, (ProducerConsumer_semaphore.create 1).run sampleSchedule = .ok s ∧
      (s.buffer.items.length : Int) ≤ 1 ∧
      s.consumed = firstValues s.consumed.length ∧
      s.consumed ++ s.buffer.items
        = firstValues (s.consumed.length + s.buffer.items.length) ∧
      s.count = (s.consumed.length + s.buffer.items.length : Nat)
        + (if s.producerAt = .emptyP ∨ s.producerAt = .mutexP ∨ s.producerAt = .append
            then 1 else 0))) ∧
    ((ProducerConsumer_semaphore.create 1).run sampleSchedule).toOption.map
        (fun s => (s.consumed, s.buffer.items, s.count, s.producerAt))
      = some ([0], [], 2, .emptyP) ∧
    ((ProducerConsumer_condition.create 1).run sampleSchedule).toOption.map
        (fun s => (s.consumed, s.buffer.items, s.count, s.producerAt))
      = some ([0], [], 2, .waitP) :=
  ⟨ProducerConsumer_bounded_and_in_order 1 (by decide) sampleSchedule, by decide, by decide⟩

/-! ## The reader-writer lock -/

theorem getElem?_set_of_some {α : Type} (l : List α) (t u : Nat) (old new : α)
    (h : l[t]? = some old) :
    (l.set t new)[u]? = if u = t then some new else l[u]? := by
  have hlt : t < l.length := by
    rcases Nat.lt_or_ge t l.length with h1 | h1
    · exact h1
    · rw [List.getElem?_eq_none h1] at h; simp at h
  by_cases hu : u = t
  · subst hu
    rw [if_pos rfl, List.getElem?_set_self hlt]
  · rw [if_neg hu, List.getElem?_set_ne (fun h => hu h.symm)]

theorem countP_set_of_some {α : Type} (p : α → Bool) :
    ∀ (l : List α) (t : Nat) (old new : α), l[t]? = some old →
      (l.set t new).countP p + (if p old then 1 else 0)
        = l.countP p + (if p new then 1 else 0) := by
  intro l
  induction l with
  | nil => intro t old new h; simp at h
  | cons a as ih =>
    intro t old new h
    cases t with
    | zero =>
      simp only [List.getElem?_cons_zero, Option.some.injEq] at h
      subst h
      simp only [List.set_cons_zero, List.countP_cons]
      omega
    | succ k =>
      simp only [List.getElem?_cons_succ] at h
      have := ih k old new h
      simp only [List.set_cons_succ, List.countP_cons]
      omega

theorem countP_pos_getElem? {α : Type} (p : α → Bool) (l : List α) (h : 0 < l.countP p) :
    ∃ (u : Nat) (a : α), l[u]? = some a ∧ p a = true := by
  obtain ⟨a, ha, hp⟩ := List.countP_pos_iff.mp h
  obtain ⟨u, hu⟩ := List.getElem?_of_mem ha
  exact ⟨u, a, hu, hp⟩

theorem countP_zero_getElem? {α : Type} (p : α → Bool) (l : List α) (h : l.countP p = 0)
    (u : Nat) (a : α) (hu : l[u]? = some a) : p a = false := by
  have := List.countP_eq_zero.mp h a (List.getElem?_mem hu)
  simpa using this

theorem Lock.Inv_taken (q : List Nat) (h : Option Nat) (hn : h ≠ none) :
    (⟨⟨0, q⟩, h⟩ : Lock).Inv := by
  simp [Lock.Inv, hn]

/-- A thread moves from `old` to `new`, the locks and the count changing with it: what
the step has to show for `Inv` to hold after it. -/
theorem ReaderWriterLock.Inv.moveThread (s s1 : ReaderWriterLock) (t : Nat) (old new : RWAt)
    (hI : s.Inv) (hold : s.threads[t]? = some old)
    (hth : s1.threads = s.threads.set t new)
    (hm : s1.mutex.Inv) (hw : s1.writeLock.Inv)
    (h1 : new.holdsMutex = true → s1.mutex.holdingThread = some t)
    (h1f : s1.mutex.holdingThread = s.mutex.holdingThread ∨
      s.mutex.holdingThread = none ∨ s.mutex.holdingThread = some t)
    (h2 : new.holdsWrite = true → s1.writeLock.holdingThread = some t)
    (h2f : s1.writeLock.holdingThread = s.writeLock.holdingThread ∨
      s.writeLock.holdingThread = none ∨ s.writeLock.holdingThread = some t)
    (h3 : s1.readersCount + (if old.counted then 1 else 0)
      = s.readersCount + (if new.counted then 1 else 0))
    (h4 : new = .relWriteLock → s1.readersCount = 0)
    (h4f : s1.readersCount = s.readersCount ∨ old.holdsMutex = true)
    (hkey : (∃ (u : Nat) (loc : RWAt), s1.threads[u]? = some loc ∧ loc.admitted = true) →
      ∃ h : Nat, s1.writeLock.holdingThread = some h ∧ s1.threads[h]? ≠ some .writing) :
    s1.Inv := by
  refine ⟨hm, hw, ?_, ?_, ?_, ?_, hkey⟩
  · intro u loc hu hl
    rw [hth, getElem?_set_of_some _ _ _ _ _ hold] at hu
    by_cases hut : u = t
    · subst hut
      rw [if_pos rfl, Option.some.injEq] at hu
      subst hu
      exact h1 hl
    · rw [if_neg hut] at hu
      have hh := hI.holdsMutex u loc hu hl
      rcases h1f with h | h | h
      · rw [h]; exact hh
      · rw [h] at hh; simp at hh
      · rw [h, Option.some.injEq] at hh; exact absurd hh.symm hut
  · intro u loc hu hl
    rw [hth, getElem?_set_of_some _ _ _ _ _ hold] at hu
    by_cases hut : u = t
    · subst hut
      rw [if_pos rfl, Option.some.injEq] at hu
      subst hu
      exact h2 hl
    · rw [if_neg hut] at hu
      have hh := hI.holdsWrite u loc hu hl
      rcases h2f with h | h | h
      · rw [h]; exact hh
      · rw [h] at hh; simp at hh
      · rw [h, Option.some.injEq] at hh; exact absurd hh.symm hut
  · have hc := countP_set_of_some RWAt.counted s.threads t old new hold
    have hcount := hI.count
    rw [hth]
    cases ho : old.counted <;> cases hn : new.counted <;> rw [ho, hn] at hc h3 <;>
      simp only [Bool.false_eq_true, if_false, if_true] at hc h3 <;> omega
  · intro u hu
    rw [hth, getElem?_set_of_some _ _ _ _ _ hold] at hu
    by_cases hut : u = t
    · subst hut
      rw [if_pos rfl, Option.some.injEq] at hu
      exact h4 hu
    · rw [if_neg hut] at hu
      rcases h4f with h | h
      · rw [h]; exact hI.zero u hu
      · have ht := hI.holdsMutex t old hold h
        have hu1 := hI.holdsMutex u .relWriteLock hu rfl
        rw [ht, Option.some.injEq] at hu1
        exact absurd hu1.symm hut

/-- The invariant `key` after a step that leaves the holder of `writeLock` as it is. -/
theorem ReaderWriterLock.Inv.key_frame (s s1 : ReaderWriterLock) (t : Nat) (old new : RWAt)
    (hI : s.Inv) (hold : s.threads[t]? = some old)
    (hth : s1.threads = s.threads.set t new)
    (hwf : s1.writeLock.holdingThread = s.writeLock.holdingThread)
    (hnw : new ≠ .writing)
    (hadm : new.admitted = true → ∃ (u : Nat) (loc : RWAt), s.threads[u]? = some loc ∧ loc.admitted = true) :
    (∃ (u : Nat) (loc : RWAt), s1.threads[u]? = some loc ∧ loc.admitted = true) →
      ∃ h : Nat, s1.writeLock.holdingThread = some h ∧ s1.threads[h]? ≠ some .writing := by
  rintro ⟨u, loc, hu, hl⟩
  rw [hth, getElem?_set_of_some _ _ _ _ _ hold] at hu
  have hex : ∃ (u : Nat) (loc : RWAt), s.threads[u]? = some loc ∧ loc.admitted = true := by
    by_cases hut : u = t
    · rw [if_pos hut, Option.some.injEq] at hu
      subst hu
      exact hadm hl
    · rw [if_neg hut] at hu
      exact ⟨u, loc, hu, hl⟩
  obtain ⟨h, hh, hnot⟩ := hI.key hex
  refine ⟨h, by rw [hwf]; exact hh, ?_⟩
  rw [hth, getElem?_set_of_some _ _ _ _ _ hold]
  by_cases hht : h = t
  · rw [if_pos hht]
    intro hc
    rw [Option.some.injEq] at hc
    exact hnw hc
  · rw [if_neg hht]
    exact hnot

/-- The invariant `key` after a step when no thread was admitted before it and the
thread that moves is not admitted after it. -/
theorem ReaderWriterLock.Inv.key_none (s s1 : ReaderWriterLock) (t : Nat) (old new : RWAt)
    (hold : s.threads[t]? = some old)
    (hth : s1.threads = s.threads.set t new)
    (hno : ∀ (u : Nat) (loc : RWAt), s.threads[u]? = some loc → loc.admitted = false)
    (hnew : new.admitted = false) :
    (∃ (u : Nat) (loc : RWAt), s1.threads[u]? = some loc ∧ loc.admitted = true) →
      ∃ h : Nat, s1.writeLock.holdingThread = some h ∧ s1.threads[h]? ≠ some .writing := by
  rintro ⟨u, loc, hu, hl⟩
  rw [hth, getElem?_set_of_some _ _ _ _ _ hold] at hu
  by_cases hut : u = t
  · rw [if_pos hut, Option.some.injEq] at hu
    subst hu
    rw [hnew] at hl
    exact absurd hl (by decide)
  · rw [if_neg hut] at hu
    have := hno u loc hu
    rw [this] at hl
    exact absurd hl (by decide)

theorem ReaderWriterLock.Inv.no_admitted_of_free (s : ReaderWriterLock) (hI : s.Inv)
    (hf : s.writeLock.holdingThread = none) :
    ∀ (u : Nat) (loc : RWAt), s.threads[u]? = some loc → loc.admitted = false := by
  intro u loc hu
  cases hl : loc.admitted with
  | false => rfl
  | true =>
    obtain ⟨h, hh, -⟩ := hI.key ⟨u, loc, hu, hl⟩
    rw [hf] at hh
    simp at hh

theorem ReaderWriterLock.Inv.no_admitted_of_writer (s : ReaderWriterLock) (hI : s.Inv)
    (t : Nat) (ht : s.threads[t]? = some .writing) :
    ∀ (u : Nat) (loc : RWAt), s.threads[u]? = some loc → loc.admitted = false := by
  intro u loc hu
  cases hl : loc.admitted with
  | false => rfl
  | true =>
    obtain ⟨h, hh, hnot⟩ := hI.key ⟨u, loc, hu, hl⟩
    have := hI.holdsWrite t .writing ht rfl
    rw [this, Option.some.injEq] at hh
    subst hh
    exact absurd ht hnot

theorem RWAt.counted_of_admitted (loc : RWAt) (h : loc.admitted = true) :
    loc.counted = true := by
  cases loc <;> first | rfl | exact absurd h (by decide)

theorem ReaderWriterLock.Inv.no_admitted_of_zero (s : ReaderWriterLock) (hI : s.Inv)
    (h0 : s.readersCount = 0) :
    ∀ (u : Nat) (loc : RWAt), s.threads[u]? = some loc → loc.admitted = false := by
  intro u loc hu
  have hc : s.threads.countP RWAt.counted = 0 := by
    have := hI.count
    rw [h0] at this
    exact_mod_cast this.symm
  have := countP_zero_getElem? RWAt.counted s.threads hc u loc hu
  cases hl : loc.admitted with
  | false => rfl
  | true =>
    rw [RWAt.counted_of_admitted loc hl] at this
    exact absurd this (by decide)

theorem ReaderWriterLock.create_rwInv (n : Nat) : (ReaderWriterLock.create n).Inv := by
  have hall : ∀ (u : Nat) (loc : RWAt),
      (List.replicate n RWAt.idle)[u]? = some loc → loc = .idle := by
    intro u loc hu
    exact List.eq_of_mem_replicate (List.getElem?_mem hu)
  refine ⟨Lock.Inv_free [], Lock.Inv_free [], ?_, ?_, ?_, ?_, ?_⟩
  · intro u loc hu hl
    rw [hall u loc hu] at hl
    exact absurd hl (by decide)
  · intro u loc hu hl
    rw [hall u loc hu] at hl
    exact absurd hl (by decide)
  · simp [ReaderWriterLock.create, List.countP_replicate, RWAt.counted]
  · intro u hu
    exact absurd (hall u _ hu) (by decide)
  · rintro ⟨u, loc, hu, hl⟩
    rw [hall u loc hu] at hl
    exact absurd hl (by decide)

/-- A step that leaves the locks and the count as they are. -/
theorem ReaderWriterLock.Inv.plain (s : ReaderWriterLock) (t : Nat) (old new : RWAt)
    (hI : s.Inv) (hold : s.threads[t]? = some old)
    (hm : new.holdsMutex = true → old.holdsMutex = true)
    (hw : new.holdsWrite = true → old.holdsWrite = true)
    (hc : new.counted = old.counted)
    (hz : new = .relWriteLock → s.readersCount = 0)
    (ha : new.admitted = true → old.admitted = true)
    (hnw : new ≠ .writing) :
    ({ s with threads := s.threads.set t new } : ReaderWriterLock).Inv :=
  ReaderWriterLock.Inv.moveThread s _ t old new hI hold rfl hI.mutexInv hI.writeInv
    (fun h => hI.holdsMutex t old hold (hm h)) (Or.inl rfl)
    (fun h => hI.holdsWrite t old hold (hw h)) (Or.inl rfl)
    (by rw [hc]) hz (Or.inl rfl)
    (ReaderWriterLock.Inv.key_frame s _ t old new hI hold rfl rfl hnw
      (fun h => ⟨t, old, hold, ha h⟩))

/-- A pass through `mutex->Acquire()`, which takes the thread to `new` when it returns. -/
theorem ReaderWriterLock.Inv.mutexAcquire (s : ReaderWriterLock) (t : Nat) (old new : RWAt)
    (hI : s.Inv) (hold : s.threads[t]? = some old)
    (hw : new.holdsWrite = true → old.holdsWrite = true)
    (hc : new.counted = old.counted)
    (hz : new ≠ .relWriteLock)
    (ha : new.admitted = true → old.admitted = true)
    (hnw : new ≠ .writing) (hnw1 : old ≠ .writing) :
    ({ s with mutex := (s.mutex.Acquire t).1,
              threads := s.threads.set t (if (s.mutex.Acquire t).2 then new else old) }
      : ReaderWriterLock).Inv := by
  rcases Lock.Acquire_cases s.mutex t hI.mutexInv with ⟨hv, he⟩ | ⟨hv, he⟩ <;> rw [he]
  · simp only [Bool.false_eq_true, if_false]
    exact ReaderWriterLock.Inv.moveThread s _ t old old hI hold rfl (Lock.Inv_taken _ _ hv)
      hI.writeInv (fun h => hI.holdsMutex t old hold h) (Or.inl rfl)
      (fun h => hI.holdsWrite t old hold h) (Or.inl rfl) rfl
      (fun h => hI.zero t (h ▸ hold)) (Or.inl rfl)
      (ReaderWriterLock.Inv.key_frame s _ t old old hI hold rfl rfl hnw1
        (fun h => ⟨t, old, hold, h⟩))
  · simp only [if_true]
    exact ReaderWriterLock.Inv.moveThread s _ t old new hI hold rfl (Lock.Inv_held _ _)
      hI.writeInv (fun _ => rfl) (Or.inr (Or.inl hv))
      (fun h => hI.holdsWrite t old hold (hw h)) (Or.inl rfl) (by rw [hc])
      (fun h => absurd h hz) (Or.inl rfl)
      (ReaderWriterLock.Inv.key_frame s _ t old new hI hold rfl rfl hnw
        (fun h => ⟨t, old, hold, ha h⟩))

/-- A call of `mutex->Release()` by a thread that holds `mutex`. -/
theorem ReaderWriterLock.Inv.mutexRelease (s : ReaderWriterLock) (t : Nat) (old new : RWAt)
    (hI : s.Inv) (hold : s.threads[t]? = some old)
    (hm : old.holdsMutex = true) (hm1 : new.holdsMutex = false)
    (hw : new.holdsWrite = true → old.holdsWrite = true)
    (hc : new.counted = old.counted)
    (hz : new ≠ .relWriteLock)
    (ha : new.admitted = true → old.admitted = true)
    (hnw : new ≠ .writing) :
    ∃ l w, s.mutex.Release t = .ok (l, w) ∧
      ({ s with mutex := l, threads := s.threads.set t new } : ReaderWriterLock).Inv := by
  have hh := hI.holdsMutex t old hold hm
  obtain ⟨q, w, hr⟩ := Lock.Release_cases s.mutex t hI.mutexInv hh
  refine ⟨_, w, hr, ?_⟩
  exact ReaderWriterLock.Inv.moveThread s _ t old new hI hold rfl (Lock.Inv_free _)
    hI.writeInv (fun h => absurd (hm1 ▸ h) (by decide)) (Or.inr (Or.inr hh))
    (fun h => hI.holdsWrite t old hold (hw h)) (Or.inl rfl) (by rw [hc])
    (fun h => absurd h hz) (Or.inl rfl)
    (ReaderWriterLock.Inv.key_frame s _ t old new hI hold rfl rfl hnw
      (fun h => ⟨t, old, hold, ha h⟩))

theorem RWAt.admitted_of_counted (loc : RWAt) (h : loc.counted = true)
    (hm : loc.holdsMutex = false) : loc.admitted = true := by
  cases loc <;> first | rfl | exact absurd h (by decide) | exact absurd hm (by decide)

/-- A pass through `writeLock->Acquire()` that finds the lock taken. -/
theorem ReaderWriterLock.Inv.writeTaken (s : ReaderWriterLock) (t : Nat) (old : RWAt)
    (hI : s.Inv) (hold : s.threads[t]? = some old) (hnw : old ≠ .writing)
    (q : List Nat) (hv : s.writeLock.holdingThread ≠ none) :
    ({ s with writeLock := ⟨⟨0, q⟩, s.writeLock.holdingThread⟩,
              threads := s.threads.set t old } : ReaderWriterLock).Inv :=
  ReaderWriterLock.Inv.moveThread s _ t old old hI hold rfl hI.mutexInv (Lock.Inv_taken _ _ hv)
    (fun h => hI.holdsMutex t old hold h) (Or.inl rfl)
    (fun h => hI.holdsWrite t old hold h) (Or.inl rfl) rfl
    (fun h => hI.zero t (h ▸ hold)) (Or.inl rfl)
    (ReaderWriterLock.Inv.key_frame s _ t old old hI hold rfl rfl hnw
      (fun h => ⟨t, old, hold, h⟩))

/-- Every step keeps `Inv`, and no step fails an assertion. -/
theorem ReaderWriterLock.step_rwInv (s : ReaderWriterLock) (t : Nat) (write : Bool)
    (hI : s.Inv) : ∃ s1, s.step t write = .ok s1 ∧ s1.Inv := by
  unfold ReaderWriterLock.step
  cases hold : s.threads[t]? with
  | none => exact ⟨s, rfl, hI⟩
  | some loc =>
    cases loc <;> simp only []
    · -- idle
      refine ⟨_, rfl, ?_⟩
      cases write
      · exact ReaderWriterLock.Inv.plain s t .idle .readMutex hI hold (by decide)
          (by decide) rfl (fun h => absurd h (by decide)) (by decide) (by decide)
      · exact ReaderWriterLock.Inv.plain s t .idle .writeLock hI hold (by decide)
          (by decide) rfl (fun h => absurd h (by decide)) (by decide) (by decide)
    · -- readMutex
      exact ⟨_, rfl, ReaderWriterLock.Inv.mutexAcquire s t .readMutex .readCount hI hold
        (by decide) rfl (by decide) (by decide) (by decide) (by decide)⟩
    · -- readCount
      refine ⟨_, rfl, ?_⟩
      have hm := hI.holdsMutex t .readCount hold rfl
      by_cases h1 : s.readersCount + 1 = 1
      · rw [if_pos h1]
        exact ReaderWriterLock.Inv.moveThread s _ t .readCount .readWriteLock hI hold rfl
          hI.mutexInv hI.writeInv (fun _ => hm) (Or.inl rfl)
          (fun h => absurd h (by decide)) (Or.inl rfl)
          (by simp [RWAt.counted]) (fun h => absurd h (by decide)) (Or.inr rfl)
          (ReaderWriterLock.Inv.key_frame s _ t .readCount .readWriteLock hI hold rfl rfl
            (by decide) (fun h => absurd h (by decide)))
      · rw [if_neg h1]
        have hpos : 0 < s.threads.countP RWAt.counted := by
          have := hI.count
          omega
        obtain ⟨u, loc, hu, hl⟩ := countP_pos_getElem? RWAt.counted s.threads hpos
        have hnm : loc.holdsMutex = false := by
          cases hlm : loc.holdsMutex with
          | false => rfl
          | true =>
            have := hI.holdsMutex u loc hu hlm
            rw [hm, Option.some.injEq] at this
            subst this
            rw [hold, Option.some.injEq] at hu
            subst hu
            exact absurd hl (by decide)
        exact ReaderWriterLock.Inv.moveThread s _ t .readCount .readUnlock hI hold rfl
          hI.mutexInv hI.writeInv (fun _ => hm) (Or.inl rfl)
          (fun h => absurd h (by decide)) (Or.inl rfl)
          (by simp [RWAt.counted]) (fun h => absurd h (by decide)) (Or.inr rfl)
          (ReaderWriterLock.Inv.key_frame s _ t .readCount .readUnlock hI hold rfl rfl
            (by decide) (fun _ => ⟨u, loc, hu, RWAt.admitted_of_counted loc hl hnm⟩))
    · -- readWriteLock
      refine ⟨_, rfl, ?_⟩
      have hm := hI.holdsMutex t .readWriteLock hold rfl
      rcases Lock.Acquire_cases s.writeLock t hI.writeInv with ⟨hv, he⟩ | ⟨hv, he⟩ <;>
        rw [he]
      · simp only [Bool.false_eq_true, if_false]
        exact ReaderWriterLock.Inv.writeTaken s t .readWriteLock hI hold (by decide) _ hv
      · simp only [if_true]
        refine ReaderWriterLock.Inv.moveThread s _ t .readWriteLock .readUnlock hI hold rfl
          hI.mutexInv (Lock.Inv_held _ _) (fun _ => hm) (Or.inl rfl)
          (fun h => absurd h (by decide)) (Or.inr (Or.inl hv))
          rfl (fun h => absurd h (by decide)) (Or.inl rfl) ?_
        intro _
        refine ⟨t, rfl, ?_⟩
        simp only [getElem?_set_of_some _ _ _ _ _ hold, if_true]
        exact fun h => absurd (Option.some.inj h) (by decide)
    · -- readUnlock
      obtain ⟨l, w, hr, hinv⟩ := ReaderWriterLock.Inv.mutexRelease s t .readUnlock .reading
        hI hold rfl rfl (by decide) rfl (by decide) (by decide) (by decide)
      rw [hr]
      exact ⟨_, rfl, hinv⟩
    · -- reading
      exact ⟨_, rfl, ReaderWriterLock.Inv.plain s t .reading .relMutex hI hold (by decide)
        (by decide) rfl (fun h => absurd h (by decide)) (by decide) (by decide)⟩
    · -- relMutex
      exact ⟨_, rfl, ReaderWriterLock.Inv.mutexAcquire s t .relMutex .relCount hI hold
        (by decide) rfl (by decide) (by decide) (by decide) (by decide)⟩
    · -- relCount
      refine ⟨_, rfl, ?_⟩
      have hm := hI.holdsMutex t .relCount hold rfl
      by_cases hheld : s.writeLock.isHeldByCurrentThread t = true
      · rw [if_pos hheld]
        have hh : s.writeLock.holdingThread = some t := by
          simp only [Lock.isHeldByCurrentThread, decide_eq_true_eq] at hheld
          exact hheld.symm
        exact ReaderWriterLock.Inv.moveThread s _ t .relCount .relTest hI hold rfl
          hI.mutexInv hI.writeInv (fun _ => hm) (Or.inl rfl)
          (fun _ => hh) (Or.inl rfl)
          (by simp [RWAt.counted]) (fun h => absurd h (by decide)) (Or.inr rfl)
          (ReaderWriterLock.Inv.key_frame s _ t .relCount .relTest hI hold rfl rfl
            (by decide) (fun h => absurd h (by decide)))
      · rw [if_neg hheld]
        exact ReaderWriterLock.Inv.moveThread s _ t .relCount .relUnlock hI hold rfl
          hI.mutexInv hI.writeInv (fun _ => hm) (Or.inl rfl)
          (fun h => absurd h (by decide)) (Or.inl rfl)
          (by simp [RWAt.counted]) (fun h => absurd h (by decide)) (Or.inr rfl)
          (ReaderWriterLock.Inv.key_frame s _ t .relCount .relUnlock hI hold rfl rfl
            (by decide) (fun h => absurd h (by decide)))
    · -- relTest
      refine ⟨_, rfl, ?_⟩
      by_cases h0 : s.readersCount ≠ 0
      · rw [if_pos h0]
        exact ReaderWriterLock.Inv.plain s t .relTest .relYield hI hold (by decide)
          (by decide) rfl (fun h => absurd h (by decide)) (by decide) (by decide)
      · rw [if_neg h0]
        exact ReaderWriterLock.Inv.plain s t .relTest .relWriteLock hI hold (by decide)
          (by decide) rfl (fun _ => not_not.mp h0) (by decide) (by decide)
    · -- relYield
      obtain ⟨l, w, hr, hinv⟩ := ReaderWriterLock.Inv.mutexRelease s t .relYield .relAgain
        hI hold rfl rfl (by decide) rfl (by decide) (by decide) (by decide)
      rw [hr]
      exact ⟨_, rfl, hinv⟩
    · -- relAgain
      exact ⟨_, rfl, ReaderWriterLock.Inv.mutexAcquire s t .relAgain .relTest hI hold
        (by decide) rfl (by decide) (by decide) (by decide) (by decide)⟩
    · -- relWriteLock
      have hm := hI.holdsMutex t .relWriteLock hold rfl
      have hh := hI.holdsWrite t .relWriteLock hold rfl
      obtain ⟨q, w, hr⟩ := Lock.Release_cases s.writeLock t hI.writeInv hh
      rw [hr]
      refine ⟨_, rfl, ?_⟩
      exact ReaderWriterLock.Inv.moveThread s _ t .relWriteLock .relUnlock hI hold rfl
        hI.mutexInv (Lock.Inv_free _) (fun _ => hm) (Or.inl rfl)
        (fun h => absurd h (by decide)) (Or.inr (Or.inr hh))
        rfl (fun h => absurd h (by decide)) (Or.inl rfl)
        (ReaderWriterLock.Inv.key_none s _ t .relWriteLock .relUnlock hold rfl
          (ReaderWriterLock.Inv.no_admitted_of_zero s hI (hI.zero t hold)) rfl)
    · -- relUnlock
      obtain ⟨l, w, hr, hinv⟩ := ReaderWriterLock.Inv.mutexRelease s t .relUnlock .idle
        hI hold rfl rfl (by decide) rfl (by decide) (by decide) (by decide)
      rw [hr]
      exact ⟨_, rfl, hinv⟩
    · -- writeLock
      refine ⟨_, rfl, ?_⟩
      rcases Lock.Acquire_cases s.writeLock t hI.writeInv with ⟨hv, he⟩ | ⟨hv, he⟩ <;>
        rw [he]
      · simp only [Bool.false_eq_true, if_false]
        exact ReaderWriterLock.Inv.writeTaken s t .writeLock hI hold (by decide) _ hv
      · simp only [if_true]
        exact ReaderWriterLock.Inv.moveThread s _ t .writeLock .writing hI hold rfl
          hI.mutexInv (Lock.Inv_held _ _) (fun h => absurd h (by decide)) (Or.inl rfl)
          (fun _ => rfl) (Or.inr (Or.inl hv))
          rfl (fun h => absurd h (by decide)) (Or.inl rfl)
          (ReaderWriterLock.Inv.key_none s _ t .writeLock .writing hold rfl
            (ReaderWriterLock.Inv.no_admitted_of_free s hI hv) rfl)
    · -- writing
      have hh := hI.holdsWrite t .writing hold rfl
      obtain ⟨q, w, hr⟩ := Lock.Release_cases s.writeLock t hI.writeInv hh
      rw [hr]
      refine ⟨_, rfl, ?_⟩
      exact ReaderWriterLock.Inv.moveThread s _ t .writing .idle hI hold rfl
        hI.mutexInv (Lock.Inv_free _) (fun h => absurd h (by decide)) (Or.inl rfl)
        (fun h => absurd h (by decide)) (Or.inr (Or.inr hh))
        rfl (fun h => absurd h (by decide)) (Or.inl rfl)
        (ReaderWriterLock.Inv.key_none s _ t .writing .idle hold rfl
          (ReaderWriterLock.Inv.no_admitted_of_writer s hI t hold) rfl)

theorem ReaderWriterLock.run_rwInv (schedule : List (Nat × Bool)) :
    ∀ s : ReaderWriterLock, s.Inv → ∃ s1, s.run schedule = .ok s1 ∧ s1.Inv := by
  induction schedule with
  | nil => intro s h; exact ⟨s, rfl, h⟩
  | cons c rest ih =>
    intro s h
    obtain ⟨t, write⟩ := c
    obtain ⟨s1, hs1, h1⟩ := ReaderWriterLock.step_rwInv s t write h
    rw [ReaderWriterLock.run, hs1]
    exact ih _ h1

/-- C25. With any number `n` of threads, each calling `readAcquire` then `readRelease`
or `writeAcquire` then `writeRelease` again and again, after every schedule of their
steps no assertion has failed and: at most one thread is inside as a writer, and when
one is, no thread is inside as a reader. Any number of readers may be inside when no
writer is. -/
theorem ReaderWriterLock_excludes_writers (n : Nat) (schedule : List (Nat × Bool)) :
    ∃ s, (ReaderWriterLock.create n).run schedule = .ok s ∧
      (∀ t u : Nat, s.threads[t]? = some .writing → s.threads[u]? = some .writing →
        t = u) ∧
      (∀ t u : Nat, s.threads[t]? = some .writing → s.threads[u]? ≠ some .reading) := by
  obtain ⟨s, hs, hI⟩ := ReaderWriterLock.run_rwInv schedule _ (ReaderWriterLock.create_rwInv n)
  refine ⟨s, hs, ?_, ?_⟩
  · intro t u ht hu
    have h1 := hI.holdsWrite t .writing ht rfl
    have h2 := hI.holdsWrite u .writing hu rfl
    rw [h1, Option.some.injEq] at h2
    exact h2
  · intro t u ht hu
    obtain ⟨h, hh, hnot⟩ := hI.key ⟨u, .reading, hu, rfl⟩
    have h1 := hI.holdsWrite t .writing ht rfl
    rw [h1, Option.some.injEq] at hh
    subst hh
    exact hnot ht

/-- The model lets readers share and lets a writer in: after threads 0 and 1 have entered
as readers both are inside; and on a lock of its own a writer gets inside. -/
theorem ReaderWriterLock_readers_share :
    ((ReaderWriterLock.create 3).run (readerEnters 0 true ++ readerEnters 1 false)).toOption.map
        (fun s => s.threads) = some [.reading, .reading, .idle] ∧
    ((ReaderWriterLock.create 3).run [(2, true), (2, true)]).toOption.map
        (fun s => s.threads) = some [.idle, .idle, .writing] := by
  decide

/-! ## The barrier -/

theorem BarrierThread.ranks (th : BarrierThread) :
    th.done ≤ th.passesOut ∧ th.passesOut ≤ th.leaves ∧ th.leaves ≤ th.passesIn ∧
    th.passesIn ≤ th.arrivals ∧ th.arrivals ≤ th.done + 1 := by
  obtain ⟨p, d⟩ := th
  cases p <;>
    simp [BarrierThread.passesOut, BarrierThread.leaves, BarrierThread.passesIn,
      BarrierThread.arrivals, BarrierAt.passedOut, BarrierAt.left, BarrierAt.passedIn,
      BarrierAt.arrived]

/-- A thread moves from `old` to `new`, the lock, the conditions and the count changing
with it: what the step has to show for `Inv` to hold after it. -/
theorem Barrier.Inv.moveBarrier (s s1 : Barrier) (t : Nat) (old new : BarrierThread)
    (hI : s.Inv) (hold : s.threads[t]? = some old)
    (hth : s1.threads = s.threads.set t new)
    (htot : s1.totThreadNum = s.totThreadNum)
    (hl : s1.conditionLock.Inv)
    (h1 : new.place.holdsLock = true → s1.conditionLock.holdingThread = some t)
    (h1f : s1.conditionLock.holdingThread = s.conditionLock.holdingThread ∨
      s.conditionLock.holdingThread = none ∨ s.conditionLock.holdingThread = some t)
    (hA : s1.arrivedThreadNum + (if old.counted then 1 else 0)
      = s.arrivedThreadNum + (if new.counted then 1 else 0))
    (hIn : s1.condIn.count + s1.condIn.condSem.value + (if old.waitsIn then 1 else 0)
      = s.condIn.count + s.condIn.condSem.value + (if new.waitsIn then 1 else 0))
    (hInN : 0 ≤ s1.condIn.count ∧ 0 ≤ s1.condIn.condSem.value)
    (hOut : s1.condOut.count + s1.condOut.condSem.value + (if old.waitsOut then 1 else 0)
      = s.condOut.count + s.condOut.condSem.value + (if new.waitsOut then 1 else 0))
    (hOutN : 0 ≤ s1.condOut.count ∧ 0 ≤ s1.condOut.condSem.value)
    (hma : old.arrivals ≤ new.arrivals) (hml : old.leaves ≤ new.leaves)
    (hgi : new.passesIn ≤ old.passesIn ∨
      ∀ (u : Nat) (thu : BarrierThread), u ≠ t → s.threads[u]? = some thu →
        new.passesIn ≤ thu.arrivals)
    (hgo : new.passesOut ≤ old.passesOut ∨
      ∀ (u : Nat) (thu : BarrierThread), u ≠ t → s.threads[u]? = some thu →
        new.passesOut ≤ thu.leaves)
    (hoi : 0 < s1.condIn.condSem.value →
      ∀ (w u : Nat) (thw thu : BarrierThread), s1.threads[w]? = some thw →
        s1.threads[u]? = some thu → thw.place = .inP → thw.arrivals ≤ thu.arrivals)
    (hoo : 0 < s1.condOut.condSem.value →
      ∀ (w u : Nat) (thw thu : BarrierThread), s1.threads[w]? = some thw →
        s1.threads[u]? = some thu → thw.place = .outP → thw.leaves ≤ thu.leaves) :
    s1.Inv := by
  have hlen : s1.threads.length = s.threads.length := by rw [hth, List.length_set]
  refine ⟨?_, hl, ?_, ?_, ?_, hInN, ?_, hOutN, ?_, ?_, hoi, hoo⟩
  · rw [htot, hlen]; exact hI.tot
  · intro u th hu hh
    rw [hth, getElem?_set_of_some _ _ _ _ _ hold] at hu
    by_cases hut : u = t
    · subst hut
      rw [if_pos rfl, Option.some.injEq] at hu
      subst hu
      exact h1 hh
    · rw [if_neg hut] at hu
      have hh1 := hI.holdsLock u th hu hh
      rcases h1f with h | h | h
      · rw [h]; exact hh1
      · rw [h] at hh1; simp at hh1
      · rw [h, Option.some.injEq] at hh1; exact absurd hh1.symm hut
  · have hc := countP_set_of_some BarrierThread.counted s.threads t old new hold
    have hcount := hI.arrivedCount
    rw [hth]
    cases ho : old.counted <;> cases hn : new.counted <;> rw [ho, hn] at hc hA <;>
      simp only [Bool.false_eq_true, if_false, if_true] at hc hA <;> omega
  · have hc := countP_set_of_some BarrierThread.waitsIn s.threads t old new hold
    have hcount := hI.inCount
    rw [hth]
    cases ho : old.waitsIn <;> cases hn : new.waitsIn <;> rw [ho, hn] at hc hIn <;>
      simp only [Bool.false_eq_true, if_false, if_true] at hc hIn <;> omega
  · have hc := countP_set_of_some BarrierThread.waitsOut s.threads t old new hold
    have hcount := hI.outCount
    rw [hth]
    cases ho : old.waitsOut <;> cases hn : new.waitsOut <;> rw [ho, hn] at hc hOut <;>
      simp only [Bool.false_eq_true, if_false, if_true] at hc hOut <;> omega
  · intro a b tha thb ha hb
    rw [hth, getElem?_set_of_some _ _ _ _ _ hold] at ha hb
    by_cases hat : a = t <;> by_cases hbt : b = t
    · rw [if_pos hat, Option.some.injEq] at ha
      rw [if_pos hbt, Option.some.injEq] at hb
      subst ha; subst hb
      exact new.ranks.2.2.2.1
    · rw [if_pos hat, Option.some.injEq] at ha
      rw [if_neg hbt] at hb
      subst ha
      rcases hgi with h | h
      · exact le_trans h (hI.gateIn t b old thb hold hb)
      · exact h b thb hbt hb
    · rw [if_neg hat] at ha
      rw [if_pos hbt, Option.some.injEq] at hb
      subst hb
      exact le_trans (hI.gateIn a t tha old ha hold) hma
    · rw [if_neg hat] at ha
      rw [if_neg hbt] at hb
      exact hI.gateIn a b tha thb ha hb
  · intro a b tha thb ha hb
    rw [hth, getElem?_set_of_some _ _ _ _ _ hold] at ha hb
    by_cases hat : a = t <;> by_cases hbt : b = t
    · rw [if_pos hat, Option.some.injEq] at ha
      rw [if_pos hbt, Option.some.injEq] at hb
      subst ha; subst hb
      exact new.ranks.2.1
    · rw [if_pos hat, Option.some.injEq] at ha
      rw [if_neg hbt] at hb
      subst ha
      rcases hgo with h | h
      · exact le_trans h (hI.gateOut t b old thb hold hb)
      · exact h b thb hbt hb
    · rw [if_neg hat] at ha
      rw [if_pos hbt, Option.some.injEq] at hb
      subst hb
      exact le_trans (hI.gateOut a t tha old ha hold) hml
    · rw [if_neg hat] at ha
      rw [if_neg hbt] at hb
      exact hI.gateOut a b tha thb ha hb

theorem Barrier.Inv.openIn_frame (s s1 : Barrier) (t : Nat) (old new : BarrierThread)
    (hI : s.Inv) (hold : s.threads[t]? = some old)
    (hth : s1.threads = s.threads.set t new)
    (hv : 0 < s1.condIn.condSem.value → 0 < s.condIn.condSem.value)
    (hnew : new.place = .inP → old.place = .inP ∧ new.arrivals = old.arrivals)
    (hma : old.arrivals ≤ new.arrivals) :
    0 < s1.condIn.condSem.value →
      ∀ (w u : Nat) (thw thu : BarrierThread), s1.threads[w]? = some thw →
        s1.threads[u]? = some thu → thw.place = .inP → thw.arrivals ≤ thu.arrivals := by
  intro hv1 w u thw thu hw hu hp
  have ho := hI.openIn (hv hv1)
  rw [hth, getElem?_set_of_some _ _ _ _ _ hold] at hw hu
  by_cases hwt : w = t <;> by_cases hut : u = t
  · rw [if_pos hwt, Option.some.injEq] at hw
    rw [if_pos hut, Option.some.injEq] at hu
    rw [← hw, ← hu]
  · rw [if_pos hwt, Option.some.injEq] at hw
    rw [if_neg hut] at hu
    subst hw
    obtain ⟨h1, h2⟩ := hnew hp
    rw [h2]
    exact ho t u old thu hold hu h1
  · rw [if_neg hwt] at hw
    rw [if_pos hut, Option.some.injEq] at hu
    subst hu
    exact le_trans (ho w t thw old hw hold hp) hma
  · rw [if_neg hwt] at hw
    rw [if_neg hut] at hu
    exact ho w u thw thu hw hu hp

theorem Barrier.Inv.openOut_frame (s s1 : Barrier) (t : Nat) (old new : BarrierThread)
    (hI : s.Inv) (hold : s.threads[t]? = some old)
    (hth : s1.threads = s.threads.set t new)
    (hv : 0 < s1.condOut.condSem.value → 0 < s.condOut.condSem.value)
    (hnew : new.place = .outP → old.place = .outP ∧ new.leaves = old.leaves)
    (hml : old.leaves ≤ new.leaves) :
    0 < s1.condOut.condSem.value →
      ∀ (w u : Nat) (thw thu : BarrierThread), s1.threads[w]? = some thw →
        s1.threads[u]? = some thu → thw.place = .outP → thw.leaves ≤ thu.leaves := by
  intro hv1 w u thw thu hw hu hp
  have ho := hI.openOut (hv hv1)
  rw [hth, getElem?_set_of_some _ _ _ _ _ hold] at hw hu
  by_cases hwt : w = t <;> by_cases hut : u = t
  · rw [if_pos hwt, Option.some.injEq] at hw
    rw [if_pos hut, Option.some.injEq] at hu
    rw [← hw, ← hu]
  · rw [if_pos hwt, Option.some.injEq] at hw
    rw [if_neg hut] at hu
    subst hw
    obtain ⟨h1, h2⟩ := hnew hp
    rw [h2]
    exact ho t u old thu hold hu h1
  · rw [if_neg hwt] at hw
    rw [if_pos hut, Option.some.injEq] at hu
    subst hu
    exact le_trans (ho w t thw old hw hold hp) hml
  · rw [if_neg hwt] at hw
    rw [if_neg hut] at hu
    exact ho w u thw thu hw hu hp

/-- The invariant `openIn` from a bound that no waiter after the step exceeds and every
thread after the step reaches. -/
theorem Barrier.openIn_of_bound (s s1 : Barrier) (t : Nat) (old new : BarrierThread)
    (hold : s.threads[t]? = some old) (hth : s1.threads = s.threads.set t new) (B : Nat)
    (hw0 : new.place = .inP → new.arrivals ≤ B)
    (hw1 : ∀ (w : Nat) (thw : BarrierThread), w ≠ t → s.threads[w]? = some thw →
      thw.place = .inP → thw.arrivals ≤ B)
    (hu0 : B ≤ new.arrivals)
    (hu1 : ∀ (u : Nat) (thu : BarrierThread), u ≠ t → s.threads[u]? = some thu →
      B ≤ thu.arrivals) :
    ∀ (w u : Nat) (thw thu : BarrierThread), s1.threads[w]? = some thw →
      s1.threads[u]? = some thu → thw.place = .inP → thw.arrivals ≤ thu.arrivals := by
  intro w u thw thu hw hu hp
  rw [hth, getElem?_set_of_some _ _ _ _ _ hold] at hw hu
  have h1 : thw.arrivals ≤ B := by
    by_cases hwt : w = t
    · rw [if_pos hwt, Option.some.injEq] at hw
      subst hw
      exact hw0 hp
    · rw [if_neg hwt] at hw
      exact hw1 w thw hwt hw hp
  have h2 : B ≤ thu.arrivals := by
    by_cases hut : u = t
    · rw [if_pos hut, Option.some.injEq] at hu
      subst hu
      exact hu0
    · rw [if_neg hut] at hu
      exact hu1 u thu hut hu
  exact le_trans h1 h2

theorem Barrier.openOut_of_bound (s s1 : Barrier) (t : Nat) (old new : BarrierThread)
    (hold : s.threads[t]? = some old) (hth : s1.threads = s.threads.set t new) (B : Nat)
    (hw0 : new.place = .outP → new.leaves ≤ B)
    (hw1 : ∀ (w : Nat) (thw : BarrierThread), w ≠ t → s.threads[w]? = some thw →
      thw.place = .outP → thw.leaves ≤ B)
    (hu0 : B ≤ new.leaves)
    (hu1 : ∀ (u : Nat) (thu : BarrierThread), u ≠ t → s.threads[u]? = some thu →
      B ≤ thu.leaves) :
    ∀ (w u : Nat) (thw thu : BarrierThread), s1.threads[w]? = some thw →
      s1.threads[u]? = some thu → thw.place = .outP → thw.leaves ≤ thu.leaves := by
  intro w u thw thu hw hu hp
  rw [hth, getElem?_set_of_some _ _ _ _ _ hold] at hw hu
  have h1 : thw.leaves ≤ B := by
    by_cases hwt : w = t
    · rw [if_pos hwt, Option.some.injEq] at hw
      subst hw
      exact hw0 hp
    · rw [if_neg hwt] at hw
      exact hw1 w thw hwt hw hp
  have h2 : B ≤ thu.leaves := by
    by_cases hut : u = t
    · rw [if_pos hut, Option.some.injEq] at hu
      subst hu
      exact hu0
    · rw [if_neg hut] at hu
      exact hu1 u thu hut hu
  exact le_trans h1 h2

/-- A step that leaves the conditions and the count as they are and the thread with the
calls it has arrived in, come through and left. -/
theorem Barrier.Inv.sameRanks (s s1 : Barrier) (t : Nat) (old new : BarrierThread)
    (hI : s.Inv) (hold : s.threads[t]? = some old)
    (hth : s1.threads = s.threads.set t new)
    (htot : s1.totThreadNum = s.totThreadNum)
    (harr : s1.arrivedThreadNum = s.arrivedThreadNum)
    (hci : s1.condIn = s.condIn) (hco : s1.condOut = s.condOut)
    (hl : s1.conditionLock.Inv)
    (h1 : new.place.holdsLock = true → s1.conditionLock.holdingThread = some t)
    (h1f : s1.conditionLock.holdingThread = s.conditionLock.holdingThread ∨
      s.conditionLock.holdingThread = none ∨ s.conditionLock.holdingThread = some t)
    (hra : new.arrivals = old.arrivals) (hri : new.passesIn = old.passesIn)
    (hrl : new.leaves = old.leaves) (hro : new.passesOut = old.passesOut)
    (hc : new.counted = old.counted)
    (hwi : new.waitsIn = old.waitsIn) (hwo : new.waitsOut = old.waitsOut) :
    s1.Inv := by
  have hpi : new.place = .inP → old.place = .inP := by
    intro h
    have : new.waitsIn = true := by simp [BarrierThread.waitsIn, h]
    rw [hwi] at this
    simpa [BarrierThread.waitsIn] using this
  have hpo : new.place = .outP → old.place = .outP := by
    intro h
    have : new.waitsOut = true := by simp [BarrierThread.waitsOut, h]
    rw [hwo] at this
    simpa [BarrierThread.waitsOut] using this
  exact Barrier.Inv.moveBarrier s s1 t old new hI hold hth htot hl h1 h1f
    (by rw [harr, hc]) (by rw [hci, hwi]) (by rw [hci]; exact hI.inNonneg)
    (by rw [hco, hwo]) (by rw [hco]; exact hI.outNonneg)
    (le_of_eq hra.symm) (le_of_eq hrl.symm) (Or.inl (le_of_eq hri)) (Or.inl (le_of_eq hro))
    (Barrier.Inv.openIn_frame s s1 t old new hI hold hth (by rw [hci]; exact id)
      (fun h => ⟨hpi h, hra⟩) (le_of_eq hra.symm))
    (Barrier.Inv.openOut_frame s s1 t old new hI hold hth (by rw [hco]; exact id)
      (fun h => ⟨hpo h, hrl⟩) (le_of_eq hrl.symm))

theorem others_true_of_countP {α : Type} (p : α → Bool) (l : List α) (t : Nat)
    (old new : α) (hold : l[t]? = some old) (hpo : p old = false) (hpn : p new = true)
    (hc : l.countP p + 1 = l.length) :
    ∀ (u : Nat) (y : α), u ≠ t → l[u]? = some y → p y = true := by
  intro u y hut hu
  have h1 := countP_set_of_some p l t old new hold
  rw [hpo, hpn] at h1
  simp only [Bool.false_eq_true, if_false, if_true] at h1
  have h2 : (l.set t new).countP p = (l.set t new).length := by
    rw [List.length_set]; omega
  have h3 := List.countP_eq_length.mp h2
  have h4 : (l.set t new)[u]? = some y := by
    rw [getElem?_set_of_some l t u old new hold, if_neg hut]; exact hu
  exact h3 y (List.getElem?_mem h4)

theorem others_false_of_countP {α : Type} (p : α → Bool) (l : List α) (t : Nat)
    (old new : α) (hold : l[t]? = some old) (hpo : p old = true) (hpn : p new = false)
    (hc : l.countP p = 1) :
    ∀ (u : Nat) (y : α), u ≠ t → l[u]? = some y → p y = false := by
  intro u y hut hu
  have h1 := countP_set_of_some p l t old new hold
  rw [hpo, hpn] at h1
  simp only [Bool.false_eq_true, if_false, if_true] at h1
  have h2 : (l.set t new).countP p = 0 := by omega
  have h4 : (l.set t new)[u]? = some y := by
    rw [getElem?_set_of_some l t u old new hold, if_neg hut]; exact hu
  exact countP_zero_getElem? p _ h2 u y h4

theorem BarrierThread.counted_ranks (th : BarrierThread) (h : th.counted = true) :
    th.arrivals = th.done + 1 ∧ th.leaves = th.done := by
  obtain ⟨p, d⟩ := th
  cases p <;> first
    | exact ⟨rfl, rfl⟩
    | (simp [BarrierThread.counted, BarrierAt.arrived, BarrierAt.left] at h)

theorem BarrierThread.not_counted_ranks (th : BarrierThread) (h : th.counted = false) :
    th.arrivals = th.leaves := by
  obtain ⟨p, d⟩ := th
  cases p <;> first
    | rfl
    | (simp [BarrierThread.counted, BarrierAt.arrived, BarrierAt.left] at h)

theorem BarrierThread.inP_ranks (th : BarrierThread) (h : th.place = .inP) :
    th.arrivals = th.done + 1 ∧ th.passesIn = th.done ∧ th.leaves = th.done ∧
    th.passesOut = th.done := by
  obtain ⟨p, d⟩ := th
  simp only at h
  subst h
  exact ⟨rfl, rfl, rfl, rfl⟩

theorem BarrierThread.outP_ranks (th : BarrierThread) (h : th.place = .outP) :
    th.arrivals = th.done + 1 ∧ th.passesIn = th.done + 1 ∧ th.leaves = th.done + 1 ∧
    th.passesOut = th.done := by
  obtain ⟨p, d⟩ := th
  simp only at h
  subst h
  exact ⟨rfl, rfl, rfl, rfl⟩

theorem BarrierThread.place_of_waitsIn (th : BarrierThread) (h : th.waitsIn = true) :
    th.place = .inP := by
  simpa [BarrierThread.waitsIn] using h

theorem BarrierThread.place_of_waitsOut (th : BarrierThread) (h : th.waitsOut = true) :
    th.place = .outP := by
  simpa [BarrierThread.waitsOut] using h

theorem Lock.held_of_holder (l : Lock) (t : Nat) (h : l.holdingThread = some t) :
    l.isHeldByCurrentThread t = true := by
  simp [Lock.isHeldByCurrentThread, h]

theorem Barrier.create_barInv (n : Nat) : (Barrier.create n).Inv := by
  have hall : ∀ (u : Nat) (th : BarrierThread),
      (List.replicate n (⟨.outside, 0⟩ : BarrierThread))[u]? = some th →
        th = ⟨.outside, 0⟩ := by
    intro u th hu
    exact List.eq_of_mem_replicate (List.getElem?_mem hu)
  refine ⟨?_, Lock.Inv_free [], ?_, ?_, ?_, ?_, ?_, ?_, ?_, ?_, ?_, ?_⟩
  · simp [Barrier.create]
  · intro u th hu hh
    rw [hall u th hu] at hh
    exact absurd hh (by decide)
  · simp [Barrier.create, List.countP_replicate, BarrierThread.counted, BarrierAt.arrived]
  · simp [Barrier.create, Condition.create, Semaphore.create, List.countP_replicate,
      BarrierThread.waitsIn]
  · exact ⟨le_refl _, le_refl _⟩
  · simp [Barrier.create, Condition.create, Semaphore.create, List.countP_replicate,
      BarrierThread.waitsOut]
  · exact ⟨le_refl _, le_refl _⟩
  · intro a b tha thb ha hb
    rw [hall a tha ha, hall b thb hb]
    exact le_refl _
  · intro a b tha thb ha hb
    rw [hall a tha ha, hall b thb hb]
    exact le_refl _
  · intro hv
    simp [Barrier.create, Condition.create, Semaphore.create] at hv
  · intro hv
    simp [Barrier.create, Condition.create, Semaphore.create] at hv

/-- A pass through `conditionLock->Acquire()`, which takes the thread to `new` when it
returns. -/
theorem Barrier.Inv.lockAcquire (s : Barrier) (t : Nat) (old new : BarrierAt) (d : Nat)
    (hI : s.Inv) (hold : s.threads[t]? = some ⟨old, d⟩)
    (hra : new.arrived = old.arrived) (hri : new.passedIn = old.passedIn)
    (hrl : new.left = old.left) (hro : new.passedOut = old.passedOut)
    (hwi : (⟨new, d⟩ : BarrierThread).waitsIn = (⟨old, d⟩ : BarrierThread).waitsIn)
    (hwo : (⟨new, d⟩ : BarrierThread).waitsOut = (⟨old, d⟩ : BarrierThread).waitsOut) :
    ({ s with conditionLock := (s.conditionLock.Acquire t).1,
              threads := s.threads.set t
                ⟨if (s.conditionLock.Acquire t).2 then new else old, d⟩ } : Barrier).Inv := by
  rcases Lock.Acquire_cases s.conditionLock t hI.lockInv with ⟨hv, he⟩ | ⟨hv, he⟩ <;>
    rw [he]
  · simp only [Bool.false_eq_true, if_false]
    exact Barrier.Inv.sameRanks s _ t ⟨old, d⟩ ⟨old, d⟩ hI hold rfl rfl rfl rfl rfl
      (Lock.Inv_taken _ _ hv) (fun h => hI.holdsLock t _ hold h) (Or.inl rfl)
      rfl rfl rfl rfl rfl rfl rfl
  · simp only [if_true]
    exact Barrier.Inv.sameRanks s _ t ⟨old, d⟩ ⟨new, d⟩ hI hold rfl rfl rfl rfl rfl
      (Lock.Inv_held _ _) (fun _ => rfl) (Or.inr (Or.inl hv))
      (by simp [BarrierThread.arrivals, hra]) (by simp [BarrierThread.passesIn, hri])
      (by simp [BarrierThread.leaves, hrl]) (by simp [BarrierThread.passesOut, hro])
      (by simp [BarrierThread.counted, hra, hrl]) hwi hwo

/-- Every step keeps `Inv`, and no step fails an assertion. -/
theorem Barrier.step_barInv (s : Barrier) (rounds t : Nat) (hI : s.Inv) :
    ∃ s1, s.step rounds t = .ok s1 ∧ s1.Inv := by
  unfold Barrier.step
  cases hold : s.threads[t]? with
  | none => exact ⟨s, rfl, hI⟩
  | some th =>
    obtain ⟨place, d⟩ := th
    cases place <;> simp only []
    · -- outside
      refine ⟨_, rfl, ?_⟩
      by_cases hr : d < rounds
      · rw [if_pos hr]
        exact Barrier.Inv.sameRanks s _ t _ ⟨.acquire, d⟩ hI hold rfl rfl rfl rfl rfl
          hI.lockInv (fun h => absurd h (by simp [BarrierAt.holdsLock])) (Or.inl rfl)
          rfl rfl rfl rfl rfl rfl rfl
      · rw [if_neg hr]
        exact Barrier.Inv.sameRanks s _ t _ ⟨.outside, d⟩ hI hold rfl rfl rfl rfl rfl
          hI.lockInv (fun h => absurd h (by simp [BarrierAt.holdsLock])) (Or.inl rfl)
          rfl rfl rfl rfl rfl rfl rfl
    · -- acquire
      exact ⟨_, rfl, Barrier.Inv.lockAcquire s t .acquire .arrive d hI hold
        rfl rfl rfl rfl rfl rfl⟩
    · -- arrive
      refine ⟨_, rfl, ?_⟩
      have hm := hI.holdsLock t _ hold rfl
      by_cases ha : s.arrivedThreadNum + 1 = s.totThreadNum
      · rw [if_pos ha]
        have hcnt : s.threads.countP BarrierThread.counted + 1 = s.threads.length := by
          have h1 := hI.arrivedCount
          have h2 := hI.tot
          omega
        have hall := others_true_of_countP BarrierThread.counted s.threads t
          ⟨.arrive, d⟩ ⟨.inBroadcast, d⟩ hold rfl rfl hcnt
        refine Barrier.Inv.moveBarrier s _ t ⟨.arrive, d⟩ ⟨.inBroadcast, d⟩ hI hold rfl rfl
          hI.lockInv (fun _ => hm) (Or.inl rfl)
          (by simp [BarrierThread.counted, BarrierAt.arrived, BarrierAt.left])
          rfl hI.inNonneg rfl hI.outNonneg (Nat.le_succ _) (le_refl _)
          (Or.inr ?_) (Or.inl (le_refl _))
          (Barrier.Inv.openIn_frame s _ t _ _ hI hold rfl id
            (fun h => absurd h (by simp)) (Nat.le_succ _))
          (Barrier.Inv.openOut_frame s _ t _ _ hI hold rfl id
            (fun h => absurd h (by simp)) (le_refl _))
        intro u thu hut hu
        have hc := (thu.counted_ranks (hall u thu hut hu))
        have hg := hI.gateOut t u _ thu hold hu
        rw [hc.2] at hg
        rw [hc.1]
        exact Nat.succ_le_succ hg
      · rw [if_neg ha]
        exact Barrier.Inv.moveBarrier s _ t ⟨.arrive, d⟩ ⟨.inWait, d⟩ hI hold rfl rfl
          hI.lockInv (fun _ => hm) (Or.inl rfl)
          (by simp [BarrierThread.counted, BarrierAt.arrived, BarrierAt.left])
          rfl hI.inNonneg rfl hI.outNonneg (Nat.le_succ _) (le_refl _)
          (Or.inl (le_refl _)) (Or.inl (le_refl _))
          (Barrier.Inv.openIn_frame s _ t _ _ hI hold rfl id
            (fun h => absurd h (by simp)) (Nat.le_succ _))
          (Barrier.Inv.openOut_frame s _ t _ _ hI hold rfl id
            (fun h => absurd h (by simp)) (le_refl _))
    · -- inBroadcast
      have hm := hI.holdsLock t _ hold rfl
      rw [Lock.held_of_holder _ _ hm]
      simp only [Bool.not_true, Bool.false_eq_true, if_false]
      by_cases hc : s.condIn.count ≠ 0
      · rw [if_pos hc]
        refine ⟨_, rfl, ?_⟩
        have hn := hI.inNonneg
        refine Barrier.Inv.moveBarrier s _ t ⟨.inBroadcast, d⟩ ⟨.inBroadcast, d⟩ hI hold rfl rfl
          hI.lockInv (fun _ => hm) (Or.inl rfl) rfl
          (by simp only [Semaphore.V_value]; omega)
          ⟨by simp only; omega, by simp only [Semaphore.V_value]; omega⟩
          rfl hI.outNonneg (le_refl _) (le_refl _)
          (Or.inl (le_refl _)) (Or.inl (le_refl _)) ?_
          (Barrier.Inv.openOut_frame s _ t _ _ hI hold rfl id
            (fun h => absurd h (by simp)) (le_refl _))
        intro _
        refine Barrier.openIn_of_bound s _ t _ _ hold rfl (d + 1)
          (fun h => absurd h (by simp)) ?_ (le_refl _) ?_
        · intro w thw hwt hw hp
          have hr := thw.inP_ranks hp
          have hg := hI.gateOut w t thw _ hw hold
          rw [hr.2.2.2] at hg
          rw [hr.1]
          exact Nat.succ_le_succ hg
        · intro u thu hut hu
          exact hI.gateIn t u _ thu hold hu
      · rw [if_neg hc]
        refine ⟨_, rfl, ?_⟩
        exact Barrier.Inv.sameRanks s _ t _ ⟨.leave, d⟩ hI hold rfl rfl rfl rfl rfl
          hI.lockInv (fun _ => hm) (Or.inl rfl)
          rfl rfl rfl rfl rfl rfl rfl
    · -- inWait
      have hm := hI.holdsLock t _ hold rfl
      obtain ⟨q, w, hw⟩ := Condition.Wait_held s.condIn s.conditionLock t hI.lockInv hm
      rw [hw]
      refine ⟨_, rfl, ?_⟩
      have hn := hI.inNonneg
      refine Barrier.Inv.moveBarrier s _ t ⟨.inWait, d⟩ ⟨.inP, d⟩ hI hold rfl rfl
        (Lock.Inv_free _) (fun h => absurd h (by simp [BarrierAt.holdsLock])) (Or.inr (Or.inr hm)) rfl
        (by simp [BarrierThread.waitsIn]; omega)
        ⟨by simp only; omega, hn.2⟩
        rfl hI.outNonneg (le_refl _) (le_refl _)
        (Or.inl (le_refl _)) (Or.inl (le_refl _)) ?_
        (Barrier.Inv.openOut_frame s _ t _ _ hI hold rfl id
          (fun h => absurd h (by simp)) (le_refl _))
      intro hv
      have hv0 : 0 < s.condIn.condSem.value := hv
      have hpos : 0 < s.threads.countP BarrierThread.waitsIn := by
        have := hI.inCount
        omega
      obtain ⟨w0, thw0, hw0, hp0⟩ := countP_pos_getElem? BarrierThread.waitsIn s.threads hpos
      have hplace := thw0.place_of_waitsIn hp0
      have hr0 := thw0.inP_ranks hplace
      have hopen := hI.openIn hv0
      refine Barrier.openIn_of_bound s _ t _ _ hold rfl thw0.arrivals ?_ ?_ ?_ ?_
      · intro _
        have hg := hI.gateOut t w0 _ thw0 hold hw0
        rw [hr0.2.2.1] at hg
        rw [hr0.1]
        exact Nat.succ_le_succ hg
      · intro w thw hwt hw1 hp
        exact hopen w w0 thw thw0 hw1 hw0 hp
      · exact hopen w0 t thw0 ⟨.inWait, d⟩ hw0 hold hplace
      · intro u thu hut hu
        exact hopen w0 u thw0 thu hw0 hu hplace
    · -- inP
      refine ⟨_, rfl, ?_⟩
      have hn := hI.inNonneg
      rcases Semaphore.P_cases s.condIn.condSem t with ⟨hv, he⟩ | ⟨hv, he⟩ <;> rw [he]
      · simp only [Bool.false_eq_true, if_false]
        exact Barrier.Inv.moveBarrier s _ t ⟨.inP, d⟩ ⟨.inP, d⟩ hI hold rfl rfl
          hI.lockInv (fun h => absurd h (by simp [BarrierAt.holdsLock])) (Or.inl rfl) rfl
          rfl hn rfl hI.outNonneg (le_refl _) (le_refl _)
          (Or.inl (le_refl _)) (Or.inl (le_refl _))
          (Barrier.Inv.openIn_frame s _ t _ _ hI hold rfl id
            (fun _ => ⟨rfl, rfl⟩) (le_refl _))
          (Barrier.Inv.openOut_frame s _ t _ _ hI hold rfl id
            (fun h => absurd h (by simp)) (le_refl _))
      · simp only [if_true]
        have hpos : 0 < s.condIn.condSem.value := by omega
        refine Barrier.Inv.moveBarrier s _ t ⟨.inP, d⟩ ⟨.inAcquire, d⟩ hI hold rfl rfl
          hI.lockInv (fun h => absurd h (by simp [BarrierAt.holdsLock])) (Or.inl rfl) rfl
          (by simp [BarrierThread.waitsIn]; omega)
          ⟨hn.1, by simp only; omega⟩ rfl hI.outNonneg (le_refl _) (le_refl _)
          (Or.inr ?_) (Or.inl (le_refl _))
          (Barrier.Inv.openIn_frame s _ t _ _ hI hold rfl (fun h => hpos)
            (fun h => absurd h (by simp)) (le_refl _))
          (Barrier.Inv.openOut_frame s _ t _ _ hI hold rfl id
            (fun h => absurd h (by simp)) (le_refl _))
        intro u thu hut hu
        exact hI.openIn hpos t u ⟨.inP, d⟩ thu hold hu rfl
    · -- inAcquire
      exact ⟨_, rfl, Barrier.Inv.lockAcquire s t .inAcquire .leave d hI hold
        rfl rfl rfl rfl rfl rfl⟩
    · -- leave
      refine ⟨_, rfl, ?_⟩
      have hm := hI.holdsLock t _ hold rfl
      by_cases ha : s.arrivedThreadNum - 1 = 0
      · rw [if_pos ha]
        have hcnt : s.threads.countP BarrierThread.counted = 1 := by
          have h1 := hI.arrivedCount
          omega
        have hall := others_false_of_countP BarrierThread.counted s.threads t
          ⟨.leave, d⟩ ⟨.outBroadcast, d⟩ hold rfl rfl hcnt
        refine Barrier.Inv.moveBarrier s _ t ⟨.leave, d⟩ ⟨.outBroadcast, d⟩ hI hold rfl rfl
          hI.lockInv (fun _ => hm) (Or.inl rfl)
          (by simp [BarrierThread.counted, BarrierAt.arrived, BarrierAt.left])
          rfl hI.inNonneg rfl hI.outNonneg (le_refl _) (Nat.le_succ _)
          (Or.inl (le_refl _)) (Or.inr ?_)
          (Barrier.Inv.openIn_frame s _ t _ _ hI hold rfl id
            (fun h => absurd h (by simp)) (le_refl _))
          (Barrier.Inv.openOut_frame s _ t _ _ hI hold rfl id
            (fun h => absurd h (by simp)) (Nat.le_succ _))
        intro u thu hut hu
        have hc := thu.not_counted_ranks (hall u thu hut hu)
        have hg := hI.gateIn t u _ thu hold hu
        rw [hc] at hg
        exact hg
      · rw [if_neg ha]
        exact Barrier.Inv.moveBarrier s _ t ⟨.leave, d⟩ ⟨.outWait, d⟩ hI hold rfl rfl
          hI.lockInv (fun _ => hm) (Or.inl rfl)
          (by simp [BarrierThread.counted, BarrierAt.arrived, BarrierAt.left])
          rfl hI.inNonneg rfl hI.outNonneg (le_refl _) (Nat.le_succ _)
          (Or.inl (le_refl _)) (Or.inl (le_refl _))
          (Barrier.Inv.openIn_frame s _ t _ _ hI hold rfl id
            (fun h => absurd h (by simp)) (le_refl _))
          (Barrier.Inv.openOut_frame s _ t _ _ hI hold rfl id
            (fun h => absurd h (by simp)) (Nat.le_succ _))
    · -- outBroadcast
      have hm := hI.holdsLock t _ hold rfl
      rw [Lock.held_of_holder _ _ hm]
      simp only [Bool.not_true, Bool.false_eq_true, if_false]
      by_cases hc : s.condOut.count ≠ 0
      · rw [if_pos hc]
        refine ⟨_, rfl, ?_⟩
        have hn := hI.outNonneg
        refine Barrier.Inv.moveBarrier s _ t ⟨.outBroadcast, d⟩ ⟨.outBroadcast, d⟩ hI hold rfl rfl
          hI.lockInv (fun _ => hm) (Or.inl rfl) rfl
          rfl hI.inNonneg
          (by simp only [Semaphore.V_value]; omega)
          ⟨by simp only; omega, by simp only [Semaphore.V_value]; omega⟩
          (le_refl _) (le_refl _)
          (Or.inl (le_refl _)) (Or.inl (le_refl _))
          (Barrier.Inv.openIn_frame s _ t _ _ hI hold rfl id
            (fun h => absurd h (by simp)) (le_refl _)) ?_
        intro _
        refine Barrier.openOut_of_bound s _ t _ _ hold rfl (d + 1)
          (fun h => absurd h (by simp)) ?_ (le_refl _) ?_
        · intro w thw hwt hw hp
          have hr := thw.outP_ranks hp
          have hg := hI.gateIn w t thw _ hw hold
          rw [hr.2.1] at hg
          rw [hr.2.2.1]
          exact hg
        · intro u thu hut hu
          exact hI.gateOut t u _ thu hold hu
      · rw [if_neg hc]
        refine ⟨_, rfl, ?_⟩
        exact Barrier.Inv.sameRanks s _ t _ ⟨.release, d⟩ hI hold rfl rfl rfl rfl rfl
          hI.lockInv (fun _ => hm) (Or.inl rfl)
          rfl rfl rfl rfl rfl rfl rfl
    · -- outWait
      have hm := hI.holdsLock t _ hold rfl
      obtain ⟨q, w, hw⟩ := Condition.Wait_held s.condOut s.conditionLock t hI.lockInv hm
      rw [hw]
      refine ⟨_, rfl, ?_⟩
      have hn := hI.outNonneg
      refine Barrier.Inv.moveBarrier s _ t ⟨.outWait, d⟩ ⟨.outP, d⟩ hI hold rfl rfl
        (Lock.Inv_free _) (fun h => absurd h (by simp [BarrierAt.holdsLock])) (Or.inr (Or.inr hm)) rfl
        rfl hI.inNonneg
        (by simp [BarrierThread.waitsOut]; omega)
        ⟨by simp only; omega, hn.2⟩
        (le_refl _) (le_refl _)
        (Or.inl (le_refl _)) (Or.inl (le_refl _))
        (Barrier.Inv.openIn_frame s _ t _ _ hI hold rfl id
          (fun h => absurd h (by simp)) (le_refl _)) ?_
      intro hv
      have hv0 : 0 < s.condOut.condSem.value := hv
      have hpos : 0 < s.threads.countP BarrierThread.waitsOut := by
        have := hI.outCount
        omega
      obtain ⟨w0, thw0, hw0, hp0⟩ := countP_pos_getElem? BarrierThread.waitsOut s.threads hpos
      have hplace := thw0.place_of_waitsOut hp0
      have hr0 := thw0.outP_ranks hplace
      have hopen := hI.openOut hv0
      refine Barrier.openOut_of_bound s _ t _ _ hold rfl thw0.leaves ?_ ?_ ?_ ?_
      · intro _
        have hg := hI.gateIn t w0 _ thw0 hold hw0
        rw [hr0.1] at hg
        rw [hr0.2.2.1]
        exact hg
      · intro w thw hwt hw1 hp
        exact hopen w w0 thw thw0 hw1 hw0 hp
      · exact hopen w0 t thw0 ⟨.outWait, d⟩ hw0 hold hplace
      · intro u thu hut hu
        exact hopen w0 u thw0 thu hw0 hu hplace
    · -- outP
      refine ⟨_, rfl, ?_⟩
      have hn := hI.outNonneg
      rcases Semaphore.P_cases s.condOut.condSem t with ⟨hv, he⟩ | ⟨hv, he⟩ <;> rw [he]
      · simp only [Bool.false_eq_true, if_false]
        exact Barrier.Inv.moveBarrier s _ t ⟨.outP, d⟩ ⟨.outP, d⟩ hI hold rfl rfl
          hI.lockInv (fun h => absurd h (by simp [BarrierAt.holdsLock])) (Or.inl rfl) rfl
          rfl hI.inNonneg rfl hn (le_refl _) (le_refl _)
          (Or.inl (le_refl _)) (Or.inl (le_refl _))
          (Barrier.Inv.openIn_frame s _ t _ _ hI hold rfl id
            (fun h => absurd h (by simp)) (le_refl _))
          (Barrier.Inv.openOut_frame s _ t _ _ hI hold rfl id
            (fun _ => ⟨rfl, rfl⟩) (le_refl _))
      · simp only [if_true]
        have hpos : 0 < s.condOut.condSem.value := by omega
        refine Barrier.Inv.moveBarrier s _ t ⟨.outP, d⟩ ⟨.outAcquire, d⟩ hI hold rfl rfl
          hI.lockInv (fun h => absurd h (by simp [BarrierAt.holdsLock])) (Or.inl rfl) rfl
          rfl hI.inNonneg
          (by simp [BarrierThread.waitsOut]; omega)
          ⟨hn.1, by simp only; omega⟩ (le_refl _) (le_refl _)
          (Or.inl (le_refl _)) (Or.inr ?_)
          (Barrier.Inv.openIn_frame s _ t _ _ hI hold rfl id
            (fun h => absurd h (by simp)) (le_refl _))
          (Barrier.Inv.openOut_frame s _ t _ _ hI hold rfl (fun h => hpos)
            (fun h => absurd h (by simp)) (le_refl _))
        intro u thu hut hu
        exact hI.openOut hpos t u ⟨.outP, d⟩ thu hold hu rfl
    · -- outAcquire
      exact ⟨_, rfl, Barrier.Inv.lockAcquire s t .outAcquire .release d hI hold
        rfl rfl rfl rfl rfl rfl⟩
    · -- release
      have hm := hI.holdsLock t _ hold rfl
      obtain ⟨q, w, hr⟩ := Lock.Release_cases s.conditionLock t hI.lockInv hm
      rw [hr]
      refine ⟨_, rfl, ?_⟩
      exact Barrier.Inv.sameRanks s _ t _ ⟨.outside, d + 1⟩ hI hold rfl rfl rfl rfl rfl
        (Lock.Inv_free _) (fun h => absurd h (by simp [BarrierAt.holdsLock])) (Or.inr (Or.inr hm))
        rfl rfl rfl rfl rfl rfl rfl

theorem Barrier.run_barInv (rounds : Nat) (schedule : List Nat) :
    ∀ s : Barrier, s.Inv → ∃ s1, s.run rounds schedule = .ok s1 ∧ s1.Inv := by
  induction schedule with
  | nil => intro s h; exact ⟨s, rfl, h⟩
  | cons t rest ih =>
    intro s h
    obtain ⟨s1, hs1, h1⟩ := Barrier.step_barInv s rounds t h
    rw [Barrier.run, hs1]
    exact ih _ h1

theorem Barrier.reached_back (s s1 : Barrier) (t : Nat) (old new : BarrierThread) (k : Nat)
    (hI1 : s1.Inv) (hold : s.threads[t]? = some old)
    (hth : s1.threads = s.threads.set t new)
    (hp : new.passesOut ≤ old.passesOut ∨ s1.arrivedThreadNum = 0 ∨
      (0 < s.condOut.condSem.value ∧ old.place = .outP ∧ new.passesOut ≤ old.leaves))
    (hv : (0 < s1.condOut.condSem.value → 0 < s.condOut.condSem.value) ∨
      (∀ (w : Nat) (thw : BarrierThread), s1.threads[w]? = some thw → thw.place = .outP →
        thw.leaves ≤ old.passesOut))
    (hw : new.place = .outP → (old.place = .outP ∧ new.leaves = old.leaves) ∨
      (0 < s.condOut.condSem.value → ∃ (w0 : Nat) (thw0 : BarrierThread),
        s.threads[w0]? = some thw0 ∧ thw0.place = .outP ∧ new.leaves ≤ thw0.leaves)) :
    s1.reached k → s.reached k ∨ s1.allLeft k := by
  rintro (⟨a, tha, ha, hk⟩ | ⟨hv1, w, thw, hw1, hpl, hk⟩)
  · have ha1 := ha
    rw [hth, getElem?_set_of_some _ _ _ _ _ hold] at ha
    by_cases hat : a = t
    · rw [if_pos hat, Option.some.injEq] at ha
      subst ha
      subst hat
      rcases hp with h | h | ⟨h1, h2, h3⟩
      · exact Or.inl (Or.inl ⟨a, old, hold, le_trans hk h⟩)
      · refine Or.inr ⟨h, fun th hth1 => ?_⟩
        obtain ⟨u, hu⟩ := List.getElem?_of_mem hth1
        exact le_trans hk (hI1.gateOut a u _ th ha1 hu)
      · exact Or.inl (Or.inr ⟨h1, a, old, hold, h2, le_trans hk h3⟩)
    · rw [if_neg hat] at ha
      exact Or.inl (Or.inl ⟨a, tha, ha, hk⟩)
  · have hw2 := hw1
    rw [hth, getElem?_set_of_some _ _ _ _ _ hold] at hw1
    rcases hv with hv | hv
    · by_cases hwt : w = t
      · rw [if_pos hwt, Option.some.injEq] at hw1
        subst hw1
        subst hwt
        rcases hw hpl with ⟨h1, h2⟩ | h
        · exact Or.inl (Or.inr ⟨hv hv1, w, old, hold, h1, by rw [← h2]; exact hk⟩)
        · obtain ⟨w0, thw0, h0, h1, h2⟩ := h (hv hv1)
          exact Or.inl (Or.inr ⟨hv hv1, w0, thw0, h0, h1, le_trans hk h2⟩)
      · rw [if_neg hwt] at hw1
        exact Or.inl (Or.inr ⟨hv hv1, w, thw, hw1, hpl, hk⟩)
    · exact Or.inl (Or.inl ⟨t, old, hold, le_trans hk (hv w thw hw2 hpl)⟩)

/-- A step after which a thread has come through `condOut` in its `k`-th call, or is
about to: it was so before the step, or the step brought the count back to 0 with every
thread past the decrement of its `k`-th call. -/
theorem Barrier.step_reached (s s1 : Barrier) (rounds t k : Nat) (hI : s.Inv)
    (hs : s.step rounds t = .ok s1) (hI1 : s1.Inv) :
    s1.reached k → s.reached k ∨ s1.allLeft k := by
  unfold Barrier.step at hs
  cases hold : s.threads[t]? with
  | none =>
    rw [hold] at hs
    simp only [Except.ok.injEq] at hs
    subst hs
    exact Or.inl
  | some th =>
    rw [hold] at hs
    obtain ⟨place, d⟩ := th
    cases place <;> simp only [] at hs
    · -- outside
      simp only [Except.ok.injEq] at hs
      subst hs
      by_cases hr : d < rounds
      · simp only [if_pos hr] at hI1 ⊢
        exact Barrier.reached_back s _ t _ ⟨.acquire, d⟩ k hI1 hold rfl
          (Or.inl (le_refl _)) (Or.inl id) (fun h => absurd h (by simp))
      · simp only [if_neg hr] at hI1 ⊢
        exact Barrier.reached_back s _ t _ ⟨.outside, d⟩ k hI1 hold rfl
          (Or.inl (le_refl _)) (Or.inl id) (fun h => absurd h (by simp))
    · -- acquire
      simp only [Except.ok.injEq] at hs
      subst hs
      refine Barrier.reached_back s _ t ⟨.acquire, d⟩
        ⟨if (s.conditionLock.Acquire t).2 then .arrive else .acquire, d⟩ k hI1 hold rfl
        (Or.inl ?_) (Or.inl id) (fun h => ?_)
      · split <;> exact le_refl _
      · simp only at h; split at h <;> simp at h
    · -- arrive
      simp only [Except.ok.injEq] at hs
      subst hs
      refine Barrier.reached_back s _ t ⟨.arrive, d⟩
        ⟨if s.arrivedThreadNum + 1 = s.totThreadNum then .inBroadcast else .inWait, d⟩
        k hI1 hold rfl (Or.inl ?_) (Or.inl id) (fun h => ?_)
      · split <;> exact le_refl _
      · simp only at h; split at h <;> simp at h
    · -- inBroadcast
      have hm := hI.holdsLock t _ hold rfl
      rw [Lock.held_of_holder _ _ hm] at hs
      simp only [Bool.not_true, Bool.false_eq_true, if_false] at hs
      by_cases hc : s.condIn.count ≠ 0
      · rw [if_pos hc, Except.ok.injEq] at hs
        subst hs
        exact Barrier.reached_back s _ t _ ⟨.inBroadcast, d⟩ k hI1 hold rfl
          (Or.inl (le_refl _)) (Or.inl id) (fun h => absurd h (by simp))
      · rw [if_neg hc, Except.ok.injEq] at hs
        subst hs
        exact Barrier.reached_back s _ t _ ⟨.leave, d⟩ k hI1 hold rfl
          (Or.inl (le_refl _)) (Or.inl id) (fun h => absurd h (by simp))
    · -- inWait
      have hm := hI.holdsLock t _ hold rfl
      obtain ⟨q, w, hw⟩ := Condition.Wait_held s.condIn s.conditionLock t hI.lockInv hm
      rw [hw] at hs
      simp only [Except.ok.injEq] at hs
      subst hs
      exact Barrier.reached_back s _ t _ ⟨.inP, d⟩ k hI1 hold rfl
        (Or.inl (le_refl _)) (Or.inl id) (fun h => absurd h (by simp))
    · -- inP
      simp only [Except.ok.injEq] at hs
      subst hs
      refine Barrier.reached_back s _ t ⟨.inP, d⟩
        ⟨if (s.condIn.condSem.P t).2 then .inAcquire else .inP, d⟩ k hI1 hold rfl
        (Or.inl ?_) (Or.inl id) (fun h => ?_)
      · split <;> exact le_refl _
      · simp only at h; split at h <;> simp at h
    · -- inAcquire
      simp only [Except.ok.injEq] at hs
      subst hs
      refine Barrier.reached_back s _ t ⟨.inAcquire, d⟩
        ⟨if (s.conditionLock.Acquire t).2 then .leave else .inAcquire, d⟩ k hI1 hold rfl
        (Or.inl ?_) (Or.inl id) (fun h => ?_)
      · split <;> exact le_refl _
      · simp only at h; split at h <;> simp at h
    · -- leave
      simp only [Except.ok.injEq] at hs
      subst hs
      by_cases ha : s.arrivedThreadNum - 1 = 0
      · simp only [if_pos ha] at hI1 ⊢
        exact Barrier.reached_back s _ t _ ⟨.outBroadcast, d⟩ k hI1 hold rfl
          (Or.inr (Or.inl ha)) (Or.inl id) (fun h => absurd h (by simp))
      · simp only [if_neg ha] at hI1 ⊢
        exact Barrier.reached_back s _ t _ ⟨.outWait, d⟩ k hI1 hold rfl
          (Or.inl (le_refl _)) (Or.inl id) (fun h => absurd h (by simp))
    · -- outBroadcast
      have hm := hI.holdsLock t _ hold rfl
      rw [Lock.held_of_holder _ _ hm] at hs
      simp only [Bool.not_true, Bool.false_eq_true, if_false] at hs
      by_cases hc : s.condOut.count ≠ 0
      · rw [if_pos hc, Except.ok.injEq] at hs
        subst hs
        refine Barrier.reached_back s _ t _ ⟨.outBroadcast, d⟩ k hI1 hold rfl
          (Or.inl (le_refl _)) (Or.inr ?_) (fun h => absurd h (by simp))
        intro w thw hw hp
        have hr := thw.outP_ranks hp
        have ht : (s.threads.set t (⟨.outBroadcast, d⟩ : BarrierThread))[t]?
            = some ⟨.outBroadcast, d⟩ := by
          rw [getElem?_set_of_some _ _ _ _ _ hold, if_pos rfl]
        have hg := hI1.gateIn w t thw _ hw ht
        rw [hr.2.1] at hg
        rw [hr.2.2.1]
        exact hg
      · rw [if_neg hc, Except.ok.injEq] at hs
        subst hs
        exact Barrier.reached_back s _ t _ ⟨.release, d⟩ k hI1 hold rfl
          (Or.inl (le_refl _)) (Or.inl id) (fun h => absurd h (by simp))
    · -- outWait
      have hm := hI.holdsLock t _ hold rfl
      obtain ⟨q, w, hw⟩ := Condition.Wait_held s.condOut s.conditionLock t hI.lockInv hm
      rw [hw] at hs
      simp only [Except.ok.injEq] at hs
      subst hs
      refine Barrier.reached_back s _ t _ ⟨.outP, d⟩ k hI1 hold rfl
        (Or.inl (le_refl _)) (Or.inl id) (fun _ => Or.inr ?_)
      intro hv0
      have hn := hI.outNonneg
      have hpos : 0 < s.threads.countP BarrierThread.waitsOut := by
        have := hI.outCount
        omega
      obtain ⟨w0, thw0, hw0, hp0⟩ :=
        countP_pos_getElem? BarrierThread.waitsOut s.threads hpos
      have hplace := thw0.place_of_waitsOut hp0
      have hr0 := thw0.outP_ranks hplace
      refine ⟨w0, thw0, hw0, hplace, ?_⟩
      have hg := hI.gateIn t w0 _ thw0 hold hw0
      rw [hr0.1] at hg
      rw [hr0.2.2.1]
      exact hg
    · -- outP
      simp only [Except.ok.injEq] at hs
      subst hs
      have hn := hI.outNonneg
      rcases Semaphore.P_cases s.condOut.condSem t with ⟨hv, he⟩ | ⟨hv, he⟩
      · simp only [he, Bool.false_eq_true, if_false] at hI1 ⊢
        exact Barrier.reached_back s _ t _ ⟨.outP, d⟩ k hI1 hold rfl
          (Or.inl (le_refl _)) (Or.inl id) (fun _ => Or.inl ⟨rfl, rfl⟩)
      · simp only [he, if_true] at hI1 ⊢
        have hpos : 0 < s.condOut.condSem.value := by omega
        exact Barrier.reached_back s _ t _ ⟨.outAcquire, d⟩ k hI1 hold rfl
          (Or.inr (Or.inr ⟨hpos, rfl, le_refl _⟩)) (Or.inl (fun _ => hpos))
          (fun h => absurd h (by simp))
    · -- outAcquire
      simp only [Except.ok.injEq] at hs
      subst hs
      refine Barrier.reached_back s _ t ⟨.outAcquire, d⟩
        ⟨if (s.conditionLock.Acquire t).2 then .release else .outAcquire, d⟩ k hI1 hold rfl
        (Or.inl ?_) (Or.inl id) (fun h => ?_)
      · split <;> exact le_refl _
      · simp only at h; split at h <;> simp at h
    · -- release
      have hm := hI.holdsLock t _ hold rfl
      obtain ⟨q, w, hr⟩ := Lock.Release_cases s.conditionLock t hI.lockInv hm
      rw [hr] at hs
      simp only [Except.ok.injEq] at hs
      subst hs
      exact Barrier.reached_back s _ t _ ⟨.outside, d + 1⟩ k hI1 hold rfl
        (Or.inl (le_refl _)) (Or.inl id) (fun h => absurd h (by simp))

/-- In a run that ends with a thread through `condOut` in its `k`-th call, or about to
be, either it was so at the start, or after some first part of the schedule the count
was back to 0 with every thread past the decrement of its `k`-th call. -/
theorem Barrier.run_reached (rounds k : Nat) (schedule : List Nat) :
    ∀ s s1 : Barrier, s.Inv → s.run rounds schedule = .ok s1 → s1.reached k →
      s.reached k ∨ ∃ (n : Nat) (s2 : Barrier),
        s.run rounds (schedule.take n) = .ok s2 ∧ s2.allLeft k := by
  induction schedule with
  | nil =>
    intro s s1 _ hs hr
    simp only [Barrier.run, Except.ok.injEq] at hs
    subst hs
    exact Or.inl hr
  | cons t rest ih =>
    intro s s1 hI hs hr
    obtain ⟨sa, hsa, hIa⟩ := Barrier.step_barInv s rounds t hI
    rw [Barrier.run, hsa] at hs
    simp only at hs
    rcases ih sa s1 hIa hs hr with h | ⟨n, s2, h2, h3⟩
    · rcases Barrier.step_reached s sa rounds t k hI hsa hIa h with h | h
      · exact Or.inl h
      · refine Or.inr ⟨1, sa, ?_, h⟩
        simp [Barrier.run, hsa]
    · refine Or.inr ⟨n + 1, s2, ?_, h3⟩
      simp only [List.take_succ_cons, Barrier.run, hsa]
      exact h2

theorem Barrier.create_not_reached (n k : Nat) (hk : 1 ≤ k) : ¬ (Barrier.create n).reached k := by
  rintro (⟨t, th, ht, hle⟩ | ⟨hv, -⟩)
  · have : th = ⟨.outside, 0⟩ := List.eq_of_mem_replicate (List.getElem?_mem ht)
    subst this
    simp [BarrierThread.passesOut, BarrierAt.passedOut] at hle
    omega
  · simp [Barrier.create, Condition.create, Semaphore.create] at hv

theorem BarrierThread.arrivals_le_made (th : BarrierThread) : th.arrivals ≤ th.made := by
  obtain ⟨p, d⟩ := th
  cases p <;> simp [BarrierThread.arrivals, BarrierThread.made, BarrierAt.arrived]

/-- C26, as the code has it. On a barrier of size `n` with `n` threads that each call
`AlignedBarrier` `rounds` times, after every schedule of their steps no assertion has
failed and: a thread that has returned from `k` calls finds that every thread has made
its `k`-th call; for a thread that has returned from `k ≥ 1` calls, after some first part
of the schedule `arrivedThreadNum` was 0 with every thread past the decrement of its
`k`-th call, so the count went back to 0 in a round before any thread returned from it;
and `arrivedThreadNum` counts the threads between the increment and the decrement of
their call, none of which is in a call that a thread has already returned from. -/
theorem Barrier_rounds_aligned (n rounds : Nat) (schedule : List Nat) :
    ∃ s, (Barrier.create n).run rounds schedule = .ok s ∧
      (∀ (t u : Nat) (tht thu : BarrierThread), s.threads[t]? = some tht →
        s.threads[u]? = some thu → tht.done ≤ thu.made) ∧
      (∀ (t : Nat) (tht : BarrierThread), s.threads[t]? = some tht → 1 ≤ tht.done →
        ∃ (m : Nat) (s2 : Barrier),
          (Barrier.create n).run rounds (schedule.take m) = .ok s2 ∧
          s2.arrivedThreadNum = 0 ∧ ∀ th ∈ s2.threads, tht.done ≤ th.leaves) ∧
      s.arrivedThreadNum = (s.threads.countP BarrierThread.counted : Nat) ∧
      (∀ (t u : Nat) (tht thu : BarrierThread), s.threads[t]? = some tht →
        s.threads[u]? = some thu → thu.counted = true → tht.done ≤ thu.done) := by
  obtain ⟨s, hs, hI⟩ := Barrier.run_barInv rounds schedule _ (Barrier.create_barInv n)
  refine ⟨s, hs, ?_, ?_, hI.arrivedCount, ?_⟩
  · intro t u tht thu ht hu
    have h1 := tht.ranks
    have h2 := hI.gateOut t u tht thu ht hu
    have h3 := thu.ranks
    have h4 := thu.arrivals_le_made
    omega
  · intro t tht ht hk
    have hr : s.reached tht.done := Or.inl ⟨t, tht, ht, tht.ranks.1⟩
    rcases Barrier.run_reached rounds tht.done schedule _ s (Barrier.create_barInv n) hs hr
      with h | ⟨m, s2, h2, h3, h4⟩
    · exact absurd h (Barrier.create_not_reached n tht.done hk)
    · exact ⟨m, s2, h2, h3, h4⟩
  · intro t u tht thu ht hu hc
    have h1 := tht.ranks
    have h2 := hI.gateOut t u tht thu ht hu
    have h3 := thu.counted_ranks hc
    omega

theorem Barrier_rounds_aligned_witness :
    ∃ s, (Barrier.create 2).run 2 (overlappingRounds ++ [1]) = .ok s ∧
      (∀ (t u : Nat) (tht thu : BarrierThread), s.threads[t]? = some tht →
        s.threads[u]? = some thu → tht.done ≤ thu.made) ∧
      (∀ (t : Nat) (tht : BarrierThread), s.threads[t]? = some tht → 1 ≤ tht.done →
        ∃ (m : Nat) (s2 : Barrier),
          (Barrier.create 2).run 2 ((overlappingRounds ++ [1]).take m) = .ok s2 ∧
          s2.arrivedThreadNum = 0 ∧ ∀ th ∈ s2.threads, tht.done ≤ th.leaves) ∧
      s.arrivedThreadNum = (s.threads.countP BarrierThread.counted : Nat) ∧
      (∀ (t u : Nat) (tht thu : BarrierThread), s.threads[t]? = some tht →
        s.threads[u]? = some thu → thu.counted = true → tht.done ≤ thu.done) :=
  Barrier_rounds_aligned 2 2 (overlappingRounds ++ [1])

/-- C26, counterexample. Two threads, each calling `AlignedBarrier` twice on a barrier
of size 2. After the schedule `overlappingRounds` thread 1 stands before the last
statement of its first call while thread 0, back from its first call, has arrived in its
second: `arrivedThreadNum` is 1. One more step of thread 1 and the last thread of the
first round has left, with `arrivedThreadNum` still 1, not 0. The count had been 0
earlier, after 14 steps, when thread 0 made the decrement of the first round. -/
theorem Barrier_count_not_zero_when_last_thread_leaves :
    ((Barrier.create 2).run 2 overlappingRounds).toOption.map
        (fun s => (s.arrivedThreadNum, s.threads))
      = some (1, [⟨.inP, 1⟩, ⟨.release, 0⟩]) ∧
    ((Barrier.create 2).run 2 (overlappingRounds ++ [1])).toOption.map
        (fun s => (s.arrivedThreadNum, s.threads))
      = some (1, [⟨.inP, 1⟩, ⟨.outside, 1⟩]) ∧
    ((Barrier.create 2).run 2 (overlappingRounds.take 14)).toOption.map
        (fun s => (s.arrivedThreadNum, s.threads))
      = some (0, [⟨.outBroadcast, 0⟩, ⟨.outP, 0⟩]) := by
  decide

/-! ## The reader-writer lock: who releases writeLock, and a deadlock -/

theorem ReaderWriterLock.Stuck.step (s : ReaderWriterLock) (h : s.Stuck) (t : Nat)
    (write : Bool) : ∃ s1, s.step t write = .ok s1 ∧ s1.Stuck := by
  obtain ⟨h1, h2, h3, h4, h5, h6, h7⟩ := h
  unfold ReaderWriterLock.step
  match t with
  | 0 =>
    simp only [h1, List.getElem?_cons_zero]
    refine ⟨_, rfl, ?_⟩
    simp [ReaderWriterLock.Stuck, Lock.Acquire, Semaphore.P, h4, h1, h2, h5, h6, h7]
  | 1 =>
    simp only [h1, List.getElem?_cons_succ, List.getElem?_cons_zero]
    refine ⟨_, rfl, ?_⟩
    simp [ReaderWriterLock.Stuck, Lock.Acquire, Semaphore.P, h4, h1, h2, h5, h3, h7]
  | t + 2 =>
    simp only [h1, List.getElem?_cons_succ, List.getElem?_nil]
    exact ⟨_, rfl, h1, h2, h3, h4, h5, h6, h7⟩

theorem ReaderWriterLock.Stuck.run (schedule : List (Nat × Bool)) :
    ∀ s : ReaderWriterLock, s.Stuck → ∃ s1, s.run schedule = .ok s1 ∧ s1.Stuck := by
  induction schedule with
  | nil => intro s h; exact ⟨s, rfl, h⟩
  | cons c rest ih =>
    intro s h
    obtain ⟨t, write⟩ := c
    obtain ⟨s1, hs1, h1⟩ := ReaderWriterLock.Stuck.step s h t write
    rw [ReaderWriterLock.run, hs1]
    exact ih s1 h1

theorem ReaderWriterLock.Stuck.deadlocked (s : ReaderWriterLock) (h : s.Stuck) :
    s.Deadlocked :=
  ⟨0, 1, h.2.1, h.2.2.1, h.2.2.2.1, h.2.2.2.2.1, h.2.2.2.2.2.1, h.2.2.2.2.2.2⟩

theorem readerComesBack_stuck :
    ∃ s, (ReaderWriterLock.create 2).run readerComesBack = .ok s ∧ s.Stuck := by
  refine ⟨_, rfl, ?_⟩
  decide

/-- C37. Two readers reach a deadlock: after the schedule `readerComesBack` no assertion
has failed, thread 0 holds `writeLock` and sleeps in the queue of `mutex`, thread 1 holds
`mutex` and sleeps in the queue of `writeLock`; and whatever steps are scheduled after
that, both threads stay where they are. -/
theorem ReaderWriterLock_deadlock_reachable :
    ∃ s, (ReaderWriterLock.create 2).run readerComesBack = .ok s ∧ s.Deadlocked ∧
      s.threads = [.relAgain, .readWriteLock] ∧
      ∀ schedule : List (Nat × Bool), ∃ s1, s.run schedule = .ok s1 ∧ s1.Deadlocked ∧
        s1.threads = [.relAgain, .readWriteLock] := by
  obtain ⟨s, hs, h⟩ := readerComesBack_stuck
  refine ⟨s, hs, h.deadlocked, h.1, fun schedule => ?_⟩
  obtain ⟨s1, hs1, h1⟩ := ReaderWriterLock.Stuck.run schedule s h
  exact ⟨s1, hs1, h1.deadlocked, h1.1⟩

/-- What a step of thread `t` does to `writeLock`, from a state in which `Inv` holds. -/
theorem ReaderWriterLock.step_writeLock (s : ReaderWriterLock) (t : Nat) (write : Bool)
    (hI : s.Inv) : ∃ s1, s.step t write = .ok s1 ∧
      (s.threads[t]? = some .readCount →
        s1.writeLock = s.writeLock ∧ s1.readersCount = s.readersCount + 1 ∧
        s1.threads[t]? = some (if s.readersCount = 0 then .readWriteLock else .readUnlock)) ∧
      (s.threads[t]? = some .readWriteLock →
        (s.writeLock.holdingThread = none ∧ s1.writeLock.holdingThread = some t ∧
          s1.threads[t]? = some .readUnlock) ∨
        (s.writeLock.holdingThread ≠ none ∧
          s1.writeLock.holdingThread = s.writeLock.holdingThread ∧
          s1.threads[t]? = some .readWriteLock)) ∧
      (s.threads[t]? = some .relCount →
        s1.writeLock = s.writeLock ∧ s1.readersCount = s.readersCount - 1 ∧
        s1.threads[t]? = some (if s.writeLock.holdingThread = some t then .relTest
          else .relUnlock)) ∧
      (s.threads[t]? = some .relTest →
        s1.writeLock = s.writeLock ∧ s1.readersCount = s.readersCount ∧
        s1.threads[t]? = some (if s.readersCount ≠ 0 then .relYield else .relWriteLock)) ∧
      (s.threads[t]? = some .relWriteLock →
        s.readersCount = 0 ∧ s.writeLock.holdingThread = some t ∧
        s1.writeLock.holdingThread = none ∧ s1.threads[t]? = some .relUnlock) ∧
      (∀ h : Nat, s.writeLock.holdingThread = some h → s1.writeLock.holdingThread ≠ some h →
        h = t ∧ (s.threads[t]? = some .relWriteLock ∨ s.threads[t]? = some .writing)) := by
  unfold ReaderWriterLock.step
  cases hold : s.threads[t]? with
  | none => exact ⟨s, rfl, by simp⟩
  | some loc =>
    have hset : ∀ new : RWAt, (s.threads.set t new)[t]? = some new := by
      intro new
      rw [getElem?_set_of_some s.threads t t loc new hold, if_pos rfl]
    cases loc <;> simp only []
    · exact ⟨_, rfl, by simp⟩
    · exact ⟨_, rfl, by simp⟩
    · -- readCount
      refine ⟨_, rfl, ?_⟩
      simp [hset]
    · -- readWriteLock
      refine ⟨_, rfl, ?_⟩
      rcases Lock.Acquire_cases s.writeLock t hI.writeInv with ⟨hv, hr⟩ | ⟨hv, hr⟩
      · rw [hr]
        simp [hset, hv]
      · rw [hr]
        simp [hset, hv]
    · -- readUnlock
      obtain ⟨q, w, hr⟩ := Lock.Release_cases s.mutex t hI.mutexInv
        (hI.holdsMutex t .readUnlock hold rfl)
      rw [hr]
      exact ⟨_, rfl, by simp⟩
    · exact ⟨_, rfl, by simp⟩
    · exact ⟨_, rfl, by simp⟩
    · -- relCount
      refine ⟨_, rfl, ?_⟩
      simp [hset, Lock.isHeldByCurrentThread, eq_comm]
    · -- relTest
      refine ⟨_, rfl, ?_⟩
      simp [hset]
    · -- relYield
      obtain ⟨q, w, hr⟩ := Lock.Release_cases s.mutex t hI.mutexInv
        (hI.holdsMutex t .relYield hold rfl)
      rw [hr]
      exact ⟨_, rfl, by simp⟩
    · exact ⟨_, rfl, by simp⟩
    · -- relWriteLock
      have hh := hI.holdsWrite t .relWriteLock hold rfl
      obtain ⟨q, w, hr⟩ := Lock.Release_cases s.writeLock t hI.writeInv hh
      rw [hr]
      refine ⟨_, rfl, ?_⟩
      simp [hset, hI.zero t hold, hh]
    · -- relUnlock
      obtain ⟨q, w, hr⟩ := Lock.Release_cases s.mutex t hI.mutexInv
        (hI.holdsMutex t .relUnlock hold rfl)
      rw [hr]
      exact ⟨_, rfl, by simp⟩
    · -- writeLock
      refine ⟨_, rfl, ?_⟩
      rcases Lock.Acquire_cases s.writeLock t hI.writeInv with ⟨hv, hr⟩ | ⟨hv, hr⟩
      · rw [hr]
        simp
      · rw [hr]
        simp [hv]
    · -- writing
      have hh := hI.holdsWrite t .writing hold rfl
      obtain ⟨q, w, hr⟩ := Lock.Release_cases s.writeLock t hI.writeInv hh
      rw [hr]
      refine ⟨_, rfl, ?_⟩
      simp [hh]

/-- C32 (the claim fails). Readers 0 and 1 enter, 0 first; reader 0 calls `readRelease`
and lowers `readersCount` to 1; reader 1 calls `readRelease`, lowers `readersCount` to
0 and returns: `writeLock` is still held by thread 0, which is in the loop of its
`readRelease`. -/
theorem last_reader_leaves_writeLock_held :
    ((ReaderWriterLock.create 2).run
        (readerEnters 0 true ++ readerEnters 1 false ++ List.replicate 5 (0, false)
          ++ List.replicate 2 (1, false))).toOption.map
      (fun s => (s.readersCount, s.threads, s.writeLock.holdingThread))
      = some (1, [.relAgain, .relCount], some 0) ∧
    ((ReaderWriterLock.create 2).run lastReaderLeaves).toOption.map
      (fun s => (s.readersCount, s.threads, s.writeLock.holdingThread))
      = some (0, [.relAgain, .idle], some 0) := by
  decide

/-- C32 (amended). With any number of threads and after any schedule, a step of thread
`t` does not fail and: a reader that raises `readersCount` from 0 to 1 goes on to
`writeLock->Acquire()` and leaves it only as the holder of `writeLock`, a reader that
raises it from another value leaves `writeLock` alone; in `readRelease` a reader that
does not hold `writeLock` lowers the count and goes to the last `mutex->Release()`
leaving `writeLock` as it is, while the holder stays in the loop until `readersCount`
is 0 and then releases `writeLock`; and no step of a thread other than its holder
takes `writeLock` from the holder. -/
theorem ReaderWriterLock_first_reader_releases (n : Nat) (schedule : List (Nat × Bool))
    (t : Nat) (write : Bool) :
    ∃ s s1, (ReaderWriterLock.create n).run schedule = .ok s ∧ s.step t write = .ok s1 ∧
      (s.threads[t]? = some .readCount →
        s1.writeLock = s.writeLock ∧ s1.readersCount = s.readersCount + 1 ∧
        s1.threads[t]? = some (if s.readersCount = 0 then .readWriteLock else .readUnlock)) ∧
      (s.threads[t]? = some .readWriteLock →
        (s.writeLock.holdingThread = none ∧ s1.writeLock.holdingThread = some t ∧
          s1.threads[t]? = some .readUnlock) ∨
        (s.writeLock.holdingThread ≠ none ∧
          s1.writeLock.holdingThread = s.writeLock.holdingThread ∧
          s1.threads[t]? = some .readWriteLock)) ∧
      (s.threads[t]? = some .relCount →
        s1.writeLock = s.writeLock ∧ s1.readersCount = s.readersCount - 1 ∧
        s1.threads[t]? = some (if s.writeLock.holdingThread = some t then .relTest
          else .relUnlock)) ∧
      (s.threads[t]? = some .relTest →
        s1.writeLock = s.writeLock ∧ s1.readersCount = s.readersCount ∧
        s1.threads[t]? = some (if s.readersCount ≠ 0 then .relYield else .relWriteLock)) ∧
      (s.threads[t]? = some .relWriteLock →
        s.readersCount = 0 ∧ s.writeLock.holdingThread = some t ∧
        s1.writeLock.holdingThread = none ∧ s1.threads[t]? = some .relUnlock) ∧
      (∀ h : Nat, s.writeLock.holdingThread = some h → s1.writeLock.holdingThread ≠ some h →
        h = t ∧ (s.threads[t]? = some .relWriteLock ∨ s.threads[t]? = some .writing)) := by
  obtain ⟨s, hs, hI⟩ := ReaderWriterLock.run_rwInv schedule _ (ReaderWriterLock.create_rwInv n)
  obtain ⟨s1, hs1, h⟩ := ReaderWriterLock.step_writeLock s t write hI
  exact ⟨s, s1, hs, hs1, h⟩

/-- The amended statement is not empty: in a run of two readers each of the steps it
speaks of is made (first reader, holder in the loop, holder releasing). -/
theorem ReaderWriterLock_holder_releases :
    ((ReaderWriterLock.create 2).run (lastReaderLeaves ++ List.replicate 2 (0, false))).toOption.map
      (fun s => (s.readersCount, s.threads, s.writeLock.holdingThread))
      = some (0, [.relWriteLock, .idle], some 0) ∧
    ((ReaderWriterLock.create 2).run (lastReaderLeaves ++ List.replicate 4 (0, false))).toOption.map
      (fun s => (s.readersCount, s.threads, s.writeLock.holdingThread))
      = some (0, [.idle, .idle], none) := by
  decide

/-! ## ExpandFile and the size of its bitmap -/

set_option maxRecDepth 100000 in
/-- C36, the defect. On a formatted disk of which sector 200 is free and no other, the
bitmap that `ExpandFile` loads has 128 bits, not `NumSectors`; `Expand` of the root's
Name File from 128 to 256 bytes on that bitmap finds no free sector and returns FALSE,
and `ExpandFile` leaves the file at one sector with sector 200 still free in the free-map
file; on the bitmap of `NumSectors` bits that `Create` and `Remove` load, the same
`Expand` returns TRUE and takes sector 200. -/
theorem ExpandFile_sees_only_128_sectors :
    (persistedMap (withFreeSectors (afterCalls []) [200])).Test 200 = false ∧
    (BitMap.FetchFrom FreeMapFileSize (withFreeSectors (afterCalls []) [200]).freeMapFile
        (withFreeSectors (afterCalls []) [200]).disk).bits.length = 128 ∧
    ((FileHeader.FetchFrom (withFreeSectors (afterCalls []) [200]).disk 7).Expand zeroLocals
        (BitMap.FetchFrom FreeMapFileSize (withFreeSectors (afterCalls []) [200]).freeMapFile
          (withFreeSectors (afterCalls []) [200]).disk)
        (withFreeSectors (afterCalls []) [200]).disk 256).toOption.map (fun r => r.ok)
      = some false ∧
    (ExpandFile (withFreeSectors (afterCalls []) [200]).freeMapFile zeroLocals
        (FileHeader.FetchFrom (withFreeSectors (afterCalls []) [200]).disk 7)
        (withFreeSectors (afterCalls []) [200]).disk 256).toOption.map
        (fun r => (r.1.numSectors,
          (BitMap.FetchFrom NumSectors (withFreeSectors (afterCalls []) [200]).freeMapFile
            r.2).Test 200))
      = some (1, false) ∧
    ((FileHeader.FetchFrom (withFreeSectors (afterCalls []) [200]).disk 7).Expand zeroLocals
        (persistedMap (withFreeSectors (afterCalls []) [200]))
        (withFreeSectors (afterCalls []) [200]).disk 256).toOption.map
        (fun r => (r.ok, r.hdr.numSectors, r.hdr.dataSectors.getD 1 0))
      = some (true, 2, 200) := by
  decide!

/-! ## The page-fault handler: what it installs and what it keeps -/

/-- What `loadPage` leaves when it returns. -/
theorem loadPage_ok (m : Machine) (mainMemory : List Nat) (swap : Option (List Nat))
    (PF2Place : Int) (vpn : Nat) (r : Int × Machine × List Nat × Option (List Nat))
    (h : loadPage m mainMemory swap PF2Place vpn = .ok r) :
    ∃ file e, swap = some file ∧ m.pageTable[vpn]? = some e ∧
      storeBytes mainMemory (PF2Place * PageSize)
        (bytesReadAt file PageSize (vpn * PageSize)) = .ok r.2.2.1 ∧
      r.1 = PF2Place ∧ r.2.1.tlb = m.tlb ∧
      r.2.1.pageTable = m.pageTable.set vpn
        { e with virtualPage := vpn, physicalPage := PF2Place, valid := true,
                 use := false, readOnly := false, dirty := false } ∧
      r.2.2.2 = swap := by
  unfold loadPage at h
  cases swap with
  | none => simp at h
  | some file =>
    simp only [] at h
    cases hs : storeBytes mainMemory (PF2Place * PageSize)
        (bytesReadAt file PageSize (vpn * PageSize)) with
    | error f => rw [hs] at h; simp at h
    | ok mem1 =>
      rw [hs] at h
      simp only [] at h
      cases he : m.pageTable[vpn]? with
      | none => rw [he] at h; simp at h
      | some e =>
        rw [he] at h
        simp only [Except.ok.injEq] at h
        subst h
        exact ⟨file, e, rfl, rfl, hs, rfl, rfl, rfl, rfl⟩

/-- The bytes stored are in memory after `storeBytes`, from `target` on. -/
theorem storeBytes_ok (mainMemory : List Nat) (target : Int) (bytes mem1 : List Nat)
    (h : storeBytes mainMemory target bytes = .ok mem1) :
    (mem1.drop target.toNat).take bytes.length = bytes ∧ mem1.length = mainMemory.length := by
  unfold storeBytes at h
  by_cases hb : bytes = []
  · rw [if_pos hb] at h
    simp only [Except.ok.injEq] at h
    subst h
    simp [hb]
  · rw [if_neg hb] at h
    split at h
    · simp at h
    · rename_i hc
      simp only [Except.ok.injEq] at h
      subst h
      have h0 : 0 ≤ target := by omega
      have h1 : target.toNat + bytes.length ≤ mainMemory.length := by omega
      constructor
      · rw [List.append_assoc, List.drop_append_of_le_length (by simp; omega)]
        have : (List.take target.toNat mainMemory).length = target.toNat := by
          simp; omega
        rw [List.drop_of_length_le (by omega), List.nil_append, List.take_left']
        rfl
      · simp
        omega

/-- What `LRU_LocalPageFrameReplaceHandler` does to the page table: nothing when the
victim loop ends with −1, else the victim, a valid entry, has `valid` cleared, and its
frame is returned. -/
theorem LRU_Local_table (m : Machine) (tid : Nat) (past : Nat → Nat) (opens : Bool)
    (ret : Int) (m1 : Machine) (w : Option SwapWrite)
    (h : LRU_LocalPageFrameReplaceHandler m tid past opens = .ok (ret, m1, w)) :
    (victimLoop past m.tlb m.pageTable 0 (-1) maxUnsigned = -1 ∧ ret = -1 ∧ m1 = m) ∨
    ∃ (k : Nat) (v : TranslationEntry),
      victimLoop past m.tlb m.pageTable 0 (-1) maxUnsigned = (k : Int) ∧
      m.pageTable[k]? = some v ∧ v.valid = true ∧ ret = v.physicalPage ∧
      m1.pageTable = m.pageTable.set k { v with valid := false } := by
  by_cases hv : victimLoop past m.tlb m.pageTable 0 (-1) maxUnsigned = -1
  · left
    unfold LRU_LocalPageFrameReplaceHandler at h
    simp only [] at h
    rw [if_pos hv] at h
    simp only [Except.ok.injEq, Prod.mk.injEq] at h
    exact ⟨hv, h.1.symm, h.2.1.symm⟩
  · right
    rcases victimLoop_spec past m.tlb m.pageTable 0 (-1) maxUnsigned with
      hres | ⟨k, v, hk, hval, hres⟩
    · exact absurd hres hv
    · rw [Nat.zero_add] at hres
      unfold LRU_LocalPageFrameReplaceHandler at h
      simp only [] at h
      rw [if_neg hv, hres, Int.toNat_ofNat, hk] at h
      simp only [] at h
      refine ⟨k, v, hres, hk, hval, ?_⟩
      repeat' split at h
      all_goals first | (simp at h; done) | skip
      all_goals
        simp only [Except.ok.injEq, Prod.mk.injEq] at h
        obtain ⟨h1, h2, _⟩ := h
        subst h2
        exact ⟨h1.symm, rfl⟩

/-- What `PageFaultHandler` leaves when it returns a frame: the page table it went on
with, `pt`, is the one it was given, with the victim made invalid if one was chosen. -/
theorem PageFaultHandler_ok (m : Machine) (mainMemory : List Nat)
    (swap : Option (List Nat)) (tid : Nat) (past : Nat → Nat) (allocated : Int) (vpn : Nat)
    (r : Int × Machine × List Nat × Option (List Nat))
    (h : PageFaultHandler m mainMemory swap tid past allocated vpn = .ok r)
    (hr : r.1 ≠ -1) :
    ∃ (pt : List TranslationEntry) (file : List Nat) (e : TranslationEntry),
      ((allocated ≠ -1 ∧ pt = m.pageTable ∧ r.1 = allocated) ∨
        (allocated = -1 ∧ ∃ (k : Nat) (v : TranslationEntry),
          victimLoop past m.tlb m.pageTable 0 (-1) maxUnsigned = (k : Int) ∧
          m.pageTable[k]? = some v ∧ v.valid = true ∧ r.1 = v.physicalPage ∧
          pt = m.pageTable.set k { v with valid := false })) ∧
      r.2.2.2 = some file ∧ pt[vpn]? = some e ∧
      storeBytes mainMemory (r.1 * PageSize)
        (bytesReadAt file PageSize (vpn * PageSize)) = .ok r.2.2.1 ∧
      r.2.1.pageTable = pt.set vpn
        { e with virtualPage := vpn, physicalPage := r.1, valid := true,
                 use := false, readOnly := false, dirty := false } := by
  unfold PageFaultHandler at h
  by_cases ha : allocated = -1
  · rw [if_pos ha] at h
    cases hl : LRU_LocalPageFrameReplaceHandler m tid past swap.isSome with
    | error f => rw [hl] at h; simp at h
    | ok v =>
      obtain ⟨ret, m1, w⟩ := v
      rw [hl] at h
      simp only [] at h
      cases hs : applySwapWrite mainMemory swap w with
      | error f => rw [hs] at h; simp at h
      | ok swap1 =>
        rw [hs] at h
        simp only [] at h
        by_cases hret : ret = -1
        · rw [if_pos hret] at h
          simp only [Except.ok.injEq] at h
          rw [← h] at hr
          exact absurd rfl hr
        · rw [if_neg hret] at h
          obtain ⟨file, e, h1, h2, h3, h4, _, h6, h7⟩ := loadPage_ok _ _ _ _ _ _ h
          rcases LRU_Local_table m tid past swap.isSome ret m1 w hl with
            ⟨_, hm1, _⟩ | ⟨k, v, hk, hv, hval, hrv, hpt⟩
          · exact absurd hm1 hret
          · refine ⟨m1.pageTable, file, e, Or.inr ⟨ha, k, v, hk, hv, hval, ?_, hpt⟩, ?_, h2,
              ?_, ?_⟩
            · rw [h4, hrv]
            · rw [h7, h1]
            · rw [h4]; exact h3
            · rw [h4]; exact h6
  · rw [if_neg ha] at h
    obtain ⟨file, e, h1, h2, h3, h4, _, h6, h7⟩ := loadPage_ok _ _ _ _ _ _ h
    refine ⟨m.pageTable, file, e, Or.inl ⟨ha, rfl, h4⟩, ?_, h2, ?_, ?_⟩
    · rw [h7, h1]
    · rw [h4]; exact h3
    · rw [h4]; exact h6

/-- What `PageFaultHandler` leaves when it returns −1: the page table it was given, or
that table with a victim made invalid. -/
theorem PageFaultHandler_none (m : Machine) (mainMemory : List Nat)
    (swap : Option (List Nat)) (tid : Nat) (past : Nat → Nat) (allocated : Int) (vpn : Nat)
    (r : Int × Machine × List Nat × Option (List Nat))
    (h : PageFaultHandler m mainMemory swap tid past allocated vpn = .ok r)
    (hr : r.1 = -1) :
    r.2.1 = m ∨ ∃ (k : Nat) (v : TranslationEntry), m.pageTable[k]? = some v ∧
      r.2.1.pageTable = m.pageTable.set k { v with valid := false } := by
  unfold PageFaultHandler at h
  by_cases ha : allocated = -1
  · rw [if_pos ha] at h
    cases hl : LRU_LocalPageFrameReplaceHandler m tid past swap.isSome with
    | error f => rw [hl] at h; simp at h
    | ok v =>
      obtain ⟨ret, m1, w⟩ := v
      rw [hl] at h
      simp only [] at h
      cases hs : applySwapWrite mainMemory swap w with
      | error f => rw [hs] at h; simp at h
      | ok swap1 =>
        rw [hs] at h
        simp only [] at h
        by_cases hret : ret = -1
        · rw [if_pos hret] at h
          simp only [Except.ok.injEq] at h
          rw [← h]
          rcases LRU_Local_table m tid past swap.isSome ret m1 w hl with
            ⟨_, _, hm1⟩ | ⟨k, v, _, hv, _, _, hpt⟩
          · exact Or.inl hm1
          · exact Or.inr ⟨k, v, hv, hpt⟩
        · rw [if_neg hret] at h
          have := loadPage_ret _ _ _ _ _ _ h
          exact absurd (this.symm.trans hr) hret
  · rw [if_neg ha] at h
    have := loadPage_ret _ _ _ _ _ _ h
    exact absurd (this.symm.trans hr) ha

/-- Making an entry invalid keeps the frames apart. -/
theorem FramesApart.invalidate {pt : List TranslationEntry} (h : FramesApart pt) (k : Nat)
    (v : TranslationEntry) (hk : pt[k]? = some v) :
    FramesApart (pt.set k { v with valid := false }) := by
  intro i j a b ha hb hav hbv hab
  rw [getElem?_set_of_some pt k i v _ hk] at ha
  rw [getElem?_set_of_some pt k j v _ hk] at hb
  by_cases hi : i = k
  · rw [if_pos hi, Option.some.injEq] at ha
    rw [← ha] at hav
    simp at hav
  · by_cases hj : j = k
    · rw [if_pos hj, Option.some.injEq] at hb
      rw [← hb] at hbv
      simp at hbv
    · rw [if_neg hi] at ha
      rw [if_neg hj] at hb
      exact h i j a b ha hb hav hbv hab

/-- Giving an entry a frame that no other valid entry names keeps the frames apart. -/
theorem FramesApart.install {pt : List TranslationEntry} (h : FramesApart pt) (vpn : Nat)
    (e new : TranslationEntry) (he : pt[vpn]? = some e)
    (hfresh : ∀ (j : Nat) (b : TranslationEntry), j ≠ vpn → pt[j]? = some b →
      b.valid = true → b.physicalPage ≠ new.physicalPage) :
    FramesApart (pt.set vpn new) := by
  intro i j a b ha hb hav hbv hab
  rw [getElem?_set_of_some pt vpn i e _ he] at ha
  rw [getElem?_set_of_some pt vpn j e _ he] at hb
  by_cases hi : i = vpn
  · by_cases hj : j = vpn
    · rw [hi, hj]
    · rw [if_pos hi, Option.some.injEq] at ha
      rw [if_neg hj] at hb
      rw [← ha] at hab
      exact absurd hab.symm (hfresh j b hj hb hbv)
  · rw [if_neg hi] at ha
    by_cases hj : j = vpn
    · rw [if_pos hj, Option.some.injEq] at hb
      rw [← hb] at hab
      exact absurd hab (hfresh i a hi ha hav)
    · rw [if_neg hj] at hb
      exact h i j a b ha hb hav hbv hab

/-- C31. When `PageFaultHandler(vpn)` returns a frame `f ≥ 0`: `pageTable[vpn]` has
`virtualPage = vpn`, `physicalPage = f`, `valid` set and `use`, `dirty`, `readOnly`
clear; the swap file is open, the bytes that `ReadAt` gives for `PageSize` bytes at
offset `vpn * PageSize` of it are in main memory from `f * PageSize` on, and these are
the `PageSize` bytes of the file from that offset when the file holds the page; the page
table has the length it had, no entry other than `pageTable[vpn]` and the victim is
changed (none other than `pageTable[vpn]` when `allocatePageFrame` gave a frame), and
the victim differs from what it was by `valid` alone. -/
theorem PageFaultHandler_installs_page (m : Machine) (mainMemory : List Nat)
    (swap : Option (List Nat)) (tid : Nat) (past : Nat → Nat) (allocated : Int) (vpn : Nat)
    (r : Int × Machine × List Nat × Option (List Nat))
    (h : PageFaultHandler m mainMemory swap tid past allocated vpn = .ok r)
    (hf : 0 ≤ r.1) :
    (∃ e1, r.2.1.pageTable[vpn]? = some e1 ∧ e1.virtualPage = vpn ∧
      e1.physicalPage = r.1 ∧ e1.valid = true ∧ e1.use = false ∧ e1.dirty = false ∧
      e1.readOnly = false) ∧
    (∃ file, r.2.2.2 = some file ∧
      (r.2.2.1.drop (r.1.toNat * PageSize)).take
          (bytesReadAt file PageSize (vpn * PageSize)).length
        = bytesReadAt file PageSize (vpn * PageSize) ∧
      ((vpn + 1) * PageSize ≤ file.length →
        (r.2.2.1.drop (r.1.toNat * PageSize)).take PageSize
          = (file.drop (vpn * PageSize)).take PageSize)) ∧
    r.2.1.pageTable.length = m.pageTable.length ∧
    (∀ k : Nat, k ≠ vpn → (k : Int) ≠ victimLoop past m.tlb m.pageTable 0 (-1) maxUnsigned →
      r.2.1.pageTable[k]? = m.pageTable[k]?) ∧
    (allocated ≠ -1 → ∀ k : Nat, k ≠ vpn → r.2.1.pageTable[k]? = m.pageTable[k]?) ∧
    (∀ (k : Nat) (v : TranslationEntry), k ≠ vpn → m.pageTable[k]? = some v →
      r.2.1.pageTable[k]? = some v ∨
      r.2.1.pageTable[k]? = some { v with valid := false }) := by
  obtain ⟨pt, file, e, hpt, hfile, he, hstore, htab⟩ :=
    PageFaultHandler_ok m mainMemory swap tid past allocated vpn r h (by omega)
  obtain ⟨hmem, _⟩ := storeBytes_ok _ _ _ _ hstore
  have htn : (r.1 * (PageSize : Int)).toNat = r.1.toNat * PageSize := by
    obtain ⟨n, hn⟩ := Int.eq_ofNat_of_zero_le hf
    rw [hn]
    norm_cast
  rw [htn] at hmem
  have hvpn : ∀ new : TranslationEntry, (pt.set vpn new)[vpn]? = some new := by
    intro new
    rw [getElem?_set_of_some pt vpn vpn e new he, if_pos rfl]
  have hother : ∀ (new : TranslationEntry) (k : Nat), k ≠ vpn →
      (pt.set vpn new)[k]? = pt[k]? := by
    intro new k hk
    rw [getElem?_set_of_some pt vpn k e new he, if_neg hk]
  refine ⟨⟨_, by rw [htab]; exact hvpn _, rfl, rfl, rfl, rfl, rfl, rfl⟩,
    ⟨file, hfile, hmem, ?_⟩, ?_, ?_, ?_, ?_⟩
  · intro hlen
    have hps : PageSize = 128 := by decide
    have hread : bytesReadAt file PageSize (vpn * PageSize)
        = (file.drop (vpn * PageSize)).take PageSize := by
      unfold bytesReadAt
      have e1 : ((vpn : Int) * (PageSize : Int)).toNat = vpn * PageSize := by norm_cast
      have e2 : ((PageSize : Nat) : Int).toNat = PageSize := by simp
      have e3 : ¬ ((PageSize : Int) ≤ 0 ∨ (vpn : Int) * (PageSize : Int) ≥ file.length ∨
          (vpn : Int) * (PageSize : Int) < 0) := by
        have h128 : (PageSize : Int) = 128 := by decide
        have hl : ((vpn + 1) * PageSize : Int) ≤ file.length := by exact_mod_cast hlen
        rw [h128] at hl ⊢
        omega
      rw [if_neg e3, e1, e2]
    rw [← hread, ← hmem]
    congr 1
    rw [hread, List.length_take, List.length_drop]
    rw [hps] at hlen ⊢
    omega
  · rw [htab, List.length_set]
    rcases hpt with ⟨_, hp, _⟩ | ⟨_, k, v, _, _, _, _, hp⟩
    · rw [hp]
    · rw [hp, List.length_set]
  · intro k hk hvic
    rw [htab, hother _ k hk]
    rcases hpt with ⟨_, hp, _⟩ | ⟨_, k1, v, hk1, hv, _, _, hp⟩
    · rw [hp]
    · rw [hp, getElem?_set_of_some m.pageTable k1 k v _ hv, if_neg]
      intro hkk
      rw [hk1, hkk] at hvic
      exact hvic rfl
  · intro ha k hk
    rw [htab, hother _ k hk]
    rcases hpt with ⟨_, hp, _⟩ | ⟨ha1, _⟩
    · rw [hp]
    · exact absurd ha1 ha
  · intro k v hk hv
    rw [htab, hother _ k hk]
    rcases hpt with ⟨_, hp, _⟩ | ⟨_, k1, v1, _, hv1, _, _, hp⟩
    · left; rw [hp]; exact hv
    · rw [hp, getElem?_set_of_some m.pageTable k1 k v1 _ hv1]
      by_cases hkk : k = k1
      · right
        rw [if_pos hkk]
        rw [hkk, hv1, Option.some.injEq] at hv
        rw [hv]
      · left
        rw [if_neg hkk]
        exact hv

set_option maxRecDepth 100000 in
/-- The handler on a process of two pages with one frame: page 0 is the victim, page 1
is read from the swap file into frame 0. -/
theorem PageFaultHandler_installs_page_witness :
    PageFaultHandler onePageIn (List.replicate PageSize 0) (some twoPageSwap) 0
        (fun _ => 0) (-1) 1 = .ok pagedIn ∧
    0 ≤ pagedIn.1 ∧
    ∃ e1, pagedIn.2.1.pageTable[1]? = some e1 ∧ e1.virtualPage = ((1 : Nat) : Int) ∧
      e1.physicalPage = pagedIn.1 ∧ e1.valid = true ∧ e1.use = false ∧ e1.dirty = false ∧
      e1.readOnly = false :=
  ⟨by rfl, by decide,
    (PageFaultHandler_installs_page onePageIn (List.replicate PageSize 0) (some twoPageSwap)
      0 (fun _ => 0) (-1) 1 pagedIn (by rfl) (by decide)).1⟩

/-- C38. `PageFaultHandler` keeps the frames of the valid entries of the page table
apart: when no two valid entries name the same frame at entry, the frame that
`allocatePageFrame` returns, if it returns one, is named by no valid entry, then no two
valid entries name the same frame when the handler returns, whatever it returns; this
holds for `pageTable[vpn]` invalid at entry, as for a page fault, and also when it is
valid. -/
theorem PageFaultHandler_keeps_frames_apart (m : Machine) (mainMemory : List Nat)
    (swap : Option (List Nat)) (tid : Nat) (past : Nat → Nat) (allocated : Int) (vpn : Nat)
    (r : Int × Machine × List Nat × Option (List Nat))
    (h : PageFaultHandler m mainMemory swap tid past allocated vpn = .ok r)
    (hinv : FramesApart m.pageTable)
    (hfresh : allocated ≠ -1 → ∀ (j : Nat) (b : TranslationEntry),
      m.pageTable[j]? = some b → b.valid = true → b.physicalPage ≠ allocated) :
    FramesApart r.2.1.pageTable := by
  by_cases hr : r.1 = -1
  · rcases PageFaultHandler_none m mainMemory swap tid past allocated vpn r h hr with
      hm | ⟨k, v, hk, hpt⟩
    · rw [hm]; exact hinv
    · rw [hpt]; exact hinv.invalidate k v hk
  · obtain ⟨pt, file, e, hpt, _, he, _, htab⟩ :=
      PageFaultHandler_ok m mainMemory swap tid past allocated vpn r h hr
    rw [htab]
    rcases hpt with ⟨ha, hp, hra⟩ | ⟨_, k, v, _, hv, hval, hrv, hp⟩
    · subst hp
      refine hinv.install vpn e _ he ?_
      intro j b _ hb hbv
      simp only []
      rw [hra]
      exact hfresh ha j b hb hbv
    · have hinv1 : FramesApart pt := by rw [hp]; exact hinv.invalidate k v hv
      refine hinv1.install vpn e _ he ?_
      intro j b _ hb hbv
      simp only []
      rw [hp, getElem?_set_of_some m.pageTable k j v _ hv] at hb
      by_cases hjk : j = k
      · rw [if_pos hjk, Option.some.injEq] at hb
        rw [← hb] at hbv
        simp at hbv
      · rw [if_neg hjk] at hb
        intro hsame
        rw [hrv] at hsame
        exact hjk (hinv j k b v hb hv hbv hval hsame)

theorem onePageIn_framesApart : FramesApart onePageIn.pageTable := by
  intro i j a b ha hb hav hbv _
  have key : ∀ (k : Nat) (c : TranslationEntry), onePageIn.pageTable[k]? = some c →
      c.valid = true → k = 0 := by
    intro k c hk hc
    match k with
    | 0 => rfl
    | 1 =>
      simp [onePageIn, entry] at hk
      rw [← hk] at hc
      simp at hc
    | k + 2 => simp [onePageIn] at hk
  rw [key i a ha hav, key j b hb hbv]

set_option maxRecDepth 100000 in
/-- The handler on a process of two pages with one frame keeps the frames apart: page 0
gives its frame to page 1. -/
theorem PageFaultHandler_keeps_frames_apart_witness :
    PageFaultHandler onePageIn (List.replicate PageSize 0) (some twoPageSwap) 0
        (fun _ => 0) (-1) 1 = .ok pagedIn ∧
    FramesApart onePageIn.pageTable ∧ FramesApart pagedIn.2.1.pageTable :=
  ⟨by rfl, onePageIn_framesApart,
    PageFaultHandler_keeps_frames_apart onePageIn (List.replicate PageSize 0)
      (some twoPageSwap) 0 (fun _ => 0) (-1) 1 pagedIn (by rfl) onePageIn_framesApart
      (fun hne => absurd rfl hne)⟩

/-! ## Directories: runs of Add and Remove -/

theorem disjointNames_iff (dir : Directory) :
    dir.DisjointNames ↔
      ∀ (i j : Nat) (e e1 : DirectoryEntry), i < j → dir.table[i]? = some e →
        dir.table[j]? = some e1 → e.inUse = true → e1.inUse = true →
        e.namePosition + e.nameLength ≤ e1.namePosition ∨
        e1.namePosition + e1.nameLength ≤ e.namePosition := by
  unfold Directory.DisjointNames
  rw [List.pairwise_iff_getElem]
  constructor
  · intro h i j e e1 hij hi hj
    obtain ⟨hi1, rfl⟩ := List.getElem?_eq_some_iff.mp hi
    obtain ⟨hj1, rfl⟩ := List.getElem?_eq_some_iff.mp hj
    exact h i j hi1 hj1 hij
  · intro h i j hi hj hij
    exact h i j _ _ hij (List.getElem?_eq_getElem hi) (List.getElem?_eq_getElem hj)

/-- A table with no entry in use has disjoint names. -/
theorem disjoint_of_none_inUse (dir : Directory) (h : ∀ e ∈ dir.table, e.inUse = false) :
    dir.DisjointNames := by
  rw [disjointNames_iff]
  intro i j e e1 _ hi _ hu
  have := h e (List.getElem?_mem hi)
  rw [hu] at this
  simp at this

/-- A table with no entry in use has distinct names. -/
theorem distinct_of_none_inUse (dir : Directory) (nf : List Nat)
    (h : ∀ e ∈ dir.table, e.inUse = false) : dir.DistinctNames nf := by
  rw [distinctNames_iff]
  intro i j e e1 _ hi _ hu
  have := h e (List.getElem?_mem hi)
  rw [hu] at this
  simp at this

/-- Clearing `inUse` in one entry keeps the name bytes disjoint. -/
theorem Remove_disjoint (dir : Directory) (rd : NameReader) (name : List Nat) (r : Bool)
    (dir1 : Directory) (hd : dir.DisjointNames)
    (h : dir.Remove rd name = .ok (r, dir1)) :
    dir1.DisjointNames ∧ dir1.nameFilePosition = dir.nameFilePosition := by
  unfold Directory.Remove at h
  cases hfi : dir.FindIndex rd name with
  | error e => rw [hfi] at h; simp at h
  | ok i =>
    rw [hfi] at h
    simp only [] at h
    by_cases hi : i = -1
    · rw [if_pos hi] at h
      simp only [Except.ok.injEq, Prod.mk.injEq] at h
      rw [← h.2]
      exact ⟨hd, rfl⟩
    · rw [if_neg hi] at h
      simp only [Except.ok.injEq, Prod.mk.injEq] at h
      rw [← h.2]
      refine ⟨?_, rfl⟩
      rw [disjointNames_iff] at hd ⊢
      have key : ∀ (x : DirectoryEntry), x.inUse = false → ∀ (j : Nat) (e : DirectoryEntry),
          (dir.table.set i.toNat x)[j]? = some e →
          e.inUse = true → dir.table[j]? = some e := by
        intro x hx j e hj hu
        by_cases hij : i.toNat = j
        · subst hij
          by_cases hlt : i.toNat < dir.table.length
          · rw [List.getElem?_set_self hlt] at hj
            simp only [Option.some.injEq] at hj
            rw [← hj, hx] at hu
            simp at hu
          · rw [List.getElem?_eq_none (by simp; omega)] at hj
            simp at hj
        · rw [List.getElem?_set_ne hij] at hj
          exact hj
      intro a b e e1 hab ha hb hu hu1
      exact hd a b e e1 hab (key _ rfl a e ha hu) (key _ rfl b e1 hb hu1) hu hu1

/-- `Add` keeps the name bytes disjoint, the new name being stored from the append
position on, and does not lower `nameFilePosition`. -/
theorem Add_disjoint (dir : Directory) (nf : List Nat) (name : List Nat) (newSector : Int)
    (r : Bool) (dir1 : Directory) (w : Option NameWrite) (hwf : dir.WellFormed nf)
    (hd : dir.DisjointNames)
    (h : dir.Add (bytesReadAt nf) name newSector = .ok (r, dir1, w)) :
    dir1.DisjointNames ∧ dir.nameFilePosition ≤ dir1.nameFilePosition := by
  have hfi := FindIndex_eq dir (bytesReadAt nf) name hwf.1 hwf.nameLength_nonneg
  cases hf : firstHit (hit (bytesReadAt nf) name) dir.table with
  | some k =>
    rw [hf] at hfi
    unfold Directory.Add at h
    rw [hfi] at h
    simp only [] at h
    rw [if_pos (by omega)] at h
    simp only [Except.ok.injEq, Prod.mk.injEq] at h
    rw [← h.2.1]
    exact ⟨hd, le_refl _⟩
  | none =>
    rw [hf] at hfi
    rw [Add_eq dir (bytesReadAt nf) name newSector hfi] at h
    simp only [Except.ok.injEq, Prod.mk.injEq] at h
    obtain ⟨_, hd1, _⟩ := h
    rw [← hd1]
    refine ⟨?_, by simp only []; omega⟩
    generalize he0 : (⟨true, newSector, dir.nameFilePosition, (strlen name : Int) + 1⟩ :
      DirectoryEntry) = e0
    obtain ⟨k, hk1, _⟩ := Add_table dir.table e0
    have hpos : e0.namePosition = dir.nameFilePosition := by rw [← he0]
    have hold : ∀ (i : Nat) (e : DirectoryEntry), dir.table[i]? = some e → e.inUse = true →
        e.namePosition + e.nameLength ≤ e0.namePosition := by
      intro i e hi hu
      rw [hpos]
      exact (hwf.2.2.2 e (List.getElem?_mem hi) hu).2.2.1
    rw [disjointNames_iff] at hd ⊢
    simp only []
    intro a b e e1 hab ha hb hu hu1
    rw [hk1 a] at ha
    rw [hk1 b] at hb
    by_cases hak : a = k
    · rw [if_pos hak] at ha
      rw [if_neg (by omega)] at hb
      simp only [Option.some.injEq] at ha
      rw [← ha]
      exact Or.inr (hold b e1 hb hu1)
    · rw [if_neg hak] at ha
      by_cases hbk : b = k
      · rw [if_pos hbk] at hb
        simp only [Option.some.injEq] at hb
        rw [← hb]
        exact Or.inl (hold a e ha hu)
      · rw [if_neg hbk] at hb
        exact hd a b e e1 hab ha hb hu hu1

/-- One call keeps a directory well formed, its names distinct and their bytes disjoint,
and does not lower `nameFilePosition`; and it does not fail. -/
theorem runDirectory_step (dir : Directory) (nf : List Nat) (c : DirCall)
    (hwf : dir.WellFormed nf) (hdn : dir.DistinctNames nf) (hdj : dir.DisjointNames) :
    ∃ dir1 nf1, runDirectory dir nf [c] = .ok (dir1, nf1) ∧
      (∀ rest, runDirectory dir nf (c :: rest) = runDirectory dir1 nf1 rest) ∧
      dir1.WellFormed nf1 ∧ dir1.DistinctNames nf1 ∧ dir1.DisjointNames ∧
      dir.nameFilePosition ≤ dir1.nameFilePosition := by
  have hfi : ∀ name, dir.FindIndex (bytesReadAt nf) name =
      .ok (match firstHit (hit (bytesReadAt nf) name) dir.table with
        | some k => ((k : Nat) : Int)
        | none => -1) :=
    fun name => FindIndex_eq dir (bytesReadAt nf) name hwf.1 hwf.nameLength_nonneg
  cases c with
  | Add name newSector =>
    cases hf : firstHit (hit (bytesReadAt nf) name) dir.table with
    | some k =>
      have hadd : dir.Add (bytesReadAt nf) name newSector = .ok (false, dir, none) := by
        unfold Directory.Add
        rw [hfi name, hf]
        simp only []
        rw [if_pos (by omega)]
      refine ⟨dir, nf, ?_, ?_, hwf, hdn, hdj, le_refl _⟩
      · simp only [runDirectory, hadd]
      · intro rest
        simp only [runDirectory, hadd]
    | none =>
      have habsent : dir.FindIndex (bytesReadAt nf) name = .ok (-1) := by
        rw [hfi name, hf]
      obtain ⟨dir1, w, hadd, _, _, _, hwf1⟩ :=
        Add_installs_name dir nf name newSector hwf habsent
      have hdn1 := Add_distinct dir nf name newSector dir1 w hwf hdn hadd
      obtain ⟨hdj1, hpos⟩ := Add_disjoint dir nf name newSector true dir1 (some w) hwf hdj hadd
      refine ⟨dir1, bytesWriteAt nf w, ?_, ?_, hwf1, hdn1, hdj1, hpos⟩
      · simp only [runDirectory, hadd]
      · intro rest
        simp only [runDirectory, hadd]
  | Remove name =>
    have hrem : ∃ r dir1, dir.Remove (bytesReadAt nf) name = .ok (r, dir1) := by
      unfold Directory.Remove
      rw [hfi name]
      simp only []
      split <;> exact ⟨_, _, rfl⟩
    obtain ⟨r, dir1, hrem⟩ := hrem
    obtain ⟨hdj1, hpos⟩ := Remove_disjoint dir (bytesReadAt nf) name r dir1 hdj hrem
    refine ⟨dir1, nf, ?_, ?_, Remove_wellFormed dir nf name r dir1 hwf hrem,
      Remove_distinct dir nf name r dir1 hdn hrem, hdj1, by omega⟩
    · simp only [runDirectory, hrem]
    · intro rest
      simp only [runDirectory, hrem]

/-- Any calls keep a directory well formed, its names distinct and their bytes disjoint,
and do not lower `nameFilePosition`; and they do not fail. -/
theorem runDirectory_inv (calls : List DirCall) :
    ∀ (dir : Directory) (nf : List Nat), dir.WellFormed nf → dir.DistinctNames nf →
      dir.DisjointNames →
      ∃ dir1 nf1, runDirectory dir nf calls = .ok (dir1, nf1) ∧
        dir1.WellFormed nf1 ∧ dir1.DistinctNames nf1 ∧ dir1.DisjointNames ∧
        dir.nameFilePosition ≤ dir1.nameFilePosition := by
  induction calls with
  | nil => intro dir nf hwf hdn hdj; exact ⟨dir, nf, rfl, hwf, hdn, hdj, le_refl _⟩
  | cons c rest ih =>
    intro dir nf hwf hdn hdj
    obtain ⟨dir1, nf1, _, hrun, hwf1, hdn1, hdj1, hpos1⟩ :=
      runDirectory_step dir nf c hwf hdn hdj
    obtain ⟨dir2, nf2, hrun2, hwf2, hdn2, hdj2, hpos2⟩ := ih dir1 nf1 hwf1 hdn1 hdj1
    exact ⟨dir2, nf2, by rw [hrun rest]; exact hrun2, hwf2, hdn2, hdj2, by omega⟩

/-- C39. From a directory with a Name File, no entry in use and `nameFilePosition = 0`,
whatever the Name File holds, every sequence `calls` of `Add` and `Remove` runs without
a failed assertion and leaves a directory in which the names of the in-use entries are
pairwise different, the bytes `[namePosition, namePosition + nameLength)` of each in-use
entry lie in `[0, nameFilePosition)`, those of two in-use entries are disjoint; and
whatever calls `more` follow, `nameFilePosition` is not lower after them. -/
theorem Directory_names_distinct_and_disjoint (dir : Directory) (nf : List Nat)
    (hs : dir.nameFileHdrSector ≠ -1) (hnone : ∀ e ∈ dir.table, e.inUse = false)
    (hpos : dir.nameFilePosition = 0) (calls more : List DirCall) :
    ∃ dir1 nf1 dir2 nf2, runDirectory dir nf calls = .ok (dir1, nf1) ∧
      runDirectory dir1 nf1 more = .ok (dir2, nf2) ∧
      runDirectory dir nf (calls ++ more) = .ok (dir2, nf2) ∧
      dir1.DistinctNames nf1 ∧
      (∀ e ∈ dir1.table, e.inUse = true →
        0 ≤ e.namePosition ∧ 1 ≤ e.nameLength ∧
        e.namePosition + e.nameLength ≤ dir1.nameFilePosition) ∧
      dir1.DisjointNames ∧
      0 ≤ dir1.nameFilePosition ∧ dir1.nameFilePosition ≤ dir2.nameFilePosition := by
  have hwf : dir.WellFormed nf := by
    refine ⟨hs, by omega, by omega, ?_⟩
    intro e he hu
    rw [hnone e he] at hu
    simp at hu
  obtain ⟨dir1, nf1, hrun1, hwf1, hdn1, hdj1, hp1⟩ :=
    runDirectory_inv calls dir nf hwf (distinct_of_none_inUse dir nf hnone)
      (disjoint_of_none_inUse dir hnone)
  obtain ⟨dir2, nf2, hrun2, _, _, _, hp2⟩ := runDirectory_inv more dir1 nf1 hwf1 hdn1 hdj1
  have happ : ∀ (c1 c2 : List DirCall) (d : Directory) (f : List Nat) (d1 : Directory)
      (f1 : List Nat), runDirectory d f c1 = .ok (d1, f1) →
      runDirectory d f (c1 ++ c2) = runDirectory d1 f1 c2 := by
    intro c1
    induction c1 with
    | nil =>
      intro c2 d f d1 f1 h
      simp only [runDirectory, Except.ok.injEq, Prod.mk.injEq] at h
      rw [h.1, h.2]
      rfl
    | cons c rest ih =>
      intro c2 d f d1 f1 h
      cases c with
      | Add name newSector =>
        cases hadd : d.Add (bytesReadAt f) name newSector with
        | error e => simp [runDirectory, hadd] at h
        | ok v =>
          obtain ⟨r, dd, w⟩ := v
          cases w with
          | none =>
            simp only [runDirectory, List.cons_append, hadd] at h ⊢
            exact ih c2 _ _ d1 f1 h
          | some w =>
            simp only [runDirectory, List.cons_append, hadd] at h ⊢
            exact ih c2 _ _ d1 f1 h
      | Remove name =>
        cases hrem : d.Remove (bytesReadAt f) name with
        | error e => simp [runDirectory, hrem] at h
        | ok v =>
          obtain ⟨r, dd⟩ := v
          simp only [runDirectory, List.cons_append, hrem] at h ⊢
          exact ih c2 _ _ d1 f1 h
  refine ⟨dir1, nf1, dir2, nf2, hrun1, hrun2, ?_, hdn1, ?_, hdj1, by omega, hp2⟩
  · rw [happ calls more dir nf dir1 nf1 hrun1]
    exact hrun2
  · intro e he hu
    obtain ⟨h1, h2, h3, _⟩ := hwf1.2.2.2 e he hu
    exact ⟨h1, h2, h3⟩

/-- The hypotheses of `Directory_names_distinct_and_disjoint` hold for a directory just
created, and the calls `directoryCalls` leave the names `bc` and `a`, stored at bytes 2
to 4 and 5 to 6, with `nameFilePosition` at 7. -/
theorem Directory_names_distinct_and_disjoint_witness :
    emptyDirectory.nameFileHdrSector ≠ -1 ∧
    (∀ e ∈ emptyDirectory.table, e.inUse = false) ∧
    emptyDirectory.nameFilePosition = 0 ∧
    (runDirectory emptyDirectory [] directoryCalls).toOption.map
        (fun r => (r.1.table.take 2, r.1.nameFilePosition, r.2))
      = some ([⟨true, 5, 5, 2⟩, ⟨true, 4, 2, 3⟩], 7, [97, 0, 98, 99, 0, 97, 0]) ∧
    ∃ dir1 nf1 dir2 nf2, runDirectory emptyDirectory [] directoryCalls = .ok (dir1, nf1) ∧
      runDirectory dir1 nf1 [.Add [100] 8] = .ok (dir2, nf2) ∧
      runDirectory emptyDirectory [] (directoryCalls ++ [.Add [100] 8]) = .ok (dir2, nf2) ∧
      dir1.DistinctNames nf1 ∧
      (∀ e ∈ dir1.table, e.inUse = true →
        0 ≤ e.namePosition ∧ 1 ≤ e.nameLength ∧
        e.namePosition + e.nameLength ≤ dir1.nameFilePosition) ∧
      dir1.DisjointNames ∧
      0 ≤ dir1.nameFilePosition ∧ dir1.nameFilePosition ≤ dir2.nameFilePosition :=
  ⟨by decide, by decide, by decide, by decide,
    Directory_names_distinct_and_disjoint emptyDirectory [] (by decide) (by decide)
      (by decide) directoryCalls [.Add [100] 8]⟩

/-! ## Deallocate after Allocate, and what Expand allocates -/

theorem BitMap.Test_Clear_ne (m : BitMap) (w s : Int) (h : s ≠ w) :
    (m.Clear w).Test s = m.Test s := by
  unfold BitMap.Clear
  by_cases hw : 0 ≤ w
  · rw [if_pos hw]
    simp only [BitMap.Test]
    by_cases hs : 0 ≤ s
    · rw [getD_set_ne _ _ _ _ _ (by omega)]
    · simp [hs]
  · rw [if_neg hw]

/-- The clearing loop on a run of marked sectors that increase: no assertion fails, and
the sectors outside the run are as they were. -/
theorem clearInto_spec (n : Nat) : ∀ (i : Nat) (arr : List Int) (m : BitMap),
    (∀ t, t < n → m.Test (arr.getD (i + t) 0) = true) →
    (∀ t t1, t < t1 → t1 < n → arr.getD (i + t) 0 < arr.getD (i + t1) 0) →
    ∃ m1, clearInto n i arr m = .ok m1 ∧
      ∀ s, (∀ t, t < n → s ≠ arr.getD (i + t) 0) → m1.Test s = m.Test s := by
  induction n with
  | zero =>
    intro i arr m _ _
    exact ⟨m, rfl, fun _ _ => rfl⟩
  | succ n ih =>
    intro i arr m hmark hinc
    have h0 := hmark 0 (by omega)
    rw [Nat.add_zero] at h0
    obtain ⟨m1, hm1, hfr⟩ := ih (i + 1) arr (m.Clear (arr.getD i 0))
      (by
        intro t ht
        have e : i + 1 + t = i + (t + 1) := by omega
        rw [e, BitMap.Test_Clear_ne]
        · exact hmark (t + 1) (by omega)
        · have := hinc 0 (t + 1) (by omega) (by omega)
          rw [Nat.add_zero] at this
          omega)
      (by
        intro t t1 htt ht1
        have e : i + 1 + t = i + (t + 1) := by omega
        have e1 : i + 1 + t1 = i + (t1 + 1) := by omega
        rw [e, e1]
        exact hinc (t + 1) (t1 + 1) (by omega) (by omega))
    refine ⟨m1, ?_, ?_⟩
    · rw [clearInto, if_pos h0]
      exact hm1
    · intro s hs
      rw [hfr s ?_, BitMap.Test_Clear_ne]
      · have := hs 0 (by omega)
        rw [Nat.add_zero] at this
        exact this
      · intro t ht
        have e : i + 1 + t = i + (t + 1) := by omega
        rw [e]
        exact hs (t + 1) (by omega)

/-- With a negative count the index-block loop of `Allocate` does not end with TRUE. -/
theorem allocLoop_neg (sectors0 : List Int) (left : Nat) :
    ∀ (j : Nat) (index : List Int) (un : Int) (m : BitMap) (d : Disk), un < 0 →
      (allocLoop sectors0 left j index un m d).ok = false := by
  induction left with
  | zero => intro j index un m d _; rfl
  | succ left ih =>
    intro j index un m d hun
    unfold allocLoop
    rw [if_neg (by omega)]
    simp only []
    have hg : gtU un NumIndirect = true := by simp [gtU, hun]
    rw [hg]
    simp only [if_true]
    split
    · rfl
    · split
      · rfl
      · split
        · rfl
        · have h32 : (NumIndirect : Int) = 32 := by decide
          exact ih _ _ _ _ _ (by omega)

/-- After the index-block loop of `Allocate` has ended with TRUE, the loop of
`Deallocate` runs to its end on what it left: on a bitmap that agrees with the one left
above sector `b`, a disk that agrees with the one left above `b`, and an index array that
agrees with the one left from entry `j` on. -/
theorem deallocLoop_after_allocLoop (sectors0 : List Int) (hs0 : sectors0.length = NumIndirect)
    (left : Nat) :
    ∀ (j : Nat) (index : List Int) (un : Int) (m : BitMap) (d : Disk) (b : Int),
      index.length = NumIndirect → 0 ≤ un → j + left = NumIndirect → m.AllBelow b →
      (allocLoop sectors0 left j index un m d).ok = true →
      ∀ (M : BitMap) (D : Disk) (idx : List Int),
        (∀ s, b < s → M.Test s = (allocLoop sectors0 left j index un m d).freeMap.Test s) →
        (∀ s, b < s → D s = (allocLoop sectors0 left j index un m d).disk s) →
        (∀ k, j ≤ k → idx.getD k 0
          = (allocLoop sectors0 left j index un m d).index.getD k 0) →
        ∃ M1, deallocLoop left j idx un M D = .ok M1 := by
  induction left with
  | zero =>
    intro j index un m d b _ _ _ _ hok
    simp [allocLoop] at hok
  | succ left ih =>
    intro j index un m d b hilen hun hj hb hok M D idx hM hD hidx
    unfold allocLoop at hok hM hD hidx
    unfold deallocLoop
    by_cases hz : un = 0
    · rw [if_pos hz]
      exact ⟨M, rfl⟩
    · simp only [hz, if_false] at hok hM hD hidx ⊢
      by_cases hf : m.Find.1 = -1
      · simp [hf] at hok
      · simp only [hf, if_false] at hok hM hD hidx
        rw [gtU_of_nonneg NumIndirect hun] at hok hM hD hidx ⊢
        generalize hc : (if decide ((NumIndirect : Int) < un) = true then (NumIndirect : Int)
          else un) = c at hok hM hD hidx ⊢
        have hc1 : 1 ≤ c ∧ c ≤ NumIndirect ∧ c ≤ un ∧ (c < un → c = NumIndirect) := by
          have : (NumIndirect : Int) = 32 := by decide
          by_cases h32 : (NumIndirect : Int) < un
          · simp only [h32, decide_True, if_true] at hc; omega
          · simp only [h32, decide_False] at hc; simp at hc; omega
        by_cases hnc : m.Find.2.NumClear < c
        · simp [hnc] at hok
        · simp only [hnc, if_false] at hok hM hD hidx
          by_cases hj1 : j + 1 = NumIndirect
          · simp [hj1] at hok
          · simp only [hj1, if_false] at hok hM hD hidx
            obtain ⟨g1, g2, g3, _, _, _, g7⟩ := BitMap.Find_ok hf
            have hbx : b < m.Find.1 := hb.lt_free g1
            have hcN : (c.toNat : Int) = c := Int.toNat_of_nonneg (by omega)
            have h32 : NumIndirect = 32 := by decide
            obtain ⟨s1, s2, s3, s4, s5, s6, s7, s8⟩ :=
              findInto_spec c.toNat 0 sectors0 m.Find.2 m.Find.1 (by omega) (by omega)
                (BitMap.Find_allBelow hf)
            generalize hr : findInto c.toNat 0 sectors0 m.Find.2 = r
              at hok hM hD hidx s1 s2 s3 s4 s5 s6 s7 s8
            have hlast := s3 (c.toNat - 1) (by omega)
            simp only [Nat.zero_add] at hlast s3 s4
            obtain ⟨i1, i2, _, i4, _, _⟩ :=
              allocLoop_spec sectors0 hs0 left (j + 1) (index.set j m.Find.1) (un - c) r.2
                (WriteSector d m.Find.1 r.1) (r.1.getD (c.toNat - 1) 0)
                (by simpa using hilen) (by omega) (by omega) hlast.2.2.2 hok
            have ihR := ih (j + 1) (index.set j m.Find.1) (un - c) r.2
              (WriteSector d m.Find.1 r.1) (r.1.getD (c.toNat - 1) 0)
              (by simpa using hilen) (by omega) (by omega) hlast.2.2.2 hok
            generalize hR : allocLoop sectors0 left (j + 1) (index.set j m.Find.1) (un - c) r.2
              (WriteSector d m.Find.1 r.1) = R at hok hM hD hidx i1 i2 i4 ihR
            have hRj : R.index.getD j 0 = m.Find.1 := by
              rw [i1 j (by omega)]
              exact getD_set_eq _ _ _ _ (by omega)
            have hRd : R.disk m.Find.1 = r.1 := by
              rw [i4 _ (by omega)]
              simp [WriteSector]
            have hle_last : ∀ t : Nat, t < c.toNat →
                r.1.getD t 0 ≤ r.1.getD (c.toNat - 1) 0 := by
              intro t ht
              by_cases he : t = c.toNat - 1
              · rw [he]
              · exact le_of_lt (s4 t (c.toNat - 1) (by omega) (by omega))
            have hj0 : idx.getD j 0 = m.Find.1 := by rw [hidx j (le_refl _), hRj]
            have hsec : ReadSector D (idx.getD j 0) = r.1 := by
              rw [hj0]
              simp only [ReadSector]
              rw [hD _ hbx, hRd]
            rw [hsec]
            obtain ⟨M1, hM1, hfr⟩ := clearInto_spec c.toNat 0 r.1 M
              (by
                intro t ht
                rw [Nat.zero_add]
                obtain ⟨q1, _, q3, _⟩ := s3 t ht
                rw [hM _ (by omega)]
                exact i2 _ q3)
              (by
                intro t t1 htt ht1
                rw [Nat.zero_add, Nat.zero_add]
                exact s4 t t1 htt ht1)
            simp only [Nat.zero_add] at hfr
            rw [hM1]
            simp only []
            have hne : ∀ t, t < c.toNat → m.Find.1 ≠ r.1.getD t 0 := by
              intro t ht
              have := (s3 t ht).1
              omega
            have htest : M1.Test (idx.getD j 0) = true := by
              rw [hj0, hfr _ hne, hM _ hbx]
              exact i2 _ (s5 _ g2)
            rw [if_pos htest, hj0]
            refine ihR (M1.Clear m.Find.1) D idx ?_ ?_ ?_
            · intro s hs
              have hltl := hlast.1
              rw [BitMap.Test_Clear_ne _ _ _ (by omega), hfr s ?_, hM s (by omega)]
              intro t ht
              have := hle_last t ht
              omega
            · intro s hs
              have hltl := hlast.1
              exact hD s (by omega)
            · intro k hk
              exact hidx k (by omega)

/-- C34. On the header, the bitmap and the disk that a successful `Allocate` leaves,
`Deallocate` runs to its end: no assertion fails, so every sector it clears (direct, data
through an index block, first-level index block) is marked when it is tested, and the
loop does not read `index[j]` for `j` at or past `NumIndirect`. -/
theorem Deallocate_after_Allocate_succeeds (h : FileHeader) (loc : Locals)
    (freeMap : BitMap) (d : Disk) (fileSize FileType : Int)
    (hok : (h.Allocate loc freeMap d fileSize FileType).ok = true) :
    ∃ m1, (h.Allocate loc freeMap d fileSize FileType).hdr.Deallocate
        (h.Allocate loc freeMap d fileSize FileType).freeMap
        (h.Allocate loc freeMap d fileSize FileType).disk = .ok m1 := by
  have h7 : NumDirect = 7 := NumDirect_eq
  have hlen8 : (intArray (NumDirect + 1) h.dataSectors).length = NumDirect + 1 :=
    intArray_length _ _
  unfold FileHeader.Allocate at hok ⊢
  simp only [] at hok ⊢
  generalize hN : divRoundUp fileSize SectorSize = N at hok ⊢
  by_cases hg : gtU N NumDirect = true
  · simp only [hg, if_true] at hok ⊢
    by_cases hnc : freeMap.NumClear < (NumDirect : Int)
    · simp [hnc] at hok
    · simp only [hnc, if_false] at hok ⊢
      obtain ⟨s1, s2, s3, s4, s5, _, _, _⟩ :=
        findInto_spec NumDirect 0 (intArray (NumDirect + 1) h.dataSectors) freeMap (-1)
          (by omega) (by omega) (allBelow_neg_one freeMap)
      generalize hr : findInto NumDirect 0 (intArray (NumDirect + 1) h.dataSectors) freeMap = r
        at hok s1 s2 s3 s4 s5 ⊢
      simp only [Nat.zero_add] at s3 s4
      by_cases hf : r.2.Find.1 = -1
      · simp [hf] at hok
      · simp only [hf, if_false] at hok ⊢
        obtain ⟨g1, g2, g3, _, _, _, _⟩ := BitMap.Find_ok hf
        have hNpos : 0 ≤ N - NumDirect := by
          by_contra hc
          have := allocLoop_neg (intArray NumIndirect loc.sectors) NumIndirect 0
            (intArray NumIndirect loc.index) (N - NumDirect) r.2.Find.2 d (by omega)
          rw [this] at hok
          simp at hok
        have hlok : (allocLoop (intArray NumIndirect loc.sectors) NumIndirect 0
            (intArray NumIndirect loc.index) (N - NumDirect) r.2.Find.2 d).ok = true := by
          by_contra hc
          simp only [hc, if_false] at hok
          simp at hok
        obtain ⟨_, i2, _, _, _, _⟩ :=
          allocLoop_spec (intArray NumIndirect loc.sectors) (intArray_length _ _) NumIndirect 0
            (intArray NumIndirect loc.index) (N - NumDirect) r.2.Find.2 d r.2.Find.1
            (intArray_length _ _) hNpos (by omega) (BitMap.Find_allBelow hf) hlok
        have hA := deallocLoop_after_allocLoop (intArray NumIndirect loc.sectors)
          (intArray_length _ _) NumIndirect 0
          (intArray NumIndirect loc.index) (N - NumDirect) r.2.Find.2 d r.2.Find.1
          (intArray_length _ _) hNpos (by omega) (BitMap.Find_allBelow hf) hlok
        generalize hl : allocLoop (intArray NumIndirect loc.sectors) NumIndirect 0
          (intArray NumIndirect loc.index) (N - NumDirect) r.2.Find.2 d = l
          at hok hlok i2 hA ⊢
        simp only [hlok, if_true]
        unfold FileHeader.Deallocate
        simp only [hg, if_true]
        have hslot : ∀ t, t < NumDirect →
            (r.1.set NumDirect r.2.Find.1).getD t 0 = r.1.getD t 0 := by
          intro t ht
          exact getD_set_ne _ _ _ _ _ (by omega)
        have hlt : ∀ t, t < NumDirect → r.1.getD t 0 < r.2.Find.1 := by
          intro t ht
          exact (s3 t ht).2.2.2.lt_free g1
        obtain ⟨M1, hM1, hfr⟩ := clearInto_spec NumDirect 0 (r.1.set NumDirect r.2.Find.1)
          l.freeMap
          (by
            intro t ht
            rw [Nat.zero_add, hslot t ht]
            exact i2 _ (g3 _ (s3 t ht).2.2.1))
          (by
            intro t t1 htt ht1
            rw [Nat.zero_add, Nat.zero_add, hslot t (by omega), hslot t1 ht1]
            exact s4 t t1 htt ht1)
        simp only [Nat.zero_add] at hfr
        rw [hM1]
        simp only []
        have hroot : (r.1.set NumDirect r.2.Find.1).getD NumDirect 0 = r.2.Find.1 :=
          getD_set_eq _ _ _ _ (by omega)
        rw [hroot]
        have hread : ReadSector (WriteSector l.disk r.2.Find.1 l.index) r.2.Find.1 = l.index := by
          simp [ReadSector, WriteSector]
        rw [hread]
        refine hA M1 _ l.index ?_ ?_ (fun _ _ => rfl)
        · intro s hs
          refine hfr s ?_
          intro t ht
          rw [hslot t ht]
          have := hlt t ht
          omega
        · intro s hs
          simp only [WriteSector]
          rw [if_neg (by omega)]
  · have hgf : gtU N NumDirect = false := by simpa using hg
    simp only [hgf, Bool.false_eq_true, if_false] at hok ⊢
    by_cases hnc : freeMap.NumClear < N
    · simp [hnc] at hok
    · simp only [hnc, if_false] at hok ⊢
      unfold FileHeader.Deallocate
      simp only [hgf, Bool.false_eq_true, if_false]
      have hN0 : 0 ≤ N ∧ N ≤ NumDirect := by
        simp only [gtU, Bool.or_eq_false_iff, decide_eq_false_iff_not, not_lt] at hgf
        exact hgf
      obtain ⟨_, _, s3, s4, _, _, _, _⟩ :=
        findInto_spec N.toNat 0 (intArray (NumDirect + 1) h.dataSectors) freeMap (-1)
          (by omega) (by omega) (allBelow_neg_one freeMap)
      obtain ⟨M1, hM1, _⟩ := clearInto_spec N.toNat 0
        (findInto N.toNat 0 (intArray (NumDirect + 1) h.dataSectors) freeMap).1
        (findInto N.toNat 0 (intArray (NumDirect + 1) h.dataSectors) freeMap).2
        (fun t ht => (s3 t ht).2.2.1) s4
      exact ⟨M1, hM1⟩

set_option maxRecDepth 100000 in
/-- A file of eight sectors, seven direct and one through an index block, is allocated
and then deallocated. -/
theorem Deallocate_after_Allocate_succeeds_witness :
    eightSectorFile.ok = true ∧
    ∃ m1, eightSectorFile.hdr.Deallocate eightSectorFile.freeMap eightSectorFile.disk
      = .ok m1 :=
  ⟨by decide!,
    Deallocate_after_Allocate_succeeds zeroHeader zeroLocals clearMap blankDisk 1024
      NormalFile (by decide!)⟩

theorem intArray_self (n : Nat) : ∀ a : List Int, a.length = n → intArray n a = a := by
  induction n with
  | zero => intro a h; simp [intArray, List.length_eq_zero.mp h]
  | succ n ih =>
    intro a h
    cases a with
    | nil => simp at h
    | cons x xs =>
      simp only [intArray, List.headD_cons, List.tail_cons]
      rw [ih xs (by simpa using h)]

/-- The loop of `Expand` over the direct slots, entered at slot `i` with
`unassignedSectors = N - i`: slots below `old` and outside the loop stay, `Find` is
called at most once for each slot from `old` on and exactly once for each when the loop
runs to its end, and every sector newly marked is in such a slot. -/
theorem expandInto_direct (N old : Int) (n : Nat) :
    ∀ (i : Nat) (arr : List Int) (m : BitMap), i + n ≤ arr.length →
      (∀ k : Nat, (k : Int) < old ∨ k < i ∨ i + n ≤ k →
        (expandInto N old n i arr (N - i) m).arr.getD k 0 = arr.getD k 0) ∧
      (expandFinds N old n i arr (N - i) m : Int) ≤ max 0 ((i : Int) + n - max (i : Int) old) ∧
      ((expandInto N old n i arr (N - i) m).ok = true →
        (expandFinds N old n i arr (N - i) m : Int) = max 0 ((i : Int) + n - max (i : Int) old) ∧
        (expandInto N old n i arr (N - i) m).unassignedSectors = N - i - n) ∧
      m.Le (expandInto N old n i arr (N - i) m).freeMap ∧
      (∀ s, (expandInto N old n i arr (N - i) m).freeMap.Test s = true →
        m.Test s = true ∨ ∃ k : Nat, i ≤ k ∧ k < i + n ∧ old ≤ (k : Int) ∧
          (expandInto N old n i arr (N - i) m).arr.getD k 0 = s) := by
  induction n with
  | zero =>
    intro i arr m _
    simp only [expandInto, expandFinds]
    refine ⟨fun _ _ => trivial, by simp, fun _ => ⟨by simp, by simp⟩,
      BitMap.Le.refl m, fun s hs => Or.inl hs⟩
  | succ n ih =>
    intro i arr m hlen
    have hun : N - (i : Int) - 1 = N - ((i + 1 : Nat) : Int) := by push_cast; omega
    by_cases hfresh : N - (N - (i : Int)) ≥ old
    · -- this slot is past the old count: `Find` is called
      have hi : old ≤ (i : Int) := by omega
      by_cases hf : m.Find.1 = -1
      · have hget : (arr.set i m.Find.1).getD i 0 = -1 := by
          rw [getD_set_eq _ _ _ _ (by omega), hf]
        simp only [expandInto, expandFinds, hfresh, decide_True, if_true, hget]
        refine ⟨?_, by omega, by simp, BitMap.Find_le m, ?_⟩
        · intro k hk
          exact getD_set_ne _ _ _ _ _ (by omega)
        · intro s hs
          rw [(BitMap.Find_fail hf).1] at hs
          exact Or.inl hs
      · have hget : ¬ (arr.set i m.Find.1).getD i 0 = -1 := by
          rw [getD_set_eq _ _ _ _ (by omega)]
          exact hf
        obtain ⟨_, _, _, g4, _, _, _⟩ := BitMap.Find_ok hf
        obtain ⟨i1, i2, i3, i4, i5⟩ := ih (i + 1) (arr.set i m.Find.1) m.Find.2
          (by simp; omega)
        simp only [expandInto, expandFinds, hfresh, decide_True, if_true, hget, if_false, hun]
        have hslot : (expandInto N old n (i + 1) (arr.set i m.Find.1)
            (N - ((i + 1 : Nat) : Int)) m.Find.2).arr.getD i 0 = m.Find.1 := by
          rw [i1 i (by omega)]
          exact getD_set_eq _ _ _ _ (by omega)
        refine ⟨?_, ?_, ?_, (BitMap.Find_le m).trans i4, ?_⟩
        · intro k hk
          rw [i1 k (by omega)]
          exact getD_set_ne _ _ _ _ _ (by omega)
        · push_cast at i2 ⊢
          omega
        · intro hok
          obtain ⟨j1, j2⟩ := i3 hok
          push_cast at j1 j2 ⊢
          exact ⟨by omega, by omega⟩
        · intro s hs
          rcases i5 s hs with h1 | ⟨k, hk1, hk2, hk3, hk4⟩
          · by_cases hsf : s = m.Find.1
            · exact Or.inr ⟨i, le_refl _, by omega, hi, by rw [hslot, hsf]⟩
            · exact Or.inl (g4 s h1 hsf)
          · exact Or.inr ⟨k, by omega, by omega, hk3, hk4⟩
    · -- this slot is one the file has: no `Find`
      have hi : (i : Int) < old := by omega
      by_cases hget : arr.getD i 0 = -1
      · simp only [expandInto, expandFinds, hfresh, decide_False, Bool.false_eq_true, if_false,
          hget, if_true]
        refine ⟨fun _ _ => trivial, by simp, by simp, BitMap.Le.refl m, fun s hs => Or.inl hs⟩
      · obtain ⟨i1, i2, i3, i4, i5⟩ := ih (i + 1) arr m (by omega)
        simp only [expandInto, expandFinds, hfresh, decide_False, Bool.false_eq_true, if_false,
          hget, hun, Nat.zero_add]
        refine ⟨?_, ?_, ?_, i4, ?_⟩
        · intro k hk
          by_cases hki : k = i
          · exact i1 k (Or.inl (by omega))
          · exact i1 k (by omega)
        · push_cast at i2 ⊢
          omega
        · intro hok
          obtain ⟨j1, j2⟩ := i3 hok
          push_cast at j1 j2 ⊢
          exact ⟨by omega, by omega⟩
        · intro s hs
          rcases i5 s hs with h1 | ⟨k, hk1, hk2, hk3, hk4⟩
          · exact Or.inl h1
          · exact Or.inr ⟨k, by omega, by omega, hk3, hk4⟩

set_option maxRecDepth 100000 in
/-- C33 (the claim fails). A file of one sector is expanded to 512 bytes, four sectors,
on a disk with one free sector: both counts are at most `NumDirect`, and `Expand` calls
`Find` twice, not `4 - 1 = 3` times: the second call returns −1 and `Expand` returns
FALSE at once; slot 3 is not written. -/
theorem Expand_calls_Find_fewer_times_on_failure :
    oneSectorFile.numSectors = 1 ∧ divRoundUp 512 SectorSize = 4 ∧
    oneSectorFile.directFinds oneFreeMap 512 = 2 ∧
    (oneSectorFile.Expand zeroLocals oneFreeMap blankDisk 512).toOption.map
        (fun r => (r.ok, r.hdr.dataSectors, r.freeMap.NumClear))
      = some (false, [0, 9, -1, 0, 0, 0, 0, 0], 0) := by
  decide!

/-- C33 (amended). `Expand(freeMap, fileSize)` with `fileSize > numBytes` returns, and:
when the new count of sectors equals `numSectors` it leaves the bitmap and the disk as
they are and changes `numBytes` alone; when the old count and the new are both at most
`NumDirect`, it calls `Find` at most `new - old` times, exactly `new - old` times when it
returns TRUE, leaves `dataSectors[0 .. old)` and the disk unchanged, clears no bit of the
bitmap, and every sector it has marked is in a slot from `old` up to `new`. -/
theorem Expand_allocates_only_new_slots (h : FileHeader) (loc : Locals) (freeMap : BitMap)
    (d : Disk) (fileSize : Int) (hsize : fileSize > h.numBytes)
    (hlen : h.dataSectors.length = NumDirect + 1) :
    ∃ r, h.Expand loc freeMap d fileSize = .ok r ∧
      (divRoundUp fileSize SectorSize = h.numSectors →
        r.ok = true ∧ r.freeMap = freeMap ∧ r.disk = d ∧
        r.hdr = { h with numBytes := fileSize }) ∧
      (0 ≤ h.numSectors → h.numSectors ≤ divRoundUp fileSize SectorSize →
        divRoundUp fileSize SectorSize ≤ NumDirect →
        r.disk = d ∧
        (h.directFinds freeMap fileSize : Int)
          ≤ divRoundUp fileSize SectorSize - h.numSectors ∧
        (r.ok = true → (h.directFinds freeMap fileSize : Int)
          = divRoundUp fileSize SectorSize - h.numSectors) ∧
        (∀ k : Nat, (k : Int) < h.numSectors →
          r.hdr.dataSectors.getD k 0 = h.dataSectors.getD k 0) ∧
        freeMap.Le r.freeMap ∧
        (∀ s, r.freeMap.Test s = true → freeMap.Test s = true ∨
          ∃ k : Nat, h.numSectors ≤ (k : Int) ∧ (k : Int) < divRoundUp fileSize SectorSize ∧
            r.hdr.dataSectors.getD k 0 = s)) := by
  have h7 : NumDirect = 7 := NumDirect_eq
  unfold FileHeader.Expand FileHeader.directFinds
  rw [if_pos hsize, intArray_self _ _ hlen]
  simp only []
  generalize divRoundUp fileSize SectorSize = N
  by_cases he : N = h.numSectors
  · rw [if_pos he, if_pos he]
    refine ⟨_, rfl, fun _ => ⟨rfl, rfl, rfl, rfl⟩, fun _ _ _ => ?_⟩
    refine ⟨rfl, by simp; omega, fun _ => by simp; omega, fun _ _ => rfl,
      BitMap.Le.refl _, fun s hs => Or.inl hs⟩
  · rw [if_neg he, if_neg he]
    by_cases hg : gtU N NumDirect = true
    · rw [if_pos hg]
      have hno : ¬ (0 ≤ h.numSectors ∧ h.numSectors ≤ N ∧ N ≤ NumDirect) := by
        simp only [gtU, Bool.or_eq_true, decide_eq_true_eq] at hg
        omega
      repeat' split
      all_goals
        exact ⟨_, rfl, fun hc => absurd hc he, fun h0 h1 h2 => absurd ⟨h0, h1, h2⟩ hno⟩
    · rw [if_neg hg]
      have hB : 0 ≤ h.numSectors → h.numSectors ≤ N → N ≤ NumDirect →
          (expandFinds N h.numSectors N.toNat 0 h.dataSectors N freeMap : Int)
            ≤ N - h.numSectors ∧
          ((expandInto N h.numSectors N.toNat 0 h.dataSectors N freeMap).ok = true →
            (expandFinds N h.numSectors N.toNat 0 h.dataSectors N freeMap : Int)
              = N - h.numSectors) ∧
          (∀ k : Nat, (k : Int) < h.numSectors →
            (expandInto N h.numSectors N.toNat 0 h.dataSectors N freeMap).arr.getD k 0
              = h.dataSectors.getD k 0) ∧
          freeMap.Le (expandInto N h.numSectors N.toNat 0 h.dataSectors N freeMap).freeMap ∧
          (∀ s, (expandInto N h.numSectors N.toNat 0 h.dataSectors N freeMap).freeMap.Test s
              = true → freeMap.Test s = true ∨
            ∃ k : Nat, h.numSectors ≤ (k : Int) ∧ (k : Int) < N ∧
              (expandInto N h.numSectors N.toNat 0 h.dataSectors N freeMap).arr.getD k 0
                = s) := by
        intro h0 h1 h2
        obtain ⟨i1, i2, i3, i4, i5⟩ :=
          expandInto_direct N h.numSectors N.toNat 0 h.dataSectors freeMap (by omega)
        have e0 : N - ((0 : Nat) : Int) = N := by simp
        rw [e0] at i1 i2 i3 i4 i5
        refine ⟨?_, ?_, fun k hk => i1 k (Or.inl hk), i4, ?_⟩
        · push_cast at i2
          omega
        · intro hok
          have := (i3 hok).1
          push_cast at this
          omega
        · intro s hs
          rcases i5 s hs with h3 | ⟨k, _, hk2, hk3, hk4⟩
          · exact Or.inl h3
          · exact Or.inr ⟨k, hk3, by omega, hk4⟩
      by_cases hok : (expandInto N h.numSectors N.toNat 0 h.dataSectors N freeMap).ok = true
      · rw [if_pos hok]
        refine ⟨_, rfl, fun hc => absurd hc he, fun h0 h1 h2 => ?_⟩
        obtain ⟨b1, b2, b3, b4, b5⟩ := hB h0 h1 h2
        exact ⟨rfl, b1, fun _ => b2 hok, b3, b4, b5⟩
      · rw [if_neg hok]
        refine ⟨_, rfl, fun hc => absurd hc he, fun h0 h1 h2 => ?_⟩
        obtain ⟨b1, b2, b3, b4, b5⟩ := hB h0 h1 h2
        exact ⟨rfl, b1, fun hc => absurd hc (by simp), b3, b4, b5⟩

set_option maxRecDepth 100000 in
/-- The hypotheses of `Expand_allocates_only_new_slots` hold for a file of one sector
expanded to 512 bytes on a disk where no other sector is taken, where `Expand` returns TRUE after three calls of
`Find`. -/
theorem Expand_allocates_only_new_slots_witness :
    (512 : Int) > oneSectorFile.numBytes ∧
    oneSectorFile.dataSectors.length = NumDirect + 1 ∧
    (oneSectorFile.Expand zeroLocals oneSectorMap blankDisk 512).toOption.map
        (fun r => (r.ok, r.hdr.dataSectors)) = some (true, [0, 1, 2, 3, 0, 0, 0, 0]) ∧
    oneSectorFile.directFinds oneSectorMap 512 = 3 ∧
    ∃ r, oneSectorFile.Expand zeroLocals oneSectorMap blankDisk 512 = .ok r ∧
      (divRoundUp 512 SectorSize = oneSectorFile.numSectors →
        r.ok = true ∧ r.freeMap = oneSectorMap ∧ r.disk = blankDisk ∧
        r.hdr = { oneSectorFile with numBytes := 512 }) ∧
      (0 ≤ oneSectorFile.numSectors →
        oneSectorFile.numSectors ≤ divRoundUp 512 SectorSize →
        divRoundUp 512 SectorSize ≤ NumDirect →
        r.disk = blankDisk ∧
        (oneSectorFile.directFinds oneSectorMap 512 : Int)
          ≤ divRoundUp 512 SectorSize - oneSectorFile.numSectors ∧
        (r.ok = true → (oneSectorFile.directFinds oneSectorMap 512 : Int)
          = divRoundUp 512 SectorSize - oneSectorFile.numSectors) ∧
        (∀ k : Nat, (k : Int) < oneSectorFile.numSectors →
          r.hdr.dataSectors.getD k 0 = oneSectorFile.dataSectors.getD k 0) ∧
        oneSectorMap.Le r.freeMap ∧
        (∀ s, r.freeMap.Test s = true → oneSectorMap.Test s = true ∨
          ∃ k : Nat, oneSectorFile.numSectors ≤ (k : Int) ∧
            (k : Int) < divRoundUp 512 SectorSize ∧
            r.hdr.dataSectors.getD k 0 = s)) :=
  ⟨by decide!, by decide!, by decide!, by decide!,
    Expand_allocates_only_new_slots oneSectorFile zeroLocals oneSectorMap blankDisk 512
      (by decide!) (by decide!)⟩

/-! ## Create and the Path File -/

set_option maxRecDepth 100000 in
set_option synthInstance.maxSize 1024 in
/-- C35, the defect. After `filledDirectoryCalls` the directory `/d`, inode in sector 31,
has the stored path `/d/` with `pathLength = 4`, in sector 35. `Create` of the directory
`/d/ccc...c#` then returns TRUE, and the new inode, in sector 44, has `pathLength = 103`
and a Path File that holds `.ccc...c#`, NUL, NUL, `/`, NUL, not `/d/ccc...c#/`: the name
did not fit the Name File of `/d`, `ExpandFile` gave it sector 42, which `Create` had
taken for the inode of the new Name File, the end of the name put `#` (35) in
`dataSectors[0]` of that inode, and `.` and `..` were written over the stored path of
`/d`, which `setPathFile` read afterwards. -/
theorem Create_stores_wrong_path :
    (runFresh filledDirectoryCalls).map (fun r => (r.1, findAt r.2 1 [100], storedPath r.2 31))
      = some ([true, true, true, true, true], some 31, 32, 4, [47, 100, 47, 0]) ∧
    (runFresh (filledDirectoryCalls ++ [.create (inDirectoryD longName) (-1)])).map
        (fun r => (r.1, findAt r.2 31 longName, storedPath r.2 31, storedPath r.2 44))
      = some ([true, true, true, true, true, true], some 44, (32, 4, [46, 0, 46, 46]),
          45, 103, 46 :: longName ++ [0, 0, 47, 0]) := by
  decide!

set_option maxRecDepth 100000 in
set_option synthInstance.maxSize 1024 in
/-- With names that fit the Name File, `Create` stores the path: on a formatted disk the
root has the stored path `/` with `pathLength = 2`, and after `/a`, the directory `/d`
and `/d/f` are created, their inodes, in sectors 9, 15 and 20, have the stored paths
`/a`, `/d/` and `/d/f`, each with `pathLength` the length of the string plus one. -/
theorem Create_stores_path_of_short_names :
    (runFresh []).map (fun r => storedPath r.2 1) = some (5, 2, [47, 0]) ∧
    (runFresh [.create [47, 97] 10, .create [47, 100] (-1),
        .create [47, 100, 47, 102] 0]).map
        (fun r => (r.1, findAt r.2 1 [97], findAt r.2 1 [100], findAt r.2 15 [102]))
      = some ([true, true, true], some 9, some 15, some 20) ∧
    (runFresh [.create [47, 97] 10, .create [47, 100] (-1),
        .create [47, 100, 47, 102] 0]).map
        (fun r => (storedPath r.2 9, storedPath r.2 15, storedPath r.2 20))
      = some ((10, 3, [47, 97, 0]), (16, 4, [47, 100, 47, 0]),
          (21, 5, [47, 100, 47, 102, 0])) := by
  decide!

/-! ## `findDict` on a path through a plain file -/

set_option maxRecDepth 100000 in
set_option synthInstance.maxSize 1024 in
/-- C6, the defect. On a formatted disk `Create("/f", 40)` makes a plain file whose inode
is in sector 9, and `findDict("/f/x")` then returns 9: the sector of a header of type
`NormalFile`, not of a directory, and not −1. The loop takes the sector that `Find`
gives for a segment as the next directory without a look at the type of its header.
`Create("/f/x", 0)` goes on with that sector and returns TRUE. -/
theorem findDict_returns_plain_file :
    (runFresh [.create [47, 102] 40]).map (fun r =>
        (r.1, findAt r.2 DirectorySector [102], (FileHeader.FetchFrom r.2.disk 9).type,
          (findDict zeroEnv r.2.disk [47, 102, 47, 120]).toOption))
      = some ([true], some 9, NormalFile, some 9) ∧
    NormalFile ≠ DirectoryFile ∧
    (runFresh [.create [47, 102] 40, .create [47, 102, 47, 120] 0]).map (fun r => r.1)
      = some [true, true] := by
  decide!

end Nachos
